import Mathlib

/-!
# gocalcgrpc: calculator, task manager, parser and dispatch endpoint

A shallow embedding of `internal/calculator`, `internal/orchestrator/task_manager.go`,
`internal/parser/parser.go`, `internal/grpc/server.go` and the worker arithmetic of
`cmd/agent/main.go`.

Modelling conventions
* In the task manager and the worker `float64` is the field of rationals `ℚ` (exact
  arithmetic).  The calculator and the parser are also given with the arithmetic of
  `float64` as a parameter (`Arith`: `strconv.ParseFloat`, the four operations, the test
  `x == 0`), of which `ℚ` is one instance (`ratArith`) and IEEE 754 binary64 another
  (`float64Arith`).
* A Go `string` is a Lean `String`.  The tokenizer of the calculator indexes bytes: it reads
  the bytes of the UTF-8 encoding of the text, a byte `b` being written as the `Char` of
  code point `b`.
* A Go `map[string]V` is a `GoMap V`: a list of entries with distinct keys.  The order in
  which `range` visits a map is not fixed by Go, so `GetNextTask` receives that order as an
  argument.
* A Go slice used as a stack is a list whose head is the top of the stack.
* `uuid.New()`, `time.Now()` and `os.Getenv` are read from an `Env` argument.
* An `error` is its message.
-/

namespace GoCalc

/-! ## Go maps -/

/-- Go `map[string]V` as a list of key/value entries. -/
def GoMap (V : Type) : Type := List (String × V)

namespace GoMap

variable {V : Type}

/-- The map `make(map[string]V)`. -/
def empty : GoMap V := []

/-- The entries of the map, as visited by some `range` loop. -/
def entries (m : GoMap V) : List (String × V) := m

/-- Reading `m[k]` with the comma-ok form: `none` when the key is absent. -/
def get? : GoMap V → String → Option V
  | [], _ => none
  | (k', v) :: rest, k => if k' = k then some v else get? rest k

/-- The statement `delete(m, k)`. -/
def del (m : GoMap V) (k : String) : GoMap V :=
  List.filter (fun p => decide (p.1 ≠ k)) m

/-- The assignment `m[k] = v`. -/
def set (m : GoMap V) (k : String) (v : V) : GoMap V :=
  List.append (del m k) [(k, v)]

/-- The keys of the map. -/
def keys (m : GoMap V) : List String := List.map Prod.fst m

end GoMap

instance {V : Type} [DecidableEq V] : DecidableEq (GoMap V) :=
  inferInstanceAs (DecidableEq (List (String × V)))

deriving instance DecidableEq for Except

/-! ## internal/calculator/calculator.go -/

/-- The four token types of the calculator. -/
inductive TokenType
  | Number
  | Operator
  | LeftParen
  | RightParen
  deriving DecidableEq, Repr

/-- Go `Token`; the field `Type` of the source is called `Typ` here. -/
structure Token where
  Typ : TokenType
  Value : String
  deriving DecidableEq, Repr

/-- Go `Calculator`: the token buffer filled by `Tokenize` and read by `ToRPN`. -/
structure Calculator where
  tokens : List Token
  deriving DecidableEq, Repr

/-- Go `NewCalculator`. -/
def NewCalculator : Calculator := { tokens := [] }

/-- The test `unicode.IsDigit(rune(b))` on a single byte: true exactly on `0`..`9`. -/
def IsDigit (c : Char) : Bool := decide ('0' ≤ c) && decide (c ≤ '9')

/-- The condition of the inner scanning loop of `Tokenize`: a digit or a dot. -/
def isNumberChar (c : Char) : Bool := IsDigit c || c == '.'

/-- The loop `for i := 0; i < len(expr); i++` of `Tokenize` on the remaining bytes, with the
tokens appended so far.  Every iteration consumes at least one byte, so a fuel equal to the
number of remaining bytes is never exhausted.  Returns `c.tokens` and the error, if any. -/
def tokenizeLoop : Nat → List Char → List Token → List Token × Option String
  | _, [], acc => (acc, none)
  | 0, _ :: _, acc => (acc, none)
  | fuel + 1, char :: rest, acc =>
    if char = '(' then
      tokenizeLoop fuel rest (acc ++ [{ Typ := TokenType.LeftParen, Value := "(" }])
    else if char = ')' then
      tokenizeLoop fuel rest (acc ++ [{ Typ := TokenType.RightParen, Value := ")" }])
    else if char = '+' ∨ char = '-' ∨ char = '*' ∨ char = '/' then
      tokenizeLoop fuel rest (acc ++ [{ Typ := TokenType.Operator, Value := String.singleton char }])
    else if IsDigit char then
      tokenizeLoop fuel (rest.dropWhile isNumberChar)
        (acc ++ [{ Typ := TokenType.Number, Value := String.mk (char :: rest.takeWhile isNumberChar) }])
    else
      (acc, some ("invalid character: " ++ String.singleton char))

/-- The bytes of the UTF-8 encoding of a character.  A byte `b` is written as the character
of code point `b`, which is what `rune(b)`, `string(b)` and the verb `%c` make of a byte. -/
def utf8Bytes (c : Char) : List Char :=
  if c.toNat < 128 then [c]
  else if c.toNat < 2048 then
    [Char.ofNat (192 + c.toNat / 64), Char.ofNat (128 + c.toNat % 64)]
  else if c.toNat < 65536 then
    [Char.ofNat (224 + c.toNat / 4096), Char.ofNat (128 + c.toNat / 64 % 64),
      Char.ofNat (128 + c.toNat % 64)]
  else
    [Char.ofNat (240 + c.toNat / 262144), Char.ofNat (128 + c.toNat / 4096 % 64),
      Char.ofNat (128 + c.toNat / 64 % 64), Char.ofNat (128 + c.toNat % 64)]

/-- The bytes `s[0]`, `s[1]`, ... of a Go string. -/
def stringBytes (s : String) : List Char :=
  s.toList.flatMap utf8Bytes

/-- The call `strings.ReplaceAll(expr, " ", "")`, on the bytes of the string. -/
def removeSpaces (expr : String) : List Char :=
  (stringBytes expr).filter (fun c => c != ' ')

/-- Go `Calculator.Tokenize`: the calculator afterwards and the returned error. -/
def Tokenize (c : Calculator) (expr : String) : Calculator × Option String :=
  if expr = "" then
    (c, some "empty expression")
  else
    let r := tokenizeLoop (removeSpaces expr).length (removeSpaces expr) []
    ({ tokens := r.1 }, r.2)

/-- The table `precedence` of `ToRPN`; a key that is absent reads as `0`. -/
def precedence (op : String) : Nat :=
  if op = "+" then 1
  else if op = "-" then 1
  else if op = "*" then 2
  else if op = "/" then 2
  else 0

/-- The inner loop of the `Operator` case of `ToRPN`: pop to the output every operator on top
of the stack whose precedence is at least that of `token`. -/
def popOperators (token : Token) : List Token → List Token → List Token × List Token
  | [], output => ([], output)
  | top :: stack, output =>
    if top.Typ = TokenType.Operator ∧ precedence top.Value ≥ precedence token.Value then
      popOperators token stack (output ++ [top])
    else
      (top :: stack, output)

/-- The inner loop of the `RightParen` case of `ToRPN`: pop to the output until a left
parenthesis is popped; `none` when the stack empties first (`foundLeftParen` stays false). -/
def popToLeftParen : List Token → List Token → Option (List Token × List Token)
  | [], _ => none
  | top :: stack, output =>
    if top.Typ = TokenType.LeftParen then some (stack, output)
    else popToLeftParen stack (output ++ [top])

/-- The final loop of `ToRPN`: pop what is left of the stack to the output. -/
def drainStack : List Token → List Token → Except String (List Token)
  | [], output => Except.ok output
  | top :: stack, output =>
    if top.Typ = TokenType.LeftParen then Except.error "mismatched parentheses"
    else drainStack stack (output ++ [top])

/-- The main loop of `ToRPN` over the remaining tokens, with the stack and the output. -/
def toRPNLoop : List Token → List Token → List Token → Except String (List Token)
  | [], stack, output => drainStack stack output
  | token :: rest, stack, output =>
    match token.Typ with
    | TokenType.Number => toRPNLoop rest stack (output ++ [token])
    | TokenType.Operator =>
      let r := popOperators token stack output
      toRPNLoop rest (token :: r.1) r.2
    | TokenType.LeftParen => toRPNLoop rest (token :: stack) output
    | TokenType.RightParen =>
      match popToLeftParen stack output with
      | none => Except.error "mismatched parentheses"
      | some r => toRPNLoop rest r.1 r.2

/-- Go `Calculator.ToRPN`. -/
def ToRPN (c : Calculator) : Except String (List Token) :=
  toRPNLoop c.tokens [] []

/-- The value of a run of decimal digits. -/
def digitsValue (cs : List Char) : Nat :=
  cs.foldl (fun n c => 10 * n + (c.toNat - 48)) 0

/-- The call `strconv.ParseFloat(s, 64)` on the strings the tokenizer can produce (digits and
dots): a digit string with at most one dot and at least one digit is read as a decimal
number, with exact value; anything else is an error (`none`). -/
def ParseFloat (s : String) : Option ℚ :=
  let ip := s.toList.takeWhile IsDigit
  match s.toList.dropWhile IsDigit with
  | [] => if ip = [] then none else some (digitsValue ip : ℚ)
  | c :: fp =>
    if c = '.' ∧ fp.all IsDigit = true ∧ ¬ (ip = [] ∧ fp = []) then
      some ((digitsValue (ip ++ fp) : ℚ) / (10 : ℚ) ^ fp.length)
    else none

/-- The loop of `EvaluateRPN` over the remaining tokens with the value stack, over the
exact rationals. -/
def evalLoop : List Token → List ℚ → Except String (List ℚ)
  | [], stack => Except.ok stack
  | token :: rest, stack =>
    match token.Typ with
    | TokenType.Number =>
      match ParseFloat token.Value with
      | none => Except.error ("invalid number: " ++ token.Value)
      | some num => evalLoop rest (num :: stack)
    | TokenType.Operator =>
      match stack with
      | b :: a :: stack' =>
        if token.Value = "+" then evalLoop rest ((a + b) :: stack')
        else if token.Value = "-" then evalLoop rest ((a - b) :: stack')
        else if token.Value = "*" then evalLoop rest ((a * b) :: stack')
        else if token.Value = "/" then
          if b = 0 then Except.error "division by zero"
          else evalLoop rest ((a / b) :: stack')
        else evalLoop rest (0 :: stack')
      | _ => Except.error "invalid expression"
    | _ => evalLoop rest stack

/-- Go `Calculator.EvaluateRPN`, over the exact rationals. -/
def EvaluateRPN (rpn : List Token) : Except String ℚ :=
  match evalLoop rpn [] with
  | Except.error e => Except.error e
  | Except.ok [v] => Except.ok v
  | Except.ok _ => Except.error "invalid expression"

/-- Go `Calculator.Calculate`, over the exact rationals: the calculator afterwards and the
returned value or error. -/
def Calculate (c : Calculator) (expr : String) : Calculator × Except String ℚ :=
  match Tokenize c expr with
  | (c1, some err) => (c1, Except.error ("tokenization error: " ++ err))
  | (c1, none) =>
    match ToRPN c1 with
    | Except.error err => (c1, Except.error ("RPN conversion error: " ++ err))
    | Except.ok rpn => (c1, EvaluateRPN rpn)

/-- Go `Calc`. -/
def Calc (expr : String) : Except String ℚ :=
  (Calculate NewCalculator expr).2

/-! ## The arithmetic of `float64` as a parameter -/

/-- What the calculator and the parser use of `float64`: the call
`strconv.ParseFloat(s, 64)`, with `none` when it returns an error, the four operations,
the test `x == 0` and the zero value of the type. -/
structure Arith (F : Type) where
  parseFloat : String → Option F
  add : F → F → F
  sub : F → F → F
  mul : F → F → F
  div : F → F → F
  isZero : F → Bool
  zero : F

/-- The arithmetic of the exact rationals, with the reader `ParseFloat`. -/
def ratArith : Arith ℚ :=
  { parseFloat := ParseFloat
    add := fun a b => a + b
    sub := fun a b => a - b
    mul := fun a b => a * b
    div := fun a b => a / b
    isZero := fun b => decide (b = 0)
    zero := 0 }

/-- The loop of `EvaluateRPN` over the remaining tokens with the value stack, in the
arithmetic `A`. -/
def evalLoopIn {F : Type} (A : Arith F) : List Token → List F → Except String (List F)
  | [], stack => Except.ok stack
  | token :: rest, stack =>
    match token.Typ with
    | TokenType.Number =>
      match A.parseFloat token.Value with
      | none => Except.error ("invalid number: " ++ token.Value)
      | some num => evalLoopIn A rest (num :: stack)
    | TokenType.Operator =>
      match stack with
      | b :: a :: stack' =>
        if token.Value = "+" then evalLoopIn A rest (A.add a b :: stack')
        else if token.Value = "-" then evalLoopIn A rest (A.sub a b :: stack')
        else if token.Value = "*" then evalLoopIn A rest (A.mul a b :: stack')
        else if token.Value = "/" then
          if A.isZero b = true then Except.error "division by zero"
          else evalLoopIn A rest (A.div a b :: stack')
        else evalLoopIn A rest (A.zero :: stack')
      | _ => Except.error "invalid expression"
    | _ => evalLoopIn A rest stack

/-- Go `Calculator.EvaluateRPN`, in the arithmetic `A`. -/
def EvaluateRPNIn {F : Type} (A : Arith F) (rpn : List Token) : Except String F :=
  match evalLoopIn A rpn [] with
  | Except.error e => Except.error e
  | Except.ok [v] => Except.ok v
  | Except.ok _ => Except.error "invalid expression"

/-- Go `Calculator.Calculate`, in the arithmetic `A`: the calculator afterwards and the
returned value or error. -/
def CalculateIn {F : Type} (A : Arith F) (c : Calculator) (expr : String) :
    Calculator × Except String F :=
  match Tokenize c expr with
  | (c1, some err) => (c1, Except.error ("tokenization error: " ++ err))
  | (c1, none) =>
    match ToRPN c1 with
    | Except.error err => (c1, Except.error ("RPN conversion error: " ++ err))
    | Except.ok rpn => (c1, EvaluateRPNIn A rpn)

/-! ## cmd/agent/main.go: the worker arithmetic -/

/-- Go `getOperationResult`. -/
def getOperationResult (operation : String) (arg1 arg2 : ℚ) : ℚ :=
  if operation = "+" then arg1 + arg2
  else if operation = "-" then arg1 - arg2
  else if operation = "*" then arg1 * arg2
  else if operation = "/" then
    if arg2 = 0 then 0 else arg1 / arg2
  else 0

/-! ## internal/orchestrator/task_manager.go -/

/-- What an operation reads from outside the manager: the process environment
(`os.Getenv`, the empty string for an unset variable), the formatted `time.Now()` and the
successive results of `uuid.New().String()` during the call. -/
structure Env where
  Getenv : String → String
  Now : String
  UUID : Nat → String

/-- The call `strconv.Atoi(s)`: an optional sign followed by at least one digit, within the
range of a 64-bit `int`. -/
def Atoi (s : String) : Option Int :=
  let digits : List Char → Option Nat := fun ds =>
    if ds ≠ [] ∧ ds.all IsDigit = true then some (digitsValue ds) else none
  match s.toList with
  | '-' :: ds =>
    match digits ds with
    | some n => if n ≤ 2 ^ 63 then some (- (n : Int)) else none
    | none => none
  | '+' :: ds =>
    match digits ds with
    | some n => if n < 2 ^ 63 then some (n : Int) else none
    | none => none
  | ds =>
    match digits ds with
    | some n => if n < 2 ^ 63 then some (n : Int) else none
    | none => none

/-- Go `getEnvOrDefaultInt`. -/
def getEnvOrDefaultInt (env : Env) (key : String) (defaultValue : Int) : Int :=
  if env.Getenv key ≠ "" then
    match Atoi (env.Getenv key) with
    | some intValue => intValue
    | none => defaultValue
  else defaultValue

/-- Go `orchestrator.Task`. -/
structure Task where
  ID : String
  Arg1 : ℚ
  Arg2 : ℚ
  Operation : String
  OperationTime : Int
  Priority : Int
  deriving DecidableEq, Repr

/-- The zero value `Task{}`. -/
instance : Inhabited Task := ⟨{ ID := "", Arg1 := 0, Arg2 := 0, Operation := "", OperationTime := 0, Priority := 0 }⟩

/-- Go `orchestrator.TaskResult`. -/
structure TaskResult where
  ID : String
  Result : ℚ
  deriving DecidableEq, Repr

/-- Go `types.Expression`. -/
structure Expression where
  ID : String
  Original : String
  Status : String
  Result : ℚ
  CreatedAt : String
  deriving DecidableEq, Repr

/-- Go `models.Expression`, the record handed to the persistence callback. -/
structure DBExpression where
  ID : String
  Text : String
  Status : String
  Result : ℚ
  CreatedAt : String
  deriving DecidableEq, Repr

/-- One call `SaveExpressionFunc(&dbExpr, userID)`. -/
structure SaveCall where
  expression : DBExpression
  userID : Int
  deriving DecidableEq, Repr

/-- Go `TaskManager` (the mutex left out; the field `calc` is called `calc_`). -/
structure TaskManager where
  expressions : GoMap Expression
  tasks : GoMap Task
  taskResults : GoMap ℚ
  taskToExpression : GoMap String
  expressionTasks : GoMap (List String)
  dependsOnTask : GoMap (List String)
  userIDs : GoMap Int
  calc_ : Calculator
  deriving DecidableEq

/-- Go `NewTaskManager`. -/
def NewTaskManager : TaskManager :=
  { expressions := GoMap.empty, tasks := GoMap.empty, taskResults := GoMap.empty,
    taskToExpression := GoMap.empty, expressionTasks := GoMap.empty,
    dependsOnTask := GoMap.empty, userIDs := GoMap.empty, calc_ := NewCalculator }

/-- The local type `stackItem` of `CreateExpression`. -/
structure stackItem where
  value : ℚ
  taskID : String
  isNum : Bool
  deriving DecidableEq, Repr

/-- The `switch token.Value` that sets `task.OperationTime` in `CreateExpression`. -/
def operationTime (env : Env) (op : String) : Int :=
  if op = "+" then getEnvOrDefaultInt env "TIME_ADDITION_MS" 510
  else if op = "-" then getEnvOrDefaultInt env "TIME_SUBTRACTION_MS" 520
  else if op = "*" then getEnvOrDefaultInt env "TIME_MULTIPLICATIONS_MS" 530
  else if op = "/" then getEnvOrDefaultInt env "TIME_DIVISIONS_MS" 540
  else 0

/-- The statement `tm.dependsOnTask[taskID] = append(tm.dependsOnTask[taskID], dep)`. -/
def appendDependency (m : GoMap (List String)) (taskID dep : String) : GoMap (List String) :=
  m.set taskID ((m.get? taskID).getD [] ++ [dep])

/-- The body of the `Operator` case of the task-building loop of `CreateExpression`, once
the two operands are popped: builds the task `taskID` and installs it. -/
def installTask (env : Env) (exprID : String) (token : Token) (taskID : String)
    (leftOp rightOp : stackItem) (tm : TaskManager) : TaskManager :=
  let priority : Int := if token.Value = "*" ∨ token.Value = "/" then 2 else 1
  let deps1 := if leftOp.isNum then tm.dependsOnTask
    else appendDependency tm.dependsOnTask taskID leftOp.taskID
  let deps2 := if rightOp.isNum then deps1
    else appendDependency deps1 taskID rightOp.taskID
  let task : Task :=
    { ID := taskID
      Arg1 := if leftOp.isNum then leftOp.value else 0
      Arg2 := if rightOp.isNum then rightOp.value else 0
      Operation := token.Value
      OperationTime := operationTime env token.Value
      Priority := priority }
  { tm with
    dependsOnTask := deps2
    tasks := tm.tasks.set taskID task
    taskToExpression := tm.taskToExpression.set taskID exprID }

/-- The loop `for _, token := range rpn` of `CreateExpression` over the remaining tokens:
the manager, `taskIDs`, the operand stack and the number of `uuid.New()` calls made so far.
The second component is `none` when the loop returns `invalid expression`. -/
def buildTasks (env : Env) (exprID : String) :
    List Token → TaskManager → List String → List stackItem → Nat →
      TaskManager × Option (List String)
  | [], tm, taskIDs, _, _ => (tm, some taskIDs)
  | token :: rest, tm, taskIDs, stack, k =>
    match token.Typ with
    | TokenType.Number =>
      buildTasks env exprID rest tm taskIDs
        ({ value := (ParseFloat token.Value).getD 0, taskID := "", isNum := true } :: stack) k
    | TokenType.Operator =>
      match stack with
      | rightOp :: leftOp :: stack' =>
        buildTasks env exprID rest
          (installTask env exprID token (env.UUID k) leftOp rightOp tm)
          (taskIDs ++ [env.UUID k])
          ({ value := 0, taskID := env.UUID k, isNum := false } :: stack') (k + 1)
      | _ => (tm, none)
    | _ => buildTasks env exprID rest tm taskIDs stack k

/-- The classification of the validation error in `CreateExpression`. -/
def classifyError (errStr : String) : String :=
  if errStr = "division by zero" then "division by zero"
  else if errStr = "unexpected character" ∨ errStr = "syntax error" then "invalid character"
  else if errStr = "unbalanced parentheses" then "mismatched parentheses"
  else "invalid expression"

/-- Go `TaskManager.CreateExpression`: the manager afterwards and the returned
`(string, error)`, as the expression id or the error. -/
def CreateExpression (tm : TaskManager) (expressionText : String) (userID : Int) (env : Env) :
    TaskManager × Except String String :=
  if expressionText = "" then (tm, Except.error "empty expression")
  else
    match Calculate NewCalculator expressionText with
    | (_, Except.error errStr) => (tm, Except.error (classifyError errStr))
    | (testCalc, Except.ok _) =>
      match Tokenize tm.calc_ expressionText with
      | (calc1, some _) => ({ tm with calc_ := calc1 }, Except.error "invalid expression")
      | (calc1, none) =>
        match ToRPN calc1 with
        | Except.error _ => ({ tm with calc_ := calc1 }, Except.error "invalid expression")
        | Except.ok rpn =>
          let tm1 := { tm with calc_ := calc1 }
          let exprID := env.UUID 0
          if rpn.length = 1 ∧ (rpn.head?.map Token.Typ) = some TokenType.Number then
            let result : ℚ :=
              match (Calculate testCalc expressionText).2 with
              | Except.ok v => v
              | Except.error _ => 0
            let taskID := env.UUID 1
            let task : Task :=
              { ID := taskID, Arg1 := result, Arg2 := 0, Operation := "",
                OperationTime := 0, Priority := 1 }
            let expr : Expression :=
              { ID := exprID, Original := expressionText, Status := "PROCESSING",
                Result := result, CreatedAt := env.Now }
            ({ tm1 with
                expressions := tm1.expressions.set exprID expr
                tasks := tm1.tasks.set taskID task
                taskToExpression := tm1.taskToExpression.set taskID exprID
                expressionTasks := tm1.expressionTasks.set exprID [taskID]
                userIDs := tm1.userIDs.set exprID userID },
              Except.ok exprID)
          else
            let expr : Expression :=
              { ID := exprID, Original := expressionText, Status := "PROCESSING",
                Result := 0, CreatedAt := env.Now }
            let tm2 := { tm1 with
              expressions := tm1.expressions.set exprID expr
              userIDs := tm1.userIDs.set exprID userID }
            match buildTasks env exprID rpn tm2 [] [] 1 with
            | (tm3, none) => (tm3, Except.error "invalid expression")
            | (tm3, some taskIDs) =>
              ({ tm3 with expressionTasks := tm3.expressionTasks.set exprID taskIDs },
                Except.ok exprID)

/-- The read `tm.taskResults[id]` without the comma-ok form: zero for an absent key. -/
def resultOf (tm : TaskManager) (id : String) : ℚ :=
  (tm.taskResults.get? id).getD 0

/-- The substitution of dependency results into a ready task in `GetNextTask`
(the two `if task.ArgN == 0 && depIdx < len(dependTaskIDs)` statements). -/
def substituteArgs (tm : TaskManager) (task : Task) (dependTaskIDs : List String) : Task :=
  let depIdx : Nat := 0
  let s1 : Task × Nat :=
    if task.Arg1 = 0 ∧ depIdx < dependTaskIDs.length then
      ({ task with Arg1 := resultOf tm (dependTaskIDs.getD depIdx "") }, depIdx + 1)
    else (task, depIdx)
  if s1.1.Arg2 = 0 ∧ s1.2 < dependTaskIDs.length then
    { s1.1 with Arg2 := resultOf tm (dependTaskIDs.getD s1.2 "") }
  else s1.1

/-- Go `TaskManager.GetNextTask`.  The argument `order` is the sequence in which the loop
`for id, task := range tm.tasks` visits the keys; a key of `order` that is not in the map is
skipped.  Returns the manager afterwards and the pair `(Task, bool)`. -/
def GetNextTask (tm : TaskManager) : List String → TaskManager × Task × Bool
  | [] => (tm, default, false)
  | id :: rest =>
    match tm.tasks.get? id with
    | none => GetNextTask tm rest
    | some task =>
      match tm.dependsOnTask.get? id with
      | none => ({ tm with tasks := tm.tasks.del id }, task, true)
      | some dependTaskIDs =>
        if dependTaskIDs.length = 0 then
          ({ tm with tasks := tm.tasks.del id }, task, true)
        else if dependTaskIDs.all (fun depID => (tm.taskResults.get? depID).isSome) then
          ({ tm with tasks := tm.tasks.del id, dependsOnTask := tm.dependsOnTask.del id },
            substituteArgs tm task dependTaskIDs, true)
        else GetNextTask tm rest

/-- The map `isRoot` of `SubmitTaskResult` after its two filling loops: `true` for each
task id of the expression, then `false` for every id listed in some entry of
`tm.dependsOnTask`. -/
def isRootMap (tm : TaskManager) (taskIDs : List String) : GoMap Bool :=
  let isRoot0 : GoMap Bool := taskIDs.foldl (fun m taskID => m.set taskID true) GoMap.empty
  tm.dependsOnTask.entries.foldl
    (fun m entry => entry.2.foldl (fun m dependID => m.set dependID false) m) isRoot0

/-- The variable `rootTaskID` of `SubmitTaskResult` after the loop that scans `taskIDs`:
the last task id whose `isRoot` entry is true, the empty string when there is none. -/
def findRootTaskID (tm : TaskManager) (taskIDs : List String) : String :=
  taskIDs.foldl
    (fun rootTaskID taskID =>
      if ((isRootMap tm taskIDs).get? taskID).getD false then taskID else rootTaskID) ""

/-- The body of the cleanup loop of `SubmitTaskResult`: the four `delete` statements. -/
def deleteTask (tm : TaskManager) (taskID : String) : TaskManager :=
  { tm with
    taskResults := tm.taskResults.del taskID
    taskToExpression := tm.taskToExpression.del taskID
    dependsOnTask := tm.dependsOnTask.del taskID
    tasks := tm.tasks.del taskID }

/-- The cleanup loop of `SubmitTaskResult` followed by `delete(tm.expressionTasks, exprID)`. -/
def cleanup (tm : TaskManager) (exprID : String) (taskIDs : List String) : TaskManager :=
  { taskIDs.foldl deleteTask tm with
    expressionTasks := (taskIDs.foldl deleteTask tm).expressionTasks.del exprID }

/-- The common body of the two branches of `SubmitTaskResult` that finish an expression
with the result of task `resultTaskID`: update the header, call the persistence callback,
clean up. -/
def finishExpression (tm : TaskManager) (exprID : String) (expr : Expression)
    (taskIDs : List String) (resultTaskID : String) : TaskManager × List SaveCall :=
  let userID := (tm.userIDs.get? exprID).getD 0
  let finalResult := resultOf tm resultTaskID
  let expr1 : Expression := { expr with Status := "COMPLETED", Result := finalResult }
  let tm1 := { tm with expressions := tm.expressions.set exprID expr1 }
  let dbExpr : DBExpression :=
    { ID := expr1.ID, Text := expr1.Original, Status := expr1.Status,
      Result := expr1.Result, CreatedAt := expr1.CreatedAt }
  (cleanup tm1 exprID taskIDs, [{ expression := dbExpr, userID := userID }])

/-- Go `TaskManager.SubmitTaskResult`: the manager afterwards, the calls made to
`SaveExpressionFunc`, and the returned error (`none` for `nil`).  The index panic of
`taskIDs[len(taskIDs)-1]` on an empty list is reported as an error of its own. -/
def SubmitTaskResult (tm : TaskManager) (result : TaskResult) :
    TaskManager × List SaveCall × Option String :=
  let tm1 := { tm with taskResults := tm.taskResults.set result.ID result.Result }
  match tm1.taskToExpression.get? result.ID with
  | none => (tm1, [], some "задача не найдена")
  | some exprID =>
    match tm1.expressionTasks.get? exprID with
    | none => (tm1, [], some "задачи выражения не найдены")
    | some taskIDs =>
      if taskIDs.all (fun taskID => (tm1.taskResults.get? taskID).isSome) then
        match tm1.expressions.get? exprID with
        | none => (tm1, [], some "выражение не найдено")
        | some expr =>
          if findRootTaskID tm1 taskIDs ≠ "" then
            let r := finishExpression tm1 exprID expr taskIDs (findRootTaskID tm1 taskIDs)
            (r.1, r.2, none)
          else
            match taskIDs.getLast? with
            | none => (tm1, [], some "panic: runtime error: index out of range [-1]")
            | some lastTaskID =>
              let r := finishExpression tm1 exprID expr taskIDs lastTaskID
              (r.1, r.2, none)
      else (tm1, [], none)

/-- Go `TaskManager.GetExpression`. -/
def GetExpression (tm : TaskManager) (id : String) : Option Expression :=
  tm.expressions.get? id

/-! ## internal/grpc/server.go -/

/-- The gRPC status codes the server uses. -/
inductive Code
  | OK
  | NotFound
  deriving DecidableEq, Repr

/-- A transport-level error `status.Error(code, msg)`. -/
structure Status where
  code : Code
  message : String
  deriving DecidableEq, Repr

/-- The conversion `int32(n)` of a Go `int`. -/
def toInt32 (n : Int) : Int := (n + 2 ^ 31) % 2 ^ 32 - 2 ^ 31

/-- The message `pb.Task`. -/
structure PbTask where
  Id : String
  Arg1 : ℚ
  Arg2 : ℚ
  Operation : String
  OperationTime : Int
  Priority : Int
  deriving DecidableEq, Repr

/-- The message `pb.TaskResultResponse`. -/
structure TaskResultResponse where
  Success : Bool
  ErrorMessage : String
  deriving DecidableEq, Repr

/-- Go `CalculatorServer.GetTask`: the manager afterwards and the reply, a task or a
transport error. -/
def GetTask (tm : TaskManager) (order : List String) : TaskManager × Except Status PbTask :=
  match GetNextTask tm order with
  | (tm1, task, found) =>
    if ¬ found then (tm1, Except.error { code := Code.NotFound, message := "Нет доступных задач" })
    else
      (tm1, Except.ok
        { Id := task.ID, Arg1 := task.Arg1, Arg2 := task.Arg2, Operation := task.Operation,
          OperationTime := toInt32 task.OperationTime, Priority := toInt32 task.Priority })

/-- Go `CalculatorServer.SubmitTaskResult`: the manager afterwards, the persistence calls,
the response and the transport error (always `nil`). -/
def SubmitTaskResultRPC (tm : TaskManager) (result : TaskResult) :
    TaskManager × List SaveCall × TaskResultResponse × Option Status :=
  match SubmitTaskResult tm result with
  | (tm1, saves, some err) => (tm1, saves, { Success := false, ErrorMessage := err }, none)
  | (tm1, saves, none) => (tm1, saves, { Success := true, ErrorMessage := "" }, none)

/-! ## The dispatch cycle -/

/-- One round of a worker against the manager: `GetNextTask`, the worker's
`getOperationResult` on the task received, `SubmitTaskResult`.  The flag tells whether a
task was received. -/
def workerRound (tm : TaskManager) (order : List String) : TaskManager × Bool :=
  match GetNextTask tm order with
  | (tm1, task, true) =>
    ((SubmitTaskResult tm1
      { ID := task.ID, Result := getOperationResult task.Operation task.Arg1 task.Arg2 }).1, true)
  | (tm1, _, false) => (tm1, false)

/-- Worker rounds repeated until `GetNextTask` finds no task; `orders` gives the iteration
order of the task map in each round. -/
def dispatchCycle : List (List String) → TaskManager → TaskManager
  | [], tm => tm
  | order :: orders, tm =>
    match workerRound tm order with
    | (tm1, true) => dispatchCycle orders tm1
    | (tm1, false) => tm1

/-- A test environment: no variable set, ids `u`, `uu`, `uuu`, ... -/
def testEnv : Env :=
  { Getenv := fun _ => "", Now := "01.01.2025 00:00:00",
    UUID := fun k => String.mk (List.replicate (k + 1) 'u') }

/-! ## Scheduling vocabulary and reachable states -/

/-- A task id is ready when it has no dependency entry, or every dependency id of its entry
has an entry in the results map. -/
def isReady (tm : TaskManager) (id : String) : Bool :=
  match tm.dependsOnTask.get? id with
  | none => true
  | some deps => deps.all (fun depID => (tm.taskResults.get? depID).isSome)

/-- The two possible outcomes of `GetNextTask tm order`: no visited task is ready and
nothing changes, or a ready task of the visiting order is taken out by one of the two return
paths of the loop. -/
def GetNextTaskOutcome (tm : TaskManager) (order : List String) : Prop :=
  (GetNextTask tm order = (tm, default, false) ∧
    ∀ id ∈ order, (tm.tasks.get? id).isSome = true → isReady tm id = false) ∨
  (∃ id task0, id ∈ order ∧ tm.tasks.get? id = some task0 ∧ isReady tm id = true ∧
    (((tm.dependsOnTask.get? id = none ∨ tm.dependsOnTask.get? id = some []) ∧
        GetNextTask tm order = ({ tm with tasks := tm.tasks.del id }, task0, true)) ∨
      (∃ deps, deps ≠ [] ∧ tm.dependsOnTask.get? id = some deps ∧
        GetNextTask tm order =
          ({ tm with tasks := tm.tasks.del id, dependsOnTask := tm.dependsOnTask.del id },
            substituteArgs tm task0 deps, true))))

/-- The outcome of `SubmitTaskResult tm result`, with `tm1` the manager once the result is
recorded: either the call only records the result, or it finishes the expression of the task
with the result of task `resultTaskID`, the root found by `findRootTaskID` or else the last
task of the list. -/
def SubmitOutcome (tm : TaskManager) (result : TaskResult) : Prop :=
  let tm1 := { tm with taskResults := tm.taskResults.set result.ID result.Result }
  ((SubmitTaskResult tm result).1 = tm1 ∧ (SubmitTaskResult tm result).2.1 = [] ∧
    (tm.taskToExpression.get? result.ID = none ∨
      ∃ exprID, tm.taskToExpression.get? result.ID = some exprID ∧
        (tm.expressionTasks.get? exprID = none ∨
          ∃ taskIDs, tm.expressionTasks.get? exprID = some taskIDs ∧
            (taskIDs.all (fun taskID => (tm1.taskResults.get? taskID).isSome) = false ∨
              tm.expressions.get? exprID = none ∨ taskIDs = [])))) ∨
  (∃ exprID taskIDs expr resultTaskID,
    tm.taskToExpression.get? result.ID = some exprID ∧
    tm.expressionTasks.get? exprID = some taskIDs ∧
    taskIDs.all (fun taskID => (tm1.taskResults.get? taskID).isSome) = true ∧
    tm.expressions.get? exprID = some expr ∧
    ((findRootTaskID tm1 taskIDs ≠ "" ∧ resultTaskID = findRootTaskID tm1 taskIDs) ∨
      (findRootTaskID tm1 taskIDs = "" ∧ taskIDs.getLast? = some resultTaskID)) ∧
    SubmitTaskResult tm result =
      ((finishExpression tm1 exprID expr taskIDs resultTaskID).1,
        (finishExpression tm1 exprID expr taskIDs resultTaskID).2, none))

/-- Every id stored in the manager belongs to the set `A`. -/
structure KeysIn (tm : TaskManager) (A : Set String) : Prop where
  tasks : ∀ id, (tm.tasks.get? id).isSome = true → id ∈ A
  taskToExpression : ∀ t e, tm.taskToExpression.get? t = some e → t ∈ A ∧ e ∈ A
  expressionTasks : ∀ e l, tm.expressionTasks.get? e = some l → e ∈ A ∧ ∀ t ∈ l, t ∈ A
  dependsOnTask : ∀ t ds, (t, ds) ∈ tm.dependsOnTask.entries → t ∈ A ∧ ∀ d ∈ ds, d ∈ A
  expressions : ∀ e, (tm.expressions.get? e).isSome = true → e ∈ A

/-- The invariant of the reachable states. -/
structure Inv (tm : TaskManager) (seen : Set String) (handed : List String) : Prop where
  keys : KeysIn tm seen
  owner : ∀ t e, tm.taskToExpression.get? t = some e →
    ∃ l, tm.expressionTasks.get? e = some l ∧ t ∈ l ∧ (tm.expressions.get? e).isSome = true
  root : ∀ e l, tm.expressionTasks.get? e = some l →
    ∀ t ds, (t, ds) ∈ tm.dependsOnTask.entries → ∀ d ∈ ds, l.getLast? ≠ some d
  completed : ∀ e x, tm.expressions.get? e = some x → x.Status = "COMPLETED" →
    tm.expressionTasks.get? e = none
  status : ∀ e x, tm.expressions.get? e = some x →
    x.Status = "PROCESSING" ∨ x.Status = "COMPLETED"
  placeholders : ∀ id task d1 d2, tm.tasks.get? id = some task →
    tm.dependsOnTask.get? id = some [d1, d2] → task.Arg1 = 0 ∧ task.Arg2 = 0
  taskID : ∀ id task, tm.tasks.get? id = some task → task.ID = id
  handedNodup : handed.Nodup
  handedGone : ∀ id ∈ handed, id ∈ seen ∧ tm.tasks.get? id = none

/-- The manager `tm2` is `tm1` with some tasks and dependency entries removed and any
results map. -/
structure Shrinks (tm1 tm2 : TaskManager) : Prop where
  expressions : tm2.expressions = tm1.expressions
  taskToExpression : tm2.taskToExpression = tm1.taskToExpression
  expressionTasks : tm2.expressionTasks = tm1.expressionTasks
  tasks : ∀ id t, tm2.tasks.get? id = some t → tm1.tasks.get? id = some t
  entries : ∀ p, p ∈ tm2.dependsOnTask.entries → p ∈ tm1.dependsOnTask.entries
  dependsOnTask : ∀ id ds, tm2.dependsOnTask.get? id = some ds →
    tm1.dependsOnTask.get? id = some ds

/-- The ids minted before the call together with the first `k` ids minted by the call. -/
def mintedBefore (env : Env) (S : Set String) (k : Nat) : Set String :=
  S ∪ {s | ∃ j, j < k ∧ s = env.UUID j}

/-- The dependency ids that the `Operator` case of `CreateExpression` appends for a task:
the task ids of the operands that are not numbers, left operand first. -/
def pendingIDs (leftOp rightOp : stackItem) : List String :=
  (if leftOp.isNum then [] else [leftOp.taskID]) ++
    (if rightOp.isNum then [] else [rightOp.taskID])

/-- The invariant of the task-building loop of `CreateExpression`, for the expression
`env.UUID 0`, with `S` the ids minted before the call, `ids` the variable `taskIDs`, `stack` the
operand stack and `k` the number of ids minted so far. -/
structure BuildInv (env : Env) (S : Set String) (handed : List String) (tm : TaskManager)
    (ids : List String) (stack : List stackItem) (k : Nat) : Prop where
  kpos : 1 ≤ k
  keys : KeysIn tm (mintedBefore env S k)
  ownerMid : ∀ t e1, tm.taskToExpression.get? t = some e1 →
    (e1 = env.UUID 0 ∧ t ∈ ids) ∨
    (e1 ≠ env.UUID 0 ∧ ∃ l, tm.expressionTasks.get? e1 = some l ∧ t ∈ l ∧
      (tm.expressions.get? e1).isSome = true)
  exprProcessing : ∃ x, tm.expressions.get? (env.UUID 0) = some x ∧ x.Status = "PROCESSING"
  exprTasksOld : ∀ e1 l, tm.expressionTasks.get? e1 = some l → e1 ∈ S ∧ ∀ t ∈ l, t ∈ S
  depsIdx : ∀ t ds, (t, ds) ∈ tm.dependsOnTask.entries →
    ∀ d ∈ ds, d ∈ S ∨ ∃ j, j + 1 < k ∧ d = env.UUID j
  rootOld : ∀ e1 l, tm.expressionTasks.get? e1 = some l →
    ∀ t ds, (t, ds) ∈ tm.dependsOnTask.entries → ∀ d ∈ ds, l.getLast? ≠ some d
  stackIdx : ∀ item ∈ stack, item.isNum = false →
    ∃ j, 1 ≤ j ∧ j < k ∧ item.taskID = env.UUID j
  idsIdx : ∀ t ∈ ids, ∃ j, 1 ≤ j ∧ j < k ∧ t = env.UUID j
  idsLast : ids = [] ∨ ids.getLast? = some (env.UUID (k - 1))
  completed : ∀ e x, tm.expressions.get? e = some x → x.Status = "COMPLETED" →
    tm.expressionTasks.get? e = none
  status : ∀ e x, tm.expressions.get? e = some x →
    x.Status = "PROCESSING" ∨ x.Status = "COMPLETED"
  placeholders : ∀ id task d1 d2, tm.tasks.get? id = some task →
    tm.dependsOnTask.get? id = some [d1, d2] → task.Arg1 = 0 ∧ task.Arg2 = 0
  taskID : ∀ id task, tm.tasks.get? id = some task → task.ID = id
  handedGone : ∀ id ∈ handed, id ∈ S ∧ tm.tasks.get? id = none

/-- A call of one of the three operations of the manager. -/
inductive Call
  | create (expressionText : String) (userID : Int) (env : Env)
  | getNext (order : List String)
  | submit (result : TaskResult)

/-- The manager after the call. -/
def Call.run (tm : TaskManager) : Call → TaskManager
  | Call.create expressionText userID env => (CreateExpression tm expressionText userID env).1
  | Call.getNext order => (GetNextTask tm order).1
  | Call.submit result => (SubmitTaskResult tm result).1

/-- Freshness of the ids minted by a call: the ids `uuid.New()` returns during a
`CreateExpression` are pairwise distinct and were never minted before. -/
def Call.Fresh (seen : Set String) : Call → Prop
  | Call.create _ _ env => Function.Injective env.UUID ∧ ∀ k, env.UUID k ∉ seen
  | _ => True

/-- The ids minted so far, after the call. -/
def Call.seenAfter (seen : Set String) : Call → Set String
  | Call.create _ _ env => seen ∪ Set.range env.UUID
  | _ => seen

/-- The ids of the tasks returned by `GetNextTask` so far, after the call. -/
def Call.handedAfter (tm : TaskManager) (handed : List String) : Call → List String
  | Call.getNext order =>
    if (GetNextTask tm order).2.2 = true then handed ++ [(GetNextTask tm order).2.1.ID]
    else handed
  | _ => handed

/-- The states reachable from an empty manager by calls of `CreateExpression`,
`GetNextTask` and `SubmitTaskResult` with fresh ids, together with the set of ids minted so
far and the list of task ids returned by `GetNextTask` so far. -/
inductive Reachable : TaskManager → Set String → List String → Prop
  | init : Reachable NewTaskManager ∅ []
  | step {tm : TaskManager} {seen : Set String} {handed : List String} (c : Call) :
      Reachable tm seen handed → c.Fresh seen →
      Reachable (c.run tm) (c.seenAfter seen) (c.handedAfter tm handed)

/-- The manager, the ids minted and the task ids handed out after a sequence of calls on an
empty manager. -/
def replay (calls : List Call) : TaskManager × Set String × List String :=
  calls.foldl (fun s c => (c.run s.1, c.seenAfter s.2.1, c.handedAfter s.1 s.2.2))
    (NewTaskManager, ∅, [])

/-- Whether the call is a `CreateExpression`. -/
def Call.isCreate : Call → Bool
  | Call.create _ _ _ => true
  | _ => false

/-- A session on `1*2+3*4`: the expression is created, then the tasks `1*2` and `3*4` are
fetched and answered. -/
def demoCalls : List Call :=
  [Call.create "1*2+3*4" 1 testEnv,
   Call.getNext ["uu", "uuu", "uuuu"], Call.submit { ID := "uu", Result := 2 },
   Call.getNext ["uu", "uuu", "uuuu"], Call.submit { ID := "uuu", Result := 12 }]

/-! ## The alphabet of the tokenizer, in the words of the specification -/

/-- The operator and parenthesis bytes `+ - * / ( )`. -/
def isSymbolChar (c : Char) : Bool :=
  c == '(' || c == ')' || c == '+' || c == '-' || c == '*' || c == '/'

/-- Whether the byte that follows the bytes `before` (nearest byte first) stands inside a
run of digits and dots that starts with a digit; the run is the longest block of digits and
dots that ends just before the byte. -/
def inDigitRun (before : List Char) : Bool :=
  match (before.takeWhile isNumberChar).getLast? with
  | some first => IsDigit first
  | none => false

/-- A byte outside the accepted alphabet: not a digit, not one of `+ - * / ( )`, and not a
dot inside a run that starts with a digit. -/
def isOffending (before : List Char) (c : Char) : Bool :=
  !IsDigit c && !isSymbolChar c && !(c == '.' && inDigitRun before)

/-- The first offending byte of `cs` scanning left to right, `before` being the bytes
already passed (nearest first). -/
def firstOffendingFrom : List Char → List Char → Option Char
  | _, [] => none
  | before, c :: rest =>
    if isOffending before c then some c else firstOffendingFrom (c :: before) rest

/-- The first offending byte of the text, if any. -/
def firstOffending (cs : List Char) : Option Char := firstOffendingFrom [] cs

/-- The shape of a Number token of the tokenizer: its value is a piece of the text `whole`
that starts with a digit and goes on with digits and dots. -/
def NumberShape (whole : List Char) (t : Token) : Prop :=
  ∃ d ds, t.Value = String.mk (d :: ds) ∧ IsDigit d = true ∧
    (∀ x ∈ ds, isNumberChar x = true) ∧ ∃ pre post, whole = pre ++ (d :: ds) ++ post

/-! ## Balance of parentheses, in the words of the specification -/

/-- The number of `(` tokens of a token sequence. -/
def countLeft (ts : List Token) : Nat :=
  ts.countP (fun t => decide (t.Typ = TokenType.LeftParen))

/-- The number of `)` tokens of a token sequence. -/
def countRight (ts : List Token) : Nat :=
  ts.countP (fun t => decide (t.Typ = TokenType.RightParen))

/-- The number of Number and Operator tokens of a token sequence. -/
def countOperandsAndOperators (ts : List Token) : Nat :=
  ts.countP (fun t => decide (t.Typ = TokenType.Number ∨ t.Typ = TokenType.Operator))

/-- The number of tokens of a sequence that are not `(`. -/
def countNotLeft (ts : List Token) : Nat :=
  ts.countP (fun t => decide (t.Typ ≠ TokenType.LeftParen))

/-- The parentheses are unbalanced given `d` parentheses already open: some beginning of
the sequence has more `)` than `d` plus its `(`, or the whole sequence has fewer `)` than `d`
plus its `(`. -/
def UnbalancedFrom (d : Nat) (ts : List Token) : Prop :=
  (∃ p s, ts = p ++ s ∧ d + countLeft p < countRight p) ∨ countRight ts < d + countLeft ts

/-- The parentheses of a token sequence are unbalanced: some beginning of the sequence
contains more `)` than `(`, or the whole sequence contains more `(` than `)`. -/
def Unbalanced (ts : List Token) : Prop :=
  (∃ p s, ts = p ++ s ∧ countLeft p < countRight p) ∨ countRight ts < countLeft ts

/-! ## Infix expressions and their parse trees, in the words of the specification -/

/-- The four binary operators. -/
inductive BinOp
  | add
  | sub
  | mul
  | div
  deriving DecidableEq, Repr

/-- The byte of an operator. -/
def BinOp.symbol : BinOp → Char
  | BinOp.add => '+'
  | BinOp.sub => '-'
  | BinOp.mul => '*'
  | BinOp.div => '/'

/-- The usual precedence: `*` and `/` bind tighter than `+` and `-`. -/
def BinOp.prec : BinOp → Nat
  | BinOp.add => 1
  | BinOp.sub => 1
  | BinOp.mul => 2
  | BinOp.div => 2

/-- The Operator token of an operator. -/
def BinOp.token (op : BinOp) : Token :=
  { Typ := TokenType.Operator, Value := String.singleton op.symbol }

/-- The value of an operator on two numbers; a division by zero has none. -/
def BinOp.apply : BinOp → ℚ → ℚ → Option ℚ
  | BinOp.add, a, b => some (a + b)
  | BinOp.sub, a, b => some (a - b)
  | BinOp.mul, a, b => some (a * b)
  | BinOp.div, a, b => if b = 0 then none else some (a / b)

/-- The parse tree of an infix expression: a number literal, a parenthesised expression, or
a binary operation. -/
inductive ParseTree
  | num (literal : String)
  | paren (e : ParseTree)
  | bin (op : BinOp) (l r : ParseTree)
  deriving DecidableEq, Repr

namespace ParseTree

/-- The binding strength of the outermost construct: that of the operator for an operation,
above every operator for a literal or a parenthesised expression. -/
def level : ParseTree → Nat
  | num _ => 3
  | paren _ => 3
  | bin op _ _ => op.prec

/-- The tree is the parse of its own infix form under the usual conventions: the right
operand of an operator binds strictly tighter than the operator (operators of equal
precedence associate to the left), the left operand at least as tight, and anything else
stands in parentheses. -/
def WellFormed : ParseTree → Prop
  | num _ => True
  | paren e => e.WellFormed
  | bin op l r => l.WellFormed ∧ r.WellFormed ∧ op.prec ≤ l.level ∧ op.prec < r.level

/-- The infix token sequence of the tree. -/
def tokens : ParseTree → List Token
  | num literal => [{ Typ := TokenType.Number, Value := literal }]
  | paren e =>
    { Typ := TokenType.LeftParen, Value := "(" } :: e.tokens ++
      [{ Typ := TokenType.RightParen, Value := ")" }]
  | bin op l r => l.tokens ++ op.token :: r.tokens

/-- The reverse-Polish (post-order) listing of the tree: each operator follows the listings
of its two operands; parentheses leave no token. -/
def rpn : ParseTree → List Token
  | num literal => [{ Typ := TokenType.Number, Value := literal }]
  | paren e => e.rpn
  | bin op l r => l.rpn ++ r.rpn ++ [op.token]

/-- The infix text of the tree, without spaces. -/
def render : ParseTree → List Char
  | num literal => literal.toList
  | paren e => '(' :: e.render ++ [')']
  | bin op l r => l.render ++ op.symbol :: r.render

/-- Every literal of the tree is a non-negative decimal literal: it starts with a digit and
goes on with digits and at most one dot. -/
def Literals : ParseTree → Prop
  | num literal =>
    ∃ d ds, literal = String.mk (d :: ds) ∧ IsDigit d = true ∧
      (∀ x ∈ ds, isNumberChar x = true) ∧ (d :: ds).count '.' ≤ 1
  | paren e => e.Literals
  | bin _ l r => l.Literals ∧ r.Literals

/-- The value of the tree over the rationals, operands first; none when it cannot be
computed. -/
def value : ParseTree → Option ℚ
  | num literal => ParseFloat literal
  | paren e => e.value
  | bin op l r =>
    match l.value, r.value with
    | some a, some b => op.apply a b
    | _, _ => none

/-- Some division of the tree is applied to a right operand equal to zero. -/
def dividesByZero : ParseTree → Prop
  | num _ => False
  | paren e => e.dividesByZero
  | bin op l r => l.dividesByZero ∨ r.dividesByZero ∨ (op = BinOp.div ∧ r.value = some 0)

/-- The operators of the tree that `ToRPN` still holds on its stack once it has read the
tokens of the tree, top of the stack first. -/
def pending : ParseTree → List Token
  | num _ => []
  | paren _ => []
  | bin op _ r => r.pending ++ [op.token]

/-- The tokens that `ToRPN` has put out once it has read the tokens of the tree. -/
def emitted : ParseTree → List Token
  | num literal => [{ Typ := TokenType.Number, Value := literal }]
  | paren e => e.rpn
  | bin _ l r => l.rpn ++ r.emitted

end ParseTree

/-- The stack of `ToRPN` lets an operand of binding strength `p` be read: its top, when
it is an operator, binds less tightly than `p`. -/
def StopsAt (p : Nat) : List Token → Prop
  | [] => True
  | top :: _ => top.Typ = TokenType.Operator → precedence top.Value < p

/-- The tokenizer loop on a text, with the fuel `Tokenize` gives it. -/
def tokenizeText (cs : List Char) (acc : List Token) : List Token × Option String :=
  tokenizeLoop cs.length cs acc


/-- The parse tree of `0 + 6 - 1 + (2*100)`. -/
def exampleSum : ParseTree :=
  ParseTree.bin BinOp.add
    (ParseTree.bin BinOp.sub
      (ParseTree.bin BinOp.add (ParseTree.num "0") (ParseTree.num "6"))
      (ParseTree.num "1"))
    (ParseTree.paren (ParseTree.bin BinOp.mul (ParseTree.num "2") (ParseTree.num "100")))

/-- The parse tree of `2*((3+2)*2)`. -/
def exampleNested : ParseTree :=
  ParseTree.bin BinOp.mul (ParseTree.num "2")
    (ParseTree.paren
      (ParseTree.bin BinOp.mul
        (ParseTree.paren (ParseTree.bin BinOp.add (ParseTree.num "3") (ParseTree.num "2")))
        (ParseTree.num "2")))

/-- The parse tree of `2+3*4`. -/
def examplePriority : ParseTree :=
  ParseTree.bin BinOp.add (ParseTree.num "2")
    (ParseTree.bin BinOp.mul (ParseTree.num "3") (ParseTree.num "4"))

/-- The parse tree of `2/0`. -/
def exampleDivision : ParseTree :=
  ParseTree.bin BinOp.div (ParseTree.num "2") (ParseTree.num "0")

/-! ## The calls of the persistence callback -/

/-- The body of the two finishing branches of `SubmitTaskResult` with the callback
`SaveExpressionFunc` as a parameter `save`; the value it returns is bound to `_`. -/
def finishExpressionWith (save : DBExpression → Int → Option String) (tm : TaskManager)
    (exprID : String) (expr : Expression) (taskIDs : List String) (resultTaskID : String) :
    TaskManager × List SaveCall :=
  let userID := (tm.userIDs.get? exprID).getD 0
  let finalResult := resultOf tm resultTaskID
  let expr1 : Expression := { expr with Status := "COMPLETED", Result := finalResult }
  let tm1 := { tm with expressions := tm.expressions.set exprID expr1 }
  let dbExpr : DBExpression :=
    { ID := expr1.ID, Text := expr1.Original, Status := expr1.Status,
      Result := expr1.Result, CreatedAt := expr1.CreatedAt }
  let _ := save dbExpr userID
  (cleanup tm1 exprID taskIDs, [{ expression := dbExpr, userID := userID }])

/-- Go `TaskManager.SubmitTaskResult` with the callback `SaveExpressionFunc` as a parameter
`save`, which returns an error or `nil`. -/
def SubmitTaskResultWith (save : DBExpression → Int → Option String) (tm : TaskManager)
    (result : TaskResult) : TaskManager × List SaveCall × Option String :=
  let tm1 := { tm with taskResults := tm.taskResults.set result.ID result.Result }
  match tm1.taskToExpression.get? result.ID with
  | none => (tm1, [], some "задача не найдена")
  | some exprID =>
    match tm1.expressionTasks.get? exprID with
    | none => (tm1, [], some "задачи выражения не найдены")
    | some taskIDs =>
      if taskIDs.all (fun taskID => (tm1.taskResults.get? taskID).isSome) then
        match tm1.expressions.get? exprID with
        | none => (tm1, [], some "выражение не найдено")
        | some expr =>
          if findRootTaskID tm1 taskIDs ≠ "" then
            let r := finishExpressionWith save tm1 exprID expr taskIDs
              (findRootTaskID tm1 taskIDs)
            (r.1, r.2, none)
          else
            match taskIDs.getLast? with
            | none => (tm1, [], some "panic: runtime error: index out of range [-1]")
            | some lastTaskID =>
              let r := finishExpressionWith save tm1 exprID expr taskIDs lastTaskID
              (r.1, r.2, none)
      else (tm1, [], none)

/-- The calls of `SaveExpressionFunc` made during a call of the manager: the only two call
sites of task_manager.go are in `SubmitTaskResult`. -/
def Call.saves (tm : TaskManager) : Call → List SaveCall
  | Call.submit result => (SubmitTaskResult tm result).2.1
  | _ => []

/-- What a successful `CreateExpression` was given (text, owner id, clock) and the id it
returned. -/
structure Creation where
  id : String
  text : String
  userID : Int
  createdAt : String
  deriving DecidableEq, Repr

/-- The record of a call of the manager when it is a successful `CreateExpression`. -/
def Call.creations (tm : TaskManager) : Call → List Creation
  | Call.create expressionText userID env =>
    match (CreateExpression tm expressionText userID env).2 with
    | Except.ok id =>
      [{ id := id, text := expressionText, userID := userID, createdAt := env.Now }]
    | Except.error _ => []
  | _ => []

/-- The call moves an expression to `COMPLETED`: some header has that status after the call
and had not before. -/
def Call.completes (tm : TaskManager) (c : Call) : Prop :=
  ∃ e x, (c.run tm).expressions.get? e = some x ∧ x.Status = "COMPLETED" ∧
    ∀ y, tm.expressions.get? e = some y → y.Status ≠ "COMPLETED"

/-- The states reachable from an empty manager by calls with fresh ids, together with the
ids minted so far, the successful creations so far and the calls of `SaveExpressionFunc` so
far, oldest first. -/
inductive ReachableLog : TaskManager → Set String → List Creation → List SaveCall → Prop
  | init : ReachableLog NewTaskManager ∅ [] []
  | step {tm : TaskManager} {seen : Set String} {created : List Creation}
      {saved : List SaveCall} (c : Call) :
      ReachableLog tm seen created saved → c.Fresh seen →
      ReachableLog (c.run tm) (c.seenAfter seen) (created ++ c.creations tm)
        (saved ++ c.saves tm)

/-- The manager, the ids minted, the creations and the calls of `SaveExpressionFunc` after a
sequence of calls on an empty manager. -/
def replayLog (calls : List Call) : TaskManager × Set String × List Creation × List SaveCall :=
  calls.foldl
    (fun s c => (c.run s.1, c.seenAfter s.2.1, s.2.2.1 ++ c.creations s.1,
      s.2.2.2 ++ c.saves s.1))
    (NewTaskManager, ∅, [], [])

/-- The invariant that ties the headers and the calls of `SaveExpressionFunc` to the
creations. -/
structure LogInv (tm : TaskManager) (seen : Set String) (created : List Creation)
    (saved : List SaveCall) : Prop where
  header : ∀ e x, tm.expressions.get? e = some x →
    ∃ c ∈ created, c.id = e ∧ x.ID = e ∧ x.Original = c.text ∧ x.CreatedAt = c.createdAt ∧
      tm.userIDs.get? e = some c.userID
  createdSeen : ∀ c ∈ created, c.id ∈ seen
  createdNodup : (created.map Creation.id).Nodup
  savedHeader : ∀ s ∈ saved, ∃ x, tm.expressions.get? s.expression.ID = some x ∧
    x.Status = "COMPLETED" ∧
    s.expression = { ID := x.ID, Text := x.Original, Status := "COMPLETED",
                     Result := x.Result, CreatedAt := x.CreatedAt } ∧
    tm.userIDs.get? s.expression.ID = some s.userID
  savedNodup : (saved.map (fun s => s.expression.ID)).Nodup
  completedSaved : ∀ e x, tm.expressions.get? e = some x → x.Status = "COMPLETED" →
    ∃ s ∈ saved, s.expression.ID = e

/-- The session `demoCalls` followed by the fetch and the answer of the last task `2+12`. -/
def demoLogCalls : List Call :=
  demoCalls ++
    [Call.getNext ["uu", "uuu", "uuuu"], Call.submit { ID := "uuuu", Result := 14 }]

/-! ## cmd/agent/main.go: the two other worker functions -/

/-- Go `calculateResult`: the first `switch` only chooses the delay of `time.Sleep` and
writes to the log; the second `switch` gives the value. -/
def calculateResult (operation : String) (arg1 arg2 : ℚ) : ℚ :=
  if operation = "+" then arg1 + arg2
  else if operation = "-" then arg1 - arg2
  else if operation = "*" then arg1 * arg2
  else if operation = "/" then
    if arg2 = 0 then 0 else arg1 / arg2
  else 0

/-- Go `calculateResultWithTime`: sleeps for `operationTimeMs` milliseconds, writes to the
log, and returns `getOperationResult(operation, arg1, arg2)`. -/
def calculateResultWithTime (operation : String) (arg1 arg2 : ℚ) (_operationTimeMs : Int) : ℚ :=
  getOperationResult operation arg1 arg2

/-! ## Counting the tokens of each type -/

/-- The number of tokens of type `ty` in a token sequence. -/
def countType (ty : TokenType) (ts : List Token) : Nat :=
  ts.countP (fun t => decide (t.Typ = ty))

/-! ## The tasks planned by the task-building loop of `CreateExpression` -/

/-- One pass through the `Operator` case of the task-building loop of `CreateExpression`:
the id minted, the operator token, the two operands popped (`left` below `right`), and the
values `a` and `b` that the two operands stand for. -/
structure PlanNode where
  id : String
  token : Token
  left : stackItem
  right : stackItem
  a : ℚ
  b : ℚ
  deriving DecidableEq, Repr

namespace PlanNode

/-- The value the task stands for: what the worker computes from the values of the two
operands. -/
def value (n : PlanNode) : ℚ :=
  getOperationResult n.token.Value n.a n.b

/-- The dependency ids the loop records for the task. -/
def deps (n : PlanNode) : List String :=
  pendingIDs n.left n.right

/-- The entry of `dependsOnTask` for the task: absent when both operands are numbers. -/
def entry (n : PlanNode) : Option (List String) :=
  if n.deps = [] then none else some n.deps

/-- The stack item the loop pushes for the task. -/
def item (n : PlanNode) : stackItem :=
  { value := 0, taskID := n.id, isNum := false }

/-- The task the loop stores for the node. -/
def task (env : Env) (n : PlanNode) : Task :=
  { ID := n.id
    Arg1 := if n.left.isNum then n.left.value else 0
    Arg2 := if n.right.isNum then n.right.value else 0
    Operation := n.token.Value
    OperationTime := operationTime env n.token.Value
    Priority := if n.token.Value = "*" ∨ n.token.Value = "/" then 2 else 1 }

end PlanNode

/-- The task-building loop of `CreateExpression` without the manager: the nodes it emits
and the operand stack it ends with, each stack item paired with the value it stands for
(the parsed number for a number, the value of the task for a task); `none` when an operator
finds fewer than two operands. -/
def planLoop (env : Env) :
    List Token → List (stackItem × ℚ) → Nat → Option (List PlanNode × List (stackItem × ℚ))
  | [], stack, _ => some ([], stack)
  | token :: rest, stack, k =>
    match token.Typ with
    | TokenType.Number =>
      planLoop env rest
        (({ value := (ParseFloat token.Value).getD 0, taskID := "", isNum := true },
          (ParseFloat token.Value).getD 0) :: stack) k
    | TokenType.Operator =>
      match stack with
      | (rightOp, b) :: (leftOp, a) :: stack' =>
        match planLoop env rest
            (({ value := 0, taskID := env.UUID k, isNum := false },
              getOperationResult token.Value a b) :: stack') (k + 1) with
        | some (ns, st) =>
          some ({ id := env.UUID k, token := token, left := leftOp, right := rightOp,
                  a := a, b := b } :: ns, st)
        | none => none
      | _ => none
    | _ => planLoop env rest stack k

/-- The manager after the tasks of a plan are installed, in order. -/
def installPlan (env : Env) (exprID : String) (ns : List PlanNode) (tm : TaskManager) :
    TaskManager :=
  ns.foldl (fun tm n => installTask env exprID n.token n.id n.left n.right tm) tm

/-- The id and the value of a node. -/
def PlanNode.pair (n : PlanNode) : String × ℚ :=
  (n.id, n.value)

/-- The operand `p.1`, standing for the value `p.2`, is a number with that value, or the
task of one of the pairs (id, value) of `avail`. -/
def OperandOK (avail : List (String × ℚ)) (p : stackItem × ℚ) : Prop :=
  (p.1.isNum = true ∧ p.2 = p.1.value) ∨ (p.1.isNum = false ∧ (p.1.taskID, p.2) ∈ avail)

/-- Every operand of every node of the plan is a number or the task of an earlier node,
`avail` listing what comes before the plan. -/
def PlanOK : List (String × ℚ) → List PlanNode → Prop
  | _, [] => True
  | avail, n :: rest =>
    OperandOK avail (n.left, n.a) ∧ OperandOK avail (n.right, n.b) ∧
      PlanOK (avail ++ [n.pair]) rest

/-- The task ids among the operands of a stack. -/
def refsOf (stack : List (stackItem × ℚ)) : List String :=
  stack.flatMap (fun p => if p.1.isNum then [] else [p.1.taskID])

/-! ## internal/parser/parser.go -/

/-- Go `types.Task`, with the type `F` for `float64`. -/
structure TypesTask (F : Type) where
  ID : String
  Arg1 : F
  Arg2 : F
  Operation : String
  OperationTime : Int
  Priority : Int
  DependsOn : List String
  deriving DecidableEq, Repr

/-- The test `case "+", "-", "*", "/"` of the two `switch token` statements of parser.go. -/
def isOperatorString (token : String) : Bool :=
  token = "+" || token = "-" || token = "*" || token = "/"

/-- The inner loop of the operator case of `infixToRPN`: pop to the output while the top of
the stack has a precedence at least that of `token`; the map `precedence` of this function
is the table of `ToRPN`, and a key that is absent, such as `(`, reads as 0. -/
def rpnPopOperators (token : String) : List String → List String → List String × List String
  | [], output => ([], output)
  | top :: stack, output =>
    if precedence top ≥ precedence token then rpnPopOperators token stack (output ++ [top])
    else (top :: stack, output)

/-- The case `")"` of `infixToRPN`: pop to the output until the top is `(`, then drop the
`(` when the stack is not empty. -/
def rpnPopToLeftParen : List String → List String → List String × List String
  | [], output => ([], output)
  | top :: stack, output =>
    if top ≠ "(" then rpnPopToLeftParen stack (output ++ [top])
    else (stack, output)

/-- The main loop of `infixToRPN` over the remaining tokens, with the stack (top first) and
the output, followed by the final loop that pops the whole stack to the output. -/
def infixToRPNLoop : List String → List String → List String → List String
  | [], stack, output => output ++ stack
  | token :: rest, stack, output =>
    if isOperatorString token then
      infixToRPNLoop rest (token :: (rpnPopOperators token stack output).1)
        (rpnPopOperators token stack output).2
    else if token = "(" then infixToRPNLoop rest (token :: stack) output
    else if token = ")" then
      infixToRPNLoop rest (rpnPopToLeftParen stack output).1 (rpnPopToLeftParen stack output).2
    else infixToRPNLoop rest stack (output ++ [token])

/-- Go `infixToRPN` of parser.go. -/
def infixToRPN (tokens : List String) : List String :=
  infixToRPNLoop tokens [] []

/-- The loop of `tokenize` of parser.go over the remaining characters, with the characters
of the builder `num` and the tokens so far, followed by the final flush of `num`. -/
def tokenizeChars : List Char → List Char → List String → List String
  | [], num, tokens => if num ≠ [] then tokens ++ [String.mk num] else tokens
  | c :: rest, num, tokens =>
    if c = '+' ∨ c = '-' ∨ c = '*' ∨ c = '/' ∨ c = '(' ∨ c = ')' then
      tokenizeChars rest []
        ((if num ≠ [] then tokens ++ [String.mk num] else tokens) ++ [String.singleton c])
    else tokenizeChars rest (num ++ [c]) tokens

/-- The call `strings.ReplaceAll(expr, " ", "")`, on the characters of the string. -/
def stripSpaces (expr : String) : List Char :=
  expr.toList.filter (fun c => c != ' ')

/-- Go `tokenize` of parser.go.  The loop of the source indexes bytes; it cuts the text at
the bytes `+ - * / ( )` only and copies every other byte to the token being read, so that
the tokens are the same pieces of text when the loop is run over the characters. -/
def tokenize (expr : String) : List String :=
  tokenizeChars (stripSpaces expr) [] []

/-- The task that the operator case of `ParseExpression` builds from the two operands
popped: an operand that `strconv.ParseFloat` reads gives its value, any other gives 0 and
is appended to `DependsOn`. -/
def parsedTask {F : Type} (A : Arith F) (taskID token arg1ID arg2ID : String) : TypesTask F :=
  { ID := taskID
    Operation := token
    Arg1 := (A.parseFloat arg1ID).getD A.zero
    Arg2 := (A.parseFloat arg2ID).getD A.zero
    OperationTime := 0
    Priority := if token = "*" ∨ token = "/" then 2 else 1
    DependsOn :=
      (if (A.parseFloat arg1ID).isSome then [] else [arg1ID]) ++
        (if (A.parseFloat arg2ID).isSome then [] else [arg2ID]) }

/-- The loop `for _, token := range rpn` of `ParseExpression`, with the stack (top first),
the number of ids minted and the tasks so far. -/
def parseTasksLoop {F : Type} (A : Arith F) (env : Env) :
    List String → List String → Nat → List (TypesTask F) → Except String (List (TypesTask F))
  | [], _, _, tasks => Except.ok tasks
  | token :: rest, stack, k, tasks =>
    if isOperatorString token then
      match stack with
      | arg2ID :: arg1ID :: stack' =>
        parseTasksLoop A env rest (env.UUID k :: stack') (k + 1)
          (tasks ++ [parsedTask A (env.UUID k) token arg1ID arg2ID])
      | _ => Except.error "invalid expression"
    else parseTasksLoop A env rest (token :: stack) k tasks

/-- Go `ParseExpression`, in the arithmetic `A`, whose `parseFloat` stands for
`strconv.ParseFloat` on every operand: a piece of the text or an id. -/
def ParseExpression {F : Type} (A : Arith F) (env : Env) (expr : String) :
    Except String (List (TypesTask F)) :=
  parseTasksLoop A env (infixToRPN (tokenize expr)) [] 0 []

/-! ## The dispatch cycle on one expression -/

/-- The tasks that the worker receives during the rounds of `dispatchCycle`, in order. -/
def dispatchLog : List (List String) → TaskManager → List Task
  | [], _ => []
  | order :: orders, tm =>
    match GetNextTask tm order with
    | (tm1, task, true) =>
      task :: dispatchLog orders
        (SubmitTaskResult tm1
          { ID := task.ID,
            Result := getOperationResult task.Operation task.Arg1 task.Arg2 }).1
    | (_, _, false) => []

/-- The invariant of the dispatch cycle on a manager that holds the single expression `e`,
created with the plan `ns`: `R` lists the ids of the tasks not yet handed out; the tasks of
`R` are in the task map with their dependency entries, the other tasks of the plan have a
result, and, when `good` holds, the result is the value of the node. -/
structure DispatchInv (env : Env) (e : String) (hdr : Expression) (ns : List PlanNode)
    (good : Prop) (R : List String) (tm : TaskManager) : Prop where
  header : tm.expressions.get? e = some hdr
  list : tm.expressionTasks.get? e = some (ns.map PlanNode.id)
  owner : ∀ n ∈ ns, tm.taskToExpression.get? n.id = some e
  remaining : ∀ x ∈ R, x ∈ ns.map PlanNode.id
  nodup : R.Nodup
  tasksIn : ∀ n ∈ ns, n.id ∈ R →
    tm.tasks.get? n.id = some (n.task env) ∧ tm.dependsOnTask.get? n.id = n.entry
  tasksOut : ∀ x, (tm.tasks.get? x).isSome = true → x ∈ R
  results : ∀ x, (tm.taskResults.get? x).isSome = true ↔ (x ∈ ns.map PlanNode.id ∧ x ∉ R)
  values : good → ∀ n ∈ ns, n.id ∉ R → tm.taskResults.get? n.id = some n.value

/-- What the dispatch cycle uses of a plan: its operands are numbers or earlier nodes, its
ids are pairwise distinct, `last` is its last node, and, when `good` holds, its number
operands are not zero. -/
structure PlanFacts (ns : List PlanNode) (good : Prop) (last : PlanNode) : Prop where
  ok : PlanOK [] ns
  nodup : (ns.map PlanNode.id).Nodup
  last : ns.getLast? = some last
  lits : good → ∀ n ∈ ns,
    (n.left.isNum = true → n.left.value ≠ 0) ∧ (n.right.isNum = true → n.right.value ≠ 0)

/-! ## Ownership and liveness of the task lists -/

/-- Each task id of a task list is recorded as a task of the expression of the list. -/
def OwnerOf (tm : TaskManager) : Prop :=
  ∀ e l, tm.expressionTasks.get? e = some l →
    ∀ t ∈ l, tm.taskToExpression.get? t = some e

/-- Freshness of the ids minted by a call with respect to the results received: no result
was submitted under an id that `uuid.New()` returns during a `CreateExpression`. -/
def Call.FreshResults (tm : TaskManager) : Call → Prop
  | Call.create _ _ env => ∀ k, tm.taskResults.get? (env.UUID k) = none
  | _ => True

/-- The states reachable from an empty manager by calls of `CreateExpression`,
`GetNextTask` and `SubmitTaskResult`, the ids minted by a call being fresh also with
respect to the results received. -/
inductive ReachableFresh : TaskManager → Set String → List String → Prop
  | init : ReachableFresh NewTaskManager ∅ []
  | step {tm : TaskManager} {seen : Set String} {handed : List String} (c : Call) :
      ReachableFresh tm seen handed → c.Fresh seen → c.FreshResults tm →
      ReachableFresh (c.run tm) (c.seenAfter seen) (c.handedAfter tm handed)

/-- The liveness invariant: an expression that is `PROCESSING` has a task list with a task
without result; a task of a task list that was not handed out is in the task map; and the
ids of a dependency entry of a task come before the task in its list. -/
structure LiveInv (tm : TaskManager) (handed : List String) : Prop where
  pending : ∀ e x, tm.expressions.get? e = some x → x.Status = "PROCESSING" →
    ∃ l, tm.expressionTasks.get? e = some l ∧ ∃ t ∈ l, tm.taskResults.get? t = none
  inMap : ∀ e l, tm.expressionTasks.get? e = some l →
    ∀ t ∈ l, t ∉ handed → (tm.tasks.get? t).isSome = true
  depsBefore : ∀ e l, tm.expressionTasks.get? e = some l →
    ∀ pre t post, l = pre ++ t :: post →
    ∀ ds, tm.dependsOnTask.get? t = some ds → ∀ d ∈ ds, d ∈ pre

/-- A second test environment, with the ids `v`, `vv`, `vvv`, ... -/
def testEnv2 : Env :=
  { Getenv := fun _ => "", Now := "02.01.2025 00:00:00",
    UUID := fun k => String.mk (List.replicate (k + 1) 'v') }

/-- A session with two expressions: `2+3` is created with the ids of `testEnv` and `4*5`
with the ids of `testEnv2`, then the task `uu` of `2+3` is fetched. -/
def twoExpressionCalls : List Call :=
  [Call.create "2+3" 1 testEnv, Call.create "4*5" 2 testEnv2, Call.getNext ["uu", "vv"]]

/-- A session in which a result is submitted under the id `uu` before `2+3` is created with
the ids of `testEnv`, so that the task `uu` of `2+3` has a result before it is fetched. -/
def earlyResultCalls : List Call :=
  [Call.submit { ID := "uu", Result := 9 }, Call.create "2+3" 1 testEnv,
   Call.getNext ["uu"]]

/-- A session on `1+2*3`: the expression is created, then the task `2*3` is fetched and
answered. -/
def halfDoneCalls : List Call :=
  [Call.create "1+2*3" 1 testEnv, Call.getNext ["uu", "uuu"],
   Call.submit { ID := "uu", Result := 6 }]

/-! ## The canonical form, in the words of the specification -/

/-- The strings joined by single spaces, as `strings.Join(values, " ")`. -/
def joinSpaces : List String → String
  | [] => ""
  | [s] => s
  | s :: t :: rest => s ++ " " ++ joinSpaces (t :: rest)

/-- The canonical form of the specification: the values of the postfix tokens joined by
single spaces. -/
def canonicalForm (rpn : List Token) : String :=
  joinSpaces (rpn.map Token.Value)

/-- The operator bytes `+ - * /`. -/
def isOperatorChar (c : Char) : Bool :=
  c == '+' || c == '-' || c == '*' || c == '/'

/-! ## The validation at the head of `CreateExpression`, in any arithmetic -/

/-- The statements of `CreateExpression` up to the return of the validation error, in the
arithmetic `A`: the manager and the error when the function returns there, `none` when it
goes on to tokenize the text for the manager. -/
def CreateExpressionValidation {F : Type} (A : Arith F) (tm : TaskManager)
    (expressionText : String) : Option (TaskManager × Except String String) :=
  if expressionText = "" then some (tm, Except.error "empty expression")
  else
    match CalculateIn A NewCalculator expressionText with
    | (_, Except.error errStr) => some (tm, Except.error (classifyError errStr))
    | (_, Except.ok _) => none

/-! ## The evaluation of a parse tree in any arithmetic, in the words of the specification -/

/-- The value of an operator on two numbers in the arithmetic `A`; a division by a number
equal to zero has none. -/
def BinOp.applyIn {F : Type} (A : Arith F) : BinOp → F → F → Option F
  | BinOp.add, a, b => some (A.add a b)
  | BinOp.sub, a, b => some (A.sub a b)
  | BinOp.mul, a, b => some (A.mul a b)
  | BinOp.div, a, b => if A.isZero b = true then none else some (A.div a b)

namespace ParseTree

/-- The literals of the tree, left to right. -/
def literals : ParseTree → List String
  | num literal => [literal]
  | paren e => e.literals
  | bin _ l r => l.literals ++ r.literals

/-- The value of the tree in the arithmetic `A`, operands first; none when a literal is
not read or a division has a right operand equal to zero. -/
def valueIn {F : Type} (A : Arith F) : ParseTree → Option F
  | num literal => A.parseFloat literal
  | paren e => e.valueIn A
  | bin op l r =>
    match l.valueIn A, r.valueIn A with
    | some a, some b => op.applyIn A a b
    | _, _ => none

/-- Evaluating the postfix form of the tree left to right in the arithmetic `A`, some `/`
is applied to a right operand equal to zero.  The postfix form of an operation lists the
left operand, the right operand, then the operator: the division by zero is met in the left
operand, or the left operand has a value and it is met in the right operand, or both have
a value, the operator is `/` and the value of the right operand is equal to zero. -/
def dividesByZeroIn {F : Type} (A : Arith F) : ParseTree → Prop
  | num _ => False
  | paren e => e.dividesByZeroIn A
  | bin op l r =>
    l.dividesByZeroIn A ∨
      ((l.valueIn A).isSome = true ∧
        (r.dividesByZeroIn A ∨
          (op = BinOp.div ∧ ∃ b, r.valueIn A = some b ∧ A.isZero b = true)))

/-- The outcome of the evaluation of the postfix form of the tree left to right in the
arithmetic `A`: the value, or the error of the first step that fails. -/
def evalIn {F : Type} (A : Arith F) : ParseTree → Except String F
  | num literal =>
    match A.parseFloat literal with
    | some v => Except.ok v
    | none => Except.error ("invalid number: " ++ literal)
  | paren e => e.evalIn A
  | bin op l r =>
    match l.evalIn A with
    | Except.error err => Except.error err
    | Except.ok a =>
      match r.evalIn A with
      | Except.error err => Except.error err
      | Except.ok b =>
        match op.applyIn A a b with
        | some v => Except.ok v
        | none => Except.error "division by zero"

end ParseTree

/-! ## The operands of the operations of a postfix form, in the words of the specification -/

/-- An operand of an operation: a literal of the text, or the result of an earlier
operation, named by the id of the task of that operation. -/
inductive Operand
  | literal (text : String)
  | pending (taskID : String)
  deriving DecidableEq, Repr

namespace Operand

/-- The text of the operand as the parser holds it: the literal, or the id of the task. -/
def text : Operand → String
  | literal s => s
  | pending taskID => taskID

/-- The id of the task the operand waits for: none for a literal, one for the result of an
earlier operation. -/
def pendingIDs : Operand → List String
  | literal _ => []
  | pending taskID => [taskID]

end Operand

/-- An item of a postfix form: an operand or an operator. -/
inductive RpnItem
  | operand (text : String)
  | operator (symbol : String)
  deriving DecidableEq, Repr

/-- The items of the postfix form of the calculator: a Number token is an operand, an
Operator token an operator. -/
def tokenItems : List Token → List RpnItem
  | [] => []
  | t :: rest =>
    match t.Typ with
    | TokenType.Number => RpnItem.operand t.Value :: tokenItems rest
    | TokenType.Operator => RpnItem.operator t.Value :: tokenItems rest
    | _ => tokenItems rest

namespace ParseTree

/-- The number of operations of the tree. -/
def operators : ParseTree → Nat
  | num _ => 0
  | paren e => e.operators
  | bin _ l r => l.operators + r.operators + 1

/-- The operand that the tree is, when its operations get the ids `uuid k`, `uuid (k + 1)`,
... in post-order: a literal is a literal operand, a parenthesised expression is the
operand that its content is, and an operation is the result of its own task, the last one
of its subtree. -/
def operand (uuid : Nat → String) (k : Nat) : ParseTree → Operand
  | num literal => Operand.literal literal
  | paren e => e.operand uuid k
  | bin _ l r => Operand.pending (uuid (k + l.operators + r.operators))

end ParseTree

/-! ## The arithmetic of IEEE 754 binary64 -/

/-- The values of `float64`, the two zeros taken as one: a finite value, written as the
rational number it is, an infinity, or NaN. -/
inductive Float64
  | finite (q : ℚ)
  | inf (negative : Bool)
  | nan
  deriving Repr

/-- Equality of two values of `float64`, decided by comparing the numbers. -/
instance : DecidableEq Float64 := fun x y =>
  match x, y with
  | Float64.finite a, Float64.finite b =>
    if h : a ≤ b ∧ b ≤ a then isTrue (by rw [le_antisymm h.1 h.2])
    else isFalse (fun e => h (by cases e; exact ⟨le_refl _, le_refl _⟩))
  | Float64.inf s, Float64.inf t =>
    if h : s = t then isTrue (by rw [h]) else isFalse (fun e => h (by cases e; rfl))
  | Float64.nan, Float64.nan => isTrue rfl
  | Float64.finite _, Float64.inf _ => isFalse (fun e => by cases e)
  | Float64.finite _, Float64.nan => isFalse (fun e => by cases e)
  | Float64.inf _, Float64.finite _ => isFalse (fun e => by cases e)
  | Float64.inf _, Float64.nan => isFalse (fun e => by cases e)
  | Float64.nan, Float64.finite _ => isFalse (fun e => by cases e)
  | Float64.nan, Float64.inf _ => isFalse (fun e => by cases e)

/-- The position of the leading binary digit of `n`, by halving; `fuel` bounds the number
of halvings. -/
def log2Fuel : Nat → Nat → Nat
  | 0, _ => 0
  | fuel + 1, n => if n < 2 then 0 else log2Fuel fuel (n / 2) + 1

/-- The power `2 ^ e` for an integer exponent; `Nat.shiftLeft 1 n` is `2 ^ n`. -/
def pow2 (e : Int) : ℚ :=
  if 0 ≤ e then ((Nat.shiftLeft 1 e.toNat : Nat) : ℚ)
  else 1 / ((Nat.shiftLeft 1 (-e).toNat : Nat) : ℚ)

/-- The integer `e` with `2 ^ e ≤ q < 2 ^ (e + 1)`, for a positive rational `q`. -/
def floorLog2 (q : ℚ) : Int :=
  let e0 : Int :=
    (log2Fuel q.num.natAbs q.num.natAbs : Int) - (log2Fuel q.den q.den : Int)
  if q < pow2 e0 then e0 - 1 else e0

/-- The rounding of IEEE 754 binary64, to nearest with ties to even: 53 binary digits for a
magnitude from `2 ^ (-1022)` on, multiples of `2 ^ (-1074)` below, and an infinity when the
rounded magnitude reaches `2 ^ 1024`. -/
def roundToFloat64 (q : ℚ) : Float64 :=
  if q = 0 then Float64.finite 0
  else
    let a : ℚ := if q < 0 then -q else q
    let e : Int := max (floorLog2 a) (-1022)
    let ulp : ℚ := pow2 (e - 52)
    let m : ℚ := a / ulp
    let f : Int := m.num / (m.den : Int)
    let r : ℚ := m - (f : ℚ)
    let n : Int :=
      if r < 1 / 2 then f
      else if 1 / 2 < r then f + 1
      else if f % 2 = 0 then f
      else f + 1
    let v : ℚ := (n : ℚ) * ulp
    if pow2 1024 ≤ v then Float64.inf (decide (q < 0))
    else Float64.finite (if q < 0 then -v else v)

namespace Float64

/-- The sum `a + b` of `float64`. -/
def add : Float64 → Float64 → Float64
  | finite a, finite b => roundToFloat64 (a + b)
  | finite _, inf t => inf t
  | inf s, finite _ => inf s
  | inf s, inf t => if s = t then inf s else nan
  | _, _ => nan

/-- The difference `a - b` of `float64`. -/
def sub : Float64 → Float64 → Float64
  | finite a, finite b => roundToFloat64 (a - b)
  | finite _, inf t => inf (!t)
  | inf s, finite _ => inf s
  | inf s, inf t => if s = t then nan else inf s
  | _, _ => nan

/-- The product `a * b` of `float64`. -/
def mul : Float64 → Float64 → Float64
  | finite a, finite b => roundToFloat64 (a * b)
  | finite a, inf t => if a = 0 then nan else inf (xor (decide (a < 0)) t)
  | inf s, finite b => if b = 0 then nan else inf (xor s (decide (b < 0)))
  | inf s, inf t => inf (xor s t)
  | _, _ => nan

/-- The quotient `a / b` of `float64`.  The calculator tests `b == 0` before it divides, so
that the sign of a zero divisor, which this type does not keep, plays no part. -/
def div : Float64 → Float64 → Float64
  | finite a, finite b =>
    if b = 0 then (if a = 0 then nan else inf (decide (a < 0)))
    else roundToFloat64 (a / b)
  | finite _, inf _ => finite 0
  | inf s, finite b => inf (xor s (decide (b < 0)))
  | _, _ => nan

/-- The test `x == 0` of `float64`. -/
def isZero : Float64 → Bool
  | finite q => decide (q = 0)
  | _ => false

end Float64

/-- The arithmetic of `float64`.  On a string of digits and dots `strconv.ParseFloat`
returns the `float64` nearest to the decimal number, and a range error when that is an
infinity; `ParseFloat` reads the decimal number.  The reader stands for
`strconv.ParseFloat` on these strings and on the strings that are no number in any syntax;
it does not read the other syntaxes of `strconv.ParseFloat` (a sign, an exponent, a
hexadecimal number, `inf`, `nan`), which the tokenizer of the calculator never produces. -/
def float64Arith : Arith Float64 :=
  { parseFloat := fun s =>
      match ParseFloat s with
      | none => none
      | some q =>
        match roundToFloat64 q with
        | Float64.finite v => some (Float64.finite v)
        | _ => none
    add := Float64.add
    sub := Float64.sub
    mul := Float64.mul
    div := Float64.div
    isZero := Float64.isZero
    zero := Float64.finite 0 }

/-- The parse tree of `1/(0.1+0.2-0.3)`. -/
def exampleCancellation : ParseTree :=
  ParseTree.bin BinOp.div (ParseTree.num "1")
    (ParseTree.paren
      (ParseTree.bin BinOp.sub
        (ParseTree.bin BinOp.add (ParseTree.num "0.1") (ParseTree.num "0.2"))
        (ParseTree.num "0.3")))

/-- The decimal literal of `10 ^ (-200)`. -/
def tinyLiteral : String :=
  "0.00000000000000000000000000000000000000000000000000000000000000000000000000000000000000000000000000000000000000000000000000000000000000000000000000000000000000000000000000000000000000000000000000000001"

/-- The parse tree of `1/(t*t)`, `t` being the literal of `10 ^ (-200)`. -/
def exampleUnderflow : ParseTree :=
  ParseTree.bin BinOp.div (ParseTree.num "1")
    (ParseTree.paren (ParseTree.bin BinOp.mul (ParseTree.num tinyLiteral)
      (ParseTree.num tinyLiteral)))

namespace GoMap

variable {V : Type}

theorem get?_empty (k : String) : (empty : GoMap V).get? k = none := rfl

theorem get?_nil (k : String) : get? ([] : GoMap V) k = none := rfl

theorem get?_cons (k' : String) (v : V) (rest : GoMap V) (k : String) :
    get? ((k', v) :: rest : GoMap V) k = if k' = k then some v else get? rest k := rfl

theorem get?_del (m : GoMap V) (k k' : String) :
    (m.del k).get? k' = if k' = k then none else m.get? k' := by
  induction m with
  | nil => simp [del, get?_nil]
  | cons p rest ih =>
    obtain ⟨a, b⟩ := p
    unfold del at ih ⊢
    by_cases hak : a = k
    · subst hak
      simp only [List.filter, ne_eq, not_true_eq_false, decide_False]
      rw [ih, get?_cons]
      by_cases h : k' = a
      · simp [h]
      · have h2 : ¬ a = k' := fun e => h e.symm
        simp [h, h2]
    · simp only [List.filter, ne_eq, hak, not_false_eq_true, decide_True]
      rw [get?_cons, get?_cons, ih]
      by_cases h : a = k'
      · subst h
        simp [hak]
      · simp [h]

theorem get?_append_singleton (m : GoMap V) (k : String) (v : V) (k' : String) :
    get? (List.append m [(k, v)] : GoMap V) k' =
      match get? m k' with
      | some x => some x
      | none => if k = k' then some v else none := by
  induction m with
  | nil => simp [get?]
  | cons p rest ih =>
    obtain ⟨a, b⟩ := p
    show get? ((a, b) :: List.append rest [(k, v)] : GoMap V) k' = _
    rw [get?_cons, get?_cons]
    by_cases h : a = k'
    · simp [h]
    · simp only [h, if_false]
      exact ih

theorem get?_set (m : GoMap V) (k : String) (v : V) (k' : String) :
    (m.set k v).get? k' = if k' = k then some v else m.get? k' := by
  unfold set
  rw [get?_append_singleton, get?_del]
  by_cases h : k' = k
  · subst h
    simp
  · have h2 : ¬ k = k' := fun e => h e.symm
    simp only [h, h2, if_false]
    cases get? m k' <;> rfl

theorem get?_set_self (m : GoMap V) (k : String) (v : V) : (m.set k v).get? k = some v := by
  simp [get?_set]

theorem get?_set_of_ne (m : GoMap V) (k : String) (v : V) (k' : String) (h : k' ≠ k) :
    (m.set k v).get? k' = m.get? k' := by
  simp [get?_set, h]

theorem get?_del_self (m : GoMap V) (k : String) : (m.del k).get? k = none := by
  simp [get?_del]

theorem get?_del_of_ne (m : GoMap V) (k k' : String) (h : k' ≠ k) :
    (m.del k).get? k' = m.get? k' := by
  simp [get?_del, h]

theorem mem_del (m : GoMap V) (k : String) (p : String × V) :
    p ∈ (m.del k).entries ↔ p ∈ m.entries ∧ p.1 ≠ k := by
  unfold del entries
  simp [List.mem_filter]

theorem mem_set (m : GoMap V) (k : String) (v : V) (p : String × V) :
    p ∈ (m.set k v).entries ↔ (p ∈ m.entries ∧ p.1 ≠ k) ∨ p = (k, v) := by
  unfold set
  show p ∈ (del m k).entries ++ [(k, v)] ↔ _
  rw [List.mem_append, mem_del]
  simp

theorem mem_of_get? (m : GoMap V) (k : String) (v : V) (h : m.get? k = some v) :
    (k, v) ∈ m.entries := by
  induction m with
  | nil => simp [get?] at h
  | cons p rest ih =>
    obtain ⟨a, b⟩ := p
    rw [get?_cons] at h
    by_cases hak : a = k
    · subst hak
      simp only [if_true, Option.some.injEq] at h
      subst h
      exact List.mem_cons_self _ _
    · simp only [hak, if_false] at h
      exact List.mem_cons_of_mem _ (ih h)

theorem get?_isSome_of_mem (m : GoMap V) (k : String) (v : V) (h : (k, v) ∈ m.entries) :
    (m.get? k).isSome = true := by
  induction m with
  | nil => simp [entries] at h
  | cons p rest ih =>
    obtain ⟨a, b⟩ := p
    rw [get?_cons]
    by_cases hak : a = k
    · simp [hak]
    · simp only [hak, if_false]
      apply ih
      have h2 : (k, v) = (a, b) ∨ (k, v) ∈ rest := List.mem_cons.mp h
      rcases h2 with h2 | h2
      · exact absurd (congrArg Prod.fst h2).symm hak
      · exact h2

theorem get?_eq_none_of_not_mem (m : GoMap V) (k : String)
    (h : ∀ v, (k, v) ∉ m.entries) : m.get? k = none := by
  cases hg : m.get? k with
  | none => rfl
  | some v => exact absurd (mem_of_get? m k v hg) (h v)

end GoMap

namespace GoMap

variable {V : Type}

theorem get?_foldl_del (l : List String) (m : GoMap V) (k : String) :
    (l.foldl del m).get? k = if k ∈ l then none else m.get? k := by
  induction l generalizing m with
  | nil => simp
  | cons a rest ih =>
    rw [List.foldl_cons, ih, get?_del]
    by_cases h1 : k ∈ rest
    · simp [h1]
    · by_cases h2 : k = a
      · simp [h2]
      · simp [h1, h2]

theorem mem_foldl_del (l : List String) (m : GoMap V) (p : String × V) :
    p ∈ (l.foldl del m).entries ↔ p ∈ m.entries ∧ p.1 ∉ l := by
  induction l generalizing m with
  | nil => simp
  | cons a rest ih =>
    rw [List.foldl_cons, ih, mem_del]
    simp only [List.mem_cons, not_or]
    tauto

end GoMap

/-! ## The tokenizer never runs out of fuel -/

/-- With at least as much fuel as remaining bytes, the loop of `Tokenize` does not depend
on the fuel: the fuel given by `Tokenize` is never exhausted. -/
theorem tokenizeLoop_fuel (fuel : Nat) :
    ∀ (cs : List Char) (acc : List Token), cs.length ≤ fuel →
      tokenizeLoop (fuel + 1) cs acc = tokenizeLoop fuel cs acc := by
  induction fuel with
  | zero =>
    intro cs acc hlen
    have hnil : cs = [] := List.length_eq_zero.mp (Nat.le_zero.mp hlen)
    subst hnil
    rfl
  | succ n ih =>
    intro cs acc hlen
    cases cs with
    | nil => rfl
    | cons c rest =>
      have hrest : rest.length ≤ n := by
        simp only [List.length_cons] at hlen
        omega
      have hdrop : (rest.dropWhile isNumberChar).length ≤ n :=
        le_trans (List.Sublist.length_le (List.dropWhile_sublist _)) hrest
      rw [tokenizeLoop, tokenizeLoop]
      split_ifs
      · exact ih _ _ hrest
      · exact ih _ _ hrest
      · exact ih _ _ hrest
      · exact ih _ _ hdrop
      · rfl

/-! ## GetNextTask -/

theorem substituteArgs_ID (tm : TaskManager) (task : Task) (deps : List String) :
    (substituteArgs tm task deps).ID = task.ID := by
  unfold substituteArgs
  simp only
  split_ifs <;> rfl

theorem substituteArgs_Operation (tm : TaskManager) (task : Task) (deps : List String) :
    (substituteArgs tm task deps).Operation = task.Operation := by
  unfold substituteArgs
  simp only
  split_ifs <;> rfl

theorem substituteArgs_Priority (tm : TaskManager) (task : Task) (deps : List String) :
    (substituteArgs tm task deps).Priority = task.Priority := by
  unfold substituteArgs
  simp only
  split_ifs <;> rfl

theorem substituteArgs_OperationTime (tm : TaskManager) (task : Task) (deps : List String) :
    (substituteArgs tm task deps).OperationTime = task.OperationTime := by
  unfold substituteArgs
  simp only
  split_ifs <;> rfl

theorem GetNextTaskOutcome_skip (tm : TaskManager) (id : String) (rest : List String)
    (ih : GetNextTaskOutcome tm rest)
    (hstep : GetNextTask tm (id :: rest) = GetNextTask tm rest)
    (hnot : (tm.tasks.get? id).isSome = true → isReady tm id = false) :
    GetNextTaskOutcome tm (id :: rest) := by
  rcases ih with ⟨h1, h2⟩ | ⟨id', task0, hmem, hget, hready, hres⟩
  · left
    refine ⟨by rw [hstep, h1], ?_⟩
    intro x hx
    rcases List.mem_cons.mp hx with hx | hx
    · subst hx
      exact hnot
    · exact h2 x hx
  · right
    refine ⟨id', task0, List.mem_cons_of_mem _ hmem, hget, hready, ?_⟩
    rw [hstep]
    exact hres

/-- What a call of `GetNextTask` does. -/
theorem GetNextTask_spec (tm : TaskManager) (order : List String) :
    GetNextTaskOutcome tm order := by
  induction order with
  | nil =>
    left
    exact ⟨rfl, by simp⟩
  | cons id rest ih =>
    cases hg : tm.tasks.get? id with
    | none =>
      apply GetNextTaskOutcome_skip tm id rest ih
      · simp [GetNextTask, hg]
      · simp [hg]
    | some task =>
      cases hd : tm.dependsOnTask.get? id with
      | none =>
        right
        refine ⟨id, task, List.mem_cons_self _ _, hg, by simp [isReady, hd], Or.inl ⟨Or.inl hd, ?_⟩⟩
        simp [GetNextTask, hg, hd]
      | some deps =>
        by_cases hlen : deps.length = 0
        · have hnil : deps = [] := List.length_eq_zero.mp hlen
          subst hnil
          right
          refine ⟨id, task, List.mem_cons_self _ _, hg, by simp [isReady, hd],
            Or.inl ⟨Or.inr hd, ?_⟩⟩
          simp [GetNextTask, hg, hd]
        · by_cases hall : deps.all (fun depID => (tm.taskResults.get? depID).isSome) = true
          · right
            refine ⟨id, task, List.mem_cons_self _ _, hg, by simp [isReady, hd, hall],
              Or.inr ⟨deps, ?_, hd, ?_⟩⟩
            · intro h
              exact hlen (by simp [h])
            · simp only [GetNextTask, hg, hd, hlen, if_false, hall, if_true]
          · apply GetNextTaskOutcome_skip tm id rest ih
            · simp only [GetNextTask, hg, hd, hlen, if_false, hall]
              rfl
            · intro _
              simp only [isReady, hd]
              simpa using hall

/-! ## SubmitTaskResult -/

/-- What a call of `SubmitTaskResult` does. -/
theorem SubmitTaskResult_spec (tm : TaskManager) (result : TaskResult) :
    SubmitOutcome tm result := by
  unfold SubmitOutcome
  simp only
  cases hte : tm.taskToExpression.get? result.ID with
  | none =>
    left
    simp [SubmitTaskResult, hte]
  | some exprID =>
    cases het : tm.expressionTasks.get? exprID with
    | none =>
      left
      simp [SubmitTaskResult, hte, het]
    | some taskIDs =>
      by_cases hall : taskIDs.all (fun taskID =>
          ((tm.taskResults.set result.ID result.Result).get? taskID).isSome) = true
      · cases hex : tm.expressions.get? exprID with
        | none =>
          left
          simp only [SubmitTaskResult, hte, het, hall, hex, if_true]
          refine ⟨trivial, trivial, Or.inr ⟨exprID, rfl, Or.inr ⟨taskIDs, het, Or.inr (Or.inl hex)⟩⟩⟩
        | some expr =>
          by_cases hroot : findRootTaskID
              { tm with taskResults := tm.taskResults.set result.ID result.Result } taskIDs = ""
          · cases hlast : taskIDs.getLast? with
            | none =>
              left
              have hnil : taskIDs = [] := List.getLast?_eq_none_iff.mp hlast
              simp only [SubmitTaskResult, hte, het, hall, hex, if_true, hroot, hlast]
              refine ⟨?_, ?_, Or.inr ⟨exprID, rfl, Or.inr ⟨taskIDs, het, Or.inr (Or.inr hnil)⟩⟩⟩
              · simp
              · simp
            | some lastTaskID =>
              right
              refine ⟨exprID, taskIDs, expr, lastTaskID, rfl, het, hall, hex,
                Or.inr ⟨hroot, hlast⟩, ?_⟩
              simp only [SubmitTaskResult, hte, het, hall, hex, if_true, hroot, hlast]
              simp
          · right
            refine ⟨exprID, taskIDs, expr, _, rfl, het, hall, hex, Or.inl ⟨hroot, rfl⟩, ?_⟩
            simp only [SubmitTaskResult, hte, het, hall, hex, if_true]
            rw [if_pos (show _ ≠ "" from hroot)]
      · left
        have hall2 : taskIDs.all (fun taskID =>
          ((tm.taskResults.set result.ID result.Result).get? taskID).isSome) = false := by
          simpa using hall
        simp only [SubmitTaskResult, hte, het, hall]
        refine ⟨?_, ?_, Or.inr ⟨exprID, rfl, Or.inr ⟨taskIDs, het, Or.inl hall2⟩⟩⟩
        · simp
        · simp

/-! ## The cleanup loop -/

theorem foldl_deleteTask_fields (l : List String) (tm : TaskManager) :
    (l.foldl deleteTask tm).expressions = tm.expressions ∧
    (l.foldl deleteTask tm).expressionTasks = tm.expressionTasks ∧
    (l.foldl deleteTask tm).userIDs = tm.userIDs ∧
    (l.foldl deleteTask tm).calc_ = tm.calc_ ∧
    (l.foldl deleteTask tm).tasks = l.foldl GoMap.del tm.tasks ∧
    (l.foldl deleteTask tm).taskResults = l.foldl GoMap.del tm.taskResults ∧
    (l.foldl deleteTask tm).taskToExpression = l.foldl GoMap.del tm.taskToExpression ∧
    (l.foldl deleteTask tm).dependsOnTask = l.foldl GoMap.del tm.dependsOnTask := by
  induction l generalizing tm with
  | nil => simp
  | cons a rest ih =>
    simp only [List.foldl_cons]
    obtain ⟨h1, h2, h3, h4, h5, h6, h7, h8⟩ := ih (deleteTask tm a)
    exact ⟨h1, h2, h3, h4, h5, h6, h7, h8⟩

theorem cleanup_expressions (tm : TaskManager) (e : String) (l : List String) :
    (cleanup tm e l).expressions = tm.expressions :=
  (foldl_deleteTask_fields l tm).1

theorem cleanup_userIDs (tm : TaskManager) (e : String) (l : List String) :
    (cleanup tm e l).userIDs = tm.userIDs :=
  (foldl_deleteTask_fields l tm).2.2.1

theorem cleanup_expressionTasks (tm : TaskManager) (e : String) (l : List String) :
    (cleanup tm e l).expressionTasks = tm.expressionTasks.del e := by
  show ((l.foldl deleteTask tm).expressionTasks).del e = _
  rw [(foldl_deleteTask_fields l tm).2.1]

theorem cleanup_tasks_get? (tm : TaskManager) (e : String) (l : List String) (id : String) :
    (cleanup tm e l).tasks.get? id = if id ∈ l then none else tm.tasks.get? id := by
  show ((l.foldl deleteTask tm).tasks).get? id = _
  rw [(foldl_deleteTask_fields l tm).2.2.2.2.1, GoMap.get?_foldl_del]

theorem cleanup_taskResults_get? (tm : TaskManager) (e : String) (l : List String)
    (id : String) :
    (cleanup tm e l).taskResults.get? id = if id ∈ l then none else tm.taskResults.get? id := by
  show ((l.foldl deleteTask tm).taskResults).get? id = _
  rw [(foldl_deleteTask_fields l tm).2.2.2.2.2.1, GoMap.get?_foldl_del]

theorem cleanup_taskToExpression_get? (tm : TaskManager) (e : String) (l : List String)
    (id : String) :
    (cleanup tm e l).taskToExpression.get? id =
      if id ∈ l then none else tm.taskToExpression.get? id := by
  show ((l.foldl deleteTask tm).taskToExpression).get? id = _
  rw [(foldl_deleteTask_fields l tm).2.2.2.2.2.2.1, GoMap.get?_foldl_del]

theorem cleanup_dependsOnTask_get? (tm : TaskManager) (e : String) (l : List String)
    (id : String) :
    (cleanup tm e l).dependsOnTask.get? id =
      if id ∈ l then none else tm.dependsOnTask.get? id := by
  show ((l.foldl deleteTask tm).dependsOnTask).get? id = _
  rw [(foldl_deleteTask_fields l tm).2.2.2.2.2.2.2, GoMap.get?_foldl_del]

theorem cleanup_dependsOnTask_mem (tm : TaskManager) (e : String) (l : List String)
    (p : String × List String) :
    p ∈ (cleanup tm e l).dependsOnTask.entries ↔ p ∈ tm.dependsOnTask.entries ∧ p.1 ∉ l := by
  show p ∈ ((l.foldl deleteTask tm).dependsOnTask).entries ↔ _
  rw [(foldl_deleteTask_fields l tm).2.2.2.2.2.2.2, GoMap.mem_foldl_del]

/-! ## The invariant of the reachable states -/

theorem KeysIn_mono {tm : TaskManager} {A B : Set String} (h : KeysIn tm A) (hAB : A ⊆ B) :
    KeysIn tm B where
  tasks := fun id hid => hAB (h.tasks id hid)
  taskToExpression := fun t e hte => ⟨hAB (h.taskToExpression t e hte).1,
    hAB (h.taskToExpression t e hte).2⟩
  expressionTasks := fun e l hl => ⟨hAB (h.expressionTasks e l hl).1,
    fun t ht => hAB ((h.expressionTasks e l hl).2 t ht)⟩
  dependsOnTask := fun t ds hd => ⟨hAB (h.dependsOnTask t ds hd).1,
    fun d hdm => hAB ((h.dependsOnTask t ds hd).2 d hdm)⟩
  expressions := fun e he => hAB (h.expressions e he)

theorem Inv_mono {tm : TaskManager} {A B : Set String} {handed : List String}
    (h : Inv tm A handed) (hAB : A ⊆ B) : Inv tm B handed where
  keys := KeysIn_mono h.keys hAB
  owner := h.owner
  root := h.root
  completed := h.completed
  status := h.status
  placeholders := h.placeholders
  taskID := h.taskID
  handedNodup := h.handedNodup
  handedGone := fun id hid => ⟨hAB (h.handedGone id hid).1, (h.handedGone id hid).2⟩

theorem Inv_init : Inv NewTaskManager ∅ [] where
  keys :=
    { tasks := by intro id h; simp [NewTaskManager, GoMap.get?_empty] at h
      taskToExpression := by intro t e h; simp [NewTaskManager, GoMap.get?_empty] at h
      expressionTasks := by intro t e h; simp [NewTaskManager, GoMap.get?_empty] at h
      dependsOnTask := by intro t ds h; simp [NewTaskManager, GoMap.empty, GoMap.entries] at h
      expressions := by intro id h; simp [NewTaskManager, GoMap.get?_empty] at h }
  owner := by intro t e h; simp [NewTaskManager, GoMap.get?_empty] at h
  root := by intro e l h; simp [NewTaskManager, GoMap.get?_empty] at h
  completed := by intro e x h; simp [NewTaskManager, GoMap.get?_empty] at h
  status := by intro e x h; simp [NewTaskManager, GoMap.get?_empty] at h
  placeholders := by intro id task d1 d2 h; simp [NewTaskManager, GoMap.get?_empty] at h
  taskID := by intro id task h; simp [NewTaskManager, GoMap.get?_empty] at h
  handedNodup := List.nodup_nil
  handedGone := by intro id h; simp at h

theorem Inv_shrink {tm1 tm2 : TaskManager} {seen : Set String} {handed : List String}
    (h : Inv tm1 seen handed) (hs : Shrinks tm1 tm2) : Inv tm2 seen handed where
  keys :=
    { tasks := by
        intro id hid
        cases hg : tm2.tasks.get? id with
        | none => simp [hg] at hid
        | some t => exact h.keys.tasks id (by simp [hs.tasks id t hg])
      taskToExpression := by
        rw [hs.taskToExpression]
        exact h.keys.taskToExpression
      expressionTasks := by
        rw [hs.expressionTasks]
        exact h.keys.expressionTasks
      dependsOnTask := fun t ds hd => h.keys.dependsOnTask t ds (hs.entries _ hd)
      expressions := by
        rw [hs.expressions]
        exact h.keys.expressions }
  owner := by
    rw [hs.taskToExpression, hs.expressionTasks, hs.expressions]
    exact h.owner
  root := by
    rw [hs.expressionTasks]
    intro e l hl t ds hd
    exact h.root e l hl t ds (hs.entries _ hd)
  completed := by
    rw [hs.expressionTasks, hs.expressions]
    exact h.completed
  status := by
    rw [hs.expressions]
    exact h.status
  placeholders := fun id task d1 d2 ht hd =>
    h.placeholders id task d1 d2 (hs.tasks id task ht) (hs.dependsOnTask id _ hd)
  taskID := fun id task ht => h.taskID id task (hs.tasks id task ht)
  handedNodup := h.handedNodup
  handedGone := by
    intro id hid
    refine ⟨(h.handedGone id hid).1, ?_⟩
    cases hg : tm2.tasks.get? id with
    | none => rfl
    | some t =>
      have h1 := hs.tasks id t hg
      rw [(h.handedGone id hid).2] at h1
      exact absurd h1 (by simp)

theorem Inv_getNext {tm : TaskManager} {seen : Set String} {handed : List String}
    (h : Inv tm seen handed) (order : List String) :
    Inv (GetNextTask tm order).1 seen (Call.handedAfter tm handed (Call.getNext order)) := by
  have taken : ∀ (id : String) (task0 task : Task) (tm2 : TaskManager),
      tm.tasks.get? id = some task0 → task.ID = task0.ID → Shrinks tm tm2 →
      tm2.tasks.get? id = none → GetNextTask tm order = (tm2, task, true) →
      Inv (GetNextTask tm order).1 seen (Call.handedAfter tm handed (Call.getNext order)) := by
    intro id task0 task tm2 hget hid hs hgone heq
    have hkey : task.ID = id := by rw [hid]; exact h.taskID id task0 hget
    have h2 := Inv_shrink h hs
    simp only [Call.handedAfter, heq, if_true, hkey]
    refine { h2 with handedNodup := ?_, handedGone := ?_ }
    · rw [List.nodup_append]
      refine ⟨h.handedNodup, List.nodup_singleton _, ?_⟩
      intro a ha hb
      have hb2 : a = id := by simpa using hb
      subst hb2
      have := (h.handedGone a ha).2
      rw [hget] at this
      exact absurd this (by simp)
    · intro a ha
      rcases List.mem_append.mp ha with ha | ha
      · exact h2.handedGone a ha
      · have hb2 : a = id := by simpa using ha
        subst hb2
        exact ⟨h.keys.tasks a (by simp [hget]), hgone⟩
  rcases GetNextTask_spec tm order with ⟨h1, _⟩ | ⟨id, task0, _, hget, _, hres⟩
  · simp only [Call.handedAfter, h1]
    simpa using h
  · rcases hres with ⟨_, heq⟩ | ⟨deps, _, _, heq⟩
    · refine taken id task0 task0 _ hget rfl ?_ ?_ heq
      · exact
          { expressions := rfl, taskToExpression := rfl, expressionTasks := rfl
            tasks := by
              intro id' t ht
              simp only [GoMap.get?_del] at ht
              by_cases hc : id' = id
              · simp [hc] at ht
              · simpa [hc] using ht
            entries := fun p hp => hp
            dependsOnTask := fun id' ds hd => hd }
      · exact GoMap.get?_del_self _ _
    · refine taken id task0 _ _ hget (substituteArgs_ID tm task0 deps) ?_ ?_ heq
      · exact
          { expressions := rfl, taskToExpression := rfl, expressionTasks := rfl
            tasks := by
              intro id' t ht
              simp only [GoMap.get?_del] at ht
              by_cases hc : id' = id
              · simp [hc] at ht
              · simpa [hc] using ht
            entries := fun p hp => ((GoMap.mem_del _ _ _).mp hp).1
            dependsOnTask := by
              intro id' ds hd
              simp only [GoMap.get?_del] at hd
              by_cases hc : id' = id
              · simp [hc] at hd
              · simpa [hc] using hd }
      · exact GoMap.get?_del_self _ _

theorem Inv_finish {tm : TaskManager} {seen : Set String} {handed : List String}
    (h : Inv tm seen handed) (e : String) (l : List String) (x x1 : Expression)
    (hl : tm.expressionTasks.get? e = some l) (hx : tm.expressions.get? e = some x)
    (hx1 : x1.Status = "COMPLETED") :
    Inv (cleanup { tm with expressions := tm.expressions.set e x1 } e l) seen handed := by
  have hexp : (cleanup { tm with expressions := tm.expressions.set e x1 } e l).expressions =
      tm.expressions.set e x1 := cleanup_expressions _ _ _
  have hets : (cleanup { tm with expressions := tm.expressions.set e x1 } e l).expressionTasks =
      tm.expressionTasks.del e := cleanup_expressionTasks _ _ _
  have htasks : ∀ id t,
      (cleanup { tm with expressions := tm.expressions.set e x1 } e l).tasks.get? id = some t →
      id ∉ l ∧ tm.tasks.get? id = some t := by
    intro id t ht
    rw [cleanup_tasks_get?] at ht
    by_cases hc : id ∈ l
    · simp [hc] at ht
    · exact ⟨hc, by simpa [hc] using ht⟩
  have hdeps : ∀ id ds,
      (cleanup { tm with expressions := tm.expressions.set e x1 } e l).dependsOnTask.get? id
        = some ds → id ∉ l ∧ tm.dependsOnTask.get? id = some ds := by
    intro id ds ht
    rw [cleanup_dependsOnTask_get?] at ht
    by_cases hc : id ∈ l
    · simp [hc] at ht
    · exact ⟨hc, by simpa [hc] using ht⟩
  have htte : ∀ t e1,
      (cleanup { tm with expressions := tm.expressions.set e x1 } e l).taskToExpression.get? t
        = some e1 → t ∉ l ∧ tm.taskToExpression.get? t = some e1 := by
    intro id ds ht
    rw [cleanup_taskToExpression_get?] at ht
    by_cases hc : id ∈ l
    · simp [hc] at ht
    · exact ⟨hc, by simpa [hc] using ht⟩
  have hetget : ∀ e1 l1, (tm.expressionTasks.del e).get? e1 = some l1 →
      e1 ≠ e ∧ tm.expressionTasks.get? e1 = some l1 := by
    intro e1 l1 h1
    rw [GoMap.get?_del] at h1
    by_cases hc : e1 = e
    · simp [hc] at h1
    · exact ⟨hc, by simpa [hc] using h1⟩
  refine
    { keys :=
        { tasks := ?_, taskToExpression := ?_, expressionTasks := ?_, dependsOnTask := ?_,
          expressions := ?_ }
      owner := ?_, root := ?_, completed := ?_, status := ?_, placeholders := ?_, taskID := ?_
      handedNodup := h.handedNodup, handedGone := ?_ }
  · intro id hid
    cases hg : (cleanup { tm with expressions := tm.expressions.set e x1 } e l).tasks.get? id with
    | none => simp [hg] at hid
    | some t => exact h.keys.tasks id (by simp [(htasks id t hg).2])
  · intro t e1 ht
    exact h.keys.taskToExpression t e1 (htte t e1 ht).2
  · rw [hets]
    intro e1 l1 h1
    exact h.keys.expressionTasks e1 l1 (hetget e1 l1 h1).2
  · intro t ds hd
    exact h.keys.dependsOnTask t ds ((cleanup_dependsOnTask_mem _ _ _ _).mp hd).1
  · rw [hexp]
    intro e1 he1
    rw [GoMap.get?_set] at he1
    by_cases hc : e1 = e
    · subst hc
      exact h.keys.expressions e1 (by simp [hx])
    · exact h.keys.expressions e1 (by simpa [hc] using he1)
  · intro t e1 ht
    obtain ⟨hnot, hold⟩ := htte t e1 ht
    obtain ⟨l1, hl1, hmem, hsome⟩ := h.owner t e1 hold
    have hne : e1 ≠ e := by
      intro hc
      subst hc
      rw [hl] at hl1
      have : l = l1 := by simpa using hl1
      subst this
      exact hnot hmem
    refine ⟨l1, ?_, hmem, ?_⟩
    · rw [hets, GoMap.get?_del_of_ne _ _ _ hne]
      exact hl1
    · rw [hexp, GoMap.get?_set_of_ne _ _ _ _ hne]
      exact hsome
  · rw [hets]
    intro e1 l1 h1 t ds hd
    exact h.root e1 l1 (hetget e1 l1 h1).2 t ds ((cleanup_dependsOnTask_mem _ _ _ _).mp hd).1
  · rw [hets, hexp]
    intro e1 y hy hst
    by_cases hc : e1 = e
    · subst hc
      exact GoMap.get?_del_self _ _
    · rw [GoMap.get?_set_of_ne _ _ _ _ hc] at hy
      rw [GoMap.get?_del_of_ne _ _ _ hc]
      exact h.completed e1 y hy hst
  · rw [hexp]
    intro e1 y hy
    by_cases hc : e1 = e
    · subst hc
      rw [GoMap.get?_set_self] at hy
      have : x1 = y := by simpa using hy
      subst this
      exact Or.inr hx1
    · rw [GoMap.get?_set_of_ne _ _ _ _ hc] at hy
      exact h.status e1 y hy
  · intro id task d1 d2 ht hd
    exact h.placeholders id task d1 d2 (htasks id task ht).2 (hdeps id _ hd).2
  · intro id task ht
    exact h.taskID id task (htasks id task ht).2
  · intro id hid
    refine ⟨(h.handedGone id hid).1, ?_⟩
    rw [cleanup_tasks_get?]
    by_cases hc : id ∈ l
    · simp [hc]
    · simpa [hc] using (h.handedGone id hid).2

theorem Inv_submit {tm : TaskManager} {seen : Set String} {handed : List String}
    (h : Inv tm seen handed) (result : TaskResult) :
    Inv (SubmitTaskResult tm result).1 seen handed := by
  have h1 : Inv { tm with taskResults := tm.taskResults.set result.ID result.Result }
      seen handed :=
    Inv_shrink h
      { expressions := rfl, taskToExpression := rfl, expressionTasks := rfl
        tasks := fun _ _ ht => ht, entries := fun _ hp => hp
        dependsOnTask := fun _ _ hd => hd }
  have hspec := SubmitTaskResult_spec tm result
  unfold SubmitOutcome at hspec
  simp only at hspec
  rcases hspec with ⟨heq, _, _⟩ | ⟨e, l, x, rid, _, hl, _, hx, _, heq⟩
  · rw [heq]
    exact h1
  · rw [heq]
    exact Inv_finish h1 e l x _ hl hx rfl

/-! ## The task-building loop of CreateExpression -/

theorem mintedBefore_mono (env : Env) (S : Set String) {k k2 : Nat} (h : k ≤ k2) :
    mintedBefore env S k ⊆ mintedBefore env S k2 := by
  intro s hs
  rcases hs with hs | ⟨j, hj, hs⟩
  · exact Or.inl hs
  · exact Or.inr ⟨j, lt_of_lt_of_le hj h, hs⟩

theorem mintedBefore_subset (env : Env) (S : Set String) (k : Nat) :
    mintedBefore env S k ⊆ S ∪ Set.range env.UUID := by
  intro s hs
  rcases hs with hs | ⟨j, _, hs⟩
  · exact Or.inl hs
  · exact Or.inr ⟨j, hs.symm⟩

theorem not_mem_mintedBefore (env : Env) (S : Set String) (k : Nat)
    (hinj : Function.Injective env.UUID) (hfresh : ∀ j, env.UUID j ∉ S) :
    env.UUID k ∉ mintedBefore env S k := by
  intro hs
  rcases hs with hs | ⟨j, hj, hs⟩
  · exact hfresh k hs
  · have := hinj hs
    omega

/-- Installing one more task keeps the loop invariant. -/
theorem BuildInv_add {env : Env} {S : Set String} {handed : List String} {tm : TaskManager}
    {ids : List String} {stack : List stackItem} {k : Nat}
    (h : BuildInv env S handed tm ids stack k) (hfresh : ∀ j, env.UUID j ∉ S)
    (task : Task) (hid : task.ID = env.UUID k) (ds : List String)
    (hds : ∀ d ∈ ds, ∃ j, 1 ≤ j ∧ j < k ∧ d = env.UUID j)
    (hph : ∀ d1 d2, ds = [d1, d2] → task.Arg1 = 0 ∧ task.Arg2 = 0)
    (deps2 : GoMap (List String))
    (hP1 : ∀ p, p ∈ deps2.entries → p ∈ tm.dependsOnTask.entries ∨ p = (env.UUID k, ds))
    (hP2 : ∀ id ds2, deps2.get? id = some ds2 →
      (id = env.UUID k ∧ ds2 = ds) ∨ (id ≠ env.UUID k ∧ tm.dependsOnTask.get? id = some ds2))
    (stack2 : List stackItem)
    (hstack : ∀ item ∈ stack2, item.isNum = false →
      ∃ j, 1 ≤ j ∧ j < k + 1 ∧ item.taskID = env.UUID j) :
    BuildInv env S handed
      { tm with
        dependsOnTask := deps2
        tasks := tm.tasks.set (env.UUID k) task
        taskToExpression := tm.taskToExpression.set (env.UUID k) (env.UUID 0) }
      (ids ++ [env.UUID k]) stack2 (k + 1) := by
  have hmono := mintedBefore_mono env S (Nat.le_succ k)
  have hk1 : env.UUID k ∈ mintedBefore env S (k + 1) := Or.inr ⟨k, Nat.lt_succ_self k, rfl⟩
  have h0 : env.UUID 0 ∈ mintedBefore env S (k + 1) := Or.inr ⟨0, Nat.succ_pos k, rfl⟩
  have hkpos := h.kpos
  refine
    { kpos := Nat.le_succ_of_le h.kpos
      keys :=
        { tasks := ?_, taskToExpression := ?_, expressionTasks := ?_, dependsOnTask := ?_,
          expressions := ?_ }
      ownerMid := ?_, exprProcessing := h.exprProcessing, exprTasksOld := h.exprTasksOld
      depsIdx := ?_, rootOld := ?_, stackIdx := hstack, idsIdx := ?_, idsLast := ?_
      completed := h.completed, status := h.status, placeholders := ?_, taskID := ?_
      handedGone := ?_ }
  · intro id hsome
    simp only [GoMap.get?_set] at hsome
    by_cases hc : id = env.UUID k
    · rw [hc]; exact hk1
    · exact hmono (h.keys.tasks id (by simpa [hc] using hsome))
  · intro t e1 ht
    simp only [GoMap.get?_set] at ht
    by_cases hc : t = env.UUID k
    · simp only [hc, if_true, Option.some.injEq] at ht
      rw [hc, ← ht]
      exact ⟨hk1, h0⟩
    · simp only [hc, if_false] at ht
      exact ⟨hmono (h.keys.taskToExpression t e1 ht).1, hmono (h.keys.taskToExpression t e1 ht).2⟩
  · intro e1 l hl
    exact ⟨hmono (h.keys.expressionTasks e1 l hl).1,
      fun t ht => hmono ((h.keys.expressionTasks e1 l hl).2 t ht)⟩
  · intro t ds2 hmem
    rcases hP1 _ hmem with hold | hnew
    · exact ⟨hmono (h.keys.dependsOnTask t ds2 hold).1,
        fun d hd => hmono ((h.keys.dependsOnTask t ds2 hold).2 d hd)⟩
    · simp only [Prod.mk.injEq] at hnew
      obtain ⟨ht, hds2⟩ := hnew
      subst ht hds2
      refine ⟨hk1, fun d hd => ?_⟩
      obtain ⟨j, _, hj, hd2⟩ := hds d hd
      exact Or.inr ⟨j, Nat.lt_succ_of_lt hj, hd2⟩
  · intro e1 he1
    exact hmono (h.keys.expressions e1 he1)
  · intro t e1 ht
    simp only [GoMap.get?_set] at ht
    by_cases hc : t = env.UUID k
    · simp only [hc, if_true, Option.some.injEq] at ht
      left
      exact ⟨ht.symm, by simp [hc]⟩
    · simp only [hc, if_false] at ht
      rcases h.ownerMid t e1 ht with ⟨h1, h2⟩ | h1
      · left
        exact ⟨h1, List.mem_append_left _ h2⟩
      · right
        exact h1
  · intro t ds2 hmem d hd
    rcases hP1 _ hmem with hold | hnew
    · rcases h.depsIdx t ds2 hold d hd with h1 | ⟨j, hj, h1⟩
      · exact Or.inl h1
      · exact Or.inr ⟨j, Nat.lt_succ_of_lt hj, h1⟩
    · simp only [Prod.mk.injEq] at hnew
      obtain ⟨ht, hds2⟩ := hnew
      subst ht hds2
      obtain ⟨j, _, hj, hd2⟩ := hds d hd
      exact Or.inr ⟨j, Nat.succ_lt_succ hj, hd2⟩
  · intro e1 l hl t ds2 hmem d hd
    rcases hP1 _ hmem with hold | hnew
    · exact h.rootOld e1 l hl t ds2 hold d hd
    · simp only [Prod.mk.injEq] at hnew
      obtain ⟨ht, hds2⟩ := hnew
      subst ht hds2
      obtain ⟨j, _, _, hd2⟩ := hds d hd
      intro hlast
      have hmem2 : d ∈ l := List.mem_of_getLast?_eq_some hlast
      have := (h.exprTasksOld e1 l hl).2 d hmem2
      rw [hd2] at this
      exact hfresh j this
  · intro t ht
    rcases List.mem_append.mp ht with ht | ht
    · obtain ⟨j, h1, h2, h3⟩ := h.idsIdx t ht
      exact ⟨j, h1, Nat.lt_succ_of_lt h2, h3⟩
    · have : t = env.UUID k := by simpa using ht
      exact ⟨k, hkpos, Nat.lt_succ_self k, this⟩
  · right
    simp
  · intro id task2 d1 d2 ht hd
    simp only [GoMap.get?_set] at ht
    rcases hP2 id _ hd with ⟨h1, h2⟩ | ⟨h1, h2⟩
    · simp only [h1, if_true, Option.some.injEq] at ht
      subst ht
      exact hph d1 d2 h2.symm
    · simp only [h1, if_false] at ht
      exact h.placeholders id task2 d1 d2 ht h2
  · intro id task2 ht
    simp only [GoMap.get?_set] at ht
    by_cases hc : id = env.UUID k
    · simp only [hc, if_true, Option.some.injEq] at ht
      subst ht
      rw [hc]
      exact hid
    · simp only [hc, if_false] at ht
      exact h.taskID id task2 ht
  · intro id hid2
    refine ⟨(h.handedGone id hid2).1, ?_⟩
    have hne : id ≠ env.UUID k := by
      intro hc
      have := (h.handedGone id hid2).1
      rw [hc] at this
      exact hfresh k this
    simp only [GoMap.get?_set_of_ne _ _ _ _ hne]
    exact (h.handedGone id hid2).2

theorem installTask_dependsOnTask (env : Env) (e : String) (token : Token) (t : String)
    (l r : stackItem) (tm : TaskManager) (hnone : tm.dependsOnTask.get? t = none) :
    (∀ p, p ∈ (installTask env e token t l r tm).dependsOnTask.entries →
      p ∈ tm.dependsOnTask.entries ∨ p = (t, pendingIDs l r)) ∧
    (∀ id ds2, (installTask env e token t l r tm).dependsOnTask.get? id = some ds2 →
      (id = t ∧ ds2 = pendingIDs l r) ∨ (id ≠ t ∧ tm.dependsOnTask.get? id = some ds2)) := by
  have hset : ∀ (m : GoMap (List String)) (v : List String) (id : String) (ds2 : List String),
      (m.set t v).get? id = some ds2 → (id = t ∧ ds2 = v) ∨ (id ≠ t ∧ m.get? id = some ds2) := by
    intro m v id ds2 hg
    rw [GoMap.get?_set] at hg
    by_cases hc : id = t
    · simp only [hc, if_true, Option.some.injEq] at hg
      exact Or.inl ⟨hc, hg.symm⟩
    · simp only [hc, if_false] at hg
      exact Or.inr ⟨hc, hg⟩
  cases hl : l.isNum <;> cases hr : r.isNum
  · -- both operands pending
    have hd : (installTask env e token t l r tm).dependsOnTask =
        (tm.dependsOnTask.set t [l.taskID]).set t [l.taskID, r.taskID] := by
      simp [installTask, appendDependency, hl, hr, hnone, GoMap.get?_set_self]
    rw [hd]
    constructor
    · intro p hp
      rcases (GoMap.mem_set _ _ _ _).mp hp with ⟨h1, h2⟩ | h1
      · rcases (GoMap.mem_set _ _ _ _).mp h1 with ⟨h3, _⟩ | h3
        · exact Or.inl h3
        · exact absurd (congrArg Prod.fst h3) h2
      · right
        simp [h1, pendingIDs, hl, hr]
    · intro id ds2 hg
      rcases hset _ _ id ds2 hg with ⟨h1, h2⟩ | ⟨h1, h2⟩
      · left
        simp [h1, h2, pendingIDs, hl, hr]
      · right
        rw [GoMap.get?_set_of_ne _ _ _ _ h1] at h2
        exact ⟨h1, h2⟩
  · -- left operand pending
    have hd : (installTask env e token t l r tm).dependsOnTask =
        tm.dependsOnTask.set t [l.taskID] := by
      simp [installTask, appendDependency, hl, hr, hnone]
    rw [hd]
    constructor
    · intro p hp
      rcases (GoMap.mem_set _ _ _ _).mp hp with ⟨h1, _⟩ | h1
      · exact Or.inl h1
      · right
        simp [h1, pendingIDs, hl, hr]
    · intro id ds2 hg
      rcases hset _ _ id ds2 hg with ⟨h1, h2⟩ | ⟨h1, h2⟩
      · left
        simp [h1, h2, pendingIDs, hl, hr]
      · exact Or.inr ⟨h1, h2⟩
  · -- right operand pending
    have hd : (installTask env e token t l r tm).dependsOnTask =
        tm.dependsOnTask.set t [r.taskID] := by
      simp [installTask, appendDependency, hl, hr, hnone]
    rw [hd]
    constructor
    · intro p hp
      rcases (GoMap.mem_set _ _ _ _).mp hp with ⟨h1, _⟩ | h1
      · exact Or.inl h1
      · right
        simp [h1, pendingIDs, hl, hr]
    · intro id ds2 hg
      rcases hset _ _ id ds2 hg with ⟨h1, h2⟩ | ⟨h1, h2⟩
      · left
        simp [h1, h2, pendingIDs, hl, hr]
      · exact Or.inr ⟨h1, h2⟩
  · -- both operands are numbers
    have hd : (installTask env e token t l r tm).dependsOnTask = tm.dependsOnTask := by
      simp [installTask, hl, hr]
    rw [hd]
    constructor
    · intro p hp
      exact Or.inl hp
    · intro id ds2 hg
      right
      refine ⟨?_, hg⟩
      intro hc
      rw [hc, hnone] at hg
      exact absurd hg (by simp)

/-- The `Operator` case of the loop keeps the loop invariant. -/
theorem BuildInv_install {env : Env} {S : Set String} {handed : List String}
    {tm : TaskManager} {ids : List String} {stack : List stackItem} {k : Nat}
    (l r : stackItem) (h : BuildInv env S handed tm ids (r :: l :: stack) k)
    (hinj : Function.Injective env.UUID) (hfresh : ∀ j, env.UUID j ∉ S) (token : Token) :
    BuildInv env S handed (installTask env (env.UUID 0) token (env.UUID k) l r tm)
      (ids ++ [env.UUID k]) ({ value := 0, taskID := env.UUID k, isNum := false } :: stack)
      (k + 1) := by
  have hnone : tm.dependsOnTask.get? (env.UUID k) = none := by
    apply GoMap.get?_eq_none_of_not_mem
    intro v hv
    exact not_mem_mintedBefore env S k hinj hfresh (h.keys.dependsOnTask _ v hv).1
  obtain ⟨hP1, hP2⟩ := installTask_dependsOnTask env (env.UUID 0) token (env.UUID k) l r tm hnone
  have hkpos := h.kpos
  refine BuildInv_add h hfresh
    { ID := env.UUID k
      Arg1 := if l.isNum then l.value else 0
      Arg2 := if r.isNum then r.value else 0
      Operation := token.Value
      OperationTime := operationTime env token.Value
      Priority := if token.Value = "*" ∨ token.Value = "/" then 2 else 1 }
    rfl (pendingIDs l r) ?_ ?_ _ hP1 hP2 _ ?_
  · intro d hd
    unfold pendingIDs at hd
    rcases List.mem_append.mp hd with hd | hd
    · cases hl : l.isNum
      · simp only [hl] at hd
        have hd2 : d = l.taskID := by simpa using hd
        rw [hd2]
        exact h.stackIdx l (by simp) hl
      · simp [hl] at hd
    · cases hr : r.isNum
      · simp only [hr] at hd
        have hd2 : d = r.taskID := by simpa using hd
        rw [hd2]
        exact h.stackIdx r (by simp) hr
      · simp [hr] at hd
  · intro d1 d2 hds
    cases hl : l.isNum <;> cases hr : r.isNum <;> simp [pendingIDs, hl, hr] at hds ⊢
  · intro item hitem hnum
    rcases List.mem_cons.mp hitem with hitem | hitem
    · subst hitem
      exact ⟨k, hkpos, Nat.lt_succ_self k, rfl⟩
    · obtain ⟨j, h1, h2, h3⟩ := h.stackIdx item (by simp [hitem]) hnum
      exact ⟨j, h1, Nat.lt_succ_of_lt h2, h3⟩

/-- Changing the operand stack keeps the loop invariant when the new stack only holds
numbers and items of the old stack. -/
theorem BuildInv_withStack {env : Env} {S : Set String} {handed : List String}
    {tm : TaskManager} {ids : List String} {stack : List stackItem} {k : Nat}
    (h : BuildInv env S handed tm ids stack k) (stack2 : List stackItem)
    (hs : ∀ item ∈ stack2, item.isNum = false → item ∈ stack) :
    BuildInv env S handed tm ids stack2 k :=
  { h with stackIdx := fun item hitem hnum => h.stackIdx item (hs item hitem hnum) hnum }

/-- The loop invariant holds when the loop returns normally. -/
theorem BuildInv_loop {env : Env} {S : Set String} {handed : List String}
    (hinj : Function.Injective env.UUID) (hfresh : ∀ j, env.UUID j ∉ S) (rpn : List Token) :
    ∀ (tm : TaskManager) (ids : List String) (stack : List stackItem) (k : Nat),
      BuildInv env S handed tm ids stack k →
      ∀ (tm3 : TaskManager) (ids3 : List String),
        buildTasks env (env.UUID 0) rpn tm ids stack k = (tm3, some ids3) →
        ∃ stack3 k3, BuildInv env S handed tm3 ids3 stack3 k3 := by
  induction rpn with
  | nil =>
    intro tm ids stack k h tm3 ids3 heq
    simp only [buildTasks, Prod.mk.injEq, Option.some.injEq] at heq
    obtain ⟨h1, h2⟩ := heq
    subst h1 h2
    exact ⟨stack, k, h⟩
  | cons token rest ih =>
    intro tm ids stack k h tm3 ids3 heq
    cases hty : token.Typ with
    | Number =>
      simp only [buildTasks, hty] at heq
      refine ih _ _ _ _ (BuildInv_withStack h _ ?_) tm3 ids3 heq
      intro item hitem hnum
      rcases List.mem_cons.mp hitem with hitem | hitem
      · subst hitem
        simp at hnum
      · exact hitem
    | Operator =>
      match stack, h with
      | [], _ => simp [buildTasks, hty] at heq
      | [_], _ => simp [buildTasks, hty] at heq
      | r :: l :: stack2, h =>
        simp only [buildTasks, hty] at heq
        exact ih _ _ _ _ (BuildInv_install l r h hinj hfresh token) tm3 ids3 heq
    | LeftParen =>
      simp only [buildTasks, hty] at heq
      exact ih _ _ _ _ h tm3 ids3 heq
    | RightParen =>
      simp only [buildTasks, hty] at heq
      exact ih _ _ _ _ h tm3 ids3 heq

theorem status_ne : ("PROCESSING" : String) ≠ "COMPLETED" := by decide

/-- The loop invariant at the entry of the loop. -/
theorem BuildInv_start (env : Env) {S : Set String} {handed : List String} {tm : TaskManager}
    (h : Inv tm S handed) (hfresh : ∀ j, env.UUID j ∉ S) (c : Calculator) (expr : Expression)
    (hst : expr.Status = "PROCESSING") (uid : Int) :
    BuildInv env S handed
      { tm with
        calc_ := c
        expressions := tm.expressions.set (env.UUID 0) expr
        userIDs := tm.userIDs.set (env.UUID 0) uid } [] [] 1 := by
  have hS : S ⊆ mintedBefore env S 1 := fun s hs => Or.inl hs
  refine
    { kpos := le_refl 1
      keys :=
        { tasks := fun id hid => hS (h.keys.tasks id hid)
          taskToExpression := fun t e1 ht =>
            ⟨hS (h.keys.taskToExpression t e1 ht).1, hS (h.keys.taskToExpression t e1 ht).2⟩
          expressionTasks := fun e1 l hl =>
            ⟨hS (h.keys.expressionTasks e1 l hl).1,
              fun t ht => hS ((h.keys.expressionTasks e1 l hl).2 t ht)⟩
          dependsOnTask := fun t ds hd =>
            ⟨hS (h.keys.dependsOnTask t ds hd).1,
              fun d hdm => hS ((h.keys.dependsOnTask t ds hd).2 d hdm)⟩
          expressions := ?_ }
      ownerMid := ?_
      exprProcessing := ⟨expr, GoMap.get?_set_self _ _ _, hst⟩
      exprTasksOld := h.keys.expressionTasks
      depsIdx := fun t ds hd d hdm => Or.inl ((h.keys.dependsOnTask t ds hd).2 d hdm)
      rootOld := h.root
      stackIdx := by intro item hitem; simp at hitem
      idsIdx := by intro t ht; simp at ht
      idsLast := Or.inl rfl
      completed := ?_, status := ?_
      placeholders := h.placeholders, taskID := h.taskID, handedGone := h.handedGone }
  · intro e1 he1
    simp only [GoMap.get?_set] at he1
    by_cases hc : e1 = env.UUID 0
    · rw [hc]
      exact Or.inr ⟨0, Nat.one_pos, rfl⟩
    · exact hS (h.keys.expressions e1 (by simpa [hc] using he1))
  · intro t e1 ht
    right
    have hne : e1 ≠ env.UUID 0 := by
      intro hc
      have := (h.keys.taskToExpression t e1 ht).2
      rw [hc] at this
      exact hfresh 0 this
    obtain ⟨l, h1, h2, h3⟩ := h.owner t e1 ht
    refine ⟨hne, l, h1, h2, ?_⟩
    simp only [GoMap.get?_set_of_ne _ _ _ _ hne]
    exact h3
  · intro e1 x hx hc
    simp only [GoMap.get?_set] at hx
    by_cases he : e1 = env.UUID 0
    · simp only [he, if_true, Option.some.injEq] at hx
      subst hx
      rw [hst] at hc
      exact absurd hc status_ne
    · simp only [he, if_false] at hx
      exact h.completed e1 x hx hc
  · intro e1 x hx
    simp only [GoMap.get?_set] at hx
    by_cases he : e1 = env.UUID 0
    · simp only [he, if_true, Option.some.injEq] at hx
      subst hx
      exact Or.inl hst
    · simp only [he, if_false] at hx
      exact h.status e1 x hx

/-- The loop invariant at the exit of the loop gives the invariant of the manager once the
task list of the expression is stored. -/
theorem BuildInv_final {env : Env} {S : Set String} {handed : List String} {tm : TaskManager}
    {ids : List String} {stack : List stackItem} {k : Nat}
    (h : BuildInv env S handed tm ids stack k)
    (hinj : Function.Injective env.UUID) (hfresh : ∀ j, env.UUID j ∉ S)
    (hnd : handed.Nodup) :
    Inv { tm with expressionTasks := tm.expressionTasks.set (env.UUID 0) ids }
      (S ∪ Set.range env.UUID) handed := by
  have hsub := mintedBefore_subset env S k
  obtain ⟨x0, hx0, hx0st⟩ := h.exprProcessing
  refine
    { keys :=
        { tasks := fun id hid => hsub (h.keys.tasks id hid)
          taskToExpression := fun t e1 ht =>
            ⟨hsub (h.keys.taskToExpression t e1 ht).1, hsub (h.keys.taskToExpression t e1 ht).2⟩
          expressionTasks := ?_
          dependsOnTask := fun t ds hd =>
            ⟨hsub (h.keys.dependsOnTask t ds hd).1,
              fun d hdm => hsub ((h.keys.dependsOnTask t ds hd).2 d hdm)⟩
          expressions := fun e1 he1 => hsub (h.keys.expressions e1 he1) }
      owner := ?_, root := ?_, completed := ?_
      status := h.status, placeholders := h.placeholders, taskID := h.taskID
      handedNodup := hnd
      handedGone := fun id hid => ⟨Or.inl (h.handedGone id hid).1, (h.handedGone id hid).2⟩ }
  · intro e1 l hl
    simp only [GoMap.get?_set] at hl
    by_cases he : e1 = env.UUID 0
    · simp only [he, if_true, Option.some.injEq] at hl
      subst hl
      refine ⟨Or.inr ⟨0, he.symm⟩, fun t ht => ?_⟩
      obtain ⟨j, _, _, hj⟩ := h.idsIdx t ht
      exact Or.inr ⟨j, hj.symm⟩
    · simp only [he, if_false] at hl
      exact ⟨Or.inl (h.exprTasksOld e1 l hl).1, fun t ht => Or.inl ((h.exprTasksOld e1 l hl).2 t ht)⟩
  · intro t e1 ht
    rcases h.ownerMid t e1 ht with ⟨h1, h2⟩ | ⟨h1, l, h2, h3, h4⟩
    · refine ⟨ids, ?_, h2, ?_⟩
      · simp only [h1, GoMap.get?_set_self]
      · simp only [h1, hx0, Option.isSome_some]
    · refine ⟨l, ?_, h3, h4⟩
      simp only [GoMap.get?_set_of_ne _ _ _ _ h1]
      exact h2
  · intro e1 l hl t ds hd d hdm
    simp only [GoMap.get?_set] at hl
    by_cases he : e1 = env.UUID 0
    · simp only [he, if_true, Option.some.injEq] at hl
      subst hl
      intro hlast
      rcases h.idsLast with hnil | hlast2
      · simp [hnil] at hlast
      · rw [hlast2] at hlast
        have hd2 : env.UUID (k - 1) = d := by simpa using hlast
        rcases h.depsIdx t ds hd d hdm with h1 | ⟨j, hj, h1⟩
        · rw [← hd2] at h1
          exact hfresh _ h1
        · rw [h1] at hd2
          have := hinj hd2
          omega
    · simp only [he, if_false] at hl
      exact h.rootOld e1 l hl t ds hd d hdm
  · intro e1 x hx hc
    by_cases he : e1 = env.UUID 0
    · rw [he, hx0] at hx
      have : x0 = x := by simpa using hx
      subst this
      rw [hx0st] at hc
      exact absurd hc status_ne
    · simp only [GoMap.get?_set_of_ne _ _ _ _ he]
      exact h.completed e1 x hx hc

/-! ## Validation by Calculate and the task-building loop -/

/-- When the evaluation loop of `EvaluateRPN` succeeds from a value stack, the task-building
loop of `CreateExpression` from an operand stack of the same depth returns normally. -/
theorem buildTasks_isSome_of_evalLoop (env : Env) (e : String) (rpn : List Token) :
    ∀ (vs : List ℚ) (stack : List stackItem) (tm : TaskManager) (ids : List String) (k : Nat),
      vs.length = stack.length → (∃ r, evalLoop rpn vs = Except.ok r) →
      ∃ tm3 ids3, buildTasks env e rpn tm ids stack k = (tm3, some ids3) := by
  induction rpn with
  | nil =>
    intro vs stack tm ids k _ _
    exact ⟨tm, ids, rfl⟩
  | cons token rest ih =>
    intro vs stack tm ids k hlen hev
    obtain ⟨r, hr⟩ := hev
    cases hty : token.Typ with
    | Number =>
      simp only [evalLoop, hty] at hr
      simp only [buildTasks, hty]
      cases hp : ParseFloat token.Value with
      | none => simp [hp] at hr
      | some num =>
        simp only [hp] at hr
        exact ih _ _ _ _ _ (by simp [hlen]) ⟨r, hr⟩
    | Operator =>
      match vs, stack, hlen with
      | [], _, _ => simp [evalLoop, hty] at hr
      | [_], _, _ => simp [evalLoop, hty] at hr
      | b :: a :: vs2, [], hlen => simp at hlen
      | b :: a :: vs2, [_], hlen => simp at hlen
      | b :: a :: vs2, rr :: ll :: stack2, hlen =>
        simp only [buildTasks, hty]
        have hlen2 : ∀ x : ℚ, (x :: vs2).length =
            (({ value := 0, taskID := env.UUID k, isNum := false } : stackItem) :: stack2).length := by
          intro x
          simp only [List.length_cons] at hlen ⊢
          omega
        simp only [evalLoop, hty] at hr
        split_ifs at hr with h1 h2 h3 h4 h5
        · exact ih _ _ _ _ _ (hlen2 _) ⟨r, hr⟩
        · exact ih _ _ _ _ _ (hlen2 _) ⟨r, hr⟩
        · exact ih _ _ _ _ _ (hlen2 _) ⟨r, hr⟩
        · exact ih _ _ _ _ _ (hlen2 _) ⟨r, hr⟩
        · exact ih _ _ _ _ _ (hlen2 _) ⟨r, hr⟩
    | LeftParen =>
      simp only [evalLoop, hty] at hr
      simp only [buildTasks, hty]
      exact ih _ _ _ _ _ hlen ⟨r, hr⟩
    | RightParen =>
      simp only [evalLoop, hty] at hr
      simp only [buildTasks, hty]
      exact ih _ _ _ _ _ hlen ⟨r, hr⟩

theorem Tokenize_of_ne (c : Calculator) (expr : String) (h : expr ≠ "") :
    Tokenize c expr =
      ({ tokens := (tokenizeLoop (removeSpaces expr).length (removeSpaces expr) []).1 },
        (tokenizeLoop (removeSpaces expr).length (removeSpaces expr) []).2) := by
  simp [Tokenize, h]

/-- The tokens and the error of `Tokenize` do not depend on the calculator it is called on,
for a non-empty text. -/
theorem Tokenize_indep (c1 c2 : Calculator) (expr : String) (h : expr ≠ "") :
    Tokenize c1 expr = Tokenize c2 expr := by
  rw [Tokenize_of_ne c1 expr h, Tokenize_of_ne c2 expr h]

theorem EvaluateRPN_ok (rpn : List Token) (v : ℚ) (h : EvaluateRPN rpn = Except.ok v) :
    evalLoop rpn [] = Except.ok [v] := by
  unfold EvaluateRPN at h
  split at h
  · simp at h
  · next w hw =>
    simp only [Except.ok.injEq] at h
    rw [hw, h]
  · simp at h

/-- When `Calculate` accepts a text, tokenizing it succeeds, `ToRPN` succeeds and
`EvaluateRPN` gives the value. -/
theorem Calculate_ok (c : Calculator) (expr : String) (v : ℚ)
    (h : (Calculate c expr).2 = Except.ok v) :
    expr ≠ "" ∧ (Tokenize c expr).2 = none ∧
      ∃ rpn, ToRPN (Tokenize c expr).1 = Except.ok rpn ∧ EvaluateRPN rpn = Except.ok v := by
  unfold Calculate at h
  constructor
  · intro he
    simp [he, Tokenize] at h
  · cases ht : Tokenize c expr with
    | mk c1 err =>
      cases err with
      | some msg => simp [ht] at h
      | none =>
        simp only [ht] at h
        refine ⟨rfl, ?_⟩
        cases hr : ToRPN c1 with
        | error msg => simp [hr] at h
        | ok rpn =>
          simp only [hr] at h
          exact ⟨rpn, rfl, h⟩

/-! ## CreateExpression keeps the invariant -/

theorem Inv_withCalc {tm : TaskManager} {S : Set String} {handed : List String}
    (h : Inv tm S handed) (c : Calculator) : Inv { tm with calc_ := c } S handed :=
  Inv_shrink h
    { expressions := rfl, taskToExpression := rfl, expressionTasks := rfl
      tasks := fun _ _ ht => ht, entries := fun _ hp => hp, dependsOnTask := fun _ _ hd => hd }

theorem Inv_create {tm : TaskManager} {S : Set String} {handed : List String}
    (h : Inv tm S handed) (expressionText : String) (userID : Int) (env : Env)
    (hinj : Function.Injective env.UUID) (hfresh : ∀ j, env.UUID j ∉ S) :
    Inv (CreateExpression tm expressionText userID env).1 (S ∪ Set.range env.UUID) handed := by
  have hsub : S ⊆ S ∪ Set.range env.UUID := Set.subset_union_left
  by_cases he : expressionText = ""
  · simp only [CreateExpression, he, if_true]
    exact Inv_mono h hsub
  · cases hc : Calculate NewCalculator expressionText with
    | mk testCalc res =>
      cases res with
      | error msg =>
        simp only [CreateExpression, he, if_false, hc]
        exact Inv_mono h hsub
      | ok v =>
        obtain ⟨_, htok, rpn, hrpn, hev⟩ :=
          Calculate_ok NewCalculator expressionText v (by rw [hc])
        rw [Tokenize_indep NewCalculator tm.calc_ expressionText he] at htok hrpn
        cases ht : Tokenize tm.calc_ expressionText with
        | mk calc1 err =>
          rw [ht] at htok hrpn
          simp only at htok hrpn
          subst htok
          simp only [CreateExpression, he, if_false, hc, ht, hrpn]
          split_ifs with hsingle
          · -- a single number
            have h1 := BuildInv_start env h hfresh calc1
              { ID := env.UUID 0, Original := expressionText, Status := "PROCESSING",
                Result := (match (Calculate testCalc expressionText).2 with
                  | Except.ok v => v
                  | Except.error _ => 0),
                CreatedAt := env.Now } rfl userID
            have h2 := BuildInv_add h1 hfresh
              { ID := env.UUID 1
                Arg1 := (match (Calculate testCalc expressionText).2 with
                  | Except.ok v => v
                  | Except.error _ => 0)
                Arg2 := 0, Operation := "", OperationTime := 0, Priority := 1 }
              rfl [] (by simp) (by simp) tm.dependsOnTask (fun p hp => Or.inl hp)
              (by
                intro id ds2 hg
                right
                refine ⟨?_, hg⟩
                intro hid
                have := (h.keys.dependsOnTask id ds2 (GoMap.mem_of_get? _ _ _ hg)).1
                rw [hid] at this
                exact hfresh 1 this)
              [] (by simp)
            exact BuildInv_final h2 hinj hfresh h.handedNodup
          · -- at least one operator
            obtain ⟨tm3, ids3, hb⟩ := buildTasks_isSome_of_evalLoop env (env.UUID 0) rpn [] []
              { tm with
                calc_ := calc1
                expressions := tm.expressions.set (env.UUID 0)
                  { ID := env.UUID 0, Original := expressionText, Status := "PROCESSING",
                    Result := 0, CreatedAt := env.Now }
                userIDs := tm.userIDs.set (env.UUID 0) userID }
              [] 1 rfl ⟨_, EvaluateRPN_ok rpn v hev⟩
            rw [hb]
            have h1 := BuildInv_start env h hfresh calc1
              { ID := env.UUID 0, Original := expressionText, Status := "PROCESSING",
                Result := 0, CreatedAt := env.Now } rfl userID
            obtain ⟨stack3, k3, h3⟩ := BuildInv_loop hinj hfresh rpn _ _ _ _ h1 tm3 ids3 hb
            exact BuildInv_final h3 hinj hfresh h.handedNodup

/-- Every reachable state satisfies the invariant. -/
theorem Reachable_inv {tm : TaskManager} {seen : Set String} {handed : List String}
    (h : Reachable tm seen handed) : Inv tm seen handed := by
  induction h with
  | init => exact Inv_init
  | step c _ hfresh ih =>
    cases c with
    | create expressionText userID env => exact Inv_create ih expressionText userID env hfresh.1 hfresh.2
    | getNext order => exact Inv_getNext ih order
    | submit result => exact Inv_submit ih result

/-! ## The root task found by SubmitTaskResult -/

theorem get?_foldl_set_true (l : List String) (m : GoMap Bool) (t : String) :
    (l.foldl (fun m taskID => m.set taskID true) m).get? t =
      if t ∈ l then some true else m.get? t := by
  induction l using List.reverseRecOn with
  | nil => simp
  | append_singleton rest a ih =>
    rw [List.foldl_append, List.foldl_cons, List.foldl_nil, GoMap.get?_set, ih]
    by_cases h1 : t = a
    · simp [h1]
    · by_cases h2 : t ∈ rest
      · simp [h1, h2]
      · simp [h1, h2]

theorem get?_foldl_set_false (ds : List String) (m : GoMap Bool) (t : String) :
    (ds.foldl (fun m dependID => m.set dependID false) m).get? t =
      if t ∈ ds then some false else m.get? t := by
  induction ds using List.reverseRecOn with
  | nil => simp
  | append_singleton rest a ih =>
    rw [List.foldl_append, List.foldl_cons, List.foldl_nil, GoMap.get?_set, ih]
    by_cases h1 : t = a
    · simp [h1]
    · by_cases h2 : t ∈ rest
      · simp [h1, h2]
      · simp [h1, h2]

theorem get?_foldl_entries (entries : List (String × List String)) (m : GoMap Bool)
    (t : String) (h : ∀ p ∈ entries, t ∉ p.2) :
    (entries.foldl
      (fun m entry => entry.2.foldl (fun m dependID => m.set dependID false) m) m).get? t =
      m.get? t := by
  induction entries generalizing m with
  | nil => rfl
  | cons p rest ih =>
    rw [List.foldl_cons, ih _ (fun q hq => h q (List.mem_cons_of_mem _ hq)),
      get?_foldl_set_false]
    simp [h p (List.mem_cons_self _ _)]

/-- A task id of the expression that no dependency entry mentions keeps its `isRoot` flag. -/
theorem isRootMap_get? (tm : TaskManager) (l : List String) (t : String) (ht : t ∈ l)
    (h : ∀ p ∈ tm.dependsOnTask.entries, t ∉ p.2) :
    (isRootMap tm l).get? t = some true := by
  unfold isRootMap
  simp only
  rw [get?_foldl_entries _ _ _ h, get?_foldl_set_true]
  simp [ht]

/-- When the last task of the list keeps its `isRoot` flag, the scan of `taskIDs` ends with
`rootTaskID` equal to it. -/
theorem findRootTaskID_last (tm : TaskManager) (l : List String) (last : String)
    (hlast : l.getLast? = some last)
    (h : ∀ p ∈ tm.dependsOnTask.entries, last ∉ p.2) :
    findRootTaskID tm l = last := by
  have hmem : last ∈ l := List.mem_of_getLast?_eq_some hlast
  have hroot := isRootMap_get? tm l last hmem h
  obtain ⟨init, hl⟩ : ∃ init, l = init ++ [last] := by
    rcases List.eq_nil_or_concat l with hnil | ⟨init, b, hb⟩
    · simp [hnil] at hlast
    · refine ⟨init, ?_⟩
      rw [hb] at hlast
      have hb2 : b = last := by simpa using hlast
      rw [hb, hb2]
      simp
  unfold findRootTaskID
  rw [hl] at hroot ⊢
  rw [List.foldl_append, List.foldl_cons, List.foldl_nil, hroot]
  simp

/-! ## Claims about the dispatch of tasks -/

set_option maxRecDepth 100000

/-- C1 (the code departs from the claim).  `Calculate` gives `-6` on `0-2*3` and `7` on `7`,
but after `CreateExpression` on an empty manager a complete dispatch cycle with the worker's
`getOperationResult` (no task is left at the end) leaves the first expression COMPLETED with
result `6`, and the second COMPLETED with result `0`. -/
theorem dispatchCycle_differs_from_Calculate :
    Calc "0-2*3" = Except.ok (-6) ∧
    (CreateExpression NewTaskManager "0-2*3" 1 testEnv).2 = Except.ok "u" ∧
    (GetExpression
        (dispatchCycle [["uu", "uuu"], ["uu", "uuu"], ["uu", "uuu"]]
          (CreateExpression NewTaskManager "0-2*3" 1 testEnv).1) "u").map
      (fun e => (e.Status, e.Result)) = some ("COMPLETED", 6) ∧
    (dispatchCycle [["uu", "uuu"], ["uu", "uuu"], ["uu", "uuu"]]
      (CreateExpression NewTaskManager "0-2*3" 1 testEnv).1).tasks = GoMap.empty ∧
    Calc "7" = Except.ok 7 ∧
    (CreateExpression NewTaskManager "7" 1 testEnv).2 = Except.ok "u" ∧
    (GetExpression
        (dispatchCycle [["uu"], ["uu"]] (CreateExpression NewTaskManager "7" 1 testEnv).1)
        "u").map
      (fun e => (e.Status, e.Result)) = some ("COMPLETED", 0) ∧
    (dispatchCycle [["uu"], ["uu"]]
      (CreateExpression NewTaskManager "7" 1 testEnv).1).tasks = GoMap.empty := by
  with_unfolding_all decide

/-- C2.  A task returned by `GetNextTask` is an entry `id ↦ task0` of the task map before
the call (the returned task has its id, operation, latency and priority), the key `id` is
absent from the task map after the call, and every dependency id in the dependency entry of
`id` had an entry in the results map at the call. -/
theorem GetNextTask_returns_resolved_task (tm : TaskManager) (order : List String)
    (tm2 : TaskManager) (task : Task) (h : GetNextTask tm order = (tm2, task, true)) :
    ∃ id task0, id ∈ order ∧ tm.tasks.get? id = some task0 ∧
      task.ID = task0.ID ∧ task.Operation = task0.Operation ∧
      task.OperationTime = task0.OperationTime ∧ task.Priority = task0.Priority ∧
      tm2.tasks.get? id = none ∧
      ∀ deps, tm.dependsOnTask.get? id = some deps →
        ∀ depID ∈ deps, (tm.taskResults.get? depID).isSome = true := by
  rcases GetNextTask_spec tm order with ⟨h1, _⟩ | ⟨id, task0, hmem, hget, hready, hres⟩
  · rw [h1] at h
    simp at h
  · have hdeps : ∀ deps, tm.dependsOnTask.get? id = some deps →
        ∀ depID ∈ deps, (tm.taskResults.get? depID).isSome = true := by
      intro deps hd depID hdep
      simp only [isReady, hd, List.all_eq_true] at hready
      exact hready depID hdep
    rcases hres with ⟨_, heq⟩ | ⟨deps, _, _, heq⟩
    · rw [heq] at h
      simp only [Prod.mk.injEq, and_true] at h
      obtain ⟨h2, h3⟩ := h
      subst h2 h3
      exact ⟨id, task0, hmem, hget, rfl, rfl, rfl, rfl, GoMap.get?_del_self _ _, hdeps⟩
    · rw [heq] at h
      simp only [Prod.mk.injEq, and_true] at h
      obtain ⟨h2, h3⟩ := h
      subst h2 h3
      exact ⟨id, task0, hmem, hget, substituteArgs_ID _ _ _, substituteArgs_Operation _ _ _,
        substituteArgs_OperationTime _ _ _, substituteArgs_Priority _ _ _,
        GoMap.get?_del_self _ _, hdeps⟩

/-- C2, on `2+3*4` with an empty manager: whatever the visiting order, the first task
returned is the `*` task with priority 2; with no result submitted the next call finds no
task; once the result of `*` is submitted the `+` task is returned with operands `2` and `12`. -/
theorem GetNextTask_returns_resolved_task_witness :
    (GetNextTask (CreateExpression NewTaskManager "2+3*4" 1 testEnv).1 ["uu", "uuu"]).2 =
      ({ ID := "uu", Arg1 := 3, Arg2 := 4, Operation := "*", OperationTime := 530,
         Priority := 2 }, true) ∧
    (GetNextTask (CreateExpression NewTaskManager "2+3*4" 1 testEnv).1 ["uuu", "uu"]).2 =
      ({ ID := "uu", Arg1 := 3, Arg2 := 4, Operation := "*", OperationTime := 530,
         Priority := 2 }, true) ∧
    (GetNextTask
      (GetNextTask (CreateExpression NewTaskManager "2+3*4" 1 testEnv).1 ["uuu", "uu"]).1
      ["uuu", "uu"]).2.2 = false ∧
    (GetNextTask
      (SubmitTaskResult
        (GetNextTask (CreateExpression NewTaskManager "2+3*4" 1 testEnv).1 ["uuu", "uu"]).1
        { ID := "uu", Result := 12 }).1
      ["uuu", "uu"]).2 =
      ({ ID := "uuu", Arg1 := 2, Arg2 := 12, Operation := "+", OperationTime := 510,
         Priority := 1 }, true) ∧
    ∃ id task0, id ∈ ["uuu", "uu"] ∧
      (CreateExpression NewTaskManager "2+3*4" 1 testEnv).1.tasks.get? id = some task0 ∧
      (GetNextTask (CreateExpression NewTaskManager "2+3*4" 1 testEnv).1 ["uuu", "uu"]).2.1.ID
        = task0.ID ∧
      (GetNextTask (CreateExpression NewTaskManager "2+3*4" 1 testEnv).1
        ["uuu", "uu"]).2.1.Operation = task0.Operation ∧
      (GetNextTask (CreateExpression NewTaskManager "2+3*4" 1 testEnv).1
        ["uuu", "uu"]).2.1.OperationTime = task0.OperationTime ∧
      (GetNextTask (CreateExpression NewTaskManager "2+3*4" 1 testEnv).1
        ["uuu", "uu"]).2.1.Priority = task0.Priority ∧
      (GetNextTask (CreateExpression NewTaskManager "2+3*4" 1 testEnv).1
        ["uuu", "uu"]).1.tasks.get? id = none ∧
      ∀ deps, (CreateExpression NewTaskManager "2+3*4" 1 testEnv).1.dependsOnTask.get? id
          = some deps →
        ∀ depID ∈ deps,
          ((CreateExpression NewTaskManager "2+3*4" 1 testEnv).1.taskResults.get? depID).isSome
            = true :=
  ⟨by with_unfolding_all decide, by with_unfolding_all decide, by with_unfolding_all decide,
    by with_unfolding_all decide,
    GetNextTask_returns_resolved_task _ ["uuu", "uu"] _ _ (by with_unfolding_all decide)⟩

/-- C3 (the code departs from the claim).  For `0-2*3` the task `-` is created with its
first operand set from the literal `0` and its second operand left as a placeholder for the
task `*`; once `*` has the result `6`, `GetNextTask` returns the task `-` with first operand
`6` and second operand `0`. -/
theorem GetNextTask_overwrites_literal_zero :
    (CreateExpression NewTaskManager "0-2*3" 1 testEnv).1.tasks.get? "uuu" =
      some { ID := "uuu", Arg1 := 0, Arg2 := 0, Operation := "-", OperationTime := 520,
             Priority := 1 } ∧
    (CreateExpression NewTaskManager "0-2*3" 1 testEnv).1.dependsOnTask.get? "uuu" =
      some ["uu"] ∧
    (workerRound (CreateExpression NewTaskManager "0-2*3" 1 testEnv).1
      ["uu", "uuu"]).1.taskResults.get? "uu" = some 6 ∧
    (GetNextTask
      (workerRound (CreateExpression NewTaskManager "0-2*3" 1 testEnv).1 ["uu", "uuu"]).1
      ["uu", "uuu"]).2 =
      ({ ID := "uuu", Arg1 := 6, Arg2 := 0, Operation := "-", OperationTime := 520,
         Priority := 1 }, true) := by
  with_unfolding_all decide

/-- C7 (the code departs from the claim).  On an empty manager `SubmitTaskResult` for the
unknown id `non-existent-task` returns the unknown-task error, yet the value is recorded in
the results map: the manager is not as before the call. -/
theorem SubmitTaskResult_unknown_records_result :
    SubmitTaskResult NewTaskManager { ID := "non-existent-task", Result := 42 } =
      ({ NewTaskManager with taskResults := [("non-existent-task", 42)] }, [],
        some "задача не найдена") ∧
    NewTaskManager.taskToExpression.get? "non-existent-task" = none ∧
    (SubmitTaskResult NewTaskManager
      { ID := "non-existent-task", Result := 42 }).1.taskResults.get? "non-existent-task"
        = some 42 ∧
    (SubmitTaskResult NewTaskManager { ID := "non-existent-task", Result := 42 }).1
      ≠ NewTaskManager := by
  with_unfolding_all decide

/-- C9.  When the visiting order covers the keys of the task map, `GetNextTask` returns
`found = false` exactly when no task of the map is ready; when some task of the map is
ready, the call returns a ready task of the map; and on a manager without tasks it returns
`found = false` and the gRPC handler `GetTask` answers with the status code `NotFound`. -/
theorem GetNextTask_found_iff_ready (tm : TaskManager) (order : List String)
    (hcover : ∀ id, (tm.tasks.get? id).isSome = true → id ∈ order) :
    ((GetNextTask tm order).2.2 = false ↔
      ∀ id, (tm.tasks.get? id).isSome = true → isReady tm id = false) ∧
    ((∃ id, (tm.tasks.get? id).isSome = true ∧ isReady tm id = true) →
      ∃ id task0, tm.tasks.get? id = some task0 ∧ isReady tm id = true ∧
        (GetNextTask tm order).2.2 = true ∧ (GetNextTask tm order).2.1.ID = task0.ID) ∧
    (tm.tasks = GoMap.empty →
      (GetNextTask tm order).2.2 = false ∧
      (GetTask tm order).2 =
        Except.error { code := Code.NotFound, message := "Нет доступных задач" }) := by
  have key : (∃ id, (tm.tasks.get? id).isSome = true ∧ isReady tm id = true) →
      ∃ id task0, tm.tasks.get? id = some task0 ∧ isReady tm id = true ∧
        (GetNextTask tm order).2.2 = true ∧ (GetNextTask tm order).2.1.ID = task0.ID := by
    rintro ⟨id0, hsome, hready0⟩
    rcases GetNextTask_spec tm order with ⟨_, h2⟩ | ⟨id, task0, _, hget, hready, hres⟩
    · have := h2 id0 (hcover id0 hsome) hsome
      rw [hready0] at this
      exact absurd this (by simp)
    · rcases hres with ⟨_, heq⟩ | ⟨deps, _, _, heq⟩
      · exact ⟨id, task0, hget, hready, by rw [heq], by rw [heq]⟩
      · exact ⟨id, task0, hget, hready, by rw [heq], by rw [heq]; exact substituteArgs_ID _ _ _⟩
  refine ⟨⟨?_, ?_⟩, key, ?_⟩
  · intro hfalse id hsome
    cases hr : isReady tm id with
    | false => rfl
    | true =>
      obtain ⟨_, _, _, _, htrue, _⟩ := key ⟨id, hsome, hr⟩
      rw [hfalse] at htrue
      exact absurd htrue (by simp)
  · intro hnone
    rcases GetNextTask_spec tm order with ⟨h1, _⟩ | ⟨id, task0, _, hget, hready, _⟩
    · rw [h1]
    · have := hnone id (by simp [hget])
      rw [hready] at this
      exact absurd this (by simp)
  · intro hempty
    have hfalse : (GetNextTask tm order).2.2 = false := by
      rcases GetNextTask_spec tm order with ⟨h1, _⟩ | ⟨id, task0, _, hget, _, _⟩
      · rw [h1]
      · rw [hempty, GoMap.get?_empty] at hget
        exact absurd hget (by simp)
    refine ⟨hfalse, ?_⟩
    unfold GetTask
    cases hg : GetNextTask tm order with
    | mk tm1 r =>
      cases r with
      | mk task found =>
        rw [hg] at hfalse
        simp only at hfalse
        subst hfalse
        simp

/-- C9 on the manager holding the two tasks of `2+3*4`, and on an empty manager. -/
theorem GetNextTask_found_iff_ready_witness :
    (∀ id, ((CreateExpression NewTaskManager "2+3*4" 1 testEnv).1.tasks.get? id).isSome = true →
      id ∈ ["uuu", "uu"]) ∧
    (GetNextTask (CreateExpression NewTaskManager "2+3*4" 1 testEnv).1 ["uuu", "uu"]).2.2
      = true ∧
    isReady (CreateExpression NewTaskManager "2+3*4" 1 testEnv).1 "uu" = true ∧
    isReady (CreateExpression NewTaskManager "2+3*4" 1 testEnv).1 "uuu" = false ∧
    (GetTask NewTaskManager []).2 =
      Except.error { code := Code.NotFound, message := "Нет доступных задач" } ∧
    ((GetNextTask (CreateExpression NewTaskManager "2+3*4" 1 testEnv).1 ["uuu", "uu"]).2.2
        = false ↔
      ∀ id, ((CreateExpression NewTaskManager "2+3*4" 1 testEnv).1.tasks.get? id).isSome
        = true → isReady (CreateExpression NewTaskManager "2+3*4" 1 testEnv).1 id = false) := by
  have hcover : ∀ id,
      ((CreateExpression NewTaskManager "2+3*4" 1 testEnv).1.tasks.get? id).isSome = true →
      id ∈ ["uuu", "uu"] := by
    have hstate : (CreateExpression NewTaskManager "2+3*4" 1 testEnv).1.tasks =
        [("uu", { ID := "uu", Arg1 := 3, Arg2 := 4, Operation := "*", OperationTime := 530,
                  Priority := 2 }),
         ("uuu", { ID := "uuu", Arg1 := 2, Arg2 := 0, Operation := "+", OperationTime := 510,
                   Priority := 1 })] := by
      with_unfolding_all decide
    intro id hid
    rw [hstate] at hid
    simp only [GoMap.get?_cons, GoMap.get?_nil] at hid
    by_cases h1 : "uu" = id
    · simp [← h1]
    · by_cases h2 : "uuu" = id
      · simp [← h2]
      · simp [h1, h2] at hid
  exact ⟨hcover, by with_unfolding_all decide, by with_unfolding_all decide,
    by with_unfolding_all decide, by with_unfolding_all decide,
    (GetNextTask_found_iff_ready _ ["uuu", "uu"] hcover).1⟩

/-! ## Sessions -/

theorem testEnv_UUID_injective : Function.Injective testEnv.UUID := by
  intro a b hab
  have hlen := congrArg String.length hab
  simpa [testEnv, String.length] using hlen

theorem replay_append (calls : List Call) (c : Call) :
    replay (calls ++ [c]) =
      (c.run (replay calls).1, c.seenAfter (replay calls).2.1,
        c.handedAfter (replay calls).1 (replay calls).2.2) := by
  simp [replay, List.foldl_append]

/-- A session that only fetches and answers tasks after what was reached is reachable. -/
theorem Reachable_replay_rest (rest : List Call) (hrest : ∀ c ∈ rest, c.isCreate = false) :
    ∀ (first : List Call),
      Reachable (replay first).1 (replay first).2.1 (replay first).2.2 →
      Reachable (replay (first ++ rest)).1 (replay (first ++ rest)).2.1
        (replay (first ++ rest)).2.2 := by
  induction rest with
  | nil =>
    intro first h
    simpa using h
  | cons c rest ih =>
    intro first h
    have hstep : Reachable (replay (first ++ [c])).1 (replay (first ++ [c])).2.1
        (replay (first ++ [c])).2.2 := by
      rw [replay_append]
      refine Reachable.step c h ?_
      have hc := hrest c (List.mem_cons_self _ _)
      cases c with
      | create _ _ _ => simp [Call.isCreate] at hc
      | getNext _ => trivial
      | submit _ => trivial
    have := ih (fun c2 hc2 => hrest c2 (List.mem_cons_of_mem _ hc2)) (first ++ [c]) hstep
    simpa using this

/-- A session that creates one expression on the empty manager, with pairwise distinct ids,
and then only fetches and answers tasks, is reachable. -/
theorem Reachable_replay (text : String) (userID : Int) (env : Env) (rest : List Call)
    (hinj : Function.Injective env.UUID) (hrest : ∀ c ∈ rest, c.isCreate = false) :
    Reachable (replay (Call.create text userID env :: rest)).1
      (replay (Call.create text userID env :: rest)).2.1
      (replay (Call.create text userID env :: rest)).2.2 := by
  have h1 : Reachable (replay [Call.create text userID env]).1
      (replay [Call.create text userID env]).2.1 (replay [Call.create text userID env]).2.2 :=
    Reachable.step (Call.create text userID env) Reachable.init ⟨hinj, fun _ h => h⟩
  exact Reachable_replay_rest rest hrest [Call.create text userID env] h1

theorem Reachable_demoCalls :
    Reachable (replay demoCalls).1 (replay demoCalls).2.1 (replay demoCalls).2.2 :=
  Reachable_replay "1*2+3*4" 1 testEnv _ testEnv_UUID_injective (by simp [Call.isCreate])

/-! ## Claims about reachable states -/

/-- C4.  In a reachable state, when `GetNextTask` returns a task whose dependency entry is
`[d1, d2]` (both operands are results of earlier operations), the results map has entries for
`d1` and `d2` and the returned task has `Arg1 = results[d1]` and `Arg2 = results[d2]`. -/
theorem GetNextTask_two_dependencies {tm : TaskManager} {seen : Set String}
    {handed : List String} (h : Reachable tm seen handed) (order : List String)
    (tm2 : TaskManager) (task : Task) (d1 d2 : String)
    (hget : GetNextTask tm order = (tm2, task, true))
    (hdeps : tm.dependsOnTask.get? task.ID = some [d1, d2]) :
    ∃ r1 r2, tm.taskResults.get? d1 = some r1 ∧ tm.taskResults.get? d2 = some r2 ∧
      task.Arg1 = r1 ∧ task.Arg2 = r2 := by
  have hinv := Reachable_inv h
  rcases GetNextTask_spec tm order with ⟨h1, _⟩ | ⟨id, task0, _, hg, hready, hres⟩
  · rw [h1] at hget
    simp at hget
  · have hid0 := hinv.taskID id task0 hg
    rcases hres with ⟨hnone, heq⟩ | ⟨deps, _, hd, heq⟩
    · rw [heq] at hget
      simp only [Prod.mk.injEq, and_true] at hget
      obtain ⟨_, h3⟩ := hget
      subst h3
      rw [hid0] at hdeps
      rcases hnone with hnone | hnone
      · rw [hnone] at hdeps
        simp at hdeps
      · rw [hnone] at hdeps
        simp at hdeps
    · rw [heq] at hget
      simp only [Prod.mk.injEq, and_true] at hget
      obtain ⟨_, h3⟩ := hget
      subst h3
      rw [substituteArgs_ID, hid0, hd] at hdeps
      have hdeps2 : deps = [d1, d2] := by simpa using hdeps
      subst hdeps2
      obtain ⟨ha1, ha2⟩ := hinv.placeholders id task0 d1 d2 hg hd
      simp only [isReady, hd, List.all_cons, List.all_nil, Bool.and_true,
        Bool.and_eq_true] at hready
      obtain ⟨hr1, hr2⟩ := hready
      obtain ⟨r1, hr1⟩ := Option.isSome_iff_exists.mp hr1
      obtain ⟨r2, hr2⟩ := Option.isSome_iff_exists.mp hr2
      refine ⟨r1, r2, hr1, hr2, ?_, ?_⟩
      · simp [substituteArgs, ha1, ha2, resultOf, hr1]
      · simp [substituteArgs, ha1, ha2, resultOf, hr2]

/-- C4 on `1*2+3*4`: after `1*2` and `3*4` were answered with `2` and `12`, the task `+`,
whose dependency entry is `[uu, uuu]`, is returned with operands `2` and `12`. -/
theorem GetNextTask_two_dependencies_witness :
    (GetNextTask (replay demoCalls).1 ["uu", "uuu", "uuuu"]).2 =
      ({ ID := "uuuu", Arg1 := 2, Arg2 := 12, Operation := "+", OperationTime := 510,
         Priority := 1 }, true) ∧
    (replay demoCalls).1.dependsOnTask.get? "uuuu" = some ["uu", "uuu"] ∧
    ∃ r1 r2, (replay demoCalls).1.taskResults.get? "uu" = some r1 ∧
      (replay demoCalls).1.taskResults.get? "uuu" = some r2 ∧
      (GetNextTask (replay demoCalls).1 ["uu", "uuu", "uuuu"]).2.1.Arg1 = r1 ∧
      (GetNextTask (replay demoCalls).1 ["uu", "uuu", "uuuu"]).2.1.Arg2 = r2 :=
  ⟨by with_unfolding_all decide, by with_unfolding_all decide,
    GetNextTask_two_dependencies Reachable_demoCalls ["uu", "uuu", "uuuu"]
      (GetNextTask (replay demoCalls).1 ["uu", "uuu", "uuuu"]).1
      (GetNextTask (replay demoCalls).1 ["uu", "uuu", "uuuu"]).2.1 "uu" "uuu"
      (by with_unfolding_all decide) (by with_unfolding_all decide)⟩

/-- C5.  In a reachable state, let `SubmitTaskResult` be called for a task of expression
`exprID`.  The expression has a header and a non-empty task list.  When, with the new result
recorded, every task id of the list has a result, the header afterwards is the old one with
status `COMPLETED` and with the value recorded for the last task id of the list as result;
when some task of the list has no result, the header is unchanged. -/
theorem SubmitTaskResult_completes_with_last_task {tm : TaskManager} {seen : Set String}
    {handed : List String} (h : Reachable tm seen handed) (result : TaskResult)
    (exprID : String) (hte : tm.taskToExpression.get? result.ID = some exprID) :
    ∃ taskIDs expr lastTaskID,
      tm.expressionTasks.get? exprID = some taskIDs ∧
      tm.expressions.get? exprID = some expr ∧
      taskIDs.getLast? = some lastTaskID ∧
      ((∀ t ∈ taskIDs,
          ((tm.taskResults.set result.ID result.Result).get? t).isSome = true) →
        ∃ v, (tm.taskResults.set result.ID result.Result).get? lastTaskID = some v ∧
          (SubmitTaskResult tm result).1.expressions.get? exprID =
            some { expr with Status := "COMPLETED", Result := v }) ∧
      (¬ (∀ t ∈ taskIDs,
          ((tm.taskResults.set result.ID result.Result).get? t).isSome = true) →
        (SubmitTaskResult tm result).1.expressions.get? exprID = some expr) := by
  have hinv := Reachable_inv h
  obtain ⟨l, hl, hmem, hsome⟩ := hinv.owner _ _ hte
  obtain ⟨expr, hx⟩ := Option.isSome_iff_exists.mp hsome
  obtain ⟨last, hlast⟩ : ∃ last, l.getLast? = some last := by
    cases hq : l.getLast? with
    | none =>
      rw [List.getLast?_eq_none_iff] at hq
      rw [hq] at hmem
      simp at hmem
    | some last => exact ⟨last, rfl⟩
  have hroot : ∀ p ∈ tm.dependsOnTask.entries, last ∉ p.2 := by
    intro p hp hin
    exact hinv.root exprID l hl p.1 p.2 hp last hin hlast
  refine ⟨l, expr, last, hl, hx, hlast, ?_, ?_⟩
  · intro hall
    have hall2 : l.all (fun taskID =>
        ((tm.taskResults.set result.ID result.Result).get? taskID).isSome) = true := by
      rw [List.all_eq_true]
      exact hall
    obtain ⟨v, hv⟩ := Option.isSome_iff_exists.mp (hall last (List.mem_of_getLast?_eq_some hlast))
    refine ⟨v, hv, ?_⟩
    have hspec := SubmitTaskResult_spec tm result
    unfold SubmitOutcome at hspec
    simp only at hspec
    rcases hspec with ⟨_, _, hcase⟩ | ⟨e, l2, x, rid, he, hl2, _, hx2, hrid, heq⟩
    · rcases hcase with hnone | ⟨e, he, hcase⟩
      · rw [hnone] at hte
        simp at hte
      · rw [hte] at he
        have he2 : exprID = e := by simpa using he
        subst he2
        rcases hcase with hnone | ⟨l2, hl2, hcase⟩
        · rw [hnone] at hl
          simp at hl
        · rw [hl] at hl2
          have hl3 : l = l2 := by simpa using hl2
          subst hl3
          rcases hcase with hf | hf | hf
          · rw [hall2] at hf
            simp at hf
          · rw [hf] at hx
            simp at hx
          · rw [hf] at hmem
            simp at hmem
    · rw [hte] at he
      have he2 : exprID = e := by simpa using he
      subst he2
      rw [hl] at hl2
      have hl3 : l = l2 := by simpa using hl2
      subst hl3
      rw [hx] at hx2
      have hx3 : expr = x := by simpa using hx2
      subst hx3
      have hfind : findRootTaskID
          { tm with taskResults := tm.taskResults.set result.ID result.Result } l = last :=
        findRootTaskID_last _ l last hlast hroot
      have hrid2 : rid = last := by
        rcases hrid with ⟨_, h2⟩ | ⟨_, h2⟩
        · rw [h2, hfind]
        · rw [hlast] at h2
          simpa using h2.symm
      subst hrid2
      rw [heq]
      simp only [finishExpression]
      rw [cleanup_expressions]
      simp only [GoMap.get?_set_self, resultOf, hv, Option.getD_some]
  · intro hnot
    have hall2 : l.all (fun taskID =>
        ((tm.taskResults.set result.ID result.Result).get? taskID).isSome) ≠ true := by
      rw [Ne, List.all_eq_true]
      exact hnot
    have hspec := SubmitTaskResult_spec tm result
    unfold SubmitOutcome at hspec
    simp only at hspec
    rcases hspec with ⟨heq, _, _⟩ | ⟨e, l2, x, rid, he, hl2, hall3, _, _, _⟩
    · rw [heq]
      exact hx
    · rw [hte] at he
      have he2 : exprID = e := by simpa using he
      subst he2
      rw [hl] at hl2
      have hl3 : l = l2 := by simpa using hl2
      subst hl3
      exact absurd hall3 hall2

/-- C5 on `5+5`: after the task was fetched, submitting `10` for it completes the
expression with result `10`. -/
theorem SubmitTaskResult_completes_with_last_task_witness :
    (replay [Call.create "5+5" 1 testEnv, Call.getNext ["uu"]]).1.taskToExpression.get? "uu"
      = some "u" ∧
    ((SubmitTaskResult (replay [Call.create "5+5" 1 testEnv, Call.getNext ["uu"]]).1
      { ID := "uu", Result := 10 }).1.expressions.get? "u").map
        (fun e => (e.Status, e.Result)) = some ("COMPLETED", 10) ∧
    ∃ taskIDs expr lastTaskID,
      (replay [Call.create "5+5" 1 testEnv, Call.getNext ["uu"]]).1.expressionTasks.get? "u"
        = some taskIDs ∧
      (replay [Call.create "5+5" 1 testEnv, Call.getNext ["uu"]]).1.expressions.get? "u"
        = some expr ∧
      taskIDs.getLast? = some lastTaskID ∧
      ((∀ t ∈ taskIDs,
          (((replay [Call.create "5+5" 1 testEnv, Call.getNext ["uu"]]).1.taskResults.set
            "uu" 10).get? t).isSome = true) →
        ∃ v, ((replay [Call.create "5+5" 1 testEnv, Call.getNext ["uu"]]).1.taskResults.set
            "uu" 10).get? lastTaskID = some v ∧
          (SubmitTaskResult (replay [Call.create "5+5" 1 testEnv, Call.getNext ["uu"]]).1
            { ID := "uu", Result := 10 }).1.expressions.get? "u" =
            some { expr with Status := "COMPLETED", Result := v }) ∧
      (¬ (∀ t ∈ taskIDs,
          (((replay [Call.create "5+5" 1 testEnv, Call.getNext ["uu"]]).1.taskResults.set
            "uu" 10).get? t).isSome = true) →
        (SubmitTaskResult (replay [Call.create "5+5" 1 testEnv, Call.getNext ["uu"]]).1
          { ID := "uu", Result := 10 }).1.expressions.get? "u" = some expr) :=
  ⟨by with_unfolding_all decide, by with_unfolding_all decide,
    SubmitTaskResult_completes_with_last_task
      (Reachable_replay "5+5" 1 testEnv [Call.getNext ["uu"]] testEnv_UUID_injective
        (by simp [Call.isCreate]))
      { ID := "uu", Result := 10 } "u" (by with_unfolding_all decide)⟩

/-- C6.  In a reachable state `SubmitTaskResult` returns an error exactly when the task id
has no entry in `taskToExpression`, and the error is then the unknown-task error; the gRPC
handler answers `success = false` with that non-empty message and no transport error in
this case, and `success = true` with no transport error in every other case. -/
theorem SubmitTaskResult_error_iff_unknown {tm : TaskManager} {seen : Set String}
    {handed : List String} (h : Reachable tm seen handed) (result : TaskResult) :
    ((SubmitTaskResult tm result).2.2 ≠ none ↔ tm.taskToExpression.get? result.ID = none) ∧
    (tm.taskToExpression.get? result.ID = none →
      (SubmitTaskResult tm result).2.2 = some "задача не найдена" ∧
      (SubmitTaskResultRPC tm result).2.2 =
        ({ Success := false, ErrorMessage := "задача не найдена" }, none) ∧
      ("задача не найдена" : String) ≠ "") ∧
    (tm.taskToExpression.get? result.ID ≠ none →
      (SubmitTaskResult tm result).2.2 = none ∧
      (SubmitTaskResultRPC tm result).2.2 = ({ Success := true, ErrorMessage := "" }, none)) := by
  have hinv := Reachable_inv h
  have hrpc : ∀ err, (SubmitTaskResult tm result).2.2 = err →
      (SubmitTaskResultRPC tm result).2.2 =
        match err with
        | some msg => ({ Success := false, ErrorMessage := msg }, none)
        | none => ({ Success := true, ErrorMessage := "" }, none) := by
    intro err herr
    unfold SubmitTaskResultRPC
    cases hs : SubmitTaskResult tm result with
    | mk tm1 r =>
      cases r with
      | mk saves err2 =>
        rw [hs] at herr
        simp only at herr
        subst herr
        cases err2 <;> rfl
  have hunknown : tm.taskToExpression.get? result.ID = none →
      (SubmitTaskResult tm result).2.2 = some "задача не найдена" := by
    intro hnone
    simp [SubmitTaskResult, hnone]
  have hknown : tm.taskToExpression.get? result.ID ≠ none →
      (SubmitTaskResult tm result).2.2 = none := by
    intro hne
    obtain ⟨e, he⟩ := Option.ne_none_iff_exists'.mp hne
    obtain ⟨l, hl, hmem, hsome⟩ := hinv.owner _ _ he
    obtain ⟨expr, hx⟩ := Option.isSome_iff_exists.mp hsome
    have hspec := SubmitTaskResult_spec tm result
    unfold SubmitOutcome at hspec
    simp only at hspec
    rcases hspec with ⟨_, _, hcase⟩ | ⟨_, _, _, _, _, _, _, _, _, heq⟩
    · rcases hcase with hnone | ⟨e2, he2, hcase⟩
      · exact absurd hnone hne
      · rw [he] at he2
        have he3 : e = e2 := by simpa using he2
        subst he3
        rcases hcase with hnone | ⟨l2, hl2, hcase⟩
        · rw [hnone] at hl
          simp at hl
        · rw [hl] at hl2
          have hl3 : l = l2 := by simpa using hl2
          subst hl3
          rcases hcase with hf | hf | hf
          · simp only [SubmitTaskResult, he, hl, hf]
            simp
          · rw [hf] at hx
            simp at hx
          · rw [hf] at hmem
            simp at hmem
    · rw [heq]
  refine ⟨⟨?_, ?_⟩, ?_, ?_⟩
  · intro herr
    by_contra hne
    exact herr (hknown hne)
  · intro hnone
    rw [hunknown hnone]
    simp
  · intro hnone
    refine ⟨hunknown hnone, ?_, by decide⟩
    rw [hrpc _ (hunknown hnone)]
  · intro hne
    refine ⟨hknown hne, ?_⟩
    rw [hrpc _ (hknown hne)]

/-- C6 on the session of `1*2+3*4`: an unknown id is answered with `success = false`, the
id of the last task with `success = true`. -/
theorem SubmitTaskResult_error_iff_unknown_witness :
    (SubmitTaskResultRPC (replay demoCalls).1 { ID := "non-existent-task", Result := 42 }).2.2
      = ({ Success := false, ErrorMessage := "задача не найдена" }, none) ∧
    (SubmitTaskResultRPC (replay demoCalls).1 { ID := "uuuu", Result := 14 }).2.2
      = ({ Success := true, ErrorMessage := "" }, none) ∧
    ((SubmitTaskResult (replay demoCalls).1 { ID := "uuuu", Result := 14 }).2.2 ≠ none ↔
      (replay demoCalls).1.taskToExpression.get? "uuuu" = none) :=
  ⟨by with_unfolding_all decide, by with_unfolding_all decide,
    (SubmitTaskResult_error_iff_unknown Reachable_demoCalls { ID := "uuuu", Result := 14 }).1⟩

/-- C8.  Along any sequence of `CreateExpression`, `GetNextTask` and `SubmitTaskResult`
calls with fresh ids, the task ids returned by `GetNextTask` so far are pairwise distinct:
no task id is returned more than once. -/
theorem GetNextTask_never_returns_twice {tm : TaskManager} {seen : Set String}
    {handed : List String} (h : Reachable tm seen handed) : handed.Nodup :=
  (Reachable_inv h).handedNodup

/-- C8 on the session of `1*2+3*4` followed by two more fetches: the ids returned are `uu`,
`uuu`, `uuuu`, and the last fetch returns nothing. -/
theorem GetNextTask_never_returns_twice_witness :
    (replay (Call.create "1*2+3*4" 1 testEnv ::
      [Call.getNext ["uu", "uuu", "uuuu"], Call.submit { ID := "uu", Result := 2 },
       Call.getNext ["uu", "uuu", "uuuu"], Call.submit { ID := "uuu", Result := 12 },
       Call.getNext ["uu", "uuu", "uuuu"], Call.getNext ["uu", "uuu", "uuuu"]])).2.2
      = ["uu", "uuu", "uuuu"] ∧
    (replay (Call.create "1*2+3*4" 1 testEnv ::
      [Call.getNext ["uu", "uuu", "uuuu"], Call.submit { ID := "uu", Result := 2 },
       Call.getNext ["uu", "uuu", "uuuu"], Call.submit { ID := "uuu", Result := 12 },
       Call.getNext ["uu", "uuu", "uuuu"], Call.getNext ["uu", "uuu", "uuuu"]])).2.2.Nodup :=
  ⟨by with_unfolding_all decide,
    GetNextTask_never_returns_twice
      (Reachable_replay "1*2+3*4" 1 testEnv _ testEnv_UUID_injective (by simp [Call.isCreate]))⟩

/-! ## The headers of the expressions -/

theorem buildTasks_expressions (env : Env) (e : String) (rpn : List Token) :
    ∀ (tm : TaskManager) (ids : List String) (stack : List stackItem) (k : Nat),
      (buildTasks env e rpn tm ids stack k).1.expressions = tm.expressions := by
  induction rpn with
  | nil =>
    intro tm ids stack k
    rfl
  | cons token rest ih =>
    intro tm ids stack k
    cases hty : token.Typ with
    | Number =>
      simp only [buildTasks, hty]
      exact ih _ _ _ _
    | Operator =>
      match stack with
      | [] => simp [buildTasks, hty]
      | [_] => simp [buildTasks, hty]
      | r :: l :: stack2 =>
        simp only [buildTasks, hty]
        rw [ih]
        rfl
    | LeftParen =>
      simp only [buildTasks, hty]
      exact ih _ _ _ _
    | RightParen =>
      simp only [buildTasks, hty]
      exact ih _ _ _ _

/-- What `CreateExpression` does to the headers: either it fails and leaves them as they
are, or it adds the header `env.UUID 0` with status `PROCESSING`; it only succeeds in the
second case, returning that id. -/
theorem CreateExpression_expressions (tm : TaskManager) (expressionText : String)
    (userID : Int) (env : Env) :
    ((CreateExpression tm expressionText userID env).1.expressions = tm.expressions ∧
      ∃ msg, (CreateExpression tm expressionText userID env).2 = Except.error msg) ∨
    (∃ x, x.Status = "PROCESSING" ∧
      (CreateExpression tm expressionText userID env).1.expressions =
        tm.expressions.set (env.UUID 0) x ∧
      ((CreateExpression tm expressionText userID env).2 = Except.ok (env.UUID 0) ∨
        ∃ msg, (CreateExpression tm expressionText userID env).2 = Except.error msg)) := by
  by_cases he : expressionText = ""
  · left
    simp [CreateExpression, he]
  · cases hc : Calculate NewCalculator expressionText with
    | mk testCalc res =>
      cases res with
      | error msg =>
        left
        simp [CreateExpression, he, hc]
      | ok v =>
        cases ht : Tokenize tm.calc_ expressionText with
        | mk calc1 err =>
          cases err with
          | some msg =>
            left
            simp [CreateExpression, he, hc, ht]
          | none =>
            cases hr : ToRPN calc1 with
            | error msg =>
              left
              simp [CreateExpression, he, hc, ht, hr]
            | ok rpn =>
              right
              simp only [CreateExpression, he, if_false, hc, ht, hr]
              split_ifs with hsingle
              · exact ⟨_, rfl, rfl, Or.inl rfl⟩
              · cases hb : buildTasks env (env.UUID 0) rpn
                  { tm with
                    calc_ := calc1
                    expressions := tm.expressions.set (env.UUID 0)
                      { ID := env.UUID 0, Original := expressionText, Status := "PROCESSING",
                        Result := 0, CreatedAt := env.Now }
                    userIDs := tm.userIDs.set (env.UUID 0) userID } [] [] 1 with
                | mk tm3 r =>
                  have hexp := buildTasks_expressions env (env.UUID 0) rpn
                    { tm with
                      calc_ := calc1
                      expressions := tm.expressions.set (env.UUID 0)
                        { ID := env.UUID 0, Original := expressionText, Status := "PROCESSING",
                          Result := 0, CreatedAt := env.Now }
                      userIDs := tm.userIDs.set (env.UUID 0) userID } [] [] 1
                  rw [hb] at hexp
                  simp only at hexp
                  cases r with
                  | none => exact ⟨_, rfl, hexp, Or.inr ⟨_, rfl⟩⟩
                  | some ids => exact ⟨_, rfl, hexp, Or.inl rfl⟩

theorem GetNextTask_expressions (tm : TaskManager) (order : List String) :
    (GetNextTask tm order).1.expressions = tm.expressions := by
  rcases GetNextTask_spec tm order with ⟨h1, _⟩ | ⟨id, task0, _, _, _, hres⟩
  · rw [h1]
  · rcases hres with ⟨_, heq⟩ | ⟨_, _, _, heq⟩
    · rw [heq]
    · rw [heq]

/-- C10.  In a reachable state, for any next call with fresh ids: a header with status
`COMPLETED` is left as it is (status and result); any header is kept, either unchanged or
moved from `PROCESSING` to `COMPLETED`; and a successful `CreateExpression` records a
header that did not exist, with status `PROCESSING`. -/
theorem completed_expression_is_final {tm : TaskManager} {seen : Set String}
    {handed : List String} (h : Reachable tm seen handed) (c : Call) (hc : c.Fresh seen) :
    (∀ e x, tm.expressions.get? e = some x → x.Status = "COMPLETED" →
      (c.run tm).expressions.get? e = some x) ∧
    (∀ e x, tm.expressions.get? e = some x →
      ∃ x2, (c.run tm).expressions.get? e = some x2 ∧
        (x2 = x ∨ (x.Status = "PROCESSING" ∧ x2.Status = "COMPLETED"))) ∧
    (∀ text userID env id, c = Call.create text userID env →
      (CreateExpression tm text userID env).2 = Except.ok id →
      tm.expressions.get? id = none ∧
      ∃ x, (c.run tm).expressions.get? id = some x ∧ x.Status = "PROCESSING") := by
  have hinv := Reachable_inv h
  have main : ∀ e x, tm.expressions.get? e = some x →
      ∃ x2, (c.run tm).expressions.get? e = some x2 ∧
        (x2 = x ∨ (x.Status = "PROCESSING" ∧ x2.Status = "COMPLETED" ∧
          x.Status ≠ "COMPLETED")) := by
    intro e x hx
    cases c with
    | create text userID env =>
      have hne : e ≠ env.UUID 0 := by
        intro heq
        have := hinv.keys.expressions e (by simp [hx])
        rw [heq] at this
        exact hc.2 0 this
      rcases CreateExpression_expressions tm text userID env with ⟨h1, _⟩ | ⟨x0, _, h1, _⟩
      · exact ⟨x, by simp only [Call.run]; rw [h1]; exact hx, Or.inl rfl⟩
      · refine ⟨x, ?_, Or.inl rfl⟩
        simp only [Call.run]
        rw [h1, GoMap.get?_set_of_ne _ _ _ _ hne]
        exact hx
    | getNext order =>
      exact ⟨x, by simp only [Call.run]; rw [GetNextTask_expressions]; exact hx, Or.inl rfl⟩
    | submit result =>
      have hspec := SubmitTaskResult_spec tm result
      unfold SubmitOutcome at hspec
      simp only at hspec
      rcases hspec with ⟨heq, _, _⟩ | ⟨e1, l, x1, rid, _, hl, _, hx1, _, heq⟩
      · exact ⟨x, by simp only [Call.run]; rw [heq]; exact hx, Or.inl rfl⟩
      · simp only [Call.run]
        rw [heq]
        simp only [finishExpression]
        rw [cleanup_expressions]
        by_cases he : e = e1
        · subst he
          rw [hx] at hx1
          have hx2 : x = x1 := by simpa using hx1
          subst hx2
          refine ⟨_, GoMap.get?_set_self _ _ _, Or.inr ?_⟩
          have hnc : x.Status ≠ "COMPLETED" := by
            intro hcomp
            have := hinv.completed e x hx hcomp
            rw [hl] at this
            simp at this
          rcases hinv.status e x hx with hp | hp
          · exact ⟨hp, rfl, hnc⟩
          · exact absurd hp hnc
        · refine ⟨x, ?_, Or.inl rfl⟩
          simp only [GoMap.get?_set_of_ne _ _ _ _ he]
          exact hx
  refine ⟨?_, ?_, ?_⟩
  · intro e x hx hcomp
    obtain ⟨x2, h1, h2⟩ := main e x hx
    rcases h2 with h2 | ⟨_, _, h2⟩
    · rw [h1, h2]
    · exact absurd hcomp h2
  · intro e x hx
    obtain ⟨x2, h1, h2⟩ := main e x hx
    rcases h2 with h2 | ⟨h2, h3, _⟩
    · exact ⟨x2, h1, Or.inl h2⟩
    · exact ⟨x2, h1, Or.inr ⟨h2, h3⟩⟩
  · intro text userID env id hceq hok
    subst hceq
    rcases CreateExpression_expressions tm text userID env with ⟨_, msg, h1⟩ | ⟨x0, hst, h1, h2⟩
    · rw [h1] at hok
      simp at hok
    · have hid : id = env.UUID 0 := by
        rcases h2 with h2 | ⟨msg, h2⟩
        · rw [h2] at hok
          simpa using hok.symm
        · rw [h2] at hok
          simp at hok
      subst hid
      constructor
      · cases hg : tm.expressions.get? (env.UUID 0) with
        | none => rfl
        | some y =>
          exact absurd (hinv.keys.expressions (env.UUID 0) (by simp [hg])) (hc.2 0)
      · refine ⟨x0, ?_, hst⟩
        simp only [Call.run]
        rw [h1]
        exact GoMap.get?_set_self _ _ _

/-- C10 on `5+5`: the expression is recorded as `PROCESSING`, completed with result `10` by
the answer to its task, and a repeated answer `99` for the same task leaves the header
unchanged. -/
theorem completed_expression_is_final_witness :
    ((replay [Call.create "5+5" 1 testEnv]).1.expressions.get? "u").map
      (fun e => (e.Status, e.Result)) = some ("PROCESSING", 0) ∧
    ((replay [Call.create "5+5" 1 testEnv, Call.getNext ["uu"],
      Call.submit { ID := "uu", Result := 10 }]).1.expressions.get? "u").map
      (fun e => (e.Status, e.Result)) = some ("COMPLETED", 10) ∧
    (SubmitTaskResult (replay [Call.create "5+5" 1 testEnv, Call.getNext ["uu"],
      Call.submit { ID := "uu", Result := 10 }]).1 { ID := "uu", Result := 99 }).2.2
      = some "задача не найдена" ∧
    (∀ e x,
      (replay [Call.create "5+5" 1 testEnv, Call.getNext ["uu"],
        Call.submit { ID := "uu", Result := 10 }]).1.expressions.get? e = some x →
      x.Status = "COMPLETED" →
      ((Call.submit { ID := "uu", Result := 99 }).run
        (replay [Call.create "5+5" 1 testEnv, Call.getNext ["uu"],
          Call.submit { ID := "uu", Result := 10 }]).1).expressions.get? e = some x) :=
  ⟨by with_unfolding_all decide, by with_unfolding_all decide, by with_unfolding_all decide,
    (completed_expression_is_final
      (Reachable_replay "5+5" 1 testEnv
        [Call.getNext ["uu"], Call.submit { ID := "uu", Result := 10 }]
        testEnv_UUID_injective (by simp [Call.isCreate]))
      (Call.submit { ID := "uu", Result := 99 }) trivial).1⟩

/-! ## Errors of CreateExpression -/

/-- Once `Calculate` on a fresh calculator accepts the text, `CreateExpression` passes its
second tokenizing, its second `ToRPN` and its task-building loop, and returns the id
`env.UUID 0`. -/
theorem CreateExpression_ok_of_Calculate (tm : TaskManager) (expressionText : String)
    (userID : Int) (env : Env) (v : ℚ)
    (hv : (Calculate NewCalculator expressionText).2 = Except.ok v) :
    (Tokenize tm.calc_ expressionText).2 = none ∧
    (∃ rpn, ToRPN (Tokenize tm.calc_ expressionText).1 = Except.ok rpn ∧
      ∀ (e : String) (tm2 : TaskManager) (k : Nat),
        ∃ tm3 ids, buildTasks env e rpn tm2 [] [] k = (tm3, some ids)) ∧
    (CreateExpression tm expressionText userID env).2 = Except.ok (env.UUID 0) := by
  obtain ⟨he, htok, rpn, hrpn, hev⟩ := Calculate_ok NewCalculator expressionText v hv
  rw [Tokenize_indep NewCalculator tm.calc_ expressionText he] at htok hrpn
  have hloop : ∀ (e : String) (tm2 : TaskManager) (k : Nat),
      ∃ tm3 ids, buildTasks env e rpn tm2 [] [] k = (tm3, some ids) := fun e tm2 k =>
    buildTasks_isSome_of_evalLoop env e rpn [] [] tm2 [] k rfl ⟨_, EvaluateRPN_ok rpn v hev⟩
  refine ⟨htok, ⟨rpn, hrpn, hloop⟩, ?_⟩
  cases hc : Calculate NewCalculator expressionText with
  | mk testCalc res =>
    rw [hc] at hv
    simp only at hv
    subst hv
    cases ht : Tokenize tm.calc_ expressionText with
    | mk calc1 err =>
      rw [ht] at htok hrpn
      simp only at htok hrpn
      subst htok
      simp only [CreateExpression, he, if_false, hc, ht, hrpn]
      split_ifs with hsingle
      · rfl
      · obtain ⟨tm3, ids3, hb⟩ := hloop (env.UUID 0)
          { tm with
            calc_ := calc1
            expressions := tm.expressions.set (env.UUID 0)
              { ID := env.UUID 0, Original := expressionText, Status := "PROCESSING",
                Result := 0, CreatedAt := env.Now }
            userIDs := tm.userIDs.set (env.UUID 0) userID } 1
        rw [hb]

/-- When `Calculate` on a fresh calculator rejects the text, or the text is empty,
`CreateExpression` returns an error and the manager is untouched. -/
theorem CreateExpression_of_Calculate_error (tm : TaskManager) (expressionText : String)
    (userID : Int) (env : Env) (msg : String)
    (hv : (Calculate NewCalculator expressionText).2 = Except.error msg) :
    CreateExpression tm expressionText userID env =
      (tm, Except.error (if expressionText = "" then "empty expression" else classifyError msg)) := by
  by_cases he : expressionText = ""
  · simp [CreateExpression, he]
  · cases hc : Calculate NewCalculator expressionText with
    | mk testCalc res =>
      rw [hc] at hv
      simp only at hv
      subst hv
      simp [CreateExpression, he, hc]

/-- C17.  Whenever `CreateExpression` returns an error the manager is exactly as before
the call (all its maps, and its calculator too); and whenever `Calculate` accepts the text,
the second tokenizing and the second `ToRPN` succeed, the task-building loop never meets an
operator with fewer than two stacked operands, and `CreateExpression` returns an id: none of
the later `invalid expression` returns is reachable. -/
theorem CreateExpression_error_changes_nothing (tm : TaskManager) (expressionText : String)
    (userID : Int) (env : Env) :
    (∀ msg, (CreateExpression tm expressionText userID env).2 = Except.error msg →
      (CreateExpression tm expressionText userID env).1 = tm) ∧
    (∀ v, (Calculate NewCalculator expressionText).2 = Except.ok v →
      (Tokenize tm.calc_ expressionText).2 = none ∧
      (∃ rpn, ToRPN (Tokenize tm.calc_ expressionText).1 = Except.ok rpn ∧
        ∀ (e : String) (tm2 : TaskManager) (k : Nat),
          ∃ tm3 ids, buildTasks env e rpn tm2 [] [] k = (tm3, some ids)) ∧
      (CreateExpression tm expressionText userID env).2 = Except.ok (env.UUID 0)) := by
  refine ⟨?_, fun v hv => CreateExpression_ok_of_Calculate tm expressionText userID env v hv⟩
  intro msg hmsg
  cases hc : (Calculate NewCalculator expressionText).2 with
  | error m =>
    rw [CreateExpression_of_Calculate_error tm expressionText userID env m hc]
  | ok v =>
    have := (CreateExpression_ok_of_Calculate tm expressionText userID env v hc).2.2
    rw [this] at hmsg
    simp at hmsg

/-- C17 on the manager holding `2+3*4`: the rejected text `2+` leaves it untouched, and the
accepted text `1+1` is installed. -/
theorem CreateExpression_error_changes_nothing_witness :
    (CreateExpression (CreateExpression NewTaskManager "2+3*4" 1 testEnv).1 "2+" 1 testEnv).2
      = Except.error "invalid expression" ∧
    (CreateExpression (CreateExpression NewTaskManager "2+3*4" 1 testEnv).1 "2+" 1 testEnv).1
      = (CreateExpression NewTaskManager "2+3*4" 1 testEnv).1 ∧
    (Calculate NewCalculator "1+1").2 = Except.ok 2 ∧
    (CreateExpression NewTaskManager "1+1" 1 testEnv).2 = Except.ok (testEnv.UUID 0) :=
  ⟨by with_unfolding_all decide,
    (CreateExpression_error_changes_nothing _ "2+" 1 testEnv).1 "invalid expression"
      (by with_unfolding_all decide),
    by with_unfolding_all decide,
    ((CreateExpression_error_changes_nothing NewTaskManager "1+1" 1 testEnv).2 2
      (by with_unfolding_all decide)).2.2⟩

/-- C16 (the code departs from the claim).  `Calculate` rejects `(2+2` with the message
`RPN conversion error: mismatched parentheses` and `2+a` with
`tokenization error: invalid character: a`; the classification of `CreateExpression`
compares the message with `unexpected character`, `syntax error` and
`unbalanced parentheses`, matches none of them, and returns `invalid expression` for both. -/
theorem CreateExpression_does_not_classify :
    Calc "(2+2" = Except.error "RPN conversion error: mismatched parentheses" ∧
    CreateExpression NewTaskManager "(2+2" 1 testEnv =
      (NewTaskManager, Except.error "invalid expression") ∧
    Calc "2+a" = Except.error "tokenization error: invalid character: a" ∧
    CreateExpression NewTaskManager "2+a" 1 testEnv =
      (NewTaskManager, Except.error "invalid expression") := by
  with_unfolding_all decide

/-! ## Empty input -/

theorem removeSpaces_eq_nil_of_empty : removeSpaces "" = [] := by
  decide

theorem tokenizeLoop_nil (fuel : Nat) (acc : List Token) :
    tokenizeLoop fuel [] acc = (acc, none) := by
  cases fuel <;> rfl

/-- C19 (the claim fails on the code): for the text made of one space `Tokenize` returns no
error, and `Calculate` and `CreateExpression` fail with `invalid expression`, not with
`empty expression`. -/
theorem Tokenize_spaces_only_counterexample :
    ¬ ((Tokenize NewCalculator " ").2 = some "empty expression" ∧
      Calc " " = Except.error "tokenization error: empty expression" ∧
      (CreateExpression NewTaskManager " " 1 testEnv).2 = Except.error "empty expression") := by
  with_unfolding_all decide

/-- C19 as amended.  Let the text be empty once its spaces are removed.  For the empty
string `Tokenize` fails with `empty expression`, `Calculate` with
`tokenization error: empty expression` and `CreateExpression` with `empty expression`.  For
a non-empty string of spaces `Tokenize` returns no error and no token, and `Calculate` and
`CreateExpression` fail with `invalid expression`.  The manager is untouched in both cases. -/
theorem Tokenize_empty_after_stripping (c : Calculator) (tm : TaskManager) (expr : String)
    (userID : Int) (env : Env) (hempty : removeSpaces expr = []) :
    (expr = "" →
      Tokenize c expr = (c, some "empty expression") ∧
      (Calculate c expr).2 = Except.error "tokenization error: empty expression" ∧
      CreateExpression tm expr userID env = (tm, Except.error "empty expression")) ∧
    (expr ≠ "" →
      Tokenize c expr = ({ tokens := [] }, none) ∧
      (Calculate c expr).2 = Except.error "invalid expression" ∧
      CreateExpression tm expr userID env = (tm, Except.error "invalid expression")) := by
  constructor
  · intro he
    subst he
    refine ⟨by simp [Tokenize], by simp [Calculate, Tokenize], by simp [CreateExpression]⟩
  · intro he
    have htok : ∀ c2 : Calculator, Tokenize c2 expr = ({ tokens := [] }, none) := by
      intro c2
      rw [Tokenize_of_ne c2 expr he, hempty]
      rfl
    have hcalc : ∀ c2 : Calculator,
        (Calculate c2 expr).2 = Except.error "invalid expression" := by
      intro c2
      simp only [Calculate, htok c2]
      rfl
    refine ⟨htok c, hcalc c, ?_⟩
    rw [CreateExpression_of_Calculate_error tm expr userID env _ (hcalc NewCalculator)]
    simp [he, classifyError]

/-- C19 as amended, on the empty string and on a string of two spaces. -/
theorem Tokenize_empty_after_stripping_witness :
    removeSpaces "" = [] ∧ removeSpaces "  " = [] ∧
    Tokenize NewCalculator "" = (NewCalculator, some "empty expression") ∧
    Tokenize NewCalculator "  " = ({ tokens := [] }, none) ∧
    (Calculate NewCalculator "  ").2 = Except.error "invalid expression" ∧
    CreateExpression NewTaskManager "  " 1 testEnv =
      (NewTaskManager, Except.error "invalid expression") :=
  ⟨by decide, by decide,
    ((Tokenize_empty_after_stripping NewCalculator NewTaskManager "" 1 testEnv
      (by decide)).1 rfl).1,
    ((Tokenize_empty_after_stripping NewCalculator NewTaskManager "  " 1 testEnv
      (by decide)).2 (by decide)).1,
    ((Tokenize_empty_after_stripping NewCalculator NewTaskManager "  " 1 testEnv
      (by decide)).2 (by decide)).2.1,
    ((Tokenize_empty_after_stripping NewCalculator NewTaskManager "  " 1 testEnv
      (by decide)).2 (by decide)).2.2⟩

/-! ## The tokenizer -/

theorem tokenizeLoop_ge (fuel : Nat) (cs : List Char) (acc : List Token)
    (h : cs.length ≤ fuel) : tokenizeLoop fuel cs acc = tokenizeLoop cs.length cs acc := by
  obtain ⟨d, hd⟩ := Nat.exists_eq_add_of_le h
  subst hd
  induction d with
  | zero => rfl
  | succ n ih =>
    rw [← Nat.add_assoc, tokenizeLoop_fuel _ cs acc (Nat.le_add_right _ _)]
    exact ih (Nat.le_add_right _ _)

theorem IsDigit_dot : IsDigit '.' = false := by decide

theorem isNumberChar_of_IsDigit {c : Char} (h : IsDigit c = true) : isNumberChar c = true := by
  simp [isNumberChar, h]

theorem isNumberChar_iff (c : Char) : isNumberChar c = true ↔ IsDigit c = true ∨ c = '.' := by
  simp [isNumberChar]

theorem head_dropWhile_not (p : Char → Bool) (l : List Char) (c : Char)
    (h : (l.dropWhile p).head? = some c) : p c = false := by
  induction l with
  | nil => simp at h
  | cons a rest ih =>
    rw [List.dropWhile_cons] at h
    by_cases ha : p a = true
    · simp only [ha, if_true] at h
      exact ih h
    · simp only [ha] at h
      have : a = c := by simpa using h
      subst this
      simpa using ha

theorem inDigitRun_cons (c : Char) (before : List Char) (hc : isNumberChar c = true)
    (h : inDigitRun before = true) : inDigitRun (c :: before) = true := by
  unfold inDigitRun at h ⊢
  rw [List.takeWhile_cons, if_pos hc]
  cases hb : before.takeWhile isNumberChar with
  | nil => simp [hb] at h
  | cons a rest =>
    rw [hb] at h
    rw [List.getLast?_cons_cons]
    exact h

theorem inDigitRun_start (c : Char) (before : List Char) (hc : IsDigit c = true)
    (h : before.takeWhile isNumberChar = []) : inDigitRun (c :: before) = true := by
  unfold inDigitRun
  rw [List.takeWhile_cons, if_pos (isNumberChar_of_IsDigit hc), h]
  simpa using hc

/-- The bytes of a run of digits and dots that starts with a digit are not offending. -/
theorem firstOffendingFrom_run (rest : List Char) :
    ∀ before, inDigitRun before = true →
      firstOffendingFrom before rest =
        firstOffendingFrom ((rest.takeWhile isNumberChar).reverse ++ before)
          (rest.dropWhile isNumberChar) := by
  induction rest with
  | nil =>
    intro before _
    rfl
  | cons c r ih =>
    intro before hrun
    by_cases hc : isNumberChar c = true
    · have hno : isOffending before c = false := by
        rcases (isNumberChar_iff c).mp hc with hd | hd
        · simp [isOffending, hd]
        · simp [isOffending, hd, hrun]
      rw [firstOffendingFrom, if_neg (by simp [hno]), ih _ (inDigitRun_cons c before hc hrun),
        List.takeWhile_cons, if_pos hc, List.dropWhile_cons, if_pos hc]
      simp
    · rw [List.takeWhile_cons, if_neg hc, List.dropWhile_cons, if_neg hc]
      rfl

/-- The error of the tokenizer loop is the first offending byte of the remaining text. -/
theorem tokenizeLoop_error (fuel : Nat) :
    ∀ (cs : List Char) (acc : List Token) (before : List Char), cs.length ≤ fuel →
      (before.takeWhile isNumberChar = [] ∨ ∀ c, cs.head? = some c → isNumberChar c = false) →
      (tokenizeLoop fuel cs acc).2 =
        (firstOffendingFrom before cs).map
          (fun ch => "invalid character: " ++ String.singleton ch) := by
  induction fuel with
  | zero =>
    intro cs acc before hlen _
    have hnil : cs = [] := List.length_eq_zero.mp (Nat.le_zero.mp hlen)
    subst hnil
    rfl
  | succ n ih =>
    intro cs acc before hlen hinv
    cases cs with
    | nil => rfl
    | cons c rest =>
      have hrest : rest.length ≤ n := by
        simp only [List.length_cons] at hlen
        omega
      have hsym : ∀ acc2, isSymbolChar c = true →
          (tokenizeLoop n rest acc2).2 =
            (firstOffendingFrom before (c :: rest)).map
              (fun ch => "invalid character: " ++ String.singleton ch) := by
        intro acc2 hs
        have hno : isOffending before c = false := by simp [isOffending, hs]
        have hnum : isNumberChar c = false := by
          simp only [isSymbolChar, Bool.or_eq_true, beq_iff_eq] at hs
          rcases hs with ((((h | h) | h) | h) | h) | h <;> subst h <;> decide
        rw [firstOffendingFrom, if_neg (by simp [hno])]
        apply ih rest acc2 (c :: before) hrest
        left
        rw [List.takeWhile_cons]
        simp [hnum]
      rw [tokenizeLoop]
      split_ifs with h1 h2 h3 h4
      · exact hsym _ (by simp [isSymbolChar, h1])
      · exact hsym _ (by simp [isSymbolChar, h2])
      · exact hsym _ (by
          simp only [isSymbolChar, Bool.or_eq_true, beq_iff_eq]
          tauto)
      · -- a number
        have hblock : before.takeWhile isNumberChar = [] := by
          rcases hinv with h | h
          · exact h
          · have := h c rfl
            rw [isNumberChar_of_IsDigit h4] at this
            exact absurd this (by simp)
        have hno : isOffending before c = false := by simp [isOffending, h4]
        rw [firstOffendingFrom, if_neg (by simp [hno]),
          firstOffendingFrom_run rest _ (inDigitRun_start c before h4 hblock)]
        apply ih
        · exact le_trans (List.Sublist.length_le (List.dropWhile_sublist _)) hrest
        · right
          intro x hx
          exact head_dropWhile_not isNumberChar rest x hx
      · -- an invalid byte
        have hnsym : isSymbolChar c = false := by
          simp only [isSymbolChar, Bool.or_eq_false_iff, beq_eq_false_iff_ne]
          tauto
        have hoff : isOffending before c = true := by
          have hd : IsDigit c = false := by simpa using h4
          simp only [isOffending, hd, hnsym, Bool.not_false, Bool.true_and, Bool.not_eq_true',
            Bool.and_eq_false_imp, beq_iff_eq]
          intro hdot
          rcases hinv with h | h
          · simp [inDigitRun, h]
          · have := h c rfl
            rw [hdot] at this
            exact absurd this (by decide)
        rw [firstOffendingFrom, if_pos hoff]
        rfl

/-- C15.  For every non-empty text, `Tokenize` fails exactly when the bytes of the text
without its spaces hold an offending byte (not a digit, not one of `+ - * / ( )`, not a dot
inside a run that starts with a digit); the error is `invalid character: c` for the first
such byte `c`, printed by the verb `%c` as the character of code point `c`, and `Calculate`
then fails with `tokenization error: invalid character: c`.  The loop of `Tokenize` does
the same on every sequence of bytes, be it the encoding of a text or not. -/
theorem Tokenize_reports_first_offending_byte (c : Calculator) (expr : String)
    (hne : expr ≠ "") :
    (Tokenize c expr).2 =
      (firstOffending (removeSpaces expr)).map
        (fun ch => "invalid character: " ++ String.singleton ch) ∧
    ((Tokenize c expr).2 ≠ none ↔ ∃ ch, firstOffending (removeSpaces expr) = some ch) ∧
    (∀ ch, firstOffending (removeSpaces expr) = some ch →
      (Calculate c expr).2 =
        Except.error ("tokenization error: " ++ ("invalid character: " ++ String.singleton ch))) ∧
    (∀ bytes : List Char,
      (tokenizeLoop bytes.length bytes []).2 =
        (firstOffending bytes).map
          (fun ch => "invalid character: " ++ String.singleton ch)) := by
  have h1 : (Tokenize c expr).2 =
      (firstOffending (removeSpaces expr)).map
        (fun ch => "invalid character: " ++ String.singleton ch) := by
    rw [Tokenize_of_ne c expr hne]
    exact tokenizeLoop_error _ _ _ [] (le_refl _) (Or.inl rfl)
  refine ⟨h1, ?_, ?_, ?_⟩
  · rw [h1]
    cases firstOffending (removeSpaces expr) <;> simp
  · intro ch hch
    rw [hch] at h1
    simp only [Option.map_some'] at h1
    unfold Calculate
    cases ht : Tokenize c expr with
    | mk c1 err =>
      rw [ht] at h1
      simp only at h1
      subst h1
      rfl
  · intro bytes
    exact tokenizeLoop_error _ bytes [] [] (le_refl _) (Or.inl rfl)

/-- C15 on `2+a`, on ` 1.5 + .5` and on `2+é`: the byte reported is `a`, the dot that
starts a run, and the first byte `0xC3` of the two bytes of `é`, printed as `Ã`; on the
bytes `2`, `+`, `0xFF`, which are not the encoding of a text, the byte reported is `0xFF`,
printed as `ÿ`. -/
theorem Tokenize_reports_first_offending_byte_witness :
    removeSpaces "2+é" = ['2', '+', 'Ã', '©'] ∧
    (Tokenize NewCalculator "2+é").2 = some "invalid character: Ã" ∧
    firstOffending (removeSpaces "2+a") = some 'a' ∧
    (Tokenize NewCalculator "2+a").2 = some "invalid character: a" ∧
    Calc "2+a" = Except.error "tokenization error: invalid character: a" ∧
    firstOffending (removeSpaces " 1.5 + .5") = some '.' ∧
    (Tokenize NewCalculator " 1.5 + .5").2 = some "invalid character: ." ∧
    firstOffending (removeSpaces "1.5+2.") = none ∧
    (tokenizeLoop 3 ['2', '+', Char.ofNat 255] []).2 = some "invalid character: ÿ" ∧
    (Tokenize NewCalculator "2+a").2 =
      (firstOffending (removeSpaces "2+a")).map
        (fun ch => "invalid character: " ++ String.singleton ch) :=
  ⟨by decide, by decide, by decide, by decide, by decide, by decide, by decide, by decide,
    by decide, (Tokenize_reports_first_offending_byte NewCalculator "2+a" (by decide)).1⟩

/-! ## Number tokens -/

theorem tokenizeLoop_NumberShape (whole : List Char) (fuel : Nat) :
    ∀ (cs : List Char) (acc : List Token), (∃ pre, whole = pre ++ cs) →
      (∀ t ∈ acc, t.Typ = TokenType.Number → NumberShape whole t) →
      ∀ t ∈ (tokenizeLoop fuel cs acc).1, t.Typ = TokenType.Number → NumberShape whole t := by
  induction fuel with
  | zero =>
    intro cs acc _ hacc
    cases cs <;> exact hacc
  | succ n ih =>
    intro cs acc hsuf hacc
    cases cs with
    | nil => exact hacc
    | cons c rest =>
      obtain ⟨pre, hpre⟩ := hsuf
      have hsuf2 : ∃ pre2, whole = pre2 ++ rest := ⟨pre ++ [c], by simp [hpre]⟩
      have hsym : ∀ tok : Token, tok.Typ ≠ TokenType.Number →
          ∀ t ∈ acc ++ [tok], t.Typ = TokenType.Number → NumberShape whole t := by
        intro tok htok t ht hnum
        rcases List.mem_append.mp ht with ht | ht
        · exact hacc t ht hnum
        · have : t = tok := by simpa using ht
          subst this
          exact absurd hnum htok
      rw [tokenizeLoop]
      split_ifs with h1 h2 h3 h4
      · exact ih rest _ hsuf2 (hsym _ (by simp))
      · exact ih rest _ hsuf2 (hsym _ (by simp))
      · exact ih rest _ hsuf2 (hsym _ (by simp))
      · apply ih
        · refine ⟨pre ++ [c] ++ rest.takeWhile isNumberChar, ?_⟩
          rw [hpre]
          simp [List.takeWhile_append_dropWhile]
        · intro t ht hnum
          rcases List.mem_append.mp ht with ht | ht
          · exact hacc t ht hnum
          · have : t = ⟨TokenType.Number, String.mk (c :: rest.takeWhile isNumberChar)⟩ := by
              simpa using ht
            subst this
            refine ⟨c, rest.takeWhile isNumberChar, rfl, h4, ?_, pre,
              rest.dropWhile isNumberChar, ?_⟩
            · intro x hx
              exact (List.mem_takeWhile_imp hx)
            · rw [hpre]
              simp [List.takeWhile_append_dropWhile]
      · exact hacc

theorem count_dot_of_all_IsDigit (l : List Char) (h : ∀ x ∈ l, IsDigit x = true) :
    l.count '.' = 0 := by
  rw [List.count_eq_zero]
  intro hmem
  have := h '.' hmem
  rw [IsDigit_dot] at this
  exact absurd this (by simp)

/-- A text that starts with a digit and goes on with digits and dots is read by
`ParseFloat` exactly when it has at most one dot. -/
theorem ParseFloat_isSome_iff (d : Char) (ds : List Char) (hd : IsDigit d = true)
    (hds : ∀ x ∈ ds, isNumberChar x = true) :
    (ParseFloat (String.mk (d :: ds))).isSome = true ↔ (d :: ds).count '.' ≤ 1 := by
  have hsplit := List.takeWhile_append_dropWhile IsDigit (d :: ds)
  have hip : (d :: ds).takeWhile IsDigit ≠ [] := by
    rw [List.takeWhile_cons, if_pos hd]
    simp
  have hipc : ((d :: ds).takeWhile IsDigit).count '.' = 0 :=
    count_dot_of_all_IsDigit _ (fun x hx => List.mem_takeWhile_imp hx)
  have hall : ∀ x ∈ d :: ds, isNumberChar x = true := by
    intro x hx
    rcases List.mem_cons.mp hx with hx | hx
    · rw [hx]
      exact isNumberChar_of_IsDigit hd
    · exact hds x hx
  have hpf : ParseFloat (String.mk (d :: ds)) =
      match (d :: ds).dropWhile IsDigit with
      | [] => if (d :: ds).takeWhile IsDigit = [] then none
          else some (digitsValue ((d :: ds).takeWhile IsDigit) : ℚ)
      | c :: fp =>
        if c = '.' ∧ fp.all IsDigit = true ∧
            ¬ ((d :: ds).takeWhile IsDigit = [] ∧ fp = []) then
          some ((digitsValue ((d :: ds).takeWhile IsDigit ++ fp) : ℚ) / (10 : ℚ) ^ fp.length)
        else none := rfl
  cases hrest : (d :: ds).dropWhile IsDigit with
  | nil =>
    rw [hpf, hrest]
    rw [hrest, List.append_nil] at hsplit
    simp only [hip, if_false, Option.isSome_some, true_iff]
    rw [← hsplit, hipc]
    exact Nat.zero_le 1
  | cons c fp =>
    have hcnd : IsDigit c = false :=
      head_dropWhile_not IsDigit (d :: ds) c (by rw [hrest]; rfl)
    have hcmem : c ∈ d :: ds := by
      rw [← hsplit, hrest]
      simp
    have hc : c = '.' := by
      rcases (isNumberChar_iff c).mp (hall c hcmem) with h | h
      · rw [h] at hcnd
        exact absurd hcnd (by simp)
      · exact h
    have hfpnum : ∀ x ∈ fp, isNumberChar x = true := by
      intro x hx
      apply hall
      rw [← hsplit, hrest]
      simp [hx]
    have hcount : (d :: ds).count '.' = 1 + fp.count '.' := by
      conv_lhs => rw [← hsplit, hrest]
      rw [List.count_append, hipc, hc, List.count_cons_self]
      omega
    rw [hpf, hrest, hcount]
    simp only []
    have hiff : fp.all IsDigit = true ↔ fp.count '.' = 0 := by
      constructor
      · intro h
        exact count_dot_of_all_IsDigit fp (by simpa using h)
      · intro h
        rw [List.all_eq_true]
        intro x hx
        rcases (isNumberChar_iff x).mp (hfpnum x hx) with h2 | h2
        · exact h2
        · rw [List.count_eq_zero] at h
          rw [h2] at hx
          exact absurd hx h
    by_cases hfp : fp.all IsDigit = true
    · have h0 := hiff.mp hfp
      have hcond : c = '.' ∧ fp.all IsDigit = true ∧
          ¬ ((d :: ds).takeWhile IsDigit = [] ∧ fp = []) := ⟨hc, hfp, fun h => hip h.1⟩
      rw [if_pos hcond, h0]
      simp
    · have hne : fp.count '.' ≠ 0 := fun h => hfp (hiff.mpr h)
      have hcond : ¬ (c = '.' ∧ fp.all IsDigit = true ∧
          ¬ ((d :: ds).takeWhile IsDigit = [] ∧ fp = [])) := fun h => hfp h.2.1
      rw [if_neg hcond]
      simp only [Option.isSome_none, Bool.false_eq_true, false_iff]
      omega

/-- The loop of `EvaluateRPN` fails with `invalid number` only on a Number token that
`ParseFloat` rejects. -/
theorem evalLoop_error_kinds (rpn : List Token) :
    ∀ (stack : List ℚ) (msg : String),
      (∀ t ∈ rpn, t.Typ = TokenType.Number → (ParseFloat t.Value).isSome = true) →
      evalLoop rpn stack = Except.error msg →
      msg = "division by zero" ∨ msg = "invalid expression" := by
  induction rpn with
  | nil =>
    intro stack msg _ h
    simp [evalLoop] at h
  | cons token rest ih =>
    intro stack msg hall h
    have hrest : ∀ t ∈ rest, t.Typ = TokenType.Number → (ParseFloat t.Value).isSome = true :=
      fun t ht => hall t (List.mem_cons_of_mem _ ht)
    cases hty : token.Typ with
    | Number =>
      simp only [evalLoop, hty] at h
      cases hp : ParseFloat token.Value with
      | none =>
        have := hall token (List.mem_cons_self _ _) hty
        rw [hp] at this
        exact absurd this (by simp)
      | some num =>
        simp only [hp] at h
        exact ih _ _ hrest h
    | Operator =>
      match stack with
      | [] =>
        simp only [evalLoop, hty, Except.error.injEq] at h
        exact Or.inr h.symm
      | [_] =>
        simp only [evalLoop, hty, Except.error.injEq] at h
        exact Or.inr h.symm
      | b :: a :: stack2 =>
        simp only [evalLoop, hty] at h
        split_ifs at h with h1 h2 h3 h4 h5
        · exact ih _ _ hrest h
        · exact ih _ _ hrest h
        · exact ih _ _ hrest h
        · simp only [Except.error.injEq] at h
          exact Or.inl h.symm
        · exact ih _ _ hrest h
        · exact ih _ _ hrest h
    | LeftParen =>
      simp only [evalLoop, hty] at h
      exact ih _ _ hrest h
    | RightParen =>
      simp only [evalLoop, hty] at h
      exact ih _ _ hrest h

theorem popOperators_mem (token : Token) (stack : List Token) :
    ∀ (output : List Token) (t : Token),
      (t ∈ (popOperators token stack output).1 ∨ t ∈ (popOperators token stack output).2) →
      t ∈ stack ∨ t ∈ output := by
  induction stack with
  | nil =>
    intro output t h
    simpa [popOperators] using h
  | cons top rest ih =>
    intro output t h
    rw [popOperators] at h
    split_ifs at h with hc
    · rcases ih _ t h with h2 | h2
      · exact Or.inl (List.mem_cons_of_mem _ h2)
      · rcases List.mem_append.mp h2 with h3 | h3
        · exact Or.inr h3
        · left
          have : t = top := by simpa using h3
          simp [this]
    · exact h

theorem popToLeftParen_mem (stack : List Token) :
    ∀ (output : List Token) (r : List Token × List Token) (t : Token),
      popToLeftParen stack output = some r → (t ∈ r.1 ∨ t ∈ r.2) →
      t ∈ stack ∨ t ∈ output := by
  induction stack with
  | nil =>
    intro output r t h
    simp [popToLeftParen] at h
  | cons top rest ih =>
    intro output r t h ht
    rw [popToLeftParen] at h
    split_ifs at h with hc
    · simp only [Option.some.injEq] at h
      subst h
      rcases ht with ht | ht
      · exact Or.inl (List.mem_cons_of_mem _ ht)
      · exact Or.inr ht
    · rcases ih _ r t h ht with h2 | h2
      · exact Or.inl (List.mem_cons_of_mem _ h2)
      · rcases List.mem_append.mp h2 with h3 | h3
        · exact Or.inr h3
        · left
          have : t = top := by simpa using h3
          simp [this]

theorem drainStack_mem (stack : List Token) :
    ∀ (output r : List Token) (t : Token), drainStack stack output = Except.ok r → t ∈ r →
      t ∈ stack ∨ t ∈ output := by
  induction stack with
  | nil =>
    intro output r t h ht
    simp only [drainStack, Except.ok.injEq] at h
    subst h
    exact Or.inr ht
  | cons top rest ih =>
    intro output r t h ht
    rw [drainStack] at h
    split_ifs at h with hc
    rcases ih _ r t h ht with h2 | h2
    · exact Or.inl (List.mem_cons_of_mem _ h2)
    · rcases List.mem_append.mp h2 with h3 | h3
      · exact Or.inr h3
      · left
        have : t = top := by simpa using h3
        simp [this]

/-- Every token of the output of `ToRPN` is a token of the input, of the stack or of the
output so far. -/
theorem toRPNLoop_mem (tokens : List Token) :
    ∀ (stack output r : List Token) (t : Token),
      toRPNLoop tokens stack output = Except.ok r → t ∈ r →
      t ∈ tokens ∨ t ∈ stack ∨ t ∈ output := by
  induction tokens with
  | nil =>
    intro stack output r t h ht
    rw [toRPNLoop] at h
    exact Or.inr (drainStack_mem stack output r t h ht)
  | cons token rest ih =>
    intro stack output r t h ht
    cases hty : token.Typ with
    | Number =>
      simp only [toRPNLoop, hty] at h
      rcases ih _ _ r t h ht with h2 | h2 | h2
      · exact Or.inl (List.mem_cons_of_mem _ h2)
      · exact Or.inr (Or.inl h2)
      · rcases List.mem_append.mp h2 with h3 | h3
        · exact Or.inr (Or.inr h3)
        · left
          have : t = token := by simpa using h3
          simp [this]
    | Operator =>
      simp only [toRPNLoop, hty] at h
      rcases ih _ _ r t h ht with h2 | h2 | h2
      · exact Or.inl (List.mem_cons_of_mem _ h2)
      · rcases List.mem_cons.mp h2 with h3 | h3
        · left
          simp [h3]
        · exact Or.inr (popOperators_mem token stack output t (Or.inl h3))
      · exact Or.inr (popOperators_mem token stack output t (Or.inr h2))
    | LeftParen =>
      simp only [toRPNLoop, hty] at h
      rcases ih _ _ r t h ht with h2 | h2 | h2
      · exact Or.inl (List.mem_cons_of_mem _ h2)
      · rcases List.mem_cons.mp h2 with h3 | h3
        · left
          simp [h3]
        · exact Or.inr (Or.inl h3)
      · exact Or.inr (Or.inr h2)
    | RightParen =>
      simp only [toRPNLoop, hty] at h
      cases hp : popToLeftParen stack output with
      | none => simp [hp] at h
      | some r2 =>
        simp only [hp] at h
        rcases ih _ _ r t h ht with h2 | h2 | h2
        · exact Or.inl (List.mem_cons_of_mem _ h2)
        · exact Or.inr (popToLeftParen_mem stack output r2 t hp (Or.inl h2))
        · exact Or.inr (popToLeftParen_mem stack output r2 t hp (Or.inr h2))

theorem ToRPN_mem (c : Calculator) (rpn : List Token) (h : ToRPN c = Except.ok rpn)
    (t : Token) (ht : t ∈ rpn) : t ∈ c.tokens := by
  rcases toRPNLoop_mem c.tokens [] [] rpn t h ht with h2 | h2 | h2
  · exact h2
  · simp at h2
  · simp at h2

theorem Unbalanced_iff (ts : List Token) : Unbalanced ts ↔ UnbalancedFrom 0 ts := by
  simp [Unbalanced, UnbalancedFrom]

theorem countLeft_cons (t : Token) (ts : List Token) :
    countLeft (t :: ts) = countLeft ts + (if t.Typ = TokenType.LeftParen then 1 else 0) := by
  simp [countLeft, List.countP_cons]

theorem countRight_cons (t : Token) (ts : List Token) :
    countRight (t :: ts) = countRight ts + (if t.Typ = TokenType.RightParen then 1 else 0) := by
  simp [countRight, List.countP_cons]

theorem countNotLeft_cons (t : Token) (ts : List Token) :
    countNotLeft (t :: ts) =
      countNotLeft ts + (if t.Typ = TokenType.LeftParen then 0 else 1) := by
  simp only [countNotLeft, List.countP_cons]
  split_ifs <;> simp_all

theorem countOperandsAndOperators_cons (t : Token) (ts : List Token) :
    countOperandsAndOperators (t :: ts) =
      countOperandsAndOperators ts +
        (if t.Typ = TokenType.Number ∨ t.Typ = TokenType.Operator then 1 else 0) := by
  simp [countOperandsAndOperators, List.countP_cons]

theorem UnbalancedFrom_nil (d : Nat) : UnbalancedFrom d [] ↔ 0 < d := by
  unfold UnbalancedFrom
  constructor
  · rintro (⟨p, s, hps, h⟩ | h)
    · have hp : p = [] := (List.append_eq_nil.mp hps.symm).1
      subst hp
      simp [countLeft, countRight] at h
    · simpa [countLeft, countRight] using h
  · intro h
    right
    simpa [countLeft, countRight] using h

/-- The balance condition after one more token, `a` and `b` telling whether it is a `(` or
a `)`. -/
theorem UnbalancedFrom_cons (d : Nat) (t : Token) (ts : List Token) :
    UnbalancedFrom d (t :: ts) ↔
      (∃ p s, ts = p ++ s ∧
        d + (countLeft p + (if t.Typ = TokenType.LeftParen then 1 else 0)) <
          countRight p + (if t.Typ = TokenType.RightParen then 1 else 0)) ∨
      countRight ts + (if t.Typ = TokenType.RightParen then 1 else 0) <
        d + (countLeft ts + (if t.Typ = TokenType.LeftParen then 1 else 0)) := by
  unfold UnbalancedFrom
  rw [countLeft_cons, countRight_cons]
  constructor
  · rintro (⟨p, s, hps, h⟩ | h)
    · cases p with
      | nil => simp [countLeft, countRight] at h
      | cons a p2 =>
        simp only [List.cons_append, List.cons.injEq] at hps
        obtain ⟨hat, hts⟩ := hps
        subst hat
        rw [countLeft_cons, countRight_cons] at h
        exact Or.inl ⟨p2, s, hts, h⟩
    · exact Or.inr h
  · rintro (⟨p, s, hps, h⟩ | h)
    · left
      refine ⟨t :: p, s, by simp [hps], ?_⟩
      rw [countLeft_cons, countRight_cons]
      exact h
    · exact Or.inr h

theorem UnbalancedFrom_other (d : Nat) (t : Token) (ts : List Token)
    (h1 : t.Typ ≠ TokenType.LeftParen) (h2 : t.Typ ≠ TokenType.RightParen) :
    UnbalancedFrom d (t :: ts) ↔ UnbalancedFrom d ts := by
  rw [UnbalancedFrom_cons]
  simp only [h1, h2, if_false, Nat.add_zero]
  rfl

theorem UnbalancedFrom_left (d : Nat) (t : Token) (ts : List Token)
    (h1 : t.Typ = TokenType.LeftParen) :
    UnbalancedFrom d (t :: ts) ↔ UnbalancedFrom (d + 1) ts := by
  rw [UnbalancedFrom_cons]
  simp only [h1, if_true, reduceCtorEq, if_false, Nat.add_zero]
  unfold UnbalancedFrom
  constructor
  · rintro (⟨p, s, hps, h⟩ | h)
    · exact Or.inl ⟨p, s, hps, by omega⟩
    · exact Or.inr (by omega)
  · rintro (⟨p, s, hps, h⟩ | h)
    · exact Or.inl ⟨p, s, hps, by omega⟩
    · exact Or.inr (by omega)

theorem UnbalancedFrom_right (d : Nat) (t : Token) (ts : List Token)
    (h1 : t.Typ = TokenType.RightParen) :
    UnbalancedFrom d (t :: ts) ↔ d = 0 ∨ UnbalancedFrom (d - 1) ts := by
  rw [UnbalancedFrom_cons]
  simp only [h1, if_true, reduceCtorEq, if_false, Nat.add_zero]
  unfold UnbalancedFrom
  constructor
  · rintro (⟨p, s, hps, h⟩ | h)
    · by_cases hd : d = 0
      · exact Or.inl hd
      · exact Or.inr (Or.inl ⟨p, s, hps, by omega⟩)
    · by_cases hd : d = 0
      · exact Or.inl hd
      · exact Or.inr (Or.inr (by omega))
  · rintro (hd | ⟨p, s, hps, h⟩ | h)
    · left
      refine ⟨[], ts, rfl, ?_⟩
      simp [countLeft, countRight, hd]
    · by_cases hd : d = 0
      · left
        refine ⟨[], ts, rfl, ?_⟩
        simp [countLeft, countRight, hd]
      · exact Or.inl ⟨p, s, hps, by omega⟩
    · by_cases hd : d = 0
      · left
        refine ⟨[], ts, rfl, ?_⟩
        simp [countLeft, countRight, hd]
      · exact Or.inr (by omega)

theorem popOperators_counts (token : Token) (stack : List Token) :
    ∀ output : List Token,
      countLeft (popOperators token stack output).1 = countLeft stack ∧
      countNotLeft (popOperators token stack output).1 +
          (popOperators token stack output).2.length =
        countNotLeft stack + output.length := by
  induction stack with
  | nil =>
    intro output
    simp [popOperators]
  | cons top rest ih =>
    intro output
    rw [popOperators]
    split_ifs with hc
    · obtain ⟨h1, h2⟩ := ih (output ++ [top])
      have hnl : top.Typ ≠ TokenType.LeftParen := by
        rw [hc.1]
        simp
      rw [countLeft_cons, countNotLeft_cons, h1, h2]
      simp only [hnl, if_false, List.length_append, List.length_singleton]
      constructor <;> omega
    · exact ⟨rfl, rfl⟩

theorem popToLeftParen_counts (stack : List Token) :
    ∀ output : List Token,
      (popToLeftParen stack output = none ↔ countLeft stack = 0) ∧
      ∀ r, popToLeftParen stack output = some r →
        countLeft r.1 + 1 = countLeft stack ∧
        countNotLeft r.1 + r.2.length = countNotLeft stack + output.length := by
  induction stack with
  | nil =>
    intro output
    simp [popToLeftParen, countLeft]
  | cons top rest ih =>
    intro output
    rw [popToLeftParen, countLeft_cons, countNotLeft_cons]
    split_ifs with hc
    · refine ⟨by simp, ?_⟩
      intro r hr
      simp only [Option.some.injEq] at hr
      subst hr
      simp
    · obtain ⟨h1, h2⟩ := ih (output ++ [top])
      refine ⟨by simpa using h1, ?_⟩
      intro r hr
      obtain ⟨h3, h4⟩ := h2 r hr
      simp only [List.length_append, List.length_singleton] at h4
      constructor <;> omega

theorem drainStack_counts (stack : List Token) :
    ∀ output : List Token,
      (∀ msg, drainStack stack output = Except.error msg → msg = "mismatched parentheses") ∧
      ((∃ msg, drainStack stack output = Except.error msg) ↔ 0 < countLeft stack) ∧
      ∀ r, drainStack stack output = Except.ok r →
        r.length = output.length + countNotLeft stack := by
  induction stack with
  | nil =>
    intro output
    simp [drainStack, countLeft, countNotLeft]
  | cons top rest ih =>
    intro output
    rw [drainStack, countLeft_cons, countNotLeft_cons]
    split_ifs with hc
    · refine ⟨?_, ?_, ?_⟩
      · intro msg h
        simp only [Except.error.injEq] at h
        exact h.symm
      · simp
      · intro r h
        simp at h
    · obtain ⟨h1, h2, h3⟩ := ih (output ++ [top])
      refine ⟨h1, by simpa using h2, ?_⟩
      intro r hr
      rw [h3 r hr]
      simp only [List.length_append, List.length_singleton]
      omega

/-- The loop of `ToRPN` fails, with `mismatched parentheses`, exactly when the remaining
tokens are unbalanced given the `(` tokens on the stack; otherwise its output holds the
output so far, the tokens of the stack and the Number and Operator tokens that remain. -/
theorem toRPNLoop_balance (tokens : List Token) :
    ∀ (stack output : List Token),
      (∀ msg, toRPNLoop tokens stack output = Except.error msg →
        msg = "mismatched parentheses") ∧
      ((∃ msg, toRPNLoop tokens stack output = Except.error msg) ↔
        UnbalancedFrom (countLeft stack) tokens) ∧
      ∀ r, toRPNLoop tokens stack output = Except.ok r →
        r.length = output.length + countNotLeft stack + countOperandsAndOperators tokens := by
  induction tokens with
  | nil =>
    intro stack output
    obtain ⟨h1, h2, h3⟩ := drainStack_counts stack output
    rw [toRPNLoop]
    refine ⟨h1, ?_, ?_⟩
    · rw [h2, UnbalancedFrom_nil]
    · intro r hr
      rw [h3 r hr]
      simp [countOperandsAndOperators]
  | cons token rest ih =>
    intro stack output
    rw [countOperandsAndOperators_cons]
    cases hty : token.Typ with
    | Number =>
      obtain ⟨h1, h2, h3⟩ := ih stack (output ++ [token])
      simp only [toRPNLoop, hty]
      refine ⟨h1, ?_, ?_⟩
      · rw [h2, UnbalancedFrom_other _ _ _ (by simp [hty]) (by simp [hty])]
      · intro r hr
        rw [h3 r hr]
        simp only [List.length_append, List.length_singleton, true_or, if_true]
        omega
    | Operator =>
      obtain ⟨h1, h2, h3⟩ := ih (token :: (popOperators token stack output).1)
        (popOperators token stack output).2
      obtain ⟨h4, h5⟩ := popOperators_counts token stack output
      simp only [toRPNLoop, hty]
      refine ⟨h1, ?_, ?_⟩
      · rw [h2, UnbalancedFrom_other _ _ _ (by simp [hty]) (by simp [hty]), countLeft_cons, h4]
        simp [hty]
      · intro r hr
        rw [h3 r hr, countNotLeft_cons]
        simp only [hty, reduceCtorEq, if_false, or_true, if_true]
        omega
    | LeftParen =>
      obtain ⟨h1, h2, h3⟩ := ih (token :: stack) output
      simp only [toRPNLoop, hty]
      refine ⟨h1, ?_, ?_⟩
      · rw [h2, UnbalancedFrom_left _ _ _ hty, countLeft_cons]
        simp [hty]
      · intro r hr
        rw [h3 r hr, countNotLeft_cons]
        simp [hty]
    | RightParen =>
      obtain ⟨h4, h5⟩ := popToLeftParen_counts stack output
      simp only [toRPNLoop, hty]
      rw [UnbalancedFrom_right _ _ _ hty]
      cases hp : popToLeftParen stack output with
      | none =>
        have hz := h4.mp hp
        refine ⟨?_, ?_, ?_⟩
        · intro msg h
          simp only [Except.error.injEq] at h
          exact h.symm
        · simp [hz]
        · intro r hr
          simp at hr
      | some r2 =>
        obtain ⟨h1, h2, h3⟩ := ih r2.1 r2.2
        obtain ⟨h6, h7⟩ := h5 r2 hp
        have hpos : countLeft stack ≠ 0 := by omega
        have hd : countLeft stack - 1 = countLeft r2.1 := by omega
        refine ⟨h1, ?_, ?_⟩
        · simp only
          rw [h2, hd]
          simp [hpos]
        · intro r hr
          simp only at hr
          rw [h3 r hr]
          simp only [reduceCtorEq, or_self, if_false]
          omega

/-- C14.  For every token sequence, `ToRPN` fails exactly when the parentheses are
unbalanced (some beginning of the sequence has more `)` than `(`, or the whole sequence has
more `(` than `)`), and its error is then `mismatched parentheses`; otherwise it succeeds
and its output has as many tokens as the input has Number and Operator tokens. -/
theorem ToRPN_fails_iff_unbalanced (c : Calculator) :
    (ToRPN c = Except.error "mismatched parentheses" ↔ Unbalanced c.tokens) ∧
    (∀ msg, ToRPN c = Except.error msg → msg = "mismatched parentheses") ∧
    (¬ Unbalanced c.tokens →
      ∃ rpn, ToRPN c = Except.ok rpn ∧ rpn.length = countOperandsAndOperators c.tokens) := by
  obtain ⟨h1, h2, h3⟩ := toRPNLoop_balance c.tokens [] []
  have h2b : (∃ msg, ToRPN c = Except.error msg) ↔ Unbalanced c.tokens := by
    rw [Unbalanced_iff]
    simpa [countLeft] using h2
  refine ⟨⟨fun h => h2b.mp ⟨_, h⟩, ?_⟩, h1, ?_⟩
  · intro hu
    obtain ⟨msg, hmsg⟩ := h2b.mpr hu
    have := h1 msg hmsg
    subst this
    exact hmsg
  · intro hnu
    cases hr : ToRPN c with
    | error msg => exact absurd (h2b.mp ⟨msg, hr⟩) hnu
    | ok rpn =>
      refine ⟨rpn, rfl, ?_⟩
      have := h3 rpn hr
      simpa [countNotLeft] using this

/-- C14 on the tokens of `(2+2`, of `2+2)` and of `(2+2)*3`. -/
theorem ToRPN_fails_iff_unbalanced_witness :
    ToRPN (Tokenize NewCalculator "(2+2").1 = Except.error "mismatched parentheses" ∧
    ToRPN (Tokenize NewCalculator "2+2)").1 = Except.error "mismatched parentheses" ∧
    (ToRPN (Tokenize NewCalculator "(2+2)*3").1).toOption.map List.length = some 5 ∧
    countOperandsAndOperators (Tokenize NewCalculator "(2+2)*3").1.tokens = 5 ∧
    Unbalanced (Tokenize NewCalculator "(2+2").1.tokens :=
  ⟨by decide, by decide, by decide, by decide,
    (ToRPN_fails_iff_unbalanced (Tokenize NewCalculator "(2+2").1).1.mp (by decide)⟩

/-! ## ToRPN on well-formed infix expressions -/

theorem BinOp_precedence (op : BinOp) : precedence op.token.Value = op.prec := by
  cases op <;> decide

theorem BinOp_prec_pos (op : BinOp) : 1 ≤ op.prec ∧ op.prec ≤ 2 := by
  cases op <;> decide

theorem ParseTree_emitted_pending (e : ParseTree) : e.emitted ++ e.pending = e.rpn := by
  induction e with
  | num literal => rfl
  | paren e _ => simp [ParseTree.emitted, ParseTree.pending, ParseTree.rpn]
  | bin op l r _ ihr =>
    simp only [ParseTree.emitted, ParseTree.pending, ParseTree.rpn]
    rw [← ihr]
    simp

theorem ParseTree_pending_prec (e : ParseTree) (h : e.WellFormed) :
    ∀ t ∈ e.pending, t.Typ = TokenType.Operator ∧ e.level ≤ precedence t.Value := by
  induction e with
  | num literal =>
    intro t ht
    simp [ParseTree.pending] at ht
  | paren e _ =>
    intro t ht
    simp [ParseTree.pending] at ht
  | bin op l r _ ihr =>
    intro t ht
    obtain ⟨_, hr, _, hlt⟩ := h
    simp only [ParseTree.pending, List.mem_append, List.mem_singleton] at ht
    rcases ht with ht | ht
    · obtain ⟨h1, h2⟩ := ihr hr t ht
      exact ⟨h1, le_trans (Nat.le_of_lt hlt) h2⟩
    · subst ht
      exact ⟨rfl, by rw [BinOp_precedence]; exact le_refl _⟩

theorem StopsAt_mono {p q : Nat} (h : p ≤ q) (st : List Token) (hs : StopsAt p st) :
    StopsAt q st := by
  cases st with
  | nil => trivial
  | cons top rest => exact fun ht => lt_of_lt_of_le (hs ht) h

theorem popOperators_pending (token : Token) (ps : List Token) :
    ∀ (st output : List Token),
      (∀ t ∈ ps, t.Typ = TokenType.Operator ∧ precedence token.Value ≤ precedence t.Value) →
      StopsAt (precedence token.Value) st →
      popOperators token (ps ++ st) output = (st, output ++ ps) := by
  induction ps with
  | nil =>
    intro st output _ hs
    cases st with
    | nil => simp [popOperators]
    | cons top rest =>
      simp only [List.nil_append, List.append_nil]
      rw [popOperators, if_neg]
      intro hc
      exact absurd (hs hc.1) (Nat.not_lt.mpr hc.2)
  | cons a rest ih =>
    intro st output hps hs
    have ha := hps a (List.mem_cons_self _ _)
    simp only [List.cons_append]
    rw [popOperators, if_pos ⟨ha.1, ha.2⟩,
      ih st _ (fun t ht => hps t (List.mem_cons_of_mem _ ht)) hs]
    simp

theorem popToLeftParen_pending (ps : List Token) :
    ∀ (lp : Token) (st output : List Token),
      (∀ t ∈ ps, t.Typ = TokenType.Operator) → lp.Typ = TokenType.LeftParen →
      popToLeftParen (ps ++ lp :: st) output = some (st, output ++ ps) := by
  induction ps with
  | nil =>
    intro lp st output _ hlp
    simp [popToLeftParen, hlp]
  | cons a rest ih =>
    intro lp st output hps hlp
    have ha := hps a (List.mem_cons_self _ _)
    simp only [List.cons_append]
    rw [popToLeftParen, if_neg (by rw [ha]; simp),
      ih lp st _ (fun t ht => hps t (List.mem_cons_of_mem _ ht)) hlp]
    simp

theorem drainStack_pending (ps : List Token) :
    ∀ output : List Token, (∀ t ∈ ps, t.Typ = TokenType.Operator) →
      drainStack ps output = Except.ok (output ++ ps) := by
  induction ps with
  | nil =>
    intro output _
    simp [drainStack]
  | cons a rest ih =>
    intro output hps
    have ha := hps a (List.mem_cons_self _ _)
    rw [drainStack, if_neg (by rw [ha]; simp),
      ih _ (fun t ht => hps t (List.mem_cons_of_mem _ ht))]
    simp

/-- Reading the tokens of a well-formed tree, `ToRPN` puts out `emitted` and is left with
`pending` on top of its stack. -/
theorem toRPNLoop_tree (e : ParseTree) :
    e.WellFormed → ∀ (rest st output : List Token), StopsAt e.level st →
      toRPNLoop (e.tokens ++ rest) st output =
        toRPNLoop rest (e.pending ++ st) (output ++ e.emitted) := by
  induction e with
  | num literal =>
    intro _ rest st output _
    simp [ParseTree.tokens, ParseTree.pending, ParseTree.emitted, toRPNLoop]
  | paren e ih =>
    intro hwf rest st output _
    have hwf2 : e.WellFormed := hwf
    have hstep : toRPNLoop (e.tokens ++ { Typ := TokenType.RightParen, Value := ")" } :: rest)
        ({ Typ := TokenType.LeftParen, Value := "(" } :: st) output =
        toRPNLoop ({ Typ := TokenType.RightParen, Value := ")" } :: rest)
          (e.pending ++ { Typ := TokenType.LeftParen, Value := "(" } :: st)
          (output ++ e.emitted) :=
      ih hwf2 _ _ _ (by intro h; simp at h)
    simp only [ParseTree.tokens, List.cons_append, List.append_assoc, List.singleton_append,
      ParseTree.pending, ParseTree.emitted, List.nil_append]
    rw [toRPNLoop]
    simp only
    rw [hstep, toRPNLoop]
    simp only
    rw [popToLeftParen_pending e.pending _ st _
      (fun t ht => (ParseTree_pending_prec e hwf2 t ht).1) rfl]
    simp only [List.append_assoc, ParseTree_emitted_pending]
  | bin op l r ihl ihr =>
    intro hwf rest st output hst
    obtain ⟨hl, hr, hle, hlt⟩ := hwf
    have hst2 : StopsAt (precedence op.token.Value) st := by
      rw [BinOp_precedence]
      exact hst
    simp only [ParseTree.tokens, List.append_assoc, List.cons_append]
    rw [ihl hl _ st output (StopsAt_mono hle st hst), toRPNLoop]
    have hty : op.token.Typ = TokenType.Operator := rfl
    simp only [hty]
    rw [popOperators_pending op.token l.pending st _ ?_ hst2]
    · simp only
      rw [ihr hr rest (op.token :: st) _ ?_]
      · simp only [ParseTree.pending, ParseTree.emitted, List.append_assoc,
          List.singleton_append]
        rw [← List.append_assoc l.emitted, ParseTree_emitted_pending]
      · intro _
        rw [BinOp_precedence]
        exact hlt
    · intro t ht
      obtain ⟨h1, h2⟩ := ParseTree_pending_prec l hl t ht
      refine ⟨h1, ?_⟩
      rw [BinOp_precedence]
      exact le_trans hle h2

theorem ToRPN_tree (e : ParseTree) (h : e.WellFormed) :
    ToRPN { tokens := e.tokens } = Except.ok e.rpn := by
  unfold ToRPN
  have := toRPNLoop_tree e h [] [] [] (by trivial)
  simp only [List.append_nil, List.nil_append] at this
  rw [this, toRPNLoop,
    drainStack_pending e.pending _ (fun t ht => (ParseTree_pending_prec e h t ht).1),
    ParseTree_emitted_pending]

theorem ParseTree_rpn_numbers (e : ParseTree) :
    e.rpn.filter (fun t => decide (t.Typ = TokenType.Number)) =
      e.tokens.filter (fun t => decide (t.Typ = TokenType.Number)) := by
  induction e with
  | num literal => rfl
  | paren e ih => simp [ParseTree.rpn, ParseTree.tokens, ih, List.filter_cons]
  | bin op l r ihl ihr =>
    have hop : op.token.Typ = TokenType.Operator := rfl
    simp [ParseTree.rpn, ParseTree.tokens, ihl, ihr, List.filter_cons, hop]

theorem ParseTree_rpn_no_paren (e : ParseTree) :
    ∀ t ∈ e.rpn, t.Typ = TokenType.Number ∨ t.Typ = TokenType.Operator := by
  induction e with
  | num literal =>
    intro t ht
    simp only [ParseTree.rpn, List.mem_singleton] at ht
    subst ht
    exact Or.inl rfl
  | paren e ih => exact ih
  | bin op l r ihl ihr =>
    intro t ht
    simp only [ParseTree.rpn, List.mem_append, List.mem_singleton] at ht
    rcases ht with (ht | ht) | ht
    · exact ihl t ht
    · exact ihr t ht
    · subst ht
      exact Or.inr rfl

/-- C13.  For the infix token sequence of every well-formed parse tree, `ToRPN` succeeds
and returns the post-order listing of the tree (each operator right after the listings of
its two operands); the Number tokens of the output are those of the input in the same order,
and the output holds no parenthesis token. -/
theorem ToRPN_returns_postorder (e : ParseTree) (h : e.WellFormed) :
    ToRPN { tokens := e.tokens } = Except.ok e.rpn ∧
    e.rpn.filter (fun t => decide (t.Typ = TokenType.Number)) =
      e.tokens.filter (fun t => decide (t.Typ = TokenType.Number)) ∧
    ∀ t ∈ e.rpn, t.Typ ≠ TokenType.LeftParen ∧ t.Typ ≠ TokenType.RightParen := by
  refine ⟨ToRPN_tree e h, ParseTree_rpn_numbers e, ?_⟩
  intro t ht
  rcases ParseTree_rpn_no_paren e t ht with h1 | h1 <;> rw [h1] <;> simp


theorem exampleSum_WellFormed : exampleSum.WellFormed := by
  simp [exampleSum, ParseTree.WellFormed, ParseTree.level, BinOp.prec]

theorem exampleNested_WellFormed : exampleNested.WellFormed := by
  simp [exampleNested, ParseTree.WellFormed, ParseTree.level, BinOp.prec]

/-- C13 on `0 + 6 - 1 + (2*100)`, which gives `0 6 + 1 - 2 100 * +`, and on `2*((3+2)*2)`,
which gives `2 3 2 + 2 * *`. -/
theorem ToRPN_returns_postorder_witness :
    (Tokenize NewCalculator "0 + 6 - 1 + (2*100)").1.tokens = exampleSum.tokens ∧
    exampleSum.rpn.map Token.Value = ["0", "6", "+", "1", "-", "2", "100", "*", "+"] ∧
    ToRPN (Tokenize NewCalculator "0 + 6 - 1 + (2*100)").1 = Except.ok exampleSum.rpn ∧
    (Tokenize NewCalculator "2*((3+2)*2)").1.tokens = exampleNested.tokens ∧
    exampleNested.rpn.map Token.Value = ["2", "3", "2", "+", "2", "*", "*"] ∧
    ToRPN { tokens := exampleNested.tokens } = Except.ok exampleNested.rpn :=
  ⟨by decide, by decide, by decide, by decide, by decide,
    (ToRPN_returns_postorder exampleNested exampleNested_WellFormed).1⟩
/-! ## The tokenizer on the text of a parse tree -/

theorem IsDigit_not_symbol {d : Char} (h : IsDigit d = true) :
    d ≠ '(' ∧ d ≠ ')' ∧ ¬ (d = '+' ∨ d = '-' ∨ d = '*' ∨ d = '/') := by
  refine ⟨?_, ?_, ?_⟩
  · rintro rfl
    exact absurd h (by decide)
  · rintro rfl
    exact absurd h (by decide)
  · rintro (rfl | rfl | rfl | rfl) <;> exact absurd h (by decide)

theorem takeWhile_dropWhile_append (p : Char → Bool) (ds rest : List Char)
    (hds : ∀ x ∈ ds, p x = true) (hrest : ∀ c, rest.head? = some c → p c = false) :
    (ds ++ rest).takeWhile p = ds ∧ (ds ++ rest).dropWhile p = rest := by
  induction ds with
  | nil =>
    cases rest with
    | nil => simp
    | cons c r =>
      have := hrest c rfl
      simp [List.takeWhile_cons, List.dropWhile_cons, this]
  | cons a ds2 ih =>
    have ha := hds a (List.mem_cons_self _ _)
    obtain ⟨h1, h2⟩ := ih (fun x hx => hds x (List.mem_cons_of_mem _ hx))
    simp only [List.cons_append, List.takeWhile_cons, List.dropWhile_cons, ha, if_true]
    exact ⟨by rw [h1], h2⟩

theorem tokenizeText_nil (acc : List Token) : tokenizeText [] acc = (acc, none) := rfl

theorem tokenizeText_left (rest : List Char) (acc : List Token) :
    tokenizeText ('(' :: rest) acc =
      tokenizeText rest (acc ++ [{ Typ := TokenType.LeftParen, Value := "(" }]) := by
  simp [tokenizeText, tokenizeLoop]

theorem tokenizeText_right (rest : List Char) (acc : List Token) :
    tokenizeText (')' :: rest) acc =
      tokenizeText rest (acc ++ [{ Typ := TokenType.RightParen, Value := ")" }]) := by
  simp [tokenizeText, tokenizeLoop]

theorem tokenizeText_operator (op : BinOp) (rest : List Char) (acc : List Token) :
    tokenizeText (op.symbol :: rest) acc = tokenizeText rest (acc ++ [op.token]) := by
  cases op <;> simp [tokenizeText, tokenizeLoop, BinOp.symbol, BinOp.token]

theorem tokenizeText_number (d : Char) (ds rest : List Char) (acc : List Token)
    (hd : IsDigit d = true) (hds : ∀ x ∈ ds, isNumberChar x = true)
    (hrest : ∀ c, rest.head? = some c → isNumberChar c = false) :
    tokenizeText (d :: ds ++ rest) acc =
      tokenizeText rest (acc ++ [{ Typ := TokenType.Number, Value := String.mk (d :: ds) }]) := by
  obtain ⟨h1, h2, h3⟩ := IsDigit_not_symbol hd
  obtain ⟨h4, h5⟩ := takeWhile_dropWhile_append isNumberChar ds rest hds hrest
  unfold tokenizeText
  simp only [List.cons_append, List.length_cons]
  rw [tokenizeLoop, if_neg h1, if_neg h2, if_neg h3, if_pos hd, h4, h5]
  exact tokenizeLoop_ge _ rest _ (by simp)

theorem BinOp_symbol_not_number (op : BinOp) : isNumberChar op.symbol = false := by
  cases op <;> decide

/-- On the text of a tree whose literals are decimal literals, followed by something that
does not go on with a digit or a dot, the tokenizer produces the tokens of the tree. -/
theorem tokenizeText_tree (e : ParseTree) :
    e.Literals → ∀ (rest : List Char) (acc : List Token),
      (∀ c, rest.head? = some c → isNumberChar c = false) →
      tokenizeText (e.render ++ rest) acc = tokenizeText rest (acc ++ e.tokens) := by
  induction e with
  | num literal =>
    intro hlit rest acc hrest
    obtain ⟨d, ds, hval, hd, hds, _⟩ := hlit
    subst hval
    exact tokenizeText_number d ds rest acc hd hds hrest
  | paren e ih =>
    intro hlit rest acc hrest
    have hlit2 : e.Literals := hlit
    simp only [ParseTree.render, ParseTree.tokens, List.cons_append, List.append_assoc,
      List.singleton_append]
    rw [tokenizeText_left, ih hlit2 _ _ (by intro c hc; simp at hc; subst hc; decide),
      tokenizeText_right]
    simp
  | bin op l r ihl ihr =>
    intro hlit rest acc hrest
    obtain ⟨hl, hr⟩ := hlit
    simp only [ParseTree.render, ParseTree.tokens, List.append_assoc, List.cons_append]
    rw [ihl hl _ _ (by
        intro c hc
        simp at hc
        subst hc
        exact BinOp_symbol_not_number op),
      tokenizeText_operator, ihr hr rest _ hrest]
    simp

theorem ParseTree_render_ne_nil (e : ParseTree) (h : e.Literals) : e.render ≠ [] := by
  cases e with
  | num literal =>
    obtain ⟨d, ds, hval, _⟩ := h
    subst hval
    simp [ParseTree.render]
  | paren e => simp [ParseTree.render]
  | bin op l r => simp [ParseTree.render]

/-- `Tokenize` on a text that is, spaces apart, the text of a tree gives the tokens of the
tree. -/
theorem Tokenize_tree (e : ParseTree) (h : e.Literals) (c : Calculator) (expr : String)
    (hs : removeSpaces expr = e.render) :
    expr ≠ "" ∧ Tokenize c expr = ({ tokens := e.tokens }, none) := by
  have hne : expr ≠ "" := by
    intro he
    rw [he, removeSpaces_eq_nil_of_empty] at hs
    exact ParseTree_render_ne_nil e h hs.symm
  refine ⟨hne, ?_⟩
  rw [Tokenize_of_ne c expr hne, hs]
  have := tokenizeText_tree e h [] [] (by simp)
  simp only [List.append_nil, List.nil_append, tokenizeText_nil] at this
  unfold tokenizeText at this
  rw [this]

/-! ## EvaluateRPN on the post-order listing of a parse tree -/

theorem evalLoop_operator (op : BinOp) (rest : List Token) (a b : ℚ) (st : List ℚ) :
    evalLoop (op.token :: rest) (b :: a :: st) =
      match op.apply a b with
      | some v => evalLoop rest (v :: st)
      | none => Except.error "division by zero" := by
  have hty : op.token.Typ = TokenType.Operator := rfl
  rw [evalLoop]
  simp only [hty]
  cases op
  · rw [if_pos (by decide)]
    rfl
  · rw [if_neg (by decide), if_pos (by decide)]
    rfl
  · rw [if_neg (by decide), if_neg (by decide), if_pos (by decide)]
    rfl
  · rw [if_neg (by decide), if_neg (by decide), if_neg (by decide), if_pos (by decide)]
    by_cases hb : b = 0
    · simp [BinOp.apply, hb]
    · simp [BinOp.apply, hb]

theorem ParseFloat_of_Literals (literal : String)
    (h : (ParseTree.num literal).Literals) : ∃ v, ParseFloat literal = some v := by
  obtain ⟨d, ds, hval, hd, hds, hcount⟩ := h
  subst hval
  exact Option.isSome_iff_exists.mp ((ParseFloat_isSome_iff d ds hd hds).mpr hcount)

/-- On the post-order listing of a tree, the loop of `EvaluateRPN` pushes the value of the
tree, or fails with `division by zero` when the tree has no value. -/
theorem evalLoop_tree (e : ParseTree) :
    ∀ (rest : List Token) (st : List ℚ),
      (∀ v, e.value = some v → evalLoop (e.rpn ++ rest) st = evalLoop rest (v :: st)) ∧
      (e.Literals → e.value = none →
        evalLoop (e.rpn ++ rest) st = Except.error "division by zero") := by
  induction e with
  | num literal =>
    intro rest st
    constructor
    · intro v hv
      simp only [ParseTree.value] at hv
      simp [ParseTree.rpn, evalLoop, hv]
    · intro hlit hnone
      obtain ⟨v, hv⟩ := ParseFloat_of_Literals literal hlit
      simp only [ParseTree.value] at hnone
      rw [hnone] at hv
      exact absurd hv (by simp)
  | paren e ih =>
    intro rest st
    exact ih rest st
  | bin op l r ihl ihr =>
    intro rest st
    have hrpn : (ParseTree.bin op l r).rpn ++ rest = l.rpn ++ (r.rpn ++ (op.token :: rest)) := by
      simp [ParseTree.rpn]
    rw [hrpn]
    constructor
    · intro v hv
      simp only [ParseTree.value] at hv
      cases hl : l.value with
      | none => simp [hl] at hv
      | some a =>
        cases hr : r.value with
        | none => simp [hl, hr] at hv
        | some b =>
          simp only [hl, hr] at hv
          rw [(ihl _ st).1 a hl, (ihr _ _).1 b hr, evalLoop_operator, hv]
    · intro hlit hnone
      obtain ⟨hll, hlr⟩ := hlit
      simp only [ParseTree.value] at hnone
      cases hl : l.value with
      | none => exact (ihl _ st).2 hll hl
      | some a =>
        rw [(ihl _ st).1 a hl]
        cases hr : r.value with
        | none => exact (ihr _ _).2 hlr hr
        | some b =>
          simp only [hl, hr] at hnone
          rw [(ihr _ _).1 b hr, evalLoop_operator, hnone]

theorem BinOp_apply_none (op : BinOp) (a b : ℚ) :
    op.apply a b = none ↔ op = BinOp.div ∧ b = 0 := by
  cases op <;> simp [BinOp.apply]

/-- A tree whose literals are decimal literals has no value exactly when some division of
it is applied to a right operand equal to zero. -/
theorem ParseTree_value_none_iff (e : ParseTree) :
    e.Literals → (e.value = none ↔ e.dividesByZero) := by
  induction e with
  | num literal =>
    intro hlit
    obtain ⟨v, hv⟩ := ParseFloat_of_Literals literal hlit
    simp [ParseTree.value, ParseTree.dividesByZero, hv]
  | paren e ih =>
    intro hlit
    exact ih hlit
  | bin op l r ihl ihr =>
    intro hlit
    obtain ⟨hll, hlr⟩ := hlit
    simp only [ParseTree.value, ParseTree.dividesByZero]
    rw [← ihl hll, ← ihr hlr]
    cases hl : l.value with
    | none => simp
    | some a =>
      cases hr : r.value with
      | none => simp
      | some b =>
        simp only [BinOp_apply_none, reduceCtorEq, false_or, Option.some.injEq]

/-- What `Calculate` returns on a text that is, spaces apart, the text of a well-formed
tree whose literals are decimal literals. -/
theorem Calculate_tree (e : ParseTree) (hwf : e.WellFormed) (hlit : e.Literals)
    (c : Calculator) (expr : String) (hs : removeSpaces expr = e.render) :
    (Calculate c expr).2 =
      match e.value with
      | some v => Except.ok v
      | none => Except.error "division by zero" := by
  obtain ⟨_, htok⟩ := Tokenize_tree e hlit c expr hs
  unfold Calculate
  rw [htok]
  simp only
  rw [ToRPN_tree e hwf]
  simp only
  unfold EvaluateRPN
  cases hv : e.value with
  | some v =>
    have := (evalLoop_tree e [] []).1 v hv
    simp only [List.append_nil] at this
    rw [this]
    rfl
  | none =>
    have := (evalLoop_tree e [] []).2 hlit hv
    simp only [List.append_nil] at this
    rw [this]

/-- The value of a well-formed tree depends on its text only. -/
theorem ParseTree_value_of_render (e1 e2 : ParseTree) (hwf1 : e1.WellFormed)
    (hlit1 : e1.Literals) (hwf2 : e2.WellFormed) (hlit2 : e2.Literals)
    (h : e1.render = e2.render) : e1.value = e2.value := by
  have t1 := tokenizeText_tree e1 hlit1 [] [] (by simp)
  have t2 := tokenizeText_tree e2 hlit2 [] [] (by simp)
  rw [← h, t1] at t2
  simp only [List.nil_append, tokenizeText_nil, Prod.mk.injEq, and_true] at t2
  have r1 := ToRPN_tree e1 hwf1
  rw [t2, ToRPN_tree e2 hwf2] at r1
  have hr : e2.rpn = e1.rpn := by simpa using r1
  cases hv1 : e1.value with
  | none =>
    cases hv2 : e2.value with
    | none => rfl
    | some b =>
      have a1 := (evalLoop_tree e1 [] []).2 hlit1 hv1
      have a2 := (evalLoop_tree e2 [] []).1 b hv2
      rw [hr, a1] at a2
      simp [evalLoop] at a2
  | some a =>
    cases hv2 : e2.value with
    | none =>
      have a1 := (evalLoop_tree e1 [] []).1 a hv1
      have a2 := (evalLoop_tree e2 [] []).2 hlit2 hv2
      rw [hr, a1] at a2
      simp [evalLoop] at a2
    | some b =>
      have a1 := (evalLoop_tree e1 [] []).1 a hv1
      have a2 := (evalLoop_tree e2 [] []).1 b hv2
      rw [hr, a1] at a2
      simpa [evalLoop] using a2

theorem Literals_num (d : Char) (ds : List Char) (hd : IsDigit d = true)
    (hds : ds.all isNumberChar = true) (hc : (d :: ds).count '.' ≤ 1) :
    (ParseTree.num (String.mk (d :: ds))).Literals :=
  ⟨d, ds, rfl, hd, fun x hx => List.all_eq_true.mp hds x hx, hc⟩

theorem examplePriority_WellFormed : examplePriority.WellFormed := by
  simp [examplePriority, ParseTree.WellFormed, ParseTree.level, BinOp.prec]

theorem examplePriority_Literals : examplePriority.Literals :=
  ⟨Literals_num '2' [] (by decide) (by decide) (by decide),
    Literals_num '3' [] (by decide) (by decide) (by decide),
    Literals_num '4' [] (by decide) (by decide) (by decide)⟩

theorem exampleDivision_WellFormed : exampleDivision.WellFormed := by
  simp [exampleDivision, ParseTree.WellFormed, ParseTree.level, BinOp.prec]

theorem exampleDivision_Literals : exampleDivision.Literals :=
  ⟨Literals_num '2' [] (by decide) (by decide) (by decide),
    Literals_num '0' [] (by decide) (by decide) (by decide)⟩

theorem exampleDivision_dividesByZero : exampleDivision.dividesByZero :=
  Or.inr (Or.inr ⟨rfl, by with_unfolding_all decide⟩)

theorem examplePriority_not_dividesByZero : ¬ examplePriority.dividesByZero := by
  simp [examplePriority, ParseTree.dividesByZero]

/-- C12.  For a text that is, spaces apart, the infix text of a well-formed parse tree
over non-negative decimal literals (`*` and `/` above `+` and `-`, equal precedence to the
left, parentheses above both) in which no division has a right operand equal to zero,
`Calculate` returns without error the value of the tree over the rationals. -/
theorem Calculate_returns_value (e : ParseTree) (hwf : e.WellFormed) (hlit : e.Literals)
    (hdz : ¬ e.dividesByZero) (c : Calculator) (expr : String)
    (hs : removeSpaces expr = e.render) :
    ∃ v, e.value = some v ∧ (Calculate c expr).2 = Except.ok v := by
  have h := Calculate_tree e hwf hlit c expr hs
  cases hv : e.value with
  | none => exact absurd ((ParseTree_value_none_iff e hlit).mp hv) hdz
  | some v =>
    rw [hv] at h
    exact ⟨v, rfl, h⟩

/-- C12 on ` 2 + 3*4`, with the values of the four expressions of the claim. -/
theorem Calculate_returns_value_witness :
    removeSpaces " 2 + 3*4" = examplePriority.render ∧
    (∃ v, examplePriority.value = some v ∧
      (Calculate NewCalculator " 2 + 3*4").2 = Except.ok v) ∧
    examplePriority.value = some 14 ∧
    Calc "2+3*4" = Except.ok 14 ∧
    Calc "2*3*4/2" = Except.ok 12 ∧
    Calc "5-2*3+1" = Except.ok 0 ∧
    Calc "2*((3+2)*2)" = Except.ok 20 :=
  ⟨by decide,
    Calculate_returns_value examplePriority examplePriority_WellFormed
      examplePriority_Literals examplePriority_not_dividesByZero NewCalculator " 2 + 3*4"
      (by decide),
    by with_unfolding_all decide, by with_unfolding_all decide, by with_unfolding_all decide,
    by with_unfolding_all decide, by with_unfolding_all decide⟩

/-! ## The calculator in any arithmetic -/

theorem evalLoopIn_ratArith (rpn : List Token) :
    ∀ (stack : List ℚ), evalLoopIn ratArith rpn stack = evalLoop rpn stack := by
  induction rpn with
  | nil => intro stack; rfl
  | cons token rest ih =>
    intro stack
    cases hty : token.Typ with
    | Number =>
      simp only [evalLoopIn, evalLoop, hty]
      have hp : ratArith.parseFloat token.Value = ParseFloat token.Value := rfl
      rw [hp]
      cases ParseFloat token.Value with
      | none => rfl
      | some num => exact ih _
    | Operator =>
      match stack with
      | [] => simp only [evalLoopIn, evalLoop, hty]
      | [_] => simp only [evalLoopIn, evalLoop, hty]
      | b :: a :: st =>
        simp only [evalLoopIn, evalLoop, hty, ih]
        simp only [ratArith, decide_eq_true_eq]
    | LeftParen =>
      simp only [evalLoopIn, evalLoop, hty]
      exact ih _
    | RightParen =>
      simp only [evalLoopIn, evalLoop, hty]
      exact ih _

theorem EvaluateRPNIn_ratArith (rpn : List Token) : EvaluateRPNIn ratArith rpn = EvaluateRPN rpn := by
  unfold EvaluateRPNIn EvaluateRPN
  rw [evalLoopIn_ratArith]
  cases evalLoop rpn [] with
  | error e => rfl
  | ok l =>
    match l with
    | [] => rfl
    | [_] => rfl
    | _ :: _ :: _ => rfl

/-- The calculator in the arithmetic of the exact rationals is `Calculate`. -/
theorem CalculateIn_ratArith (c : Calculator) (expr : String) :
    CalculateIn ratArith c expr = Calculate c expr := by
  unfold CalculateIn Calculate
  simp only [EvaluateRPNIn_ratArith]

/-- The validation at the head of `CreateExpression`, over the exact rationals, is what
`CreateExpression` returns when the validation fails. -/
theorem CreateExpression_of_validation (tm : TaskManager) (expressionText : String)
    (userID : Int) (env : Env) (r : TaskManager × Except String String)
    (h : CreateExpressionValidation ratArith tm expressionText = some r) :
    CreateExpression tm expressionText userID env = r := by
  unfold CreateExpressionValidation at h
  unfold CreateExpression
  by_cases he : expressionText = ""
  · rw [if_pos he] at h
    rw [if_pos he]
    exact Option.some.inj h
  · rw [if_neg he] at h
    rw [if_neg he]
    rw [CalculateIn_ratArith] at h
    rcases hc : Calculate NewCalculator expressionText with ⟨c1, res⟩
    rw [hc] at h
    cases res with
    | error errStr =>
      simp only at h
      exact Option.some.inj h
    | ok v => simp at h

theorem invalid_number_ne_division_by_zero (s : String) :
    "invalid number: " ++ s ≠ "division by zero" := by
  intro h
  have h2 := congrArg String.data h
  rw [String.data_append] at h2
  have h3 : ("invalid number: " : String).data = 'i' :: "nvalid number: ".data := rfl
  have h4 : ("division by zero" : String).data = 'd' :: "ivision by zero".data := rfl
  rw [h3, h4, List.cons_append] at h2
  exact absurd (List.cons.inj h2).1 (by decide)

theorem evalLoopIn_operator {F : Type} (A : Arith F) (op : BinOp) (rest : List Token)
    (a b : F) (st : List F) :
    evalLoopIn A (op.token :: rest) (b :: a :: st) =
      match op.applyIn A a b with
      | some v => evalLoopIn A rest (v :: st)
      | none => Except.error "division by zero" := by
  have hty : op.token.Typ = TokenType.Operator := rfl
  rw [evalLoopIn]
  simp only [hty]
  cases op
  · rw [if_pos (by decide)]
    rfl
  · rw [if_neg (by decide), if_pos (by decide)]
    rfl
  · rw [if_neg (by decide), if_neg (by decide), if_pos (by decide)]
    rfl
  · rw [if_neg (by decide), if_neg (by decide), if_neg (by decide), if_pos (by decide)]
    by_cases hb : A.isZero b = true
    · simp [BinOp.applyIn, hb]
    · simp [BinOp.applyIn, hb]

/-- On the post-order listing of a tree, the loop of `EvaluateRPN` pushes the value of the
tree, or returns the error of the first step that fails. -/
theorem evalLoopIn_tree {F : Type} (A : Arith F) (e : ParseTree) :
    ∀ (rest : List Token) (st : List F),
      evalLoopIn A (e.rpn ++ rest) st =
        match e.evalIn A with
        | Except.ok v => evalLoopIn A rest (v :: st)
        | Except.error err => Except.error err := by
  induction e with
  | num literal =>
    intro rest st
    simp only [ParseTree.rpn, List.singleton_append, evalLoopIn, ParseTree.evalIn]
    cases A.parseFloat literal with
    | none => rfl
    | some v => rfl
  | paren e ih =>
    intro rest st
    exact ih rest st
  | bin op l r ihl ihr =>
    intro rest st
    have hrpn : (ParseTree.bin op l r).rpn ++ rest = l.rpn ++ (r.rpn ++ (op.token :: rest)) := by
      simp [ParseTree.rpn]
    rw [hrpn, ihl]
    simp only [ParseTree.evalIn]
    cases hl : l.evalIn A with
    | error err => rfl
    | ok a =>
      simp only
      rw [ihr]
      cases hr : r.evalIn A with
      | error err => rfl
      | ok b =>
        simp only
        rw [evalLoopIn_operator]
        cases op.applyIn A a b with
        | none => rfl
        | some v => rfl

/-- What `Calculate` returns, in any arithmetic, on a text that is, spaces apart, the text
of a well-formed tree whose literals are decimal literals. -/
theorem CalculateIn_tree {F : Type} (A : Arith F) (e : ParseTree) (hwf : e.WellFormed)
    (hlit : e.Literals) (c : Calculator) (expr : String) (hs : removeSpaces expr = e.render) :
    (CalculateIn A c expr).2 = e.evalIn A := by
  obtain ⟨_, htok⟩ := Tokenize_tree e hlit c expr hs
  unfold CalculateIn
  rw [htok]
  simp only
  rw [ToRPN_tree e hwf]
  simp only
  unfold EvaluateRPNIn
  have := evalLoopIn_tree A e [] []
  simp only [List.append_nil] at this
  rw [this]
  cases e.evalIn A with
  | error err => rfl
  | ok v => rfl

theorem ParseTree_evalIn_ok_iff {F : Type} (A : Arith F) (e : ParseTree) :
    ∀ v, e.evalIn A = Except.ok v ↔ e.valueIn A = some v := by
  induction e with
  | num literal =>
    intro v
    simp only [ParseTree.evalIn, ParseTree.valueIn]
    cases A.parseFloat literal with
    | none => simp
    | some w => simp
  | paren e ih =>
    intro v
    exact ih v
  | bin op l r ihl ihr =>
    intro v
    simp only [ParseTree.evalIn, ParseTree.valueIn]
    cases hl : l.evalIn A with
    | error err =>
      have hln : l.valueIn A = none := by
        cases hv : l.valueIn A with
        | none => rfl
        | some a =>
          rw [← ihl a, hl] at hv
          exact absurd hv (by simp)
      simp [hln]
    | ok a =>
      rw [(ihl a).mp hl]
      cases hr : r.evalIn A with
      | error err =>
        have hrn : r.valueIn A = none := by
          cases hv : r.valueIn A with
          | none => rfl
          | some b =>
            rw [← ihr b, hr] at hv
            exact absurd hv (by simp)
        simp [hrn]
      | ok b =>
        rw [(ihr b).mp hr]
        simp only
        cases op.applyIn A a b with
        | none => simp
        | some w => simp

theorem ParseTree_evalIn_error {F : Type} (A : Arith F) (e : ParseTree) :
    ∀ err, e.evalIn A = Except.error err →
      err = "division by zero" ∨
        ∃ s ∈ e.literals, A.parseFloat s = none ∧ err = "invalid number: " ++ s := by
  induction e with
  | num literal =>
    intro err h
    simp only [ParseTree.evalIn] at h
    cases hp : A.parseFloat literal with
    | none =>
      rw [hp] at h
      simp only [Except.error.injEq] at h
      exact Or.inr ⟨literal, by simp [ParseTree.literals], hp, h.symm⟩
    | some w =>
      rw [hp] at h
      exact absurd h (by simp)
  | paren e ih =>
    intro err h
    exact ih err h
  | bin op l r ihl ihr =>
    intro err h
    simp only [ParseTree.evalIn] at h
    cases hl : l.evalIn A with
    | error e1 =>
      rw [hl] at h
      simp only [Except.error.injEq] at h
      subst h
      rcases ihl e1 hl with h1 | ⟨s, hs, hp, he⟩
      · exact Or.inl h1
      · exact Or.inr ⟨s, by simp [ParseTree.literals, hs], hp, he⟩
    | ok a =>
      rw [hl] at h
      simp only at h
      cases hr : r.evalIn A with
      | error e1 =>
        rw [hr] at h
        simp only [Except.error.injEq] at h
        subst h
        rcases ihr e1 hr with h1 | ⟨s, hs, hp, he⟩
        · exact Or.inl h1
        · exact Or.inr ⟨s, by simp [ParseTree.literals, hs], hp, he⟩
      | ok b =>
        rw [hr] at h
        simp only at h
        cases ha : op.applyIn A a b with
        | none =>
          rw [ha] at h
          simp only [Except.error.injEq] at h
          exact Or.inl h.symm
        | some w =>
          rw [ha] at h
          exact absurd h (by simp)

theorem BinOp_applyIn_none {F : Type} (A : Arith F) (op : BinOp) (a b : F) :
    op.applyIn A a b = none ↔ op = BinOp.div ∧ A.isZero b = true := by
  cases op <;> simp [BinOp.applyIn]

/-- The evaluation of a tree ends with `division by zero` exactly when, going through the
postfix form left to right, a division is applied to a right operand equal to zero. -/
theorem ParseTree_evalIn_division_by_zero {F : Type} (A : Arith F) (e : ParseTree) :
    e.evalIn A = Except.error "division by zero" ↔ e.dividesByZeroIn A := by
  induction e with
  | num literal =>
    simp only [ParseTree.evalIn, ParseTree.dividesByZeroIn, iff_false]
    cases A.parseFloat literal with
    | none =>
      simp only [Except.error.injEq]
      exact invalid_number_ne_division_by_zero literal
    | some w => simp
  | paren e ih => exact ih
  | bin op l r ihl ihr =>
    simp only [ParseTree.evalIn, ParseTree.dividesByZeroIn]
    rw [← ihl, ← ihr]
    cases hl : l.evalIn A with
    | error e1 =>
      have hln : l.valueIn A = none := by
        cases hv : l.valueIn A with
        | none => rfl
        | some a =>
          rw [← ParseTree_evalIn_ok_iff A l a, hl] at hv
          exact absurd hv (by simp)
      simp [hln]
    | ok a =>
      rw [(ParseTree_evalIn_ok_iff A l a).mp hl]
      cases hr : r.evalIn A with
      | error e1 =>
        have hrn : r.valueIn A = none := by
          cases hv : r.valueIn A with
          | none => rfl
          | some b =>
            rw [← ParseTree_evalIn_ok_iff A r b, hr] at hv
            exact absurd hv (by simp)
        simp [hrn]
      | ok b =>
        rw [(ParseTree_evalIn_ok_iff A r b).mp hr]
        simp only [reduceCtorEq, false_or, Option.isSome_some, true_and, Option.some.injEq,
          exists_eq_left']
        cases ha : op.applyIn A a b with
        | none =>
          simp only [true_iff]
          exact (BinOp_applyIn_none A op a b).mp ha
        | some w =>
          simp only [reduceCtorEq, false_iff]
          intro hcon
          rw [(BinOp_applyIn_none A op a b).mpr hcon] at ha
          exact absurd ha (by simp)

theorem exampleCancellation_WellFormed : exampleCancellation.WellFormed := by
  simp [exampleCancellation, ParseTree.WellFormed, ParseTree.level, BinOp.prec]

theorem exampleCancellation_Literals : exampleCancellation.Literals :=
  ⟨Literals_num '1' [] (by decide) (by decide) (by decide),
    ⟨Literals_num '0' ['.', '1'] (by decide) (by decide) (by decide),
      Literals_num '0' ['.', '2'] (by decide) (by decide) (by decide)⟩,
    Literals_num '0' ['.', '3'] (by decide) (by decide) (by decide)⟩

theorem exampleUnderflow_WellFormed : exampleUnderflow.WellFormed := by
  simp [exampleUnderflow, ParseTree.WellFormed, ParseTree.level, BinOp.prec]

theorem tinyLiteral_Literals : (ParseTree.num tinyLiteral).Literals :=
  ⟨'0', tinyLiteral.toList.tail, by decide, by decide, by decide, by decide⟩

theorem exampleUnderflow_Literals : exampleUnderflow.Literals :=
  ⟨Literals_num '1' [] (by decide) (by decide) (by decide),
    tinyLiteral_Literals, tinyLiteral_Literals⟩

/-- C18.  In any arithmetic of `float64`, for a text that is, spaces apart, the infix text
of a well-formed parse tree over non-negative decimal literals: `Calculate` fails with
`division by zero` exactly when, going through the postfix form left to right, some `/` is
applied to a right operand equal to zero; it returns a value exactly when the tree has that
value; any other failure is `invalid number: s` for a literal `s` of the text that
`strconv.ParseFloat` rejects; and in the case of the division by zero `CreateExpression`
returns at its validation with the error `division by zero` and the manager as it was. -/
theorem Calculate_division_by_zero {F : Type} (A : Arith F) (e : ParseTree)
    (hwf : e.WellFormed) (hlit : e.Literals) (c : Calculator) (expr : String)
    (hs : removeSpaces expr = e.render) (tm : TaskManager) :
    ((CalculateIn A c expr).2 = Except.error "division by zero" ↔ e.dividesByZeroIn A) ∧
    (∀ v, (CalculateIn A c expr).2 = Except.ok v ↔ e.valueIn A = some v) ∧
    (∀ err, (CalculateIn A c expr).2 = Except.error err →
      err = "division by zero" ∨
        ∃ s ∈ e.literals, A.parseFloat s = none ∧ err = "invalid number: " ++ s) ∧
    (e.dividesByZeroIn A →
      CreateExpressionValidation A tm expr = some (tm, Except.error "division by zero")) := by
  have h := CalculateIn_tree A e hwf hlit c expr hs
  refine ⟨?_, ?_, ?_, ?_⟩
  · rw [h]
    exact ParseTree_evalIn_division_by_zero A e
  · intro v
    rw [h]
    exact ParseTree_evalIn_ok_iff A e v
  · intro err herr
    rw [h] at herr
    exact ParseTree_evalIn_error A e err herr
  · intro hdz
    have hne := (Tokenize_tree e hlit c expr hs).1
    have hcalc := CalculateIn_tree A e hwf hlit NewCalculator expr hs
    rw [(ParseTree_evalIn_division_by_zero A e).mpr hdz] at hcalc
    unfold CreateExpressionValidation
    rw [if_neg hne]
    rcases hc : CalculateIn A NewCalculator expr with ⟨c1, res⟩
    rw [hc] at hcalc
    simp only at hcalc
    subst hcalc
    rfl

/-- C18 on `2/0`, in the arithmetic of `float64` and over the exact rationals; on
`1/(0.1+0.2-0.3)`, where the right operand of the division is zero over the exact rationals
and is `2 ^ (-54)` in `float64`, so that the value is `2 ^ 54`; and on `1/(t*t)` with `t` the
literal of `10 ^ (-200)`, where the product is zero in `float64` only. -/
theorem Calculate_division_by_zero_witness :
    removeSpaces "2/0" = exampleDivision.render ∧
    exampleDivision.dividesByZeroIn float64Arith ∧
    (CalculateIn float64Arith NewCalculator "2/0").2 = Except.error "division by zero" ∧
    CreateExpressionValidation float64Arith NewTaskManager "2/0" =
      some (NewTaskManager, Except.error "division by zero") ∧
    Calc "2/0" = Except.error "division by zero" ∧
    CreateExpression NewTaskManager "2/0" 7 testEnv =
      (NewTaskManager, Except.error "division by zero") ∧
    removeSpaces "1/(0.1+0.2-0.3)" = exampleCancellation.render ∧
    (CalculateIn float64Arith NewCalculator "1/(0.1+0.2-0.3)").2 =
      Except.ok (Float64.finite 18014398509481984) ∧
    ¬ exampleCancellation.dividesByZeroIn float64Arith ∧
    exampleCancellation.dividesByZeroIn ratArith ∧
    exampleUnderflow.dividesByZeroIn float64Arith ∧
    ¬ exampleUnderflow.dividesByZeroIn ratArith :=
  ⟨by decide,
    (Calculate_division_by_zero float64Arith exampleDivision exampleDivision_WellFormed
      exampleDivision_Literals NewCalculator "2/0" (by decide) NewTaskManager).1.mp
      (by decide!),
    by decide!,
    (Calculate_division_by_zero float64Arith exampleDivision exampleDivision_WellFormed
      exampleDivision_Literals NewCalculator "2/0" (by decide) NewTaskManager).2.2.2
      ((Calculate_division_by_zero float64Arith exampleDivision exampleDivision_WellFormed
        exampleDivision_Literals NewCalculator "2/0" (by decide) NewTaskManager).1.mp
        (by decide!)),
    by with_unfolding_all decide,
    by with_unfolding_all decide,
    by decide,
    by decide!,
    fun hdz => absurd
      ((Calculate_division_by_zero float64Arith exampleCancellation
        exampleCancellation_WellFormed exampleCancellation_Literals NewCalculator
        "1/(0.1+0.2-0.3)" (by decide) NewTaskManager).1.mpr hdz)
      (by decide!),
    (Calculate_division_by_zero ratArith exampleCancellation
      exampleCancellation_WellFormed exampleCancellation_Literals NewCalculator
      "1/(0.1+0.2-0.3)" (by decide) NewTaskManager).1.mp (by with_unfolding_all decide),
    (Calculate_division_by_zero float64Arith exampleUnderflow
      exampleUnderflow_WellFormed exampleUnderflow_Literals NewCalculator
      (String.mk exampleUnderflow.render) (by decide) NewTaskManager).1.mp (by decide!),
    fun hdz => absurd
      ((Calculate_division_by_zero ratArith exampleUnderflow
        exampleUnderflow_WellFormed exampleUnderflow_Literals NewCalculator
        (String.mk exampleUnderflow.render) (by decide) NewTaskManager).1.mpr hdz)
      (by decide!)⟩
/-! ## The calls of the persistence callback -/

theorem buildTasks_userIDs (env : Env) (e : String) (rpn : List Token) :
    ∀ (tm : TaskManager) (ids : List String) (stack : List stackItem) (k : Nat),
      (buildTasks env e rpn tm ids stack k).1.userIDs = tm.userIDs := by
  induction rpn with
  | nil =>
    intro tm ids stack k
    rfl
  | cons token rest ih =>
    intro tm ids stack k
    cases hty : token.Typ with
    | Number =>
      simp only [buildTasks, hty]
      exact ih _ _ _ _
    | Operator =>
      match stack with
      | [] => simp [buildTasks, hty]
      | [_] => simp [buildTasks, hty]
      | r :: l :: stack2 =>
        simp only [buildTasks, hty]
        rw [ih]
        rfl
    | LeftParen =>
      simp only [buildTasks, hty]
      exact ih _ _ _ _
    | RightParen =>
      simp only [buildTasks, hty]
      exact ih _ _ _ _

theorem GetNextTask_userIDs (tm : TaskManager) (order : List String) :
    (GetNextTask tm order).1.userIDs = tm.userIDs := by
  rcases GetNextTask_spec tm order with ⟨h1, _⟩ | ⟨id, task0, _, _, _, hres⟩
  · rw [h1]
  · rcases hres with ⟨_, heq⟩ | ⟨_, _, _, heq⟩
    · rw [heq]
    · rw [heq]

/-- What `CreateExpression` does to the headers and the owner ids: either it fails and leaves
the manager as it is, or it returns the id `env.UUID 0` and has recorded under it a header
with the text, the status `PROCESSING` and the clock, and the owner id. -/
theorem CreateExpression_header (tm : TaskManager) (expressionText : String)
    (userID : Int) (env : Env) :
    ((CreateExpression tm expressionText userID env).1 = tm ∧
      ∃ msg, (CreateExpression tm expressionText userID env).2 = Except.error msg) ∨
    ((CreateExpression tm expressionText userID env).2 = Except.ok (env.UUID 0) ∧
      (∃ r, (CreateExpression tm expressionText userID env).1.expressions =
        tm.expressions.set (env.UUID 0)
          { ID := env.UUID 0, Original := expressionText, Status := "PROCESSING",
            Result := r, CreatedAt := env.Now }) ∧
      (CreateExpression tm expressionText userID env).1.userIDs =
        tm.userIDs.set (env.UUID 0) userID) := by
  cases hres : (Calculate NewCalculator expressionText).2 with
  | error msg =>
    left
    rw [CreateExpression_of_Calculate_error tm expressionText userID env msg hres]
    exact ⟨rfl, _, rfl⟩
  | ok v =>
    right
    obtain ⟨htok, ⟨rpn, hrpn, hloop⟩, hok⟩ :=
      CreateExpression_ok_of_Calculate tm expressionText userID env v hres
    refine ⟨hok, ?_⟩
    obtain ⟨he, _⟩ := Calculate_ok NewCalculator expressionText v hres
    cases hc : Calculate NewCalculator expressionText with
    | mk testCalc res =>
      rw [hc] at hres
      simp only at hres
      subst hres
      cases ht : Tokenize tm.calc_ expressionText with
      | mk calc1 err =>
        rw [ht] at htok hrpn
        simp only at htok hrpn
        subst htok
        simp only [CreateExpression, he, if_false, hc, ht, hrpn]
        split_ifs with hsingle
        · exact ⟨⟨_, rfl⟩, rfl⟩
        · cases hb : buildTasks env (env.UUID 0) rpn
            { tm with
              calc_ := calc1
              expressions := tm.expressions.set (env.UUID 0)
                { ID := env.UUID 0, Original := expressionText, Status := "PROCESSING",
                  Result := 0, CreatedAt := env.Now }
              userIDs := tm.userIDs.set (env.UUID 0) userID } [] [] 1 with
          | mk tm3 r =>
            have hexp := buildTasks_expressions env (env.UUID 0) rpn
              { tm with
                calc_ := calc1
                expressions := tm.expressions.set (env.UUID 0)
                  { ID := env.UUID 0, Original := expressionText, Status := "PROCESSING",
                    Result := 0, CreatedAt := env.Now }
                userIDs := tm.userIDs.set (env.UUID 0) userID } [] [] 1
            have husr := buildTasks_userIDs env (env.UUID 0) rpn
              { tm with
                calc_ := calc1
                expressions := tm.expressions.set (env.UUID 0)
                  { ID := env.UUID 0, Original := expressionText, Status := "PROCESSING",
                    Result := 0, CreatedAt := env.Now }
                userIDs := tm.userIDs.set (env.UUID 0) userID } [] [] 1
            rw [hb] at hexp husr
            simp only at hexp husr
            cases r with
            | none => exact ⟨⟨_, hexp⟩, husr⟩
            | some ids => exact ⟨⟨_, hexp⟩, husr⟩

theorem SubmitTaskResultWith_eq (save : DBExpression → Int → Option String)
    (tm : TaskManager) (result : TaskResult) :
    SubmitTaskResultWith save tm result = SubmitTaskResult tm result := rfl

theorem LogInv_init : LogInv NewTaskManager ∅ [] [] :=
  { header := by
      intro e x hx
      simp [NewTaskManager, GoMap.empty, GoMap.get?] at hx
    createdSeen := by simp
    createdNodup := by simp
    savedHeader := by simp
    savedNodup := by simp
    completedSaved := by
      intro e x hx
      simp [NewTaskManager, GoMap.empty, GoMap.get?] at hx }

/-- A call that leaves the headers and the owner ids as they are, and makes no creation and
no call of the callback, keeps the invariant. -/
theorem LogInv_same {tm tm2 : TaskManager} {seen seen2 : Set String}
    {created : List Creation} {saved : List SaveCall} (h : LogInv tm seen created saved)
    (hexp : tm2.expressions = tm.expressions) (husr : tm2.userIDs = tm.userIDs)
    (hseen : seen ⊆ seen2) : LogInv tm2 seen2 created saved :=
  { header := by
      intro e x hx
      rw [hexp] at hx
      rw [husr]
      exact h.header e x hx
    createdSeen := fun c hc => hseen (h.createdSeen c hc)
    createdNodup := h.createdNodup
    savedHeader := by
      intro s hs
      rw [hexp, husr]
      exact h.savedHeader s hs
    savedNodup := h.savedNodup
    completedSaved := by
      intro e x hx
      rw [hexp] at hx
      exact h.completedSaved e x hx }

theorem LogInv_create {tm : TaskManager} {seen : Set String} {handed : List String}
    {created : List Creation} {saved : List SaveCall} (hinv : Inv tm seen handed)
    (h : LogInv tm seen created saved) (text : String) (userID : Int) (env : Env)
    (hfresh : ∀ k, env.UUID k ∉ seen) :
    LogInv (CreateExpression tm text userID env).1 (seen ∪ Set.range env.UUID)
      (created ++ (Call.create text userID env).creations tm) saved := by
  rcases CreateExpression_header tm text userID env with ⟨h1, msg, h2⟩ | ⟨h2, ⟨r, h3⟩, h4⟩
  · have hcr : (Call.create text userID env).creations tm = [] := by
      simp only [Call.creations, h2]
    rw [hcr, List.append_nil, h1]
    exact LogInv_same h rfl rfl Set.subset_union_left
  · have hcr : (Call.create text userID env).creations tm =
        [{ id := env.UUID 0, text := text, userID := userID, createdAt := env.Now }] := by
      simp only [Call.creations, h2]
    rw [hcr]
    have hold : ∀ e, (tm.expressions.get? e).isSome = true → e ≠ env.UUID 0 := by
      intro e he heq
      have := hinv.keys.expressions e he
      rw [heq] at this
      exact hfresh 0 this
    refine
      { header := ?_, createdSeen := ?_, createdNodup := ?_, savedHeader := ?_,
        savedNodup := h.savedNodup, completedSaved := ?_ }
    · intro e x hx
      rw [h3] at hx
      rw [h4]
      by_cases he : e = env.UUID 0
      · subst he
        rw [GoMap.get?_set_self] at hx
        injection hx with hx
        subst hx
        exact ⟨_, List.mem_append_right _ (List.mem_singleton_self _), rfl, rfl, rfl, rfl,
          GoMap.get?_set_self _ _ _⟩
      · rw [GoMap.get?_set_of_ne _ _ _ _ he] at hx
        obtain ⟨c, hc, hrest⟩ := h.header e x hx
        rw [GoMap.get?_set_of_ne _ _ _ _ he]
        exact ⟨c, List.mem_append_left _ hc, hrest⟩
    · intro c hc
      rcases List.mem_append.mp hc with hc | hc
      · exact Or.inl (h.createdSeen c hc)
      · rw [List.mem_singleton] at hc
        subst hc
        exact Or.inr ⟨0, rfl⟩
    · rw [List.map_append, List.nodup_append]
      refine ⟨h.createdNodup, by simp, ?_⟩
      intro a ha hb
      simp only [List.map_cons, List.map_nil, List.mem_singleton] at hb
      obtain ⟨c, hc, hca⟩ := List.mem_map.mp ha
      have := h.createdSeen c hc
      rw [hca, hb] at this
      exact hfresh 0 this
    · intro s hs
      obtain ⟨x, hx, hrest⟩ := h.savedHeader s hs
      have hne := hold s.expression.ID (by simp [hx])
      rw [h3, h4, GoMap.get?_set_of_ne _ _ _ _ hne, GoMap.get?_set_of_ne _ _ _ _ hne]
      exact ⟨x, hx, hrest⟩
    · intro e x hx hst
      rw [h3] at hx
      by_cases he : e = env.UUID 0
      · subst he
        rw [GoMap.get?_set_self] at hx
        injection hx with hx
        subst hx
        have hne : ("PROCESSING" : String) ≠ "COMPLETED" := by decide
        exact absurd hst hne
      · rw [GoMap.get?_set_of_ne _ _ _ _ he] at hx
        exact h.completedSaved e x hx hst

/-- The step of `SubmitTaskResult` that finishes the expression `e1`: the header gets the
status `COMPLETED` and the result `r`, and one call of the callback is made. -/
theorem LogInv_finish {tm tm2 : TaskManager} {seen : Set String} {handed : List String}
    {created : List Creation} {saved : List SaveCall} (hinv : Inv tm seen handed)
    (h : LogInv tm seen created saved) (e1 : String) (x1 : Expression) (l : List String)
    (hl : tm.expressionTasks.get? e1 = some l) (hx1 : tm.expressions.get? e1 = some x1)
    (r : ℚ)
    (hexp : tm2.expressions = tm.expressions.set e1
      { ID := x1.ID, Original := x1.Original, Status := "COMPLETED", Result := r,
        CreatedAt := x1.CreatedAt })
    (husr : tm2.userIDs = tm.userIDs) :
    LogInv tm2 seen created
      (saved ++ [{ expression :=
                    { ID := x1.ID, Text := x1.Original, Status := "COMPLETED", Result := r,
                      CreatedAt := x1.CreatedAt },
                   userID := (tm.userIDs.get? e1).getD 0 }]) := by
  have hnot : ∀ e x, tm.expressions.get? e = some x → x.Status = "COMPLETED" → e ≠ e1 := by
    intro e x hx hst he
    subst he
    rw [hinv.completed e x hx hst] at hl
    exact absurd hl (by simp)
  obtain ⟨c1, hc1, hc1id, hx1id, hx1text, hx1at, hx1usr⟩ := h.header e1 x1 hx1
  refine
    { header := ?_, createdSeen := h.createdSeen, createdNodup := h.createdNodup,
      savedHeader := ?_, savedNodup := ?_, completedSaved := ?_ }
  · intro e x hx
    rw [hexp] at hx
    rw [husr]
    by_cases he : e = e1
    · subst he
      rw [GoMap.get?_set_self] at hx
      injection hx with hx
      subst hx
      exact ⟨c1, hc1, hc1id, hx1id, hx1text, hx1at, hx1usr⟩
    · rw [GoMap.get?_set_of_ne _ _ _ _ he] at hx
      exact h.header e x hx
  · intro s hs
    rw [hexp, husr]
    rcases List.mem_append.mp hs with hs | hs
    · obtain ⟨x, hx, hst, hrest⟩ := h.savedHeader s hs
      have hne := hnot _ x hx hst
      rw [GoMap.get?_set_of_ne _ _ _ _ hne]
      exact ⟨x, hx, hst, hrest⟩
    · rw [List.mem_singleton] at hs
      subst hs
      simp only
      rw [hx1id, GoMap.get?_set_self]
      refine ⟨_, rfl, rfl, ?_, ?_⟩
      · simp only [hx1id]
      · rw [hx1usr]
        rfl
  · rw [List.map_append, List.nodup_append]
    refine ⟨h.savedNodup, by simp, ?_⟩
    intro a ha hb
    simp only [List.map_cons, List.map_nil, List.mem_singleton] at hb
    obtain ⟨s, hs, hsa⟩ := List.mem_map.mp ha
    obtain ⟨x, hx, hst, _⟩ := h.savedHeader s hs
    have hne := hnot _ x hx hst
    rw [hsa, hb, hx1id] at hne
    exact hne rfl
  · intro e x hx hst
    rw [hexp] at hx
    by_cases he : e = e1
    · subst he
      exact ⟨_, List.mem_append_right _ (List.mem_singleton_self _), hx1id⟩
    · rw [GoMap.get?_set_of_ne _ _ _ _ he] at hx
      obtain ⟨s, hs, hse⟩ := h.completedSaved e x hx hst
      exact ⟨s, List.mem_append_left _ hs, hse⟩

theorem LogInv_submit {tm : TaskManager} {seen : Set String} {handed : List String}
    {created : List Creation} {saved : List SaveCall} (hinv : Inv tm seen handed)
    (h : LogInv tm seen created saved) (result : TaskResult) :
    LogInv (SubmitTaskResult tm result).1 seen created
      (saved ++ (SubmitTaskResult tm result).2.1) := by
  have hspec := SubmitTaskResult_spec tm result
  unfold SubmitOutcome at hspec
  simp only at hspec
  rcases hspec with ⟨heq, hsv, _⟩ | ⟨e1, l, x1, rid, _, hl, _, hx1, _, heq⟩
  · rw [heq, hsv, List.append_nil]
    exact LogInv_same h rfl rfl (subset_refl _)
  · rw [heq]
    exact LogInv_finish hinv h e1 x1 l hl hx1 _
      (by simp only [finishExpression, cleanup_expressions])
      (by simp only [finishExpression, cleanup_userIDs])

/-- The invariant holds in every reachable state, and the state is reachable in the sense
of `Reachable`. -/
theorem ReachableLog_inv {tm : TaskManager} {seen : Set String} {created : List Creation}
    {saved : List SaveCall} (h : ReachableLog tm seen created saved) :
    LogInv tm seen created saved ∧ ∃ handed, Reachable tm seen handed := by
  induction h with
  | init => exact ⟨LogInv_init, [], Reachable.init⟩
  | step c _ hfresh ih =>
    obtain ⟨hlog, handed, hreach⟩ := ih
    refine ⟨?_, _, Reachable.step c hreach hfresh⟩
    have hinv := Reachable_inv hreach
    cases c with
    | create text userID env =>
      have := LogInv_create hinv hlog text userID env hfresh.2
      simpa [Call.run, Call.seenAfter, Call.saves] using this
    | getNext order =>
      have := LogInv_same hlog (GetNextTask_expressions _ order) (GetNextTask_userIDs _ order)
        (subset_refl _)
      simpa [Call.run, Call.seenAfter, Call.saves, Call.creations] using this
    | submit result =>
      have := LogInv_submit hinv hlog result
      simpa [Call.run, Call.seenAfter, Call.saves, Call.creations] using this

theorem Call_saves_length (tm : TaskManager) (c : Call) : (c.saves tm).length ≤ 1 := by
  cases c with
  | create text userID env => simp [Call.saves]
  | getNext order => simp [Call.saves]
  | submit result =>
    have hspec := SubmitTaskResult_spec tm result
    unfold SubmitOutcome at hspec
    simp only at hspec
    rcases hspec with ⟨_, hsv, _⟩ | ⟨e1, l, x1, rid, _, _, _, _, _, heq⟩
    · simp [Call.saves, hsv]
    · simp [Call.saves, heq, finishExpression]

theorem replayLog_append (calls : List Call) (c : Call) :
    replayLog (calls ++ [c]) =
      (c.run (replayLog calls).1, c.seenAfter (replayLog calls).2.1,
        (replayLog calls).2.2.1 ++ c.creations (replayLog calls).1,
        (replayLog calls).2.2.2 ++ c.saves (replayLog calls).1) := by
  simp [replayLog, List.foldl_append]

/-- A session that only fetches and answers tasks after what was reached is reachable. -/
theorem ReachableLog_replayLog_rest (rest : List Call)
    (hrest : ∀ c ∈ rest, c.isCreate = false) :
    ∀ (first : List Call),
      ReachableLog (replayLog first).1 (replayLog first).2.1 (replayLog first).2.2.1
        (replayLog first).2.2.2 →
      ReachableLog (replayLog (first ++ rest)).1 (replayLog (first ++ rest)).2.1
        (replayLog (first ++ rest)).2.2.1 (replayLog (first ++ rest)).2.2.2 := by
  induction rest with
  | nil =>
    intro first h
    simpa using h
  | cons c rest ih =>
    intro first h
    have hstep : ReachableLog (replayLog (first ++ [c])).1 (replayLog (first ++ [c])).2.1
        (replayLog (first ++ [c])).2.2.1 (replayLog (first ++ [c])).2.2.2 := by
      rw [replayLog_append]
      refine ReachableLog.step c h ?_
      have hc := hrest c (List.mem_cons_self _ _)
      cases c with
      | create _ _ _ => simp [Call.isCreate] at hc
      | getNext _ => trivial
      | submit _ => trivial
    have := ih (fun c2 hc2 => hrest c2 (List.mem_cons_of_mem _ hc2)) (first ++ [c]) hstep
    simpa using this

/-- A session that creates one expression on the empty manager, with pairwise distinct ids,
and then only fetches and answers tasks, is reachable. -/
theorem ReachableLog_replayLog (text : String) (userID : Int) (env : Env) (rest : List Call)
    (hinj : Function.Injective env.UUID) (hrest : ∀ c ∈ rest, c.isCreate = false) :
    ReachableLog (replayLog (Call.create text userID env :: rest)).1
      (replayLog (Call.create text userID env :: rest)).2.1
      (replayLog (Call.create text userID env :: rest)).2.2.1
      (replayLog (Call.create text userID env :: rest)).2.2.2 := by
  have h1 : ReachableLog (replayLog [Call.create text userID env]).1
      (replayLog [Call.create text userID env]).2.1
      (replayLog [Call.create text userID env]).2.2.1
      (replayLog [Call.create text userID env]).2.2.2 :=
    ReachableLog.step (Call.create text userID env) ReachableLog.init ⟨hinj, fun _ h => h⟩
  exact ReachableLog_replayLog_rest rest hrest [Call.create text userID env] h1

theorem ReachableLog_demoLogCalls :
    ReachableLog (replayLog demoLogCalls).1 (replayLog demoLogCalls).2.1
      (replayLog demoLogCalls).2.2.1 (replayLog demoLogCalls).2.2.2 :=
  ReachableLog_replayLog "1*2+3*4" 1 testEnv _ testEnv_UUID_injective
    (by simp [Call.isCreate])

/-- C11.  With the calls of `SaveExpressionFunc` kept as a log, in every state reachable
from the empty manager by calls with fresh ids: each logged call carries the id, the text,
the clock and the owner id of one successful `CreateExpression`, the status `COMPLETED` and
the result of the header, which is `COMPLETED`; the ids returned by `CreateExpression` are
pairwise distinct; no expression id is logged twice; every `COMPLETED` header is logged
exactly once; a next call logs at most one call, logs one exactly when it moves an
expression to `COMPLETED`, and only when it is a `SubmitTaskResult`; and the value the
callback returns changes nothing in what `SubmitTaskResult` does. -/
theorem SaveExpressionFunc_once_per_completion {tm : TaskManager} {seen : Set String}
    {created : List Creation} {saved : List SaveCall}
    (h : ReachableLog tm seen created saved) :
    (∀ s ∈ saved, ∃ c ∈ created,
      s.expression.ID = c.id ∧ s.expression.Text = c.text ∧
      s.expression.Status = "COMPLETED" ∧ s.expression.CreatedAt = c.createdAt ∧
      s.userID = c.userID ∧
      ∃ x, tm.expressions.get? c.id = some x ∧ x.Status = "COMPLETED" ∧
        x.Result = s.expression.Result) ∧
    (created.map Creation.id).Nodup ∧
    (∀ e, (saved.map (fun s => s.expression.ID)).count e ≤ 1) ∧
    (∀ e x, tm.expressions.get? e = some x → x.Status = "COMPLETED" →
      (saved.map (fun s => s.expression.ID)).count e = 1) ∧
    (∀ c : Call, c.Fresh seen →
      (c.saves tm).length ≤ 1 ∧ (c.saves tm ≠ [] ↔ c.completes tm) ∧
      (c.saves tm ≠ [] → ∃ result, c = Call.submit result)) ∧
    (∀ save result, SubmitTaskResultWith save tm result = SubmitTaskResult tm result) := by
  obtain ⟨hlog, _⟩ := ReachableLog_inv h
  refine ⟨?_, hlog.createdNodup, ?_, ?_, ?_, fun save result => rfl⟩
  · intro s hs
    obtain ⟨x, hx, hst, hse, husr⟩ := hlog.savedHeader s hs
    obtain ⟨c, hc, hcid, hxid, hxtext, hxat, hcusr⟩ := hlog.header _ x hx
    rw [husr] at hcusr
    injection hcusr with hcusr
    refine ⟨c, hc, hcid.symm, ?_, ?_, ?_, hcusr, x, ?_, hst, ?_⟩
    · rw [hse]
      exact hxtext
    · rw [hse]
    · rw [hse]
      exact hxat
    · rw [hcid]
      exact hx
    · rw [hse]
  · intro e
    exact List.nodup_iff_count_le_one.mp hlog.savedNodup e
  · intro e x hx hst
    obtain ⟨s, hs, hse⟩ := hlog.completedSaved e x hx hst
    exact List.count_eq_one_of_mem hlog.savedNodup (List.mem_map.mpr ⟨s, hs, hse⟩)
  · intro c hfresh
    obtain ⟨hnext, _⟩ := ReachableLog_inv (ReachableLog.step c h hfresh)
    refine ⟨Call_saves_length tm c, ⟨?_, ?_⟩, ?_⟩
    · intro hne
      obtain ⟨s, hs⟩ := List.exists_mem_of_ne_nil _ hne
      obtain ⟨x, hx, hst, _⟩ := hnext.savedHeader s (List.mem_append_right _ hs)
      refine ⟨s.expression.ID, x, hx, hst, ?_⟩
      intro y hy hyst
      obtain ⟨s2, hs2, hs2e⟩ := hlog.completedSaved _ y hy hyst
      have hnd := hnext.savedNodup
      rw [List.map_append, List.nodup_append] at hnd
      exact hnd.2.2 (List.mem_map.mpr ⟨s2, hs2, hs2e⟩) (List.mem_map.mpr ⟨s, hs, rfl⟩)
    · rintro ⟨e, x, hx, hst, hbefore⟩
      obtain ⟨s, hs, hse⟩ := hnext.completedSaved e x hx hst
      rcases List.mem_append.mp hs with hs | hs
      · obtain ⟨y, hy, hyst, _⟩ := hlog.savedHeader s hs
        rw [hse] at hy
        exact absurd hyst (hbefore y hy)
      · exact List.ne_nil_of_mem hs
    · intro hne
      cases c with
      | create text userID env => exact absurd rfl hne
      | getNext order => exact absurd rfl hne
      | submit result => exact ⟨result, rfl⟩

/-- C11 on the session that creates `1*2+3*4` for the owner 1 and answers its three tasks:
one call of the callback, made by the last `SubmitTaskResult`. -/
theorem SaveExpressionFunc_once_per_completion_witness :
    (replayLog demoCalls).2.2.2 = [] ∧
    (replayLog demoLogCalls).2.2.1 =
      [{ id := "u", text := "1*2+3*4", userID := 1, createdAt := "01.01.2025 00:00:00" }] ∧
    (replayLog demoLogCalls).2.2.2 =
      [{ expression :=
          { ID := "u", Text := "1*2+3*4", Status := "COMPLETED", Result := 14,
            CreatedAt := "01.01.2025 00:00:00" },
         userID := 1 }] ∧
    ((replayLog demoLogCalls).2.2.2.map (fun s => s.expression.ID)).count "u" ≤ 1 :=
  ⟨by with_unfolding_all decide, by with_unfolding_all decide, by with_unfolding_all decide,
    (SaveExpressionFunc_once_per_completion ReachableLog_demoLogCalls).2.2.1 "u"⟩
/-! ## The worker arithmetic -/

/-- C27.  `getOperationResult` returns the sum, the difference and the product for `+`, `-`
and `*`; for `/` the quotient when the second argument is not zero and 0 when it is zero;
and 0 for every other operation string, the empty one included.  `calculateResult` and
`calculateResultWithTime` return the value of `getOperationResult` for the same operation and
arguments, whatever the delay.  The arithmetic is that of the rationals. -/
theorem getOperationResult_values :
    (∀ a b : ℚ, getOperationResult "+" a b = a + b) ∧
    (∀ a b : ℚ, getOperationResult "-" a b = a - b) ∧
    (∀ a b : ℚ, getOperationResult "*" a b = a * b) ∧
    (∀ a b : ℚ, b ≠ 0 → getOperationResult "/" a b = a / b) ∧
    (∀ a : ℚ, getOperationResult "/" a 0 = 0) ∧
    (∀ (op : String) (a b : ℚ), op ≠ "+" → op ≠ "-" → op ≠ "*" → op ≠ "/" →
      getOperationResult op a b = 0) ∧
    (∀ a b : ℚ, getOperationResult "" a b = 0) ∧
    (∀ (op : String) (a b : ℚ), calculateResult op a b = getOperationResult op a b) ∧
    (∀ (op : String) (a b : ℚ) (ms : Int),
      calculateResultWithTime op a b ms = getOperationResult op a b) := by
  have h1 : ("-" : String) ≠ "+" := by decide
  have h2 : ("*" : String) ≠ "+" := by decide
  have h3 : ("*" : String) ≠ "-" := by decide
  have h4 : ("/" : String) ≠ "+" := by decide
  have h5 : ("/" : String) ≠ "-" := by decide
  have h6 : ("/" : String) ≠ "*" := by decide
  have h7 : ("" : String) ≠ "+" := by decide
  have h8 : ("" : String) ≠ "-" := by decide
  have h9 : ("" : String) ≠ "*" := by decide
  have h10 : ("" : String) ≠ "/" := by decide
  refine ⟨?_, ?_, ?_, ?_, ?_, ?_, ?_, ?_, ?_⟩
  · intro a b
    simp [getOperationResult]
  · intro a b
    simp [getOperationResult, h1]
  · intro a b
    simp [getOperationResult, h2, h3]
  · intro a b hb
    simp [getOperationResult, h4, h5, h6, hb]
  · intro a
    simp [getOperationResult, h4, h5, h6]
  · intro op a b g1 g2 g3 g4
    simp [getOperationResult, g1, g2, g3, g4]
  · intro a b
    simp [getOperationResult, h7, h8, h9, h10]
  · intro op a b
    rfl
  · intro op a b ms
    rfl

/-- C27 on the cases of the agent test and on a division by zero. -/
theorem getOperationResult_values_witness :
    calculateResult "+" 2 3 = 5 ∧ calculateResult "-" 5 3 = 2 ∧ calculateResult "*" 4 3 = 12 ∧
    calculateResult "/" 10 2 = 5 ∧ calculateResult "/" 10 0 = 0 ∧
    calculateResult "%" 10 2 = 0 ∧ getOperationResult "" 7 0 = 0 ∧
    calculateResultWithTime "/" 1 3 540 = 1 / 3 ∧
    calculateResultWithTime "/" 1 3 540 = getOperationResult "/" 1 3 :=
  ⟨by with_unfolding_all decide, by with_unfolding_all decide, by with_unfolding_all decide,
    by with_unfolding_all decide, by with_unfolding_all decide, by with_unfolding_all decide,
    by with_unfolding_all decide, by with_unfolding_all decide,
    getOperationResult_values.2.2.2.2.2.2.2.2 "/" 1 3 540⟩
/-! ## Operands and operators: what `Calculate` checks -/

theorem countType_nil (ty : TokenType) : countType ty [] = 0 := rfl

theorem countType_cons (ty : TokenType) (t : Token) (ts : List Token) :
    countType ty (t :: ts) = countType ty ts + (if t.Typ = ty then 1 else 0) := by
  simp [countType, List.countP_cons]

theorem countType_append (ty : TokenType) (ts us : List Token) :
    countType ty (ts ++ us) = countType ty ts + countType ty us := by
  simp [countType, List.countP_append]

theorem popOperators_countType (ty : TokenType) (token : Token) (stack : List Token) :
    ∀ output : List Token,
      countType ty (popOperators token stack output).1 +
          countType ty (popOperators token stack output).2 =
        countType ty stack + countType ty output := by
  induction stack with
  | nil =>
    intro output
    simp [popOperators]
  | cons top rest ih =>
    intro output
    rw [popOperators]
    split_ifs with hc
    · rw [ih (output ++ [top]), countType_append, countType_cons, countType_cons,
        countType_nil]
      omega
    · rfl

theorem popToLeftParen_countType (ty : TokenType) (hty : ty ≠ TokenType.LeftParen)
    (stack : List Token) :
    ∀ (output : List Token) (r : List Token × List Token),
      popToLeftParen stack output = some r →
      countType ty r.1 + countType ty r.2 = countType ty stack + countType ty output := by
  induction stack with
  | nil =>
    intro output r h
    simp [popToLeftParen] at h
  | cons top rest ih =>
    intro output r h
    rw [popToLeftParen] at h
    split_ifs at h with hc
    · simp only [Option.some.injEq] at h
      subst h
      have : ¬ top.Typ = ty := by
        rw [hc]
        exact fun h => hty h.symm
      rw [countType_cons, if_neg this]
      rfl
    · rw [ih _ r h, countType_append, countType_cons, countType_cons, countType_nil]
      omega

theorem drainStack_countType (ty : TokenType) (stack : List Token) :
    ∀ (output r : List Token), drainStack stack output = Except.ok r →
      countType ty r = countType ty output + countType ty stack := by
  induction stack with
  | nil =>
    intro output r h
    simp only [drainStack, Except.ok.injEq] at h
    subst h
    rfl
  | cons top rest ih =>
    intro output r h
    rw [drainStack] at h
    split_ifs at h with hc
    rw [ih _ r h, countType_append, countType_cons, countType_cons, countType_nil]
    omega

/-- The loop of `ToRPN` keeps the Number tokens and the Operator tokens: when it succeeds,
its result holds as many tokens of type `ty` as the output so far, the stack and the
remaining tokens together, for `ty` not a parenthesis. -/
theorem toRPNLoop_countType (ty : TokenType) (h1 : ty ≠ TokenType.LeftParen)
    (h2 : ty ≠ TokenType.RightParen) (tokens : List Token) :
    ∀ (stack output r : List Token), toRPNLoop tokens stack output = Except.ok r →
      countType ty r = countType ty output + countType ty stack + countType ty tokens := by
  induction tokens with
  | nil =>
    intro stack output r h
    rw [toRPNLoop] at h
    rw [drainStack_countType ty stack output r h]
    rfl
  | cons token rest ih =>
    intro stack output r h
    cases hty : token.Typ with
    | Number =>
      simp only [toRPNLoop, hty] at h
      rw [ih _ _ r h, countType_append, countType_cons, countType_cons, countType_nil, hty]
      omega
    | Operator =>
      simp only [toRPNLoop, hty] at h
      have hp := popOperators_countType ty token stack output
      rw [ih _ _ r h, countType_cons, countType_cons, hty]
      omega
    | LeftParen =>
      simp only [toRPNLoop, hty] at h
      rw [ih _ _ r h, countType_cons, countType_cons, hty, if_neg (fun h => h1 h.symm)]
      omega
    | RightParen =>
      simp only [toRPNLoop, hty] at h
      cases hp : popToLeftParen stack output with
      | none => simp [hp] at h
      | some p =>
        simp only [hp] at h
        have hq := popToLeftParen_countType ty h1 stack output p hp
        rw [ih _ _ r h, countType_cons, hty, if_neg (fun h => h2 h.symm)]
        omega

/-- The loop of `EvaluateRPN`, when it succeeds, has pushed one value per Number token and
taken one value away per Operator token. -/
theorem evalLoop_depth (rpn : List Token) :
    ∀ (stack stack2 : List ℚ), evalLoop rpn stack = Except.ok stack2 →
      stack2.length + countType TokenType.Operator rpn =
        stack.length + countType TokenType.Number rpn := by
  induction rpn with
  | nil =>
    intro stack stack2 h
    simp only [evalLoop, Except.ok.injEq] at h
    subst h
    rfl
  | cons token rest ih =>
    intro stack stack2 h
    cases hty : token.Typ with
    | Number =>
      simp only [evalLoop, hty] at h
      cases hp : ParseFloat token.Value with
      | none => simp [hp] at h
      | some num =>
        simp only [hp] at h
        have := ih _ _ h
        rw [countType_cons, countType_cons, hty]
        simp only [List.length_cons] at this
        simp only [reduceCtorEq, if_false, if_true]
        omega
    | Operator =>
      match stack, h with
      | [], h => simp [evalLoop, hty] at h
      | [_], h => simp [evalLoop, hty] at h
      | b :: a :: st, h =>
        simp only [evalLoop, hty] at h
        rw [countType_cons, countType_cons, hty]
        simp only [reduceCtorEq, if_false, if_true, List.length_cons]
        split_ifs at h with g1 g2 g3 g4 g5
        · have := ih _ _ h
          simp only [List.length_cons] at this
          omega
        · have := ih _ _ h
          simp only [List.length_cons] at this
          omega
        · have := ih _ _ h
          simp only [List.length_cons] at this
          omega
        · have := ih _ _ h
          simp only [List.length_cons] at this
          omega
        · have := ih _ _ h
          simp only [List.length_cons] at this
          omega
    | LeftParen =>
      simp only [evalLoop, hty] at h
      have := ih _ _ h
      rw [countType_cons, countType_cons, hty]
      simpa using this
    | RightParen =>
      simp only [evalLoop, hty] at h
      have := ih _ _ h
      rw [countType_cons, countType_cons, hty]
      simpa using this

/-- When `ToRPN` succeeds its output holds the Number and the Operator tokens of the input
and nothing else. -/
theorem ToRPN_countType (c : Calculator) (rpn : List Token) (h : ToRPN c = Except.ok rpn) :
    countType TokenType.Number rpn = countType TokenType.Number c.tokens ∧
    countType TokenType.Operator rpn = countType TokenType.Operator c.tokens ∧
    ∀ t ∈ rpn, t.Typ = TokenType.Number ∨ t.Typ = TokenType.Operator := by
  have hn := toRPNLoop_countType TokenType.Number (by simp) (by simp) c.tokens [] [] rpn h
  have ho := toRPNLoop_countType TokenType.Operator (by simp) (by simp) c.tokens [] [] rpn h
  have hlen := (toRPNLoop_balance c.tokens [] []).2.2 rpn h
  simp only [countType_nil, Nat.zero_add] at hn ho
  refine ⟨hn, ho, ?_⟩
  have hsplit : ∀ ts : List Token, countOperandsAndOperators ts =
      countType TokenType.Number ts + countType TokenType.Operator ts := by
    intro ts
    induction ts with
    | nil => rfl
    | cons t ts ih =>
      rw [countOperandsAndOperators_cons, countType_cons, countType_cons, ih]
      cases t.Typ <;> simp <;> omega
  have hall : countOperandsAndOperators rpn = rpn.length := by
    rw [hsplit, hn, ho, hlen, hsplit]
    simp [countNotLeft]
  intro t ht
  unfold countOperandsAndOperators at hall
  rw [List.countP_eq_length] at hall
  simpa using hall t ht

/-- When `Calculate` returns a value, the tokens of the text hold exactly one more Number
token than Operator tokens. -/
theorem Calculate_ok_counts (c : Calculator) (expr : String) (v : ℚ)
    (h : (Calculate c expr).2 = Except.ok v) :
    countType TokenType.Number (Tokenize c expr).1.tokens =
      countType TokenType.Operator (Tokenize c expr).1.tokens + 1 := by
  obtain ⟨_, _, rpn, hrpn, hev⟩ := Calculate_ok c expr v h
  obtain ⟨hn, ho, _⟩ := ToRPN_countType _ rpn hrpn
  have hd := evalLoop_depth rpn [] [v] (EvaluateRPN_ok rpn v hev)
  simp only [List.length_singleton, List.length_nil] at hd
  omega

/-- C21 (the claim fails on the code): in `+2(3)` the operator `+` is the first token and
the operands `2` and `(3)` are adjacent, and in `(2)(3)+` the operands `(2)` and `(3)` are
adjacent; `Calculate` returns 5 for both. -/
theorem Calculate_unary_and_adjacent_counterexample :
    (Tokenize NewCalculator "+2(3)").1.tokens.map Token.Value = ["+", "2", "(", "3", ")"] ∧
    Calc "+2(3)" = Except.ok 5 ∧
    (Tokenize NewCalculator "(2)(3)+").1.tokens.map Token.Value =
      ["(", "2", ")", "(", "3", ")", "+"] ∧
    Calc "(2)(3)+" = Except.ok 5 := by
  with_unfolding_all decide

/-- C21 as amended.  `Calculate` checks the parentheses and the postfix evaluation only:
it returns an error for every text whose tokens do not hold exactly one more Number token
than Operator tokens, which is the case of an expression with one operator more (a unary
sign) or one operand more (an implicit multiplication) than a well-formed one. -/
theorem Calculate_rejects_unbalanced_counts (c : Calculator) (expr : String)
    (hcount : countType TokenType.Number (Tokenize c expr).1.tokens ≠
      countType TokenType.Operator (Tokenize c expr).1.tokens + 1) :
    ∃ msg, (Calculate c expr).2 = Except.error msg := by
  cases h : (Calculate c expr).2 with
  | error msg => exact ⟨msg, rfl⟩
  | ok v => exact absurd (Calculate_ok_counts c expr v h) hcount

/-- C21 as amended, on `-3` (operator `-`, number `3`, postfix `3 -`, `invalid expression`),
and on `2+-3`, `(-3)`, `2(3)` and `(2)(3)`. -/
theorem Calculate_rejects_unbalanced_counts_witness :
    (Tokenize NewCalculator "-3").1.tokens =
      [{ Typ := TokenType.Operator, Value := "-" }, { Typ := TokenType.Number, Value := "3" }] ∧
    ToRPN (Tokenize NewCalculator "-3").1 =
      Except.ok [{ Typ := TokenType.Number, Value := "3" },
                 { Typ := TokenType.Operator, Value := "-" }] ∧
    EvaluateRPN [{ Typ := TokenType.Number, Value := "3" },
                 { Typ := TokenType.Operator, Value := "-" }] =
      Except.error "invalid expression" ∧
    Calc "-3" = Except.error "invalid expression" ∧
    Calc "2+-3" = Except.error "invalid expression" ∧
    Calc "(-3)" = Except.error "invalid expression" ∧
    Calc "2(3)" = Except.error "invalid expression" ∧
    Calc "(2)(3)" = Except.error "invalid expression" ∧
    ∃ msg, (Calculate NewCalculator "-3").2 = Except.error msg :=
  ⟨by decide, by decide, by with_unfolding_all decide, by with_unfolding_all decide,
    by with_unfolding_all decide, by with_unfolding_all decide, by with_unfolding_all decide,
    by with_unfolding_all decide,
    Calculate_rejects_unbalanced_counts NewCalculator "-3" (by decide)⟩
/-! ## The literal-only expression -/

theorem Calculate_indep (c1 c2 : Calculator) (expr : String) :
    (Calculate c1 expr).2 = (Calculate c2 expr).2 := by
  by_cases he : expr = ""
  · subst he
    simp [Calculate, Tokenize]
  · unfold Calculate
    rw [Tokenize_of_ne c1 expr he, Tokenize_of_ne c2 expr he]

/-- In a reachable state no dependency entry is keyed by an id that was never minted. -/
theorem dependsOnTask_get?_fresh {tm : TaskManager} {seen : Set String} {handed : List String}
    (hinv : Inv tm seen handed) (id : String) (hid : id ∉ seen) :
    tm.dependsOnTask.get? id = none := by
  cases hg : tm.dependsOnTask.get? id with
  | none => rfl
  | some ds => exact absurd (hinv.keys.dependsOnTask id ds (GoMap.mem_of_get? _ _ _ hg)).1 hid

theorem tasks_get?_fresh {tm : TaskManager} {seen : Set String} {handed : List String}
    (hinv : Inv tm seen handed) (id : String) (hid : id ∉ seen) :
    tm.tasks.get? id = none := by
  cases hg : tm.tasks.get? id with
  | none => rfl
  | some t => exact absurd (hinv.keys.tasks id (by simp [hg])) hid

/-- `GetNextTask` finds a task as soon as the visiting order holds a ready task of the map. -/
theorem GetNextTask_found_of_ready (tm : TaskManager) (order : List String) (id : String)
    (hid : id ∈ order) (hsome : (tm.tasks.get? id).isSome = true)
    (hready : isReady tm id = true) : (GetNextTask tm order).2.2 = true := by
  rcases GetNextTask_spec tm order with ⟨_, h2⟩ | ⟨id2, task0, _, _, _, hres⟩
  · have := h2 id hid hsome
    rw [hready] at this
    exact absurd this (by simp)
  · rcases hres with ⟨_, heq⟩ | ⟨deps, _, _, heq⟩
    · rw [heq]
    · rw [heq]

/-- The manager after `CreateExpression` on a text that `Calculate` accepts with value `v`
and whose postfix form is the single Number token `tok`. -/
theorem CreateExpression_literal (tm : TaskManager) (text : String) (userID : Int) (env : Env)
    (v : ℚ) (tok : Token) (hv : (Calculate NewCalculator text).2 = Except.ok v)
    (hrpn : ToRPN (Tokenize NewCalculator text).1 = Except.ok [tok])
    (htok : tok.Typ = TokenType.Number) :
    CreateExpression tm text userID env =
      ({ tm with
          calc_ := (Tokenize tm.calc_ text).1
          expressions := tm.expressions.set (env.UUID 0)
            { ID := env.UUID 0, Original := text, Status := "PROCESSING", Result := v,
              CreatedAt := env.Now }
          tasks := tm.tasks.set (env.UUID 1)
            { ID := env.UUID 1, Arg1 := v, Arg2 := 0, Operation := "", OperationTime := 0,
              Priority := 1 }
          taskToExpression := tm.taskToExpression.set (env.UUID 1) (env.UUID 0)
          expressionTasks := tm.expressionTasks.set (env.UUID 0) [env.UUID 1]
          userIDs := tm.userIDs.set (env.UUID 0) userID },
        Except.ok (env.UUID 0)) := by
  obtain ⟨he, htk, _⟩ := Calculate_ok NewCalculator text v hv
  rw [Tokenize_indep NewCalculator tm.calc_ text he] at htk hrpn
  have hres : (Calculate (Calculate NewCalculator text).1 text).2 = Except.ok v := by
    rw [Calculate_indep _ NewCalculator, hv]
  cases hc : Calculate NewCalculator text with
  | mk testCalc res =>
    rw [hc] at hv hres
    simp only at hv hres
    subst hv
    cases ht : Tokenize tm.calc_ text with
    | mk calc1 err =>
      rw [ht] at htk hrpn
      simp only at htk hrpn
      subst htk
      simp only [CreateExpression, he, if_false, hc, ht, hrpn, List.length_singleton,
        List.head?_cons, Option.map_some', htok, and_self, if_true, hres]

/-- C24.  In a reachable state, let the text be accepted by `Calculate` with value `v` and
let its postfix form be the single Number token `tok`.  Then `tok` reads as `v`, and
`CreateExpression` (with fresh ids) returns the id `env.UUID 0` and installs the header with
status `PROCESSING` and exactly one task, `env.UUID 1`, with `Arg1 = v`, `Arg2 = 0`, the
empty operation, operation time 0 and no dependency entry; that task is ready, every
`GetNextTask` whose visiting order holds it finds a task, and `GetNextTask` visiting it
returns it. -/
theorem CreateExpression_single_number {tm : TaskManager} {seen : Set String}
    {handed : List String} (h : Reachable tm seen handed) (text : String) (userID : Int)
    (env : Env) (hfresh : (Call.create text userID env).Fresh seen) (v : ℚ) (tok : Token)
    (hv : (Calculate NewCalculator text).2 = Except.ok v)
    (hrpn : ToRPN (Tokenize NewCalculator text).1 = Except.ok [tok])
    (htok : tok.Typ = TokenType.Number) :
    ParseFloat tok.Value = some v ∧
    (CreateExpression tm text userID env).2 = Except.ok (env.UUID 0) ∧
    (CreateExpression tm text userID env).1.expressions =
      tm.expressions.set (env.UUID 0)
        { ID := env.UUID 0, Original := text, Status := "PROCESSING", Result := v,
          CreatedAt := env.Now } ∧
    tm.tasks.get? (env.UUID 1) = none ∧
    (CreateExpression tm text userID env).1.tasks =
      tm.tasks.set (env.UUID 1)
        { ID := env.UUID 1, Arg1 := v, Arg2 := 0, Operation := "", OperationTime := 0,
          Priority := 1 } ∧
    (CreateExpression tm text userID env).1.taskToExpression =
      tm.taskToExpression.set (env.UUID 1) (env.UUID 0) ∧
    (CreateExpression tm text userID env).1.expressionTasks =
      tm.expressionTasks.set (env.UUID 0) [env.UUID 1] ∧
    (CreateExpression tm text userID env).1.taskResults = tm.taskResults ∧
    (CreateExpression tm text userID env).1.dependsOnTask = tm.dependsOnTask ∧
    (CreateExpression tm text userID env).1.dependsOnTask.get? (env.UUID 1) = none ∧
    isReady (CreateExpression tm text userID env).1 (env.UUID 1) = true ∧
    (∀ order, env.UUID 1 ∈ order →
      (GetNextTask (CreateExpression tm text userID env).1 order).2.2 = true) ∧
    (GetNextTask (CreateExpression tm text userID env).1 [env.UUID 1]).2 =
      ({ ID := env.UUID 1, Arg1 := v, Arg2 := 0, Operation := "", OperationTime := 0,
         Priority := 1 }, true) := by
  have hinv := Reachable_inv h
  obtain ⟨he, htk, rpn, hrpn2, hev⟩ := Calculate_ok NewCalculator text v hv
  rw [hrpn] at hrpn2
  have hrpn3 : rpn = [tok] := by simpa using hrpn2.symm
  subst hrpn3
  have hpf : ParseFloat tok.Value = some v := by
    have h1 := EvaluateRPN_ok _ v hev
    simp only [evalLoop, htok] at h1
    cases hp : ParseFloat tok.Value with
    | none => simp [hp] at h1
    | some w =>
      simp only [hp, evalLoop] at h1
      simpa using h1
  have hdep : tm.dependsOnTask.get? (env.UUID 1) = none :=
    dependsOnTask_get?_fresh hinv _ (hfresh.2 1)
  have htask : tm.tasks.get? (env.UUID 1) = none := tasks_get?_fresh hinv _ (hfresh.2 1)
  have hstate := CreateExpression_literal tm text userID env v tok hv hrpn htok
  have hready : isReady (CreateExpression tm text userID env).1 (env.UUID 1) = true := by
    rw [hstate]
    simp only [isReady, hdep]
  have hsome : ((CreateExpression tm text userID env).1.tasks.get? (env.UUID 1)).isSome
      = true := by
    rw [hstate]
    simp only [GoMap.get?_set_self, Option.isSome_some]
  refine ⟨hpf, by rw [hstate], by rw [hstate], htask, by rw [hstate], by rw [hstate],
    by rw [hstate], by rw [hstate], by rw [hstate], by rw [hstate]; exact hdep, hready,
    fun order ho => GetNextTask_found_of_ready _ order _ ho hsome hready, ?_⟩
  rw [hstate]
  simp only [GetNextTask, GoMap.get?_set_self, hdep]

/-- C24 on `(7)` created on the empty manager: one task `7`, with the empty operation, that
the next `GetNextTask` returns. -/
theorem CreateExpression_single_number_witness :
    ToRPN (Tokenize NewCalculator "(7)").1 =
      Except.ok [{ Typ := TokenType.Number, Value := "7" }] ∧
    Calc "(7)" = Except.ok 7 ∧
    (CreateExpression NewTaskManager "(7)" 1 testEnv).1.tasks.entries =
      [("uu", { ID := "uu", Arg1 := 7, Arg2 := 0, Operation := "", OperationTime := 0,
                Priority := 1 })] ∧
    ((CreateExpression NewTaskManager "(7)" 1 testEnv).1.expressions.get? "u").map
      Expression.Status = some "PROCESSING" ∧
    (GetNextTask (CreateExpression NewTaskManager "(7)" 1 testEnv).1 [testEnv.UUID 1]).2 =
      ({ ID := testEnv.UUID 1, Arg1 := 7, Arg2 := 0, Operation := "", OperationTime := 0,
         Priority := 1 }, true) :=
  ⟨by decide, by with_unfolding_all decide, by with_unfolding_all decide,
    by with_unfolding_all decide,
    (CreateExpression_single_number Reachable.init "(7)" 1 testEnv
      ⟨testEnv_UUID_injective, fun _ h => h⟩ 7 { Typ := TokenType.Number, Value := "7" }
      (by with_unfolding_all decide) (by decide) rfl).2.2.2.2.2.2.2.2.2.2.2.2⟩
/-! ## The plan of the task-building loop -/

theorem installPlan_nil (env : Env) (e : String) (tm : TaskManager) :
    installPlan env e [] tm = tm := rfl

theorem installPlan_cons (env : Env) (e : String) (n : PlanNode) (ns : List PlanNode)
    (tm : TaskManager) :
    installPlan env e (n :: ns) tm =
      installPlan env e ns (installTask env e n.token n.id n.left n.right tm) := rfl

/-- The task-building loop installs the nodes of the plan and returns their ids. -/
theorem buildTasks_plan (env : Env) (e : String) (rpn : List Token) :
    ∀ (tm : TaskManager) (ids : List String) (stack : List (stackItem × ℚ)) (k : Nat)
      (ns : List PlanNode) (st : List (stackItem × ℚ)),
      planLoop env rpn stack k = some (ns, st) →
      buildTasks env e rpn tm ids (stack.map Prod.fst) k =
        (installPlan env e ns tm, some (ids ++ ns.map PlanNode.id)) := by
  induction rpn with
  | nil =>
    intro tm ids stack k ns st h
    simp only [planLoop, Option.some.injEq, Prod.mk.injEq] at h
    obtain ⟨h1, _⟩ := h
    subst h1
    simp [buildTasks, installPlan_nil]
  | cons token rest ih =>
    intro tm ids stack k ns st h
    cases hty : token.Typ with
    | Number =>
      simp only [planLoop, hty] at h
      have := ih tm ids _ k ns st h
      simp only [List.map_cons] at this
      simp only [buildTasks, hty]
      exact this
    | Operator =>
      match stack, h with
      | [], h => simp [planLoop, hty] at h
      | [_], h => simp [planLoop, hty] at h
      | (r, b) :: (l, a) :: stack2, h =>
        simp only [planLoop, hty] at h
        cases hp : planLoop env rest
            (({ value := 0, taskID := env.UUID k, isNum := false },
              getOperationResult token.Value a b) :: stack2) (k + 1) with
        | none => simp [hp] at h
        | some p =>
          obtain ⟨ns2, st2⟩ := p
          simp only [hp, Option.some.injEq, Prod.mk.injEq] at h
          obtain ⟨h1, h2⟩ := h
          subst h1 h2
          have := ih (installTask env e token (env.UUID k) l r tm) (ids ++ [env.UUID k]) _
            (k + 1) ns2 st2 hp
          simp only [List.map_cons] at this
          simp only [buildTasks, hty, List.map_cons]
          rw [this, installPlan_cons]
          simp
    | LeftParen =>
      simp only [planLoop, hty] at h
      simp only [buildTasks, hty]
      exact ih tm ids stack k ns st h
    | RightParen =>
      simp only [planLoop, hty] at h
      simp only [buildTasks, hty]
      exact ih tm ids stack k ns st h

theorem evalLoop_operator_step (token : Token) (rest : List Token) (a b : ℚ) (st : List ℚ)
    (hty : token.Typ = TokenType.Operator) :
    evalLoop (token :: rest) (b :: a :: st) =
      if token.Value = "/" ∧ b = 0 then Except.error "division by zero"
      else evalLoop rest (getOperationResult token.Value a b :: st) := by
  have h1 : ("-" : String) ≠ "+" := by decide
  have h2 : ("*" : String) ≠ "+" := by decide
  have h3 : ("*" : String) ≠ "-" := by decide
  have h4 : ("/" : String) ≠ "+" := by decide
  have h5 : ("/" : String) ≠ "-" := by decide
  have h6 : ("/" : String) ≠ "*" := by decide
  simp only [evalLoop, hty, getOperationResult]
  by_cases g1 : token.Value = "+"
  · simp [g1]
  · by_cases g2 : token.Value = "-"
    · simp [g2, h1]
    · by_cases g3 : token.Value = "*"
      · simp [g3, h2, h3]
      · by_cases g4 : token.Value = "/"
        · by_cases hb : b = 0
          · simp [g4, h4, h5, h6, hb]
          · simp [g4, h4, h5, h6, hb]
        · simp [g1, g2, g3, g4]

/-- When the loop of `EvaluateRPN` succeeds from the values of a stack, the plan exists,
its final stack stands for the final values, and no planned division has a right operand of
value zero. -/
theorem evalLoop_plan (env : Env) (rpn : List Token) :
    ∀ (stack : List (stackItem × ℚ)) (k : Nat) (vs : List ℚ),
      evalLoop rpn (stack.map Prod.snd) = Except.ok vs →
      ∃ ns st, planLoop env rpn stack k = some (ns, st) ∧ st.map Prod.snd = vs ∧
        ∀ n ∈ ns, n.token.Value = "/" → n.b ≠ 0 := by
  induction rpn with
  | nil =>
    intro stack k vs h
    simp only [evalLoop, Except.ok.injEq] at h
    exact ⟨[], stack, rfl, h, by simp⟩
  | cons token rest ih =>
    intro stack k vs h
    cases hty : token.Typ with
    | Number =>
      simp only [evalLoop, hty] at h
      cases hp : ParseFloat token.Value with
      | none => simp [hp] at h
      | some num =>
        simp only [hp] at h
        obtain ⟨ns, st, h1, h2, h3⟩ := ih
          (({ value := num, taskID := "", isNum := true }, num) :: stack) k vs
          (by simpa using h)
        refine ⟨ns, st, ?_, h2, h3⟩
        simp only [planLoop, hty, hp, Option.getD_some]
        exact h1
    | Operator =>
      match stack, h with
      | [], h => simp [evalLoop, hty] at h
      | [_], h => simp [evalLoop, hty] at h
      | (r, b) :: (l, a) :: stack2, h =>
        simp only [List.map_cons] at h
        rw [evalLoop_operator_step _ _ _ _ _ hty] at h
        split_ifs at h with hz
        obtain ⟨ns, st, h1, h2, h3⟩ := ih
          (({ value := 0, taskID := env.UUID k, isNum := false },
            getOperationResult token.Value a b) :: stack2) (k + 1) vs (by simpa using h)
        refine ⟨{ id := env.UUID k, token := token, left := l, right := r, a := a, b := b }
          :: ns, st, ?_, h2, ?_⟩
        · simp only [planLoop, hty, h1]
        · intro n hn
          rcases List.mem_cons.mp hn with hn | hn
          · subst hn
            intro hdiv hb
            exact hz ⟨hdiv, hb⟩
          · exact h3 n hn
    | LeftParen =>
      simp only [evalLoop, hty] at h
      obtain ⟨ns, st, h1, h2, h3⟩ := ih stack k vs h
      exact ⟨ns, st, by simp only [planLoop, hty]; exact h1, h2, h3⟩
    | RightParen =>
      simp only [evalLoop, hty] at h
      obtain ⟨ns, st, h1, h2, h3⟩ := ih stack k vs h
      exact ⟨ns, st, by simp only [planLoop, hty]; exact h1, h2, h3⟩
theorem OperandOK_mono {avail avail2 : List (String × ℚ)} {p : stackItem × ℚ}
    (hsub : ∀ q ∈ avail, q ∈ avail2) (h : OperandOK avail p) : OperandOK avail2 p := by
  rcases h with h | ⟨h1, h2⟩
  · exact Or.inl h
  · exact Or.inr ⟨h1, hsub _ h2⟩

/-- The operands of the plan are numbers, operands of the initial stack or earlier nodes. -/
theorem planLoop_ok (env : Env) (rpn : List Token) :
    ∀ (stack : List (stackItem × ℚ)) (k : Nat) (avail : List (String × ℚ))
      (ns : List PlanNode) (st : List (stackItem × ℚ)),
      planLoop env rpn stack k = some (ns, st) →
      (∀ p ∈ stack, OperandOK avail p) →
      PlanOK avail ns ∧ ∀ p ∈ st, OperandOK (avail ++ ns.map PlanNode.pair) p := by
  induction rpn with
  | nil =>
    intro stack k avail ns st h hst
    simp only [planLoop, Option.some.injEq, Prod.mk.injEq] at h
    obtain ⟨h1, h2⟩ := h
    subst h1 h2
    exact ⟨trivial, by simpa using hst⟩
  | cons token rest ih =>
    intro stack k avail ns st h hst
    cases hty : token.Typ with
    | Number =>
      simp only [planLoop, hty] at h
      refine ih _ k avail ns st h ?_
      intro p hp
      rcases List.mem_cons.mp hp with hp | hp
      · subst hp
        exact Or.inl ⟨rfl, rfl⟩
      · exact hst p hp
    | Operator =>
      match stack, h, hst with
      | [], h, _ => simp [planLoop, hty] at h
      | [_], h, _ => simp [planLoop, hty] at h
      | (r, b) :: (l, a) :: stack2, h, hst =>
        simp only [planLoop, hty] at h
        cases hp : planLoop env rest
            (({ value := 0, taskID := env.UUID k, isNum := false },
              getOperationResult token.Value a b) :: stack2) (k + 1) with
        | none => simp [hp] at h
        | some q =>
          obtain ⟨ns2, st2⟩ := q
          simp only [hp, Option.some.injEq, Prod.mk.injEq] at h
          obtain ⟨h1, h2⟩ := h
          subst h1 h2
          have hnew := ih _ (k + 1)
            (avail ++ [(env.UUID k, getOperationResult token.Value a b)]) ns2 st2 hp (by
              intro p hp2
              rcases List.mem_cons.mp hp2 with hp2 | hp2
              · subst hp2
                exact Or.inr ⟨rfl, by simp⟩
              · exact OperandOK_mono (fun q hq => List.mem_append_left _ hq)
                  (hst p (List.mem_cons_of_mem _ (List.mem_cons_of_mem _ hp2))))
          refine ⟨⟨hst (l, a) (by simp), hst (r, b) (by simp), hnew.1⟩, ?_⟩
          intro p hp2
          have := hnew.2 p hp2
          simpa [PlanNode.pair, PlanNode.value] using this
    | LeftParen =>
      simp only [planLoop, hty] at h
      exact ih stack k avail ns st h hst
    | RightParen =>
      simp only [planLoop, hty] at h
      exact ih stack k avail ns st h hst

theorem PlanOK_split (pre : List PlanNode) :
    ∀ (avail : List (String × ℚ)) (n : PlanNode) (post : List PlanNode),
      PlanOK avail (pre ++ n :: post) →
      OperandOK (avail ++ pre.map PlanNode.pair) (n.left, n.a) ∧
      OperandOK (avail ++ pre.map PlanNode.pair) (n.right, n.b) := by
  induction pre with
  | nil =>
    intro avail n post h
    simp only [List.nil_append, PlanOK] at h
    simpa using ⟨h.1, h.2.1⟩
  | cons m pre ih =>
    intro avail n post h
    simp only [List.cons_append, PlanOK] at h
    have := ih _ n post h.2.2
    simpa using this

/-- The ids of the plan are the ids minted from the `k`-th on, in order. -/
theorem planLoop_ids (env : Env) (rpn : List Token) :
    ∀ (stack : List (stackItem × ℚ)) (k : Nat) (ns : List PlanNode)
      (st : List (stackItem × ℚ)),
      planLoop env rpn stack k = some (ns, st) →
      ns.map PlanNode.id = (List.range ns.length).map (fun i => env.UUID (k + i)) := by
  induction rpn with
  | nil =>
    intro stack k ns st h
    simp only [planLoop, Option.some.injEq, Prod.mk.injEq] at h
    obtain ⟨h1, _⟩ := h
    subst h1
    rfl
  | cons token rest ih =>
    intro stack k ns st h
    cases hty : token.Typ with
    | Number =>
      simp only [planLoop, hty] at h
      exact ih _ k ns st h
    | Operator =>
      match stack, h with
      | [], h => simp [planLoop, hty] at h
      | [_], h => simp [planLoop, hty] at h
      | (r, b) :: (l, a) :: stack2, h =>
        simp only [planLoop, hty] at h
        cases hp : planLoop env rest
            (({ value := 0, taskID := env.UUID k, isNum := false },
              getOperationResult token.Value a b) :: stack2) (k + 1) with
        | none => simp [hp] at h
        | some q =>
          obtain ⟨ns2, st2⟩ := q
          simp only [hp, Option.some.injEq, Prod.mk.injEq] at h
          obtain ⟨h1, h2⟩ := h
          subst h1 h2
          have := ih _ (k + 1) ns2 st2 hp
          simp only [List.map_cons, List.length_cons, List.range_succ_eq_map, this,
            List.map_map]
          rw [Nat.add_zero]
          congr 1
          apply List.map_congr_left
          intro i _
          simp only [Function.comp, Nat.succ_eq_add_one]
          congr 1
          omega
    | LeftParen =>
      simp only [planLoop, hty] at h
      exact ih stack k ns st h
    | RightParen =>
      simp only [planLoop, hty] at h
      exact ih stack k ns st h

theorem planLoop_ids_nodup (env : Env) (hinj : Function.Injective env.UUID)
    (rpn : List Token) (stack : List (stackItem × ℚ)) (k : Nat) (ns : List PlanNode)
    (st : List (stackItem × ℚ)) (h : planLoop env rpn stack k = some (ns, st)) :
    (ns.map PlanNode.id).Nodup ∧ ∀ n ∈ ns, ∃ j, k ≤ j ∧ n.id = env.UUID j := by
  rw [planLoop_ids env rpn stack k ns st h]
  constructor
  · refine List.Nodup.map ?_ (List.nodup_range _)
    intro i j hij
    have := hinj hij
    omega
  · intro n hn
    have hmem : n.id ∈ ns.map PlanNode.id := List.mem_map.mpr ⟨n, hn, rfl⟩
    rw [planLoop_ids env rpn stack k ns st h] at hmem
    obtain ⟨i, _, hi⟩ := List.mem_map.mp hmem
    exact ⟨k + i, by omega, hi.symm⟩

/-- The plan has one node per Operator token. -/
theorem planLoop_length (env : Env) (rpn : List Token) :
    ∀ (stack : List (stackItem × ℚ)) (k : Nat) (ns : List PlanNode)
      (st : List (stackItem × ℚ)),
      planLoop env rpn stack k = some (ns, st) →
      ns.length = countType TokenType.Operator rpn ∧
      ns.map PlanNode.token = rpn.filter (fun t => decide (t.Typ = TokenType.Operator)) := by
  induction rpn with
  | nil =>
    intro stack k ns st h
    simp only [planLoop, Option.some.injEq, Prod.mk.injEq] at h
    obtain ⟨h1, _⟩ := h
    subst h1
    exact ⟨rfl, rfl⟩
  | cons token rest ih =>
    intro stack k ns st h
    cases hty : token.Typ with
    | Number =>
      simp only [planLoop, hty] at h
      have := ih _ k ns st h
      rw [countType_cons, hty, List.filter_cons]
      simpa [hty] using this
    | Operator =>
      match stack, h with
      | [], h => simp [planLoop, hty] at h
      | [_], h => simp [planLoop, hty] at h
      | (r, b) :: (l, a) :: stack2, h =>
        simp only [planLoop, hty] at h
        cases hp : planLoop env rest
            (({ value := 0, taskID := env.UUID k, isNum := false },
              getOperationResult token.Value a b) :: stack2) (k + 1) with
        | none => simp [hp] at h
        | some q =>
          obtain ⟨ns2, st2⟩ := q
          simp only [hp, Option.some.injEq, Prod.mk.injEq] at h
          obtain ⟨h1, h2⟩ := h
          subst h1 h2
          have := ih _ (k + 1) ns2 st2 hp
          rw [countType_cons, hty, List.filter_cons]
          simp [hty, this.1, this.2]
    | LeftParen =>
      simp only [planLoop, hty] at h
      have := ih _ k ns st h
      rw [countType_cons, hty, List.filter_cons]
      simpa [hty] using this
    | RightParen =>
      simp only [planLoop, hty] at h
      have := ih _ k ns st h
      rw [countType_cons, hty, List.filter_cons]
      simpa [hty] using this

theorem refsOf_cons (p : stackItem × ℚ) (stack : List (stackItem × ℚ)) :
    refsOf (p :: stack) = (if p.1.isNum then [] else [p.1.taskID]) ++ refsOf stack := by
  simp [refsOf]

/-- Every task id is used as an operand as often as it is produced: the ids on the initial
stack and the ids of the nodes are those used as dependencies and those on the final
stack. -/
theorem planLoop_conservation (env : Env) (rpn : List Token) :
    ∀ (stack : List (stackItem × ℚ)) (k : Nat) (ns : List PlanNode)
      (st : List (stackItem × ℚ)),
      planLoop env rpn stack k = some (ns, st) →
      ∀ x, (refsOf stack).count x + (ns.map PlanNode.id).count x =
        (ns.flatMap PlanNode.deps).count x + (refsOf st).count x := by
  induction rpn with
  | nil =>
    intro stack k ns st h x
    simp only [planLoop, Option.some.injEq, Prod.mk.injEq] at h
    obtain ⟨h1, h2⟩ := h
    subst h1 h2
    simp
  | cons token rest ih =>
    intro stack k ns st h x
    cases hty : token.Typ with
    | Number =>
      simp only [planLoop, hty] at h
      have := ih _ k ns st h x
      rw [refsOf_cons] at this
      simpa using this
    | Operator =>
      match stack, h with
      | [], h => simp [planLoop, hty] at h
      | [_], h => simp [planLoop, hty] at h
      | (r, b) :: (l, a) :: stack2, h =>
        simp only [planLoop, hty] at h
        cases hp : planLoop env rest
            (({ value := 0, taskID := env.UUID k, isNum := false },
              getOperationResult token.Value a b) :: stack2) (k + 1) with
        | none => simp [hp] at h
        | some q =>
          obtain ⟨ns2, st2⟩ := q
          simp only [hp, Option.some.injEq, Prod.mk.injEq] at h
          obtain ⟨h1, h2⟩ := h
          subst h1 h2
          have := ih _ (k + 1) ns2 st2 hp x
          rw [refsOf_cons] at this
          simp only [Bool.false_eq_true, if_false, List.singleton_append,
            List.count_cons] at this
          rw [refsOf_cons, refsOf_cons]
          simp only [List.map_cons, List.flatMap_cons, List.count_append, List.count_cons,
            PlanNode.deps, pendingIDs]
          omega
    | LeftParen =>
      simp only [planLoop, hty] at h
      exact ih stack k ns st h x
    | RightParen =>
      simp only [planLoop, hty] at h
      exact ih stack k ns st h x

theorem planLoop_nil_stack (env : Env) (rpn : List Token) :
    ∀ (stack : List (stackItem × ℚ)) (k : Nat) (st : List (stackItem × ℚ)),
      planLoop env rpn stack k = some ([], st) → ∀ p ∈ stack, p ∈ st := by
  induction rpn with
  | nil =>
    intro stack k st h p hp
    simp only [planLoop, Option.some.injEq, Prod.mk.injEq, true_and] at h
    subst h
    exact hp
  | cons token rest ih =>
    intro stack k st h p hp
    cases hty : token.Typ with
    | Number =>
      simp only [planLoop, hty] at h
      exact ih _ k st h p (List.mem_cons_of_mem _ hp)
    | Operator =>
      match stack, h with
      | [], h => simp [planLoop, hty] at h
      | [_], h => simp [planLoop, hty] at h
      | (r, b) :: (l, a) :: stack2, h =>
        simp only [planLoop, hty] at h
        cases hq : planLoop env rest
            (({ value := 0, taskID := env.UUID k, isNum := false },
              getOperationResult token.Value a b) :: stack2) (k + 1) with
        | none => simp [hq] at h
        | some q =>
          obtain ⟨ns2, st2⟩ := q
          simp [hq] at h
    | LeftParen =>
      simp only [planLoop, hty] at h
      exact ih stack k st h p hp
    | RightParen =>
      simp only [planLoop, hty] at h
      exact ih stack k st h p hp

/-- The item of the last node of the plan is on the final stack. -/
theorem planLoop_last (env : Env) (rpn : List Token) :
    ∀ (stack : List (stackItem × ℚ)) (k : Nat) (ns : List PlanNode)
      (st : List (stackItem × ℚ)),
      planLoop env rpn stack k = some (ns, st) →
      ∀ n, ns.getLast? = some n → (n.item, n.value) ∈ st := by
  induction rpn with
  | nil =>
    intro stack k ns st h n hn
    simp only [planLoop, Option.some.injEq, Prod.mk.injEq] at h
    obtain ⟨h1, _⟩ := h
    subst h1
    simp at hn
  | cons token rest ih =>
    intro stack k ns st h n hn
    cases hty : token.Typ with
    | Number =>
      simp only [planLoop, hty] at h
      exact ih _ k ns st h n hn
    | Operator =>
      match stack, h with
      | [], h => simp [planLoop, hty] at h
      | [_], h => simp [planLoop, hty] at h
      | (r, b) :: (l, a) :: stack2, h =>
        simp only [planLoop, hty] at h
        cases hq : planLoop env rest
            (({ value := 0, taskID := env.UUID k, isNum := false },
              getOperationResult token.Value a b) :: stack2) (k + 1) with
        | none => simp [hq] at h
        | some q =>
          obtain ⟨ns2, st2⟩ := q
          simp only [hq, Option.some.injEq, Prod.mk.injEq] at h
          obtain ⟨h1, h2⟩ := h
          subst h1 h2
          cases ns2 with
          | nil =>
            simp only [List.getLast?_singleton, Option.some.injEq] at hn
            subst hn
            exact planLoop_nil_stack env rest _ (k + 1) st2 hq _ (List.mem_cons_self _ _)
          | cons m ns3 =>
            rw [List.getLast?_cons_cons] at hn
            exact ih _ (k + 1) _ st2 hq n hn
    | LeftParen =>
      simp only [planLoop, hty] at h
      exact ih stack k ns st h n hn
    | RightParen =>
      simp only [planLoop, hty] at h
      exact ih stack k ns st h n hn

/-- A property of the numbers of the initial stack and of the Number tokens holds of every
number operand of the plan and of every number of the final stack. -/
theorem planLoop_numbers (env : Env) (P : ℚ → Prop) (rpn : List Token) :
    ∀ (stack : List (stackItem × ℚ)) (k : Nat) (ns : List PlanNode)
      (st : List (stackItem × ℚ)),
      planLoop env rpn stack k = some (ns, st) →
      (∀ p ∈ stack, p.1.isNum = true → P p.1.value) →
      (∀ t ∈ rpn, t.Typ = TokenType.Number → P ((ParseFloat t.Value).getD 0)) →
      (∀ n ∈ ns, (n.left.isNum = true → P n.left.value) ∧
        (n.right.isNum = true → P n.right.value)) ∧
      ∀ p ∈ st, p.1.isNum = true → P p.1.value := by
  induction rpn with
  | nil =>
    intro stack k ns st h hst _
    simp only [planLoop, Option.some.injEq, Prod.mk.injEq] at h
    obtain ⟨h1, h2⟩ := h
    subst h1 h2
    exact ⟨by simp, hst⟩
  | cons token rest ih =>
    intro stack k ns st h hst htok
    have hrest : ∀ t ∈ rest, t.Typ = TokenType.Number → P ((ParseFloat t.Value).getD 0) :=
      fun t ht => htok t (List.mem_cons_of_mem _ ht)
    cases hty : token.Typ with
    | Number =>
      simp only [planLoop, hty] at h
      refine ih _ k ns st h ?_ hrest
      intro p hp hnum
      rcases List.mem_cons.mp hp with hp | hp
      · subst hp
        exact htok token (List.mem_cons_self _ _) hty
      · exact hst p hp hnum
    | Operator =>
      match stack, h, hst with
      | [], h, _ => simp [planLoop, hty] at h
      | [_], h, _ => simp [planLoop, hty] at h
      | (r, b) :: (l, a) :: stack2, h, hst =>
        simp only [planLoop, hty] at h
        cases hq : planLoop env rest
            (({ value := 0, taskID := env.UUID k, isNum := false },
              getOperationResult token.Value a b) :: stack2) (k + 1) with
        | none => simp [hq] at h
        | some q =>
          obtain ⟨ns2, st2⟩ := q
          simp only [hq, Option.some.injEq, Prod.mk.injEq] at h
          obtain ⟨h1, h2⟩ := h
          subst h1 h2
          have hnew := ih _ (k + 1) ns2 st2 hq (by
            intro p hp hnum
            rcases List.mem_cons.mp hp with hp | hp
            · subst hp
              simp at hnum
            · exact hst p (List.mem_cons_of_mem _ (List.mem_cons_of_mem _ hp)) hnum) hrest
          refine ⟨?_, hnew.2⟩
          intro n hn
          rcases List.mem_cons.mp hn with hn | hn
          · subst hn
            exact ⟨hst (l, a) (by simp), hst (r, b) (by simp)⟩
          · exact hnew.1 n hn
    | LeftParen =>
      simp only [planLoop, hty] at h
      exact ih stack k ns st h hst hrest
    | RightParen =>
      simp only [planLoop, hty] at h
      exact ih stack k ns st h hst hrest
/-! ## The manager after the plan is installed -/

theorem installTask_fields (env : Env) (e : String) (token : Token) (t : String)
    (l r : stackItem) (tm : TaskManager) :
    (installTask env e token t l r tm).tasks =
      tm.tasks.set t
        { ID := t
          Arg1 := if l.isNum then l.value else 0
          Arg2 := if r.isNum then r.value else 0
          Operation := token.Value
          OperationTime := operationTime env token.Value
          Priority := if token.Value = "*" ∨ token.Value = "/" then 2 else 1 } ∧
    (installTask env e token t l r tm).taskToExpression = tm.taskToExpression.set t e ∧
    (installTask env e token t l r tm).expressions = tm.expressions ∧
    (installTask env e token t l r tm).taskResults = tm.taskResults ∧
    (installTask env e token t l r tm).expressionTasks = tm.expressionTasks ∧
    (installTask env e token t l r tm).userIDs = tm.userIDs ∧
    (installTask env e token t l r tm).calc_ = tm.calc_ :=
  ⟨rfl, rfl, rfl, rfl, rfl, rfl, rfl⟩

theorem installTask_dependsOnTask_get? (env : Env) (e : String) (token : Token) (t : String)
    (l r : stackItem) (tm : TaskManager) (hnone : tm.dependsOnTask.get? t = none)
    (id : String) :
    (installTask env e token t l r tm).dependsOnTask.get? id =
      if id = t then (if pendingIDs l r = [] then none else some (pendingIDs l r))
      else tm.dependsOnTask.get? id := by
  cases hl : l.isNum <;> cases hr : r.isNum
  · have hd : (installTask env e token t l r tm).dependsOnTask =
        (tm.dependsOnTask.set t [l.taskID]).set t [l.taskID, r.taskID] := by
      simp [installTask, appendDependency, hl, hr, hnone, GoMap.get?_set_self]
    rw [hd, GoMap.get?_set]
    by_cases hc : id = t
    · simp [hc, pendingIDs, hl, hr]
    · simp only [hc, if_false]
      rw [GoMap.get?_set_of_ne _ _ _ _ hc]
  · have hd : (installTask env e token t l r tm).dependsOnTask =
        tm.dependsOnTask.set t [l.taskID] := by
      simp [installTask, appendDependency, hl, hr, hnone]
    rw [hd, GoMap.get?_set]
    by_cases hc : id = t
    · simp [hc, pendingIDs, hl, hr]
    · simp only [hc, if_false]
  · have hd : (installTask env e token t l r tm).dependsOnTask =
        tm.dependsOnTask.set t [r.taskID] := by
      simp [installTask, appendDependency, hl, hr, hnone]
    rw [hd, GoMap.get?_set]
    by_cases hc : id = t
    · simp [hc, pendingIDs, hl, hr]
    · simp only [hc, if_false]
  · have hd : (installTask env e token t l r tm).dependsOnTask = tm.dependsOnTask := by
      simp [installTask, hl, hr]
    rw [hd]
    by_cases hc : id = t
    · simp [hc, pendingIDs, hl, hr, hnone]
    · simp only [hc, if_false]

/-- What the manager holds once a plan with pairwise distinct ids, none of which has a
dependency entry yet, is installed: under the id of each node its task, its expression and
its dependency entry; under every other id what was there; the other maps as they were. -/
theorem installPlan_spec (env : Env) (e : String) (ns : List PlanNode) :
    ∀ tm : TaskManager, (ns.map PlanNode.id).Nodup →
      (∀ n ∈ ns, tm.dependsOnTask.get? n.id = none) →
      (∀ n ∈ ns,
        (installPlan env e ns tm).tasks.get? n.id = some (n.task env) ∧
        (installPlan env e ns tm).taskToExpression.get? n.id = some e ∧
        (installPlan env e ns tm).dependsOnTask.get? n.id = n.entry) ∧
      (∀ x, x ∉ ns.map PlanNode.id →
        (installPlan env e ns tm).tasks.get? x = tm.tasks.get? x ∧
        (installPlan env e ns tm).taskToExpression.get? x = tm.taskToExpression.get? x ∧
        (installPlan env e ns tm).dependsOnTask.get? x = tm.dependsOnTask.get? x) ∧
      (installPlan env e ns tm).expressions = tm.expressions ∧
      (installPlan env e ns tm).taskResults = tm.taskResults ∧
      (installPlan env e ns tm).expressionTasks = tm.expressionTasks ∧
      (installPlan env e ns tm).userIDs = tm.userIDs ∧
      (installPlan env e ns tm).calc_ = tm.calc_ := by
  induction ns with
  | nil =>
    intro tm _ _
    simp [installPlan_nil]
  | cons n ns ih =>
    intro tm hnd hnone
    rw [List.map_cons, List.nodup_cons] at hnd
    obtain ⟨hn_notin, hnd2⟩ := hnd
    have hn_none := hnone n (List.mem_cons_self _ _)
    obtain ⟨f1, f2, f3, f4, f5, f6, f7⟩ := installTask_fields env e n.token n.id n.left n.right tm
    have hdep := installTask_dependsOnTask_get? env e n.token n.id n.left n.right tm hn_none
    have hne : ∀ m ∈ ns, m.id ≠ n.id := by
      intro m hm heq
      exact hn_notin (List.mem_map.mpr ⟨m, hm, heq⟩)
    obtain ⟨g1, g2, g3, g4, g5, g6, g7⟩ :=
      ih (installTask env e n.token n.id n.left n.right tm) hnd2 (by
        intro m hm
        rw [hdep, if_neg (hne m hm)]
        exact hnone m (List.mem_cons_of_mem _ hm))
    rw [installPlan_cons]
    refine ⟨?_, ?_, by rw [g3, f3], by rw [g4, f4], by rw [g5, f5], by rw [g6, f6],
      by rw [g7, f7]⟩
    · intro m hm
      rcases List.mem_cons.mp hm with hm | hm
      · subst hm
        obtain ⟨k1, k2, k3⟩ := g2 m.id hn_notin
        refine ⟨?_, ?_, ?_⟩
        · rw [k1, f1, GoMap.get?_set_self]
          rfl
        · rw [k2, f2, GoMap.get?_set_self]
        · rw [k3, hdep, if_pos rfl]
          rfl
      · exact g1 m hm
    · intro x hx
      rw [List.map_cons, List.mem_cons, not_or] at hx
      obtain ⟨k1, k2, k3⟩ := g2 x hx.2
      rw [k1, k2, k3, f1, f2, hdep, if_neg hx.1, GoMap.get?_set_of_ne _ _ _ _ hx.1,
        GoMap.get?_set_of_ne _ _ _ _ hx.1]
      exact ⟨rfl, rfl, rfl⟩
/-! ## `CreateExpression` in terms of the plan -/

theorem countType_eq_length (ty : TokenType) (ts : List Token)
    (h : ∀ t ∈ ts, t.Typ = ty) : countType ty ts = ts.length := by
  unfold countType
  rw [List.countP_eq_length]
  intro t ht
  simpa using h t ht

theorem countType_eq_zero (ty : TokenType) (ts : List Token)
    (h : countType ty ts = 0) : ∀ t ∈ ts, t.Typ ≠ ty := by
  unfold countType at h
  rw [List.countP_eq_zero] at h
  intro t ht
  simpa using h t ht

/-- What `CreateExpression` does on a text that `Calculate` accepts with value `v`: with
`rpn` the postfix form, either `rpn` is a single Number token, or the plan of `rpn` exists,
has at least one node, ends with one operand standing for `v`, plans no division by zero,
and the manager afterwards is the manager with the header and the owner id recorded, the
plan installed and the ids of the plan as the task list of the expression. -/
theorem CreateExpression_plan (tm : TaskManager) (text : String) (userID : Int) (env : Env)
    (v : ℚ) (hv : (Calculate NewCalculator text).2 = Except.ok v) :
    ∃ rpn, ToRPN (Tokenize NewCalculator text).1 = Except.ok rpn ∧
      evalLoop rpn [] = Except.ok [v] ∧
      (∀ t ∈ rpn, t.Typ = TokenType.Number ∨ t.Typ = TokenType.Operator) ∧
      ((∃ tok, rpn = [tok] ∧ tok.Typ = TokenType.Number) ∨
        ((∃ t ∈ rpn, t.Typ = TokenType.Operator) ∧
          ∃ ns st, planLoop env rpn [] 1 = some (ns, st) ∧ st.map Prod.snd = [v] ∧
            (∀ n ∈ ns, n.token.Value = "/" → n.b ≠ 0) ∧ ns ≠ [] ∧
            CreateExpression tm text userID env =
              ({ installPlan env (env.UUID 0) ns
                    { tm with
                      calc_ := (Tokenize tm.calc_ text).1
                      expressions := tm.expressions.set (env.UUID 0)
                        { ID := env.UUID 0, Original := text, Status := "PROCESSING",
                          Result := 0, CreatedAt := env.Now }
                      userIDs := tm.userIDs.set (env.UUID 0) userID } with
                  expressionTasks :=
                    (installPlan env (env.UUID 0) ns
                      { tm with
                        calc_ := (Tokenize tm.calc_ text).1
                        expressions := tm.expressions.set (env.UUID 0)
                          { ID := env.UUID 0, Original := text, Status := "PROCESSING",
                            Result := 0, CreatedAt := env.Now }
                        userIDs := tm.userIDs.set (env.UUID 0) userID }).expressionTasks.set
                      (env.UUID 0) (ns.map PlanNode.id) },
                Except.ok (env.UUID 0)))) := by
  obtain ⟨he, htk, rpn, hrpn, hev⟩ := Calculate_ok NewCalculator text v hv
  have hev2 := EvaluateRPN_ok rpn v hev
  obtain ⟨hcn, hco, htypes⟩ := ToRPN_countType _ rpn hrpn
  refine ⟨rpn, hrpn, hev2, htypes, ?_⟩
  have hdepth := evalLoop_depth rpn [] [v] hev2
  simp only [List.length_singleton, List.length_nil, Nat.zero_add] at hdepth
  by_cases hop : ∃ t ∈ rpn, t.Typ = TokenType.Operator
  · right
    refine ⟨hop, ?_⟩
    obtain ⟨ns, st, hplan, hst, hdiv⟩ := evalLoop_plan env rpn [] 1 [v] hev2
    have hlen := (planLoop_length env rpn [] 1 ns st hplan).1
    have hne : ns ≠ [] := by
      intro hnil
      rw [hnil] at hlen
      obtain ⟨t, ht, hty⟩ := hop
      exact countType_eq_zero _ _ hlen.symm t ht hty
    refine ⟨ns, st, hplan, hst, hdiv, hne, ?_⟩
    have hnotlit : ¬ (rpn.length = 1 ∧ (rpn.head?.map Token.Typ) = some TokenType.Number) := by
      rintro ⟨h1, h2⟩
      obtain ⟨t, ht, hty⟩ := hop
      match rpn, h1, h2, ht with
      | [tok], _, h2, ht =>
        simp only [List.head?_cons, Option.map_some', Option.some.injEq] at h2
        simp only [List.mem_singleton] at ht
        subst ht
        rw [hty] at h2
        exact absurd h2 (by simp)
    rw [Tokenize_indep NewCalculator tm.calc_ text he] at htk hrpn
    have hb := buildTasks_plan env (env.UUID 0) rpn
      { tm with
        calc_ := (Tokenize tm.calc_ text).1
        expressions := tm.expressions.set (env.UUID 0)
          { ID := env.UUID 0, Original := text, Status := "PROCESSING",
            Result := 0, CreatedAt := env.Now }
        userIDs := tm.userIDs.set (env.UUID 0) userID } [] [] 1 ns st hplan
    simp only [List.map_nil, List.nil_append] at hb
    cases hc : Calculate NewCalculator text with
    | mk testCalc res =>
      rw [hc] at hv
      simp only at hv
      subst hv
      cases ht : Tokenize tm.calc_ text with
      | mk calc1 err =>
        rw [ht] at htk hrpn hb
        simp only at htk hrpn hb
        subst htk
        simp only [CreateExpression, he, if_false, hc, ht, hrpn, hnotlit, hb]
  · left
    have hall : ∀ t ∈ rpn, t.Typ = TokenType.Number := by
      intro t ht
      rcases htypes t ht with h | h
      · exact h
      · exact absurd ⟨t, ht, h⟩ hop
    have hzero : countType TokenType.Operator rpn = 0 := by
      unfold countType
      rw [List.countP_eq_zero]
      intro t ht
      simp [hall t ht]
    rw [countType_eq_length _ _ hall, hzero] at hdepth
    match rpn, hdepth, hall with
    | [tok], _, hall => exact ⟨tok, rfl, hall tok (List.mem_singleton_self _)⟩
/-! ## The dependency structure of a created expression -/

theorem installPlan_entries (env : Env) (e : String) (ns : List PlanNode) :
    ∀ tm : TaskManager, (ns.map PlanNode.id).Nodup →
      (∀ n ∈ ns, tm.dependsOnTask.get? n.id = none) →
      ∀ p ∈ (installPlan env e ns tm).dependsOnTask.entries,
        p ∈ tm.dependsOnTask.entries ∨ ∃ n ∈ ns, p = (n.id, n.deps) := by
  induction ns with
  | nil =>
    intro tm _ _ p hp
    exact Or.inl hp
  | cons n ns ih =>
    intro tm hnd hnone p hp
    rw [List.map_cons, List.nodup_cons] at hnd
    obtain ⟨hn_notin, hnd2⟩ := hnd
    have hn_none := hnone n (List.mem_cons_self _ _)
    have hdep := installTask_dependsOnTask_get? env e n.token n.id n.left n.right tm hn_none
    have hne : ∀ m ∈ ns, m.id ≠ n.id := by
      intro m hm heq
      exact hn_notin (List.mem_map.mpr ⟨m, hm, heq⟩)
    rw [installPlan_cons] at hp
    rcases ih (installTask env e n.token n.id n.left n.right tm) hnd2 (by
        intro m hm
        rw [hdep, if_neg (hne m hm)]
        exact hnone m (List.mem_cons_of_mem _ hm)) p hp with h1 | ⟨m, hm, h1⟩
    · rcases (installTask_dependsOnTask env e n.token n.id n.left n.right tm hn_none).1 p h1
        with h2 | h2
      · exact Or.inl h2
      · exact Or.inr ⟨n, List.mem_cons_self _ _, h2⟩
    · exact Or.inr ⟨m, List.mem_cons_of_mem _ hm, h1⟩

theorem PlanNode_entry_getD (n : PlanNode) : n.entry.getD [] = n.deps := by
  unfold PlanNode.entry
  split_ifs with h
  · simp [h]
  · rfl

/-- In a reachable state, what `CreateExpression` with fresh ids installs for a text
accepted by `Calculate` whose postfix form holds an operator: the task list of the
expression is the list of the ids of the plan, and each node of the plan is stored with its
task, its expression and its dependency entry; nothing else changes under another id. -/
theorem CreateExpression_installed {tm : TaskManager} {seen : Set String}
    {handed : List String} (hinv : Inv tm seen handed) (text : String) (userID : Int)
    (env : Env) (hinj : Function.Injective env.UUID) (hfresh : ∀ k, env.UUID k ∉ seen)
    (v : ℚ) (hv : (Calculate NewCalculator text).2 = Except.ok v) (rpn : List Token)
    (hrpn : ToRPN (Tokenize NewCalculator text).1 = Except.ok rpn)
    (hop : ∃ t ∈ rpn, t.Typ = TokenType.Operator) :
    ∃ ns st tm2, planLoop env rpn [] 1 = some (ns, st) ∧ st.map Prod.snd = [v] ∧ ns ≠ [] ∧
      (∀ n ∈ ns, n.token.Value = "/" → n.b ≠ 0) ∧
      (ns.map PlanNode.id).Nodup ∧ (∀ n ∈ ns, ∃ j, 1 ≤ j ∧ n.id = env.UUID j) ∧
      CreateExpression tm text userID env = (tm2, Except.ok (env.UUID 0)) ∧
      tm2.expressionTasks = tm.expressionTasks.set (env.UUID 0) (ns.map PlanNode.id) ∧
      tm2.expressions = tm.expressions.set (env.UUID 0)
        { ID := env.UUID 0, Original := text, Status := "PROCESSING", Result := 0,
          CreatedAt := env.Now } ∧
      tm2.taskResults = tm.taskResults ∧
      tm2.userIDs = tm.userIDs.set (env.UUID 0) userID ∧
      (∀ n ∈ ns, tm2.tasks.get? n.id = some (n.task env) ∧
        tm2.taskToExpression.get? n.id = some (env.UUID 0) ∧
        tm2.dependsOnTask.get? n.id = n.entry) ∧
      (∀ x, x ∉ ns.map PlanNode.id →
        tm2.tasks.get? x = tm.tasks.get? x ∧
        tm2.taskToExpression.get? x = tm.taskToExpression.get? x ∧
        tm2.dependsOnTask.get? x = tm.dependsOnTask.get? x) ∧
      (∀ p ∈ tm2.dependsOnTask.entries,
        p ∈ tm.dependsOnTask.entries ∨ ∃ n ∈ ns, p = (n.id, n.deps)) := by
  obtain ⟨rpn2, hrpn2, _, _, hcase⟩ := CreateExpression_plan tm text userID env v hv
  rw [hrpn] at hrpn2
  have hr : rpn = rpn2 := by simpa using hrpn2
  subst hr
  rcases hcase with ⟨tok, htok, hnum⟩ | ⟨_, ns, st, hplan, hst, hdiv, hne, heq⟩
  · obtain ⟨t, ht, hty⟩ := hop
    rw [htok, List.mem_singleton] at ht
    subst ht
    rw [hnum] at hty
    exact absurd hty (by simp)
  · obtain ⟨hnd, hids⟩ := planLoop_ids_nodup env hinj rpn [] 1 ns st hplan
    have hnone : ∀ n ∈ ns,
        ({ tm with
            calc_ := (Tokenize tm.calc_ text).1
            expressions := tm.expressions.set (env.UUID 0)
              { ID := env.UUID 0, Original := text, Status := "PROCESSING",
                Result := 0, CreatedAt := env.Now }
            userIDs := tm.userIDs.set (env.UUID 0) userID } : TaskManager).dependsOnTask.get?
          n.id = none := by
      intro n hn
      obtain ⟨j, _, hj⟩ := hids n hn
      rw [hj]
      exact dependsOnTask_get?_fresh hinv _ (hfresh j)
    obtain ⟨s1, s2, s3, s4, s5, s6, _⟩ := installPlan_spec env (env.UUID 0) ns _ hnd hnone
    have s7 := installPlan_entries env (env.UUID 0) ns _ hnd hnone
    exact ⟨ns, st, _, hplan, hst, hne, hdiv, hnd, hids, heq, by rw [s5], s3, s4, s6, s1, s2, s7⟩

theorem count_flatMap_one {α : Type} (f : α → List String) (x : String) (l : List α)
    (h : (l.flatMap f).count x = 1) :
    ∃ pre u post, l = pre ++ u :: post ∧ (f u).count x = 1 ∧
      (∀ w ∈ pre, x ∉ f w) ∧ (∀ w ∈ post, x ∉ f w) := by
  induction l with
  | nil => simp at h
  | cons a l ih =>
    rw [List.flatMap_cons, List.count_append] at h
    by_cases ha : (f a).count x = 0
    · rw [ha, Nat.zero_add] at h
      obtain ⟨pre, u, post, h1, h2, h3, h4⟩ := ih h
      refine ⟨a :: pre, u, post, by rw [h1]; rfl, h2, ?_, h4⟩
      intro w hw
      rcases List.mem_cons.mp hw with hw | hw
      · subst hw
        exact List.count_eq_zero.mp ha
      · exact h3 w hw
    · have h1 : (f a).count x = 1 := by omega
      have h2 : (l.flatMap f).count x = 0 := by omega
      refine ⟨[], a, l, rfl, h1, by simp, ?_⟩
      intro w hw hx
      have : x ∈ l.flatMap f := List.mem_flatMap.mpr ⟨w, hw, hx⟩
      exact List.count_eq_zero.mp h2 this

theorem indexOf_split (ids pre post : List String) (t : String) (hnd : ids.Nodup)
    (h : ids = pre ++ t :: post) :
    ids.indexOf t = pre.length ∧ ∀ d ∈ pre, ids.indexOf d < pre.length := by
  subst h
  have hnotin : t ∉ pre := by
    intro ht
    rw [List.nodup_append] at hnd
    exact hnd.2.2 ht (List.mem_cons_self _ _) 
  constructor
  · rw [List.indexOf_append_of_not_mem hnotin, List.indexOf_cons_self]
    rfl
  · intro d hd
    rw [List.indexOf_append_of_mem hd]
    exact List.indexOf_lt_length.mpr hd

/-- The dependency ids of a node of the plan are ids of earlier nodes. -/
theorem PlanOK_deps_before (ns : List PlanNode) (hok : PlanOK [] ns)
    (pre : List PlanNode) (n : PlanNode) (post : List PlanNode) (h : ns = pre ++ n :: post) :
    ∀ d ∈ n.deps, d ∈ pre.map PlanNode.id := by
  subst h
  obtain ⟨h1, h2⟩ := PlanOK_split pre [] n post hok
  intro d hd
  simp only [PlanNode.deps, pendingIDs, List.mem_append] at hd
  simp only [List.nil_append] at h1 h2
  rcases hd with hd | hd
  · rcases h1 with ⟨g1, _⟩ | ⟨_, g2⟩
    · simp only at g1
      simp [g1] at hd
    · simp only [List.mem_map] at g2 ⊢
      obtain ⟨m, hm, hpair⟩ := g2
      split_ifs at hd with hc
      · simp at hd
      · simp only [List.mem_singleton] at hd
        refine ⟨m, hm, ?_⟩
        rw [hd]
        exact congrArg Prod.fst hpair
  · rcases h2 with ⟨g1, _⟩ | ⟨_, g2⟩
    · simp only at g1
      simp [g1] at hd
    · simp only [List.mem_map] at g2 ⊢
      obtain ⟨m, hm, hpair⟩ := g2
      split_ifs at hd with hc
      · simp at hd
      · simp only [List.mem_singleton] at hd
        refine ⟨m, hm, ?_⟩
        rw [hd]
        exact congrArg Prod.fst hpair
/-! ## The Number tokens of an accepted postfix form -/

/-- When the loop of `EvaluateRPN` succeeds, every Number token has been read. -/
theorem evalLoop_numbers_parse (rpn : List Token) :
    ∀ (stack stack2 : List ℚ), evalLoop rpn stack = Except.ok stack2 →
      ∀ t ∈ rpn, t.Typ = TokenType.Number → ∃ q, ParseFloat t.Value = some q := by
  induction rpn with
  | nil =>
    intro stack stack2 _ t ht
    simp at ht
  | cons token rest ih =>
    intro stack stack2 h t ht hnum
    cases hty : token.Typ with
    | Number =>
      simp only [evalLoop, hty] at h
      cases hp : ParseFloat token.Value with
      | none => simp [hp] at h
      | some num =>
        simp only [hp] at h
        rcases List.mem_cons.mp ht with ht | ht
        · subst ht
          exact ⟨num, hp⟩
        · exact ih _ _ h t ht hnum
    | Operator =>
      have htne : t ≠ token := by
        intro heq
        rw [heq, hty] at hnum
        exact absurd hnum (by simp)
      have ht2 : t ∈ rest := by
        rcases List.mem_cons.mp ht with ht | ht
        · exact absurd ht htne
        · exact ht
      match stack, h with
      | [], h => simp [evalLoop, hty] at h
      | [_], h => simp [evalLoop, hty] at h
      | b :: a :: st, h =>
        rw [evalLoop_operator_step _ _ _ _ _ hty] at h
        split_ifs at h with hz
        exact ih _ _ h t ht2 hnum
    | LeftParen =>
      simp only [evalLoop, hty] at h
      rcases List.mem_cons.mp ht with ht | ht
      · subst ht
        rw [hty] at hnum
        exact absurd hnum (by simp)
      · exact ih _ _ h t ht hnum
    | RightParen =>
      simp only [evalLoop, hty] at h
      rcases List.mem_cons.mp ht with ht | ht
      · subst ht
        rw [hty] at hnum
        exact absurd hnum (by simp)
      · exact ih _ _ h t ht hnum
/-! ## The operations of a postfix form -/

theorem CreateExpression_ok_value (tm : TaskManager) (text : String) (userID : Int)
    (env : Env) (e : String) (hok : (CreateExpression tm text userID env).2 = Except.ok e) :
    e = env.UUID 0 ∧ ∃ v, (Calculate NewCalculator text).2 = Except.ok v := by
  cases hc : (Calculate NewCalculator text).2 with
  | error msg =>
    rw [CreateExpression_of_Calculate_error tm text userID env msg hc] at hok
    simp at hok
  | ok v =>
    have := (CreateExpression_ok_of_Calculate tm text userID env v hc).2.2
    rw [this] at hok
    exact ⟨by simpa using hok.symm, v, rfl⟩

/-- C22.  In a reachable state, let `CreateExpression` with fresh ids return the id `e`.
With `ids` the task list of `e` afterwards and `last` its last id: the ids are pairwise
distinct; every dependency id of a task of the list is a task of the list that comes
earlier; every task of the list other than `last` is listed exactly once in the dependency
entry of exactly one task, which comes later in the list, and in no other entry of the
manager; and no dependency entry of the manager lists `last`.  Dependencies point to
earlier tasks, so the graph has no cycle, and it is a tree rooted at `last`. -/
theorem CreateExpression_dependency_tree {tm : TaskManager} {seen : Set String}
    {handed : List String} (h : Reachable tm seen handed) (text : String) (userID : Int)
    (env : Env) (hfresh : (Call.create text userID env).Fresh seen) (e : String)
    (hok : (CreateExpression tm text userID env).2 = Except.ok e) :
    ∃ ids last,
      (CreateExpression tm text userID env).1.expressionTasks.get? e = some ids ∧
      ids.Nodup ∧ ids.getLast? = some last ∧
      (∀ t ∈ ids,
        ∀ d ∈ ((CreateExpression tm text userID env).1.dependsOnTask.get? t).getD [],
          d ∈ ids ∧ ids.indexOf d < ids.indexOf t) ∧
      (∀ t ∈ ids, t ≠ last →
        ∃ u ∈ ids, ids.indexOf t < ids.indexOf u ∧
          (((CreateExpression tm text userID env).1.dependsOnTask.get? u).getD []).count t
            = 1 ∧
          ∀ u2 ds, (u2, ds) ∈ (CreateExpression tm text userID env).1.dependsOnTask.entries →
            t ∈ ds → u2 = u) ∧
      (∀ u ds, (u, ds) ∈ (CreateExpression tm text userID env).1.dependsOnTask.entries →
        last ∉ ds) := by
  have hinv := Reachable_inv h
  have hinv2 : Inv (CreateExpression tm text userID env).1 (seen ∪ Set.range env.UUID)
      handed := Reachable_inv (Reachable.step (Call.create text userID env) h hfresh)
  obtain ⟨he, v, hv⟩ := CreateExpression_ok_value tm text userID env e hok
  subst he
  obtain ⟨_, _, rpn, hrpn, hev⟩ := Calculate_ok NewCalculator text v hv
  have hroot : ∀ ids last,
      (CreateExpression tm text userID env).1.expressionTasks.get? (env.UUID 0) = some ids →
      ids.getLast? = some last →
      ∀ u ds, (u, ds) ∈ (CreateExpression tm text userID env).1.dependsOnTask.entries →
        last ∉ ds := by
    intro ids last hids hlast u ds hmem hin
    exact hinv2.root _ ids hids u ds hmem last hin hlast
  by_cases hop : ∃ t ∈ rpn, t.Typ = TokenType.Operator
  · obtain ⟨ns, st, tm2, hplan, hst, hne, _, hnd, hidx, heq, hets, _, _, _, hin, _, hentries⟩ :=
      CreateExpression_installed hinv text userID env hfresh.1 hfresh.2 v hv rpn hrpn hop
    have hpok : PlanOK [] ns := (planLoop_ok env rpn [] 1 [] ns st hplan (by simp)).1
    obtain ⟨lastNode, hlastNode⟩ : ∃ n, ns.getLast? = some n := by
      cases hq : ns.getLast? with
      | none => exact absurd (List.getLast?_eq_none_iff.mp hq) hne
      | some n => exact ⟨n, rfl⟩
    have hlist : (CreateExpression tm text userID env).1.expressionTasks.get? (env.UUID 0) =
        some (ns.map PlanNode.id) := by
      rw [heq]
      simp only [hets, GoMap.get?_set_self]
    have hlast : (ns.map PlanNode.id).getLast? = some lastNode.id := by
      rw [List.getLast?_map, hlastNode]
      rfl
    have hdeps : ∀ n ∈ ns,
        ((CreateExpression tm text userID env).1.dependsOnTask.get? n.id).getD [] = n.deps := by
      intro n hn
      rw [heq]
      simp only [(hin n hn).2.2, PlanNode_entry_getD]
    have hbefore : ∀ n ∈ ns, ∀ d ∈ n.deps,
        d ∈ ns.map PlanNode.id ∧
          (ns.map PlanNode.id).indexOf d < (ns.map PlanNode.id).indexOf n.id := by
      intro n hn d hd
      obtain ⟨pre, post, hsplit⟩ := List.append_of_mem hn
      have hdpre := PlanOK_deps_before ns hpok pre n post hsplit d hd
      have hmap : ns.map PlanNode.id =
          pre.map PlanNode.id ++ n.id :: post.map PlanNode.id := by
        rw [hsplit]
        simp
      obtain ⟨i1, i2⟩ := indexOf_split _ _ _ _ hnd hmap
      refine ⟨?_, ?_⟩
      · rw [hmap]
        exact List.mem_append_left _ hdpre
      · rw [i1]
        exact i2 d hdpre
    refine ⟨ns.map PlanNode.id, lastNode.id, hlist, hnd, hlast, ?_, ?_, hroot _ _ hlist hlast⟩
    · intro t ht d hd
      obtain ⟨n, hn, hnt⟩ := List.mem_map.mp ht
      subst hnt
      rw [hdeps n hn] at hd
      exact hbefore n hn d hd
    · intro t ht htl
      have hcons := planLoop_conservation env rpn [] 1 ns st hplan t
      have hstlast : st = [(lastNode.item, lastNode.value)] := by
        have hmem := planLoop_last env rpn [] 1 ns st hplan lastNode hlastNode
        match st, hst, hmem with
        | [p], _, hmem =>
          simp only [List.mem_singleton] at hmem
          rw [hmem]
      have hc1 : (ns.map PlanNode.id).count t = 1 := List.count_eq_one_of_mem hnd ht
      have hc2 : (refsOf st).count t = 0 := by
        rw [hstlast]
        simp only [refsOf, List.flatMap_cons, List.flatMap_nil, PlanNode.item,
          Bool.false_eq_true, if_false, List.append_nil]
        rw [List.count_eq_zero]
        simpa using htl
      have hc3 : (ns.flatMap PlanNode.deps).count t = 1 := by
        have h0 : (refsOf ([] : List (stackItem × ℚ))).count t = 0 := by simp [refsOf]
        omega
      obtain ⟨A, u, B, hsplit, hu1, hA, hB⟩ := count_flatMap_one PlanNode.deps t ns hc3
      have hu : u ∈ ns := by
        rw [hsplit]
        simp
      have htu : t ∈ u.deps := by
        apply List.count_pos_iff.mp
        rw [hu1]
        exact Nat.one_pos
      refine ⟨u.id, List.mem_map.mpr ⟨u, hu, rfl⟩, (hbefore u hu t htu).2, ?_, ?_⟩
      · rw [hdeps u hu]
        exact hu1
      · intro u2 ds hmem hin2
        rw [heq] at hmem
        rcases hentries _ hmem with hold | ⟨m, hm, hp⟩
        · obtain ⟨n, hn, hnt⟩ := List.mem_map.mp ht
          obtain ⟨j, _, hj⟩ := hidx n hn
          have := (hinv.keys.dependsOnTask u2 ds hold).2 t hin2
          rw [← hnt, hj] at this
          exact absurd this (hfresh.2 j)
        · simp only [Prod.mk.injEq] at hp
          obtain ⟨hp1, hp2⟩ := hp
          subst hp1 hp2
          rw [hsplit] at hm
          rcases List.mem_append.mp hm with hm | hm
          · exact absurd hin2 (hA m hm)
          · rcases List.mem_cons.mp hm with hm | hm
            · rw [hm]
            · exact absurd hin2 (hB m hm)
  · have hall : ∀ t ∈ rpn, t.Typ = TokenType.Number := by
      intro t ht
      rcases (ToRPN_countType _ rpn hrpn).2.2 t ht with h1 | h1
      · exact h1
      · exact absurd ⟨t, ht, h1⟩ hop
    obtain ⟨_, hrpn2, _, _, hcase⟩ := CreateExpression_plan tm text userID env v hv
    rw [hrpn] at hrpn2
    have hr := (Except.ok.injEq _ _).mp hrpn2
    subst hr
    rcases hcase with ⟨tok, htok, hnum⟩ | ⟨hop2, _⟩
    · subst htok
      have hstate := CreateExpression_literal tm text userID env v tok hv hrpn hnum
      have hlist : (CreateExpression tm text userID env).1.expressionTasks.get? (env.UUID 0) =
          some [env.UUID 1] := by
        rw [hstate]
        simp only [GoMap.get?_set_self]
      have hdep : (CreateExpression tm text userID env).1.dependsOnTask.get? (env.UUID 1) =
          none := by
        rw [hstate]
        exact dependsOnTask_get?_fresh hinv _ (hfresh.2 1)
      refine ⟨[env.UUID 1], env.UUID 1, hlist, by simp, rfl, ?_, ?_, hroot _ _ hlist rfl⟩
      · intro t ht d hd
        rw [List.mem_singleton] at ht
        subst ht
        rw [hdep] at hd
        simp at hd
      · intro t ht htl
        rw [List.mem_singleton] at ht
        exact absurd ht htl
    · exact absurd hop2 hop

/-- C22 on `1+2*3-4/2` created on the empty manager: the tasks `2*3`, `1+_`, `4/2`, `_-_` in
this order, the second depending on the first and the last on the second and the third. -/
theorem CreateExpression_dependency_tree_witness :
    (CreateExpression NewTaskManager "1+2*3-4/2" 1 testEnv).1.expressionTasks.get? "u" =
      some ["uu", "uuu", "uuuu", "uuuuu"] ∧
    (CreateExpression NewTaskManager "1+2*3-4/2" 1 testEnv).1.dependsOnTask.entries =
      [("uuu", ["uu"]), ("uuuuu", ["uuu", "uuuu"])] ∧
    ∃ ids last,
      (CreateExpression NewTaskManager "1+2*3-4/2" 1 testEnv).1.expressionTasks.get? "u" =
        some ids ∧
      ids.Nodup ∧ ids.getLast? = some last ∧
      (∀ t ∈ ids,
        ∀ d ∈ ((CreateExpression NewTaskManager "1+2*3-4/2" 1 testEnv).1.dependsOnTask.get?
            t).getD [],
          d ∈ ids ∧ ids.indexOf d < ids.indexOf t) ∧
      (∀ t ∈ ids, t ≠ last →
        ∃ u ∈ ids, ids.indexOf t < ids.indexOf u ∧
          (((CreateExpression NewTaskManager "1+2*3-4/2" 1 testEnv).1.dependsOnTask.get?
            u).getD []).count t = 1 ∧
          ∀ u2 ds,
            (u2, ds) ∈
              (CreateExpression NewTaskManager "1+2*3-4/2" 1 testEnv).1.dependsOnTask.entries →
            t ∈ ds → u2 = u) ∧
      (∀ u ds,
        (u, ds) ∈
          (CreateExpression NewTaskManager "1+2*3-4/2" 1 testEnv).1.dependsOnTask.entries →
        last ∉ ds) :=
  ⟨by with_unfolding_all decide, by with_unfolding_all decide,
    CreateExpression_dependency_tree Reachable.init "1+2*3-4/2" 1 testEnv
      ⟨testEnv_UUID_injective, fun _ h => h⟩ "u" (by with_unfolding_all decide)⟩
/-- The dependency ids of a node of the plan are ids of nodes that come earlier in the list
of the ids. -/
theorem PlanOK_deps_index (ns : List PlanNode) (hok : PlanOK [] ns)
    (hnd : (ns.map PlanNode.id).Nodup) :
    ∀ n ∈ ns, ∀ d ∈ n.deps,
      d ∈ ns.map PlanNode.id ∧
        (ns.map PlanNode.id).indexOf d < (ns.map PlanNode.id).indexOf n.id := by
  intro n hn d hd
  obtain ⟨pre, post, hsplit⟩ := List.append_of_mem hn
  have hdpre := PlanOK_deps_before ns hok pre n post hsplit d hd
  have hmap : ns.map PlanNode.id =
      pre.map PlanNode.id ++ n.id :: post.map PlanNode.id := by
    rw [hsplit]
    simp
  obtain ⟨i1, i2⟩ := indexOf_split _ _ _ _ hnd hmap
  refine ⟨?_, ?_⟩
  · rw [hmap]
    exact List.mem_append_left _ hdpre
  · rw [i1]
    exact i2 d hdpre


/-! ## The operands of the tasks of `CreateExpression` -/

theorem tokenItems_operand (rpn : List Token) (s : String)
    (h : RpnItem.operand s ∈ tokenItems rpn) :
    ∃ t ∈ rpn, t.Typ = TokenType.Number ∧ t.Value = s := by
  induction rpn with
  | nil => simp [tokenItems] at h
  | cons t rest ih =>
    cases hty : t.Typ with
    | Number =>
      simp only [tokenItems, hty, List.mem_cons, RpnItem.operand.injEq] at h
      rcases h with h | h
      · exact ⟨t, List.mem_cons_self _ _, hty, h.symm⟩
      · obtain ⟨t2, ht2, h2⟩ := ih h
        exact ⟨t2, List.mem_cons_of_mem _ ht2, h2⟩
    | Operator =>
      simp only [tokenItems, hty, List.mem_cons, reduceCtorEq, false_or] at h
      obtain ⟨t2, ht2, h2⟩ := ih h
      exact ⟨t2, List.mem_cons_of_mem _ ht2, h2⟩
    | LeftParen =>
      simp only [tokenItems, hty] at h
      obtain ⟨t2, ht2, h2⟩ := ih h
      exact ⟨t2, List.mem_cons_of_mem _ ht2, h2⟩
    | RightParen =>
      simp only [tokenItems, hty] at h
      obtain ⟨t2, ht2, h2⟩ := ih h
      exact ⟨t2, List.mem_cons_of_mem _ ht2, h2⟩

/-- `SubmitTaskResult` for a task of an expression some task of which has no result yet:
the result is recorded and nothing else happens. -/
theorem SubmitTaskResult_unfinished (tm : TaskManager) (result : TaskResult) (e : String)
    (l : List String) (hte : tm.taskToExpression.get? result.ID = some e)
    (hl : tm.expressionTasks.get? e = some l)
    (hnot : l.all (fun t =>
      ((tm.taskResults.set result.ID result.Result).get? t).isSome) = false) :
    SubmitTaskResult tm result =
      ({ tm with taskResults := tm.taskResults.set result.ID result.Result }, [], none) := by
  simp [SubmitTaskResult, hte, hl, hnot]

/-- `SubmitTaskResult` for a task of an expression all tasks of which have a result once
the new one is recorded, when no dependency entry lists the last task: the expression is
finished with the result of the last task. -/
theorem SubmitTaskResult_finished (tm : TaskManager) (result : TaskResult) (e : String)
    (l : List String) (x : Expression) (last : String)
    (hte : tm.taskToExpression.get? result.ID = some e)
    (hl : tm.expressionTasks.get? e = some l)
    (hall : l.all (fun t =>
      ((tm.taskResults.set result.ID result.Result).get? t).isSome) = true)
    (hx : tm.expressions.get? e = some x) (hlast : l.getLast? = some last)
    (hroot : ∀ p ∈ tm.dependsOnTask.entries, last ∉ p.2) :
    SubmitTaskResult tm result =
      ((finishExpression { tm with taskResults := tm.taskResults.set result.ID result.Result }
          e x l last).1,
        (finishExpression { tm with taskResults := tm.taskResults.set result.ID result.Result }
          e x l last).2, none) := by
  have hfind : findRootTaskID
      { tm with taskResults := tm.taskResults.set result.ID result.Result } l = last :=
    findRootTaskID_last _ l last hlast hroot
  by_cases hne : last = ""
  · simp [SubmitTaskResult, hte, hl, hall, hx, hfind, hne, hlast]
  · simp [SubmitTaskResult, hte, hl, hall, hx, hfind, hne]

theorem GetNextTask_no_tasks (tm : TaskManager) (h : ∀ x, tm.tasks.get? x = none)
    (order : List String) : GetNextTask tm order = (tm, default, false) := by
  induction order with
  | nil => rfl
  | cons id rest ih => simp [GetNextTask, h id, ih]

theorem dispatchCycle_no_tasks (tm : TaskManager) (h : ∀ x, tm.tasks.get? x = none)
    (orders : List (List String)) :
    dispatchCycle orders tm = tm ∧ dispatchLog orders tm = [] := by
  cases orders with
  | nil => exact ⟨rfl, rfl⟩
  | cons order rest =>
    simp [dispatchCycle, dispatchLog, workerRound, GetNextTask_no_tasks tm h order]

/-- When the results of the tasks among its operands are the values of these operands, and
its number operands are not zero, the substitution of `GetNextTask` gives the task of a node
the values of its two operands. -/
theorem substituteArgs_plan (tm : TaskManager) (env : Env) (n : PlanNode)
    (hne : n.deps ≠ [])
    (hl1 : n.left.isNum = true → n.left.value = n.a ∧ n.a ≠ 0)
    (hr1 : n.right.isNum = true → n.right.value = n.b ∧ n.b ≠ 0)
    (hl2 : n.left.isNum = false → resultOf tm n.left.taskID = n.a)
    (hr2 : n.right.isNum = false → resultOf tm n.right.taskID = n.b) :
    (substituteArgs tm (n.task env) n.deps).Arg1 = n.a ∧
    (substituteArgs tm (n.task env) n.deps).Arg2 = n.b := by
  cases hl : n.left.isNum <;> cases hr : n.right.isNum
  · have h1 := hl2 hl
    have h2 := hr2 hr
    simp [substituteArgs, PlanNode.task, PlanNode.deps, pendingIDs, hl, hr, h1, h2]
  · have h1 := hl2 hl
    obtain ⟨h2, h3⟩ := hr1 hr
    simp [substituteArgs, PlanNode.task, PlanNode.deps, pendingIDs, hl, hr, h1, h2, h3]
  · obtain ⟨h1, h3⟩ := hl1 hl
    have h2 := hr2 hr
    simp [substituteArgs, PlanNode.task, PlanNode.deps, pendingIDs, hl, hr, h1, h2, h3]
  · simp [PlanNode.deps, pendingIDs, hl, hr] at hne

/-- Some node whose id is in `R` comes before every other such node. -/
theorem first_remaining (R : List String) (ns : List PlanNode)
    (h : ∃ m ∈ ns, m.id ∈ R) :
    ∃ pre n post, ns = pre ++ n :: post ∧ n.id ∈ R ∧ ∀ m ∈ pre, m.id ∉ R := by
  induction ns with
  | nil =>
    obtain ⟨m, hm, _⟩ := h
    simp at hm
  | cons a ns ih =>
    by_cases ha : a.id ∈ R
    · exact ⟨[], a, ns, rfl, ha, by simp⟩
    · obtain ⟨m, hm, hmR⟩ := h
      have hm2 : m ∈ ns := by
        rcases List.mem_cons.mp hm with hm | hm
        · subst hm
          exact absurd hmR ha
        · exact hm
      obtain ⟨pre, n, post, h1, h2, h3⟩ := ih ⟨m, hm2, hmR⟩
      refine ⟨a :: pre, n, post, by rw [h1]; rfl, h2, ?_⟩
      intro w hw
      rcases List.mem_cons.mp hw with hw | hw
      · subst hw
        exact ha
      · exact h3 w hw

theorem PlanNode_eq_of_id {ns : List PlanNode} (hnd : (ns.map PlanNode.id).Nodup)
    {m n : PlanNode} (hm : m ∈ ns) (hn : n ∈ ns) (h : m.id = n.id) : m = n :=
  List.inj_on_of_nodup_map hnd hm hn h

theorem PlanFacts_last_mem {ns : List PlanNode} {good : Prop} {last : PlanNode}
    (hF : PlanFacts ns good last) : last ∈ ns :=
  List.mem_of_getLast?_eq_some hF.last

/-- The second half of a round: the result `r` of the task of the node `m`, taken out of
the task map, is submitted.  Either some task remains and the invariant holds with `m`
removed from the remaining ids, or no task remains, the task map is empty and the header
is `COMPLETED` with the result recorded for the last node. -/
theorem dispatch_submit {env : Env} {e : String} {hdr : Expression} {ns : List PlanNode}
    {good : Prop} {last : PlanNode} {R : List String} {tm : TaskManager}
    (hF : PlanFacts ns good last) (hJ : DispatchInv env e hdr ns good R tm)
    (hroot : ∀ p ∈ tm.dependsOnTask.entries, last.id ∉ p.2)
    (m : PlanNode) (hm : m ∈ ns) (hmR : m.id ∈ R) (tm1 : TaskManager)
    (h1 : tm1.expressions = tm.expressions) (h2 : tm1.taskResults = tm.taskResults)
    (h3 : tm1.taskToExpression = tm.taskToExpression)
    (h4 : tm1.expressionTasks = tm.expressionTasks)
    (h5 : tm1.tasks = tm.tasks.del m.id)
    (h6 : ∀ x, x ≠ m.id → tm1.dependsOnTask.get? x = tm.dependsOnTask.get? x)
    (h7 : ∀ p ∈ tm1.dependsOnTask.entries, p ∈ tm.dependsOnTask.entries)
    (r : ℚ) (hr : good → r = m.value) :
    (R.erase m.id ≠ [] ∧
      DispatchInv env e hdr ns good (R.erase m.id)
        (SubmitTaskResult tm1 { ID := m.id, Result := r }).1) ∨
    (R.erase m.id = [] ∧
      (∀ x, (SubmitTaskResult tm1 { ID := m.id, Result := r }).1.tasks.get? x = none) ∧
      ∃ r2, (SubmitTaskResult tm1 { ID := m.id, Result := r }).1.expressions.get? e =
          some { hdr with Status := "COMPLETED", Result := r2 } ∧
        (good → r2 = last.value)) := by
  have hte : tm1.taskToExpression.get? m.id = some e := by
    rw [h3]
    exact hJ.owner m hm
  have hl : tm1.expressionTasks.get? e = some (ns.map PlanNode.id) := by
    rw [h4]
    exact hJ.list
  have hx : tm1.expressions.get? e = some hdr := by
    rw [h1]
    exact hJ.header
  have hmid : m.id ∈ ns.map PlanNode.id := List.mem_map.mpr ⟨m, hm, rfl⟩
  have hres : ∀ t, ((tm1.taskResults.set m.id r).get? t).isSome = true ↔
      (t = m.id ∨ (t ∈ ns.map PlanNode.id ∧ t ∉ R)) := by
    intro t
    rw [GoMap.get?_set, h2]
    by_cases ht : t = m.id
    · simp [ht]
    · simp only [ht, if_false, false_or]
      exact hJ.results t
  have hmem : ∀ x, x ∈ R.erase m.id ↔ x ≠ m.id ∧ x ∈ R := fun x =>
    List.Nodup.mem_erase_iff hJ.nodup
  have hval : good → ∀ n ∈ ns, n.id ∉ R.erase m.id →
      (tm1.taskResults.set m.id r).get? n.id = some n.value := by
    intro hg n hn hnot
    by_cases hnm : n.id = m.id
    · have : n = m := PlanNode_eq_of_id hF.nodup hn hm hnm
      subst this
      rw [GoMap.get?_set_self, hr hg]
    · rw [GoMap.get?_set_of_ne _ _ _ _ hnm, h2]
      refine hJ.values hg n hn ?_
      intro hnR
      exact hnot ((hmem _).mpr ⟨hnm, hnR⟩)
  by_cases hE : R.erase m.id = []
  · right
    refine ⟨hE, ?_⟩
    have hall : (ns.map PlanNode.id).all (fun t =>
        ((tm1.taskResults.set m.id r).get? t).isSome) = true := by
      rw [List.all_eq_true]
      intro t ht
      rw [hres]
      by_cases htm : t = m.id
      · exact Or.inl htm
      · right
        refine ⟨ht, ?_⟩
        intro htR
        have : t ∈ R.erase m.id := (hmem t).mpr ⟨htm, htR⟩
        rw [hE] at this
        simp at this
    have hlast : (ns.map PlanNode.id).getLast? = some last.id := by
      rw [List.getLast?_map, hF.last]
      rfl
    have hsub := SubmitTaskResult_finished tm1 { ID := m.id, Result := r } e
      (ns.map PlanNode.id) hdr last.id hte hl hall hx hlast
      (fun p hp => hroot p (h7 p hp))
    rw [hsub]
    simp only [finishExpression]
    refine ⟨?_, ?_⟩
    · intro x
      rw [cleanup_tasks_get?]
      split_ifs with hxin
      · rfl
      · show tm1.tasks.get? x = none
        rw [h5, GoMap.get?_del]
        split_ifs with hxm
        · rfl
        · cases hq : tm.tasks.get? x with
          | none => rfl
          | some t =>
            exact absurd (hJ.remaining x (hJ.tasksOut x (by simp [hq]))) hxin
    · refine ⟨resultOf { tm1 with taskResults := tm1.taskResults.set m.id r } last.id,
        ?_, ?_⟩
      · rw [cleanup_expressions]
        simp only [GoMap.get?_set_self]
      · intro hg
        have hlastnot : last.id ∉ R.erase m.id := by
          rw [hE]
          simp
        have := hval hg last (PlanFacts_last_mem hF) hlastnot
        simp only [resultOf, this, Option.getD_some]
  · left
    refine ⟨hE, ?_⟩
    have hnot : (ns.map PlanNode.id).all (fun t =>
        ((tm1.taskResults.set m.id r).get? t).isSome) = false := by
      obtain ⟨t, ht⟩ := List.exists_mem_of_ne_nil _ hE
      obtain ⟨htm, htR⟩ := (hmem t).mp ht
      rw [Bool.eq_false_iff]
      intro hall
      rw [List.all_eq_true] at hall
      have := (hres t).mp (hall t (hJ.remaining t htR))
      rcases this with h | ⟨_, h⟩
      · exact htm h
      · exact h htR
    have hsub := SubmitTaskResult_unfinished tm1 { ID := m.id, Result := r } e
      (ns.map PlanNode.id) hte hl hnot
    rw [hsub]
    exact
      { header := hx
        list := hl
        owner := fun n hn => by
          show tm1.taskToExpression.get? n.id = some e
          rw [h3]
          exact hJ.owner n hn
        remaining := fun x hx2 => hJ.remaining x ((hmem x).mp hx2).2
        nodup := hJ.nodup.erase _
        tasksIn := fun n hn hnR => by
          obtain ⟨hnm, hnR2⟩ := (hmem _).mp hnR
          obtain ⟨t1, t2⟩ := hJ.tasksIn n hn hnR2
          refine ⟨?_, ?_⟩
          · show tm1.tasks.get? n.id = _
            rw [h5, GoMap.get?_del_of_ne _ _ _ hnm]
            exact t1
          · show tm1.dependsOnTask.get? n.id = _
            rw [h6 _ hnm]
            exact t2
        tasksOut := fun x hx2 => by
          have hx3 : (tm1.tasks.get? x).isSome = true := hx2
          rw [h5, GoMap.get?_del] at hx3
          split_ifs at hx3 with hxm
          · simp at hx3
          · exact (hmem x).mpr ⟨hxm, hJ.tasksOut x hx3⟩
        results := fun x => by
          show ((tm1.taskResults.set m.id r).get? x).isSome = true ↔ _
          rw [hres, hmem]
          constructor
          · rintro (h | ⟨h, h'⟩)
            · subst h
              exact ⟨hmid, fun hc => hc.1 rfl⟩
            · exact ⟨h, fun hc => h' hc.2⟩
          · rintro ⟨h, h'⟩
            by_cases hxm : x = m.id
            · exact Or.inl hxm
            · exact Or.inr ⟨h, fun hc => h' ⟨hxm, hc⟩⟩
        values := hval }

/-- The value of each operand of a node: that of the number, or that of the node of the
plan whose task the operand is. -/
theorem PlanOK_operand_values (ns : List PlanNode) (hok : PlanOK [] ns) :
    ∀ m ∈ ns,
      (m.left.isNum = true → m.left.value = m.a) ∧
      (m.left.isNum = false → ∃ w ∈ ns, w.id = m.left.taskID ∧ w.value = m.a) ∧
      (m.right.isNum = true → m.right.value = m.b) ∧
      (m.right.isNum = false → ∃ w ∈ ns, w.id = m.right.taskID ∧ w.value = m.b) := by
  intro m hm
  obtain ⟨pre, post, hsplit⟩ := List.append_of_mem hm
  subst hsplit
  obtain ⟨h1, h2⟩ := PlanOK_split pre [] m post hok
  simp only [List.nil_append] at h1 h2
  have key : ∀ (x : stackItem) (q : ℚ), OperandOK (pre.map PlanNode.pair) (x, q) →
      (x.isNum = true → x.value = q) ∧
      (x.isNum = false → ∃ w ∈ pre ++ m :: post, w.id = x.taskID ∧ w.value = q) := by
    intro x q hx
    rcases hx with ⟨g1, g2⟩ | ⟨g1, g2⟩
    · simp only at g1 g2
      exact ⟨fun _ => g2.symm, fun hc => by rw [g1] at hc; simp at hc⟩
    · simp only at g1 g2
      refine ⟨fun hc => by rw [g1] at hc; simp at hc, fun _ => ?_⟩
      obtain ⟨w, hw, hpair⟩ := List.mem_map.mp g2
      simp only [PlanNode.pair, Prod.mk.injEq] at hpair
      exact ⟨w, List.mem_append_left _ hw, hpair.1, hpair.2⟩
  exact ⟨(key _ _ h1).1, (key _ _ h1).2, (key _ _ h2).1, (key _ _ h2).2⟩

theorem isReady_entry (tm : TaskManager) (n : PlanNode)
    (h : tm.dependsOnTask.get? n.id = n.entry) :
    isReady tm n.id = true ↔ ∀ d ∈ n.deps, (tm.taskResults.get? d).isSome = true := by
  unfold isReady
  rw [h]
  unfold PlanNode.entry
  split_ifs with hd
  · simp [hd]
  · simp only [List.all_eq_true]

theorem pendingIDs_eq_nil (l r : stackItem) (h : pendingIDs l r = []) :
    l.isNum = true ∧ r.isNum = true := by
  cases hl : l.isNum <;> cases hr : r.isNum <;> simp [pendingIDs, hl, hr] at h ⊢

/-- One round of the dispatch cycle.  While some task remains, `GetNextTask` with a
visiting order that covers the tasks of the expression returns the task of a remaining node
`n`, with the values of the operands of `n` as arguments when `good` holds; once the worker
answers, either some task remains and the invariant holds without `n`, or the expression is
`COMPLETED` with the result recorded for the last node and the task map is empty. -/
theorem dispatch_round {env : Env} {e : String} {hdr : Expression} {ns : List PlanNode}
    {good : Prop} {last : PlanNode} {R : List String} {tm : TaskManager}
    {seen : Set String} {handed : List String}
    (hF : PlanFacts ns good last) (hJ : DispatchInv env e hdr ns good R tm)
    (hreach : Reachable tm seen handed) (order : List String)
    (hcover : ∀ n ∈ ns, n.id ∈ order) (hR : R ≠ []) :
    ∃ n tm1 task, n ∈ ns ∧ n.id ∈ R ∧ GetNextTask tm order = (tm1, task, true) ∧
      task.ID = n.id ∧ task.Operation = n.token.Value ∧
      (good → task.Arg1 = n.a ∧ task.Arg2 = n.b) ∧
      (∃ handed2, Reachable
        (SubmitTaskResult tm1
          { ID := task.ID,
            Result := getOperationResult task.Operation task.Arg1 task.Arg2 }).1
        seen handed2) ∧
      ((R.erase n.id ≠ [] ∧
          DispatchInv env e hdr ns good (R.erase n.id)
            (SubmitTaskResult tm1
              { ID := task.ID,
                Result := getOperationResult task.Operation task.Arg1 task.Arg2 }).1) ∨
        (R.erase n.id = [] ∧
          (∀ x, (SubmitTaskResult tm1
              { ID := task.ID,
                Result := getOperationResult task.Operation task.Arg1 task.Arg2 }).1.tasks.get?
              x = none) ∧
          ∃ r2, (SubmitTaskResult tm1
              { ID := task.ID,
                Result :=
                  getOperationResult task.Operation task.Arg1 task.Arg2 }).1.expressions.get?
              e = some { hdr with Status := "COMPLETED", Result := r2 } ∧
            (good → r2 = last.value))) := by
  have hinv := Reachable_inv hreach
  have hroot : ∀ p ∈ tm.dependsOnTask.entries, last.id ∉ p.2 := by
    intro p hp hin
    refine hinv.root e _ hJ.list p.1 p.2 hp last.id hin ?_
    rw [List.getLast?_map, hF.last]
    rfl
  -- some remaining node is ready
  obtain ⟨pre, n0, post, hsplit, hn0R, hpre⟩ := first_remaining R ns (by
    obtain ⟨x, hx⟩ := List.exists_mem_of_ne_nil _ hR
    obtain ⟨m, hm, hmx⟩ := List.mem_map.mp (hJ.remaining x hx)
    exact ⟨m, hm, by rw [hmx]; exact hx⟩)
  have hn0 : n0 ∈ ns := by
    rw [hsplit]
    simp
  have hready0 : isReady tm n0.id = true := by
    rw [isReady_entry tm n0 (hJ.tasksIn n0 hn0 hn0R).2]
    intro d hd
    have hdpre := PlanOK_deps_before ns hF.ok pre n0 post hsplit d hd
    obtain ⟨w, hw, hwd⟩ := List.mem_map.mp hdpre
    rw [hJ.results]
    refine ⟨?_, ?_⟩
    · rw [hsplit, List.map_append]
      exact List.mem_append_left _ hdpre
    · rw [← hwd]
      exact hpre w hw
  rcases GetNextTask_spec tm order with ⟨_, hnone⟩ | ⟨id0, task0, _, hget, hready, hres⟩
  · have := hnone n0.id (hcover n0 hn0) (by rw [(hJ.tasksIn n0 hn0 hn0R).1]; rfl)
    rw [hready0] at this
    exact absurd this (by simp)
  · have hid0R : id0 ∈ R := hJ.tasksOut id0 (by rw [hget]; rfl)
    obtain ⟨m, hm, hmid⟩ := List.mem_map.mp (hJ.remaining id0 hid0R)
    subst hmid
    obtain ⟨ht0, hentry⟩ := hJ.tasksIn m hm hid0R
    rw [hget] at ht0
    have htask0 : task0 = m.task env := by simpa using ht0
    subst htask0
    have hdepres := (isReady_entry tm m hentry).mp hready
    obtain ⟨v1, v2, v3, v4⟩ := PlanOK_operand_values ns hF.ok m hm
    have hresult : ∀ w ∈ ns, w.id ∈ m.deps → good → resultOf tm w.id = w.value := by
      intro w hw hwd hg
      have hsome := hdepres w.id hwd
      rw [hJ.results] at hsome
      simp only [resultOf, hJ.values hg w hw hsome.2, Option.getD_some]
    -- the task handed out and its arguments
    have hfinal : ∀ (tm1 : TaskManager) (task : Task),
        GetNextTask tm order = (tm1, task, true) →
        task.ID = m.id → task.Operation = m.token.Value →
        (good → task.Arg1 = m.a ∧ task.Arg2 = m.b) →
        tm1.expressions = tm.expressions → tm1.taskResults = tm.taskResults →
        tm1.taskToExpression = tm.taskToExpression →
        tm1.expressionTasks = tm.expressionTasks → tm1.tasks = tm.tasks.del m.id →
        (∀ x, x ≠ m.id → tm1.dependsOnTask.get? x = tm.dependsOnTask.get? x) →
        (∀ p ∈ tm1.dependsOnTask.entries, p ∈ tm.dependsOnTask.entries) →
        (∃ n tm1 task, n ∈ ns ∧ n.id ∈ R ∧ GetNextTask tm order = (tm1, task, true) ∧
          task.ID = n.id ∧ task.Operation = n.token.Value ∧
          (good → task.Arg1 = n.a ∧ task.Arg2 = n.b) ∧
          (∃ handed2, Reachable
            (SubmitTaskResult tm1
              { ID := task.ID,
                Result := getOperationResult task.Operation task.Arg1 task.Arg2 }).1
            seen handed2) ∧
          ((R.erase n.id ≠ [] ∧
              DispatchInv env e hdr ns good (R.erase n.id)
                (SubmitTaskResult tm1
                  { ID := task.ID,
                    Result := getOperationResult task.Operation task.Arg1 task.Arg2 }).1) ∨
            (R.erase n.id = [] ∧
              (∀ x, (SubmitTaskResult tm1
                  { ID := task.ID,
                    Result :=
                      getOperationResult task.Operation task.Arg1 task.Arg2 }).1.tasks.get?
                  x = none) ∧
              ∃ r2, (SubmitTaskResult tm1
                  { ID := task.ID,
                    Result :=
                      getOperationResult task.Operation task.Arg1
                        task.Arg2 }).1.expressions.get?
                  e = some { hdr with Status := "COMPLETED", Result := r2 } ∧
                (good → r2 = last.value)))) := by
      intro tm1 task heq hid hop hargs h1 h2 h3 h4 h5 h6 h7
      have hstep1 : Reachable tm1 seen ((Call.getNext order).handedAfter tm handed) := by
        have := Reachable.step (Call.getNext order) hreach trivial
        simpa [Call.run, Call.seenAfter, heq] using this
      have hstep2 := Reachable.step
        (Call.submit { ID := task.ID,
                       Result := getOperationResult task.Operation task.Arg1 task.Arg2 })
        hstep1 trivial
      have hsub := dispatch_submit hF hJ hroot m hm hid0R tm1 h1 h2 h3 h4 h5 h6 h7
        (getOperationResult task.Operation task.Arg1 task.Arg2) (by
          intro hg
          obtain ⟨ha, hb⟩ := hargs hg
          rw [hop, ha, hb]
          rfl)
      refine ⟨m, tm1, task, hm, hid0R, heq, hid, hop, hargs, ⟨_, hstep2⟩, ?_⟩
      rw [hid]
      exact hsub
    rcases hres with ⟨hnoentry, heq⟩ | ⟨deps, hdne, hdeps, heq⟩
    · -- both operands are numbers
      have hdnil : m.deps = [] := by
        rw [hentry] at hnoentry
        unfold PlanNode.entry at hnoentry
        split_ifs at hnoentry with hc
        · exact hc
        · rcases hnoentry with h | h
          · simp at h
          · simp only [Option.some.injEq] at h
            exact absurd h hc
      obtain ⟨hl, hr⟩ := pendingIDs_eq_nil _ _ hdnil
      refine hfinal _ _ heq rfl rfl ?_ rfl rfl rfl rfl rfl (fun _ _ => rfl) (fun _ hp => hp)
      intro _
      simp only [PlanNode.task, hl, hr, if_true]
      exact ⟨v1 hl, v3 hr⟩
    · have hdeps2 : deps = m.deps := by
        rw [hentry] at hdeps
        unfold PlanNode.entry at hdeps
        split_ifs at hdeps with hc
        simpa using hdeps.symm
      subst hdeps2
      refine hfinal _ _ heq (substituteArgs_ID _ _ _) (substituteArgs_Operation _ _ _) ?_
        rfl rfl rfl rfl rfl ?_ ?_
      · intro hg
        obtain ⟨hlit1, hlit2⟩ := hF.lits hg m hm
        refine substituteArgs_plan tm env m hdne ?_ ?_ ?_ ?_
        · intro hl
          exact ⟨v1 hl, by rw [← v1 hl]; exact hlit1 hl⟩
        · intro hr
          exact ⟨v3 hr, by rw [← v3 hr]; exact hlit2 hr⟩
        · intro hl
          obtain ⟨w, hw, hwid, hwv⟩ := v2 hl
          rw [← hwid, ← hwv]
          exact hresult w hw (by simp [PlanNode.deps, pendingIDs, hl, hwid]) hg
        · intro hr
          obtain ⟨w, hw, hwid, hwv⟩ := v4 hr
          rw [← hwid, ← hwv]
          exact hresult w hw (by simp [PlanNode.deps, pendingIDs, hr, hwid]) hg
      · intro x hx
        exact GoMap.get?_del_of_ne _ _ _ hx
      · intro p hp
        exact ((GoMap.mem_del _ _ _).mp hp).1

/-- The dispatch cycle from a state of the invariant with some task remaining: the rounds
hand out remaining tasks, each once, one per round while a task remains; a task handed out is
the task of a node of the plan, with the values of its operands as arguments when `good`
holds; when the rounds are at least as many as the remaining tasks the cycle ends with the
expression `COMPLETED` and an empty task map, and with fewer rounds the header is
unchanged. -/
theorem dispatch_run {env : Env} {e : String} {hdr : Expression} {ns : List PlanNode}
    {good : Prop} {last : PlanNode} (hF : PlanFacts ns good last) :
    ∀ (orders : List (List String)) (R : List String) (tm : TaskManager) (seen : Set String)
      (handed : List String),
      DispatchInv env e hdr ns good R tm → Reachable tm seen handed → R ≠ [] →
      (∀ order ∈ orders, ∀ n ∈ ns, n.id ∈ order) →
      (dispatchLog orders tm).length = min orders.length R.length ∧
      ((dispatchLog orders tm).map Task.ID).Nodup ∧
      (∀ t ∈ dispatchLog orders tm, t.ID ∈ R ∧
        ∃ n ∈ ns, t.ID = n.id ∧ t.Operation = n.token.Value ∧
          (good → t.Arg1 = n.a ∧ t.Arg2 = n.b)) ∧
      (R.length ≤ orders.length →
        (∀ x, (dispatchCycle orders tm).tasks.get? x = none) ∧
        ∃ r2, (dispatchCycle orders tm).expressions.get? e =
            some { hdr with Status := "COMPLETED", Result := r2 } ∧
          (good → r2 = last.value)) ∧
      (orders.length < R.length → (dispatchCycle orders tm).expressions.get? e = some hdr) := by
  intro orders
  induction orders with
  | nil =>
    intro R tm seen handed hJ _ hR _
    have hpos : 0 < R.length := List.length_pos.mpr hR
    refine ⟨by simp [dispatchLog], by simp [dispatchLog], by simp [dispatchLog], ?_, ?_⟩
    · intro h
      simp only [List.length_nil] at h
      omega
    · intro _
      exact hJ.header
  | cons order orders ih =>
    intro R tm seen handed hJ hreach hR hcover
    have hpos : 0 < R.length := List.length_pos.mpr hR
    obtain ⟨n, tm1, task, hn, hnR, heq, hid, hop, hargs, ⟨handed2, hreach2⟩, hcase⟩ :=
      dispatch_round hF hJ hreach order (hcover order (List.mem_cons_self _ _)) hR
    have hlog : dispatchLog (order :: orders) tm =
        task :: dispatchLog orders
          (SubmitTaskResult tm1
            { ID := task.ID,
              Result := getOperationResult task.Operation task.Arg1 task.Arg2 }).1 := by
      simp [dispatchLog, heq]
    have hcyc : dispatchCycle (order :: orders) tm =
        dispatchCycle orders
          (SubmitTaskResult tm1
            { ID := task.ID,
              Result := getOperationResult task.Operation task.Arg1 task.Arg2 }).1 := by
      simp [dispatchCycle, workerRound, heq]
    have hlen : (R.erase n.id).length = R.length - 1 := List.length_erase_of_mem hnR
    have hfact : task.ID ∈ R ∧
        ∃ n ∈ ns, task.ID = n.id ∧ task.Operation = n.token.Value ∧
          (good → task.Arg1 = n.a ∧ task.Arg2 = n.b) :=
      ⟨by rw [hid]; exact hnR, n, hn, hid, hop, hargs⟩
    rw [hlog, hcyc]
    rcases hcase with ⟨hne, hJ2⟩ | ⟨hnil, htasks, r2, hhdr, hval⟩
    · obtain ⟨i1, i2, i3, i4, i5⟩ := ih (R.erase n.id) _ seen handed2 hJ2 hreach2 hne
        (fun o ho => hcover o (List.mem_cons_of_mem _ ho))
      refine ⟨?_, ?_, ?_, ?_, ?_⟩
      · simp only [List.length_cons, i1, hlen]
        omega
      · rw [List.map_cons, List.nodup_cons]
        refine ⟨?_, i2⟩
        intro hmem
        obtain ⟨t, ht, hte⟩ := List.mem_map.mp hmem
        have := (i3 t ht).1
        rw [hte, hid] at this
        exact (List.Nodup.mem_erase_iff hJ.nodup).mp this |>.1 rfl
      · intro t ht
        rcases List.mem_cons.mp ht with h | h
        · rw [h]
          exact hfact
        · exact ⟨List.mem_of_mem_erase (i3 t h).1, (i3 t h).2⟩
      · intro h
        simp only [List.length_cons] at h
        exact i4 (by omega)
      · intro h
        simp only [List.length_cons] at h
        exact i5 (by omega)
    · obtain ⟨c1, c2⟩ := dispatchCycle_no_tasks _ htasks orders
      have hone : R.length = 1 := by
        rw [hnil] at hlen
        simp only [List.length_nil] at hlen
        omega
      rw [c1, c2]
      refine ⟨?_, by simp, ?_, ?_, ?_⟩
      · simp only [List.length_cons, List.length_nil, hone]
        omega
      · intro t ht
        rw [List.mem_singleton] at ht
        rw [ht]
        exact hfact
      · intro _
        exact ⟨htasks, r2, hhdr, hval⟩
      · intro h
        simp only [List.length_cons] at h
        omega

/-- The state after `CreateExpression` on a fresh manager, for a text accepted by
`Calculate` with value `v` whose postfix form holds an operator: the plan has one node per
Operator token, its last node has the value `v`, and the dispatch invariant holds with every
task remaining.  `good` may be any condition under which no Number token reads as zero. -/
theorem dispatch_init (text : String) (userID : Int) (env : Env)
    (hinj : Function.Injective env.UUID) (v : ℚ)
    (hv : (Calculate NewCalculator text).2 = Except.ok v) (rpn : List Token)
    (hrpn : ToRPN (Tokenize NewCalculator text).1 = Except.ok rpn)
    (hop : ∃ t ∈ rpn, t.Typ = TokenType.Operator) (good : Prop)
    (hgood : good → ∀ t ∈ rpn, t.Typ = TokenType.Number → ParseFloat t.Value ≠ some 0) :
    ∃ ns last, PlanFacts ns good last ∧ last.value = v ∧
      ns.length = countType TokenType.Operator rpn ∧
      (∀ n ∈ ns, n.token.Value = "/" → n.b ≠ 0) ∧
      (CreateExpression NewTaskManager text userID env).2 = Except.ok (env.UUID 0) ∧
      DispatchInv env (env.UUID 0)
        { ID := env.UUID 0, Original := text, Status := "PROCESSING", Result := 0,
          CreatedAt := env.Now }
        ns good (ns.map PlanNode.id) (CreateExpression NewTaskManager text userID env).1 ∧
      Reachable (CreateExpression NewTaskManager text userID env).1
        (∅ ∪ Set.range env.UUID) [] := by
  have hfresh : ∀ k, env.UUID k ∉ (∅ : Set String) := fun k => Set.not_mem_empty _
  obtain ⟨ns, st, tm2, hplan, hst, hne, hdiv, hnd, hids, heq, e1, e2, e3, _, hnodes, hframe, _⟩ :=
    CreateExpression_installed Inv_init text userID env hinj hfresh v hv rpn hrpn hop
  obtain ⟨last, hlast⟩ : ∃ last, ns.getLast? = some last := by
    cases h : ns.getLast? with
    | none => exact absurd (List.getLast?_eq_none_iff.mp h) hne
    | some x => exact ⟨x, rfl⟩
  have hlastv : last.value = v := by
    have hmem := planLoop_last env rpn [] 1 ns st hplan last hlast
    have : last.value ∈ st.map Prod.snd := List.mem_map.mpr ⟨_, hmem, rfl⟩
    rw [hst, List.mem_singleton] at this
    exact this
  obtain ⟨_, _, rpn2, hrpn2, hev⟩ := Calculate_ok NewCalculator text v hv
  rw [hrpn] at hrpn2
  have hr : rpn = rpn2 := by simpa using hrpn2
  subst hr
  have hparse := evalLoop_numbers_parse rpn [] [v] (EvaluateRPN_ok rpn v hev)
  have hF : PlanFacts ns good last := by
    refine ⟨(planLoop_ok env rpn [] 1 [] ns st hplan (by simp)).1, hnd, hlast, ?_⟩
    intro hg
    refine (planLoop_numbers env (fun q => q ≠ 0) rpn [] 1 ns st hplan (by simp) ?_).1
    intro t ht hnum
    obtain ⟨q, hq⟩ := hparse t ht hnum
    have := hgood hg t ht hnum
    rw [hq] at this ⊢
    simpa using this
  have hrun : (CreateExpression NewTaskManager text userID env).1 = tm2 := by rw [heq]
  refine ⟨ns, last, hF, hlastv, (planLoop_length env rpn [] 1 ns st hplan).1, hdiv,
    by rw [heq], ?_, ?_⟩
  · rw [hrun]
    refine ⟨by rw [e2, GoMap.get?_set_self], by rw [e1, GoMap.get?_set_self],
      fun n hn => (hnodes n hn).2.1, fun x hx => hx, hnd,
      fun n hn _ => ⟨(hnodes n hn).1, (hnodes n hn).2.2⟩, ?_, ?_, ?_⟩
    · intro x hx
      by_contra hxn
      rw [(hframe x hxn).1] at hx
      simp [NewTaskManager, GoMap.get?_empty] at hx
    · intro x
      rw [e3]
      simp [NewTaskManager, GoMap.get?_empty]
    · intro _ n hn hnR
      exact absurd (List.mem_map.mpr ⟨n, hn, rfl⟩) hnR
  · have := Reachable.step (Call.create text userID env) Reachable.init ⟨hinj, hfresh⟩
    simpa [Call.run, Call.seenAfter, Call.handedAfter] using this

/-- The dispatch cycle on a fresh manager, for a text accepted by `Calculate` with value `v`
that holds an operator.  The rounds hand out tasks of the expression, each once, one per
round until as many tasks as Operator tokens are handed out; with at least that many rounds
every task of the expression is handed out, the task map ends empty and the expression ends
`COMPLETED`; with fewer rounds the expression is still `PROCESSING`.  When `good` holds and
no Number token reads as zero, no task handed out divides by zero and the result recorded is
`v`. -/
theorem dispatch_complete (text : String) (userID : Int) (env : Env)
    (hinj : Function.Injective env.UUID) (v : ℚ)
    (hv : (Calculate NewCalculator text).2 = Except.ok v)
    (hop : ∃ t ∈ (Tokenize NewCalculator text).1.tokens, t.Typ = TokenType.Operator)
    (good : Prop)
    (hgood : good → ∀ t ∈ (Tokenize NewCalculator text).1.tokens,
      t.Typ = TokenType.Number → ParseFloat t.Value ≠ some 0)
    (orders : List (List String))
    (hcover : ∀ order ∈ orders,
      ∀ p ∈ (CreateExpression NewTaskManager text userID env).1.tasks.entries, p.1 ∈ order) :
    (CreateExpression NewTaskManager text userID env).2 = Except.ok (env.UUID 0) ∧
    (dispatchLog orders (CreateExpression NewTaskManager text userID env).1).length =
      min orders.length (countType TokenType.Operator (Tokenize NewCalculator text).1.tokens) ∧
    (∃ ids, (CreateExpression NewTaskManager text userID env).1.expressionTasks.get?
        (env.UUID 0) = some ids ∧
      ids.length = countType TokenType.Operator (Tokenize NewCalculator text).1.tokens ∧
      ((dispatchLog orders (CreateExpression NewTaskManager text userID env).1).map
        Task.ID).Nodup ∧
      (∀ t ∈ dispatchLog orders (CreateExpression NewTaskManager text userID env).1,
        t.ID ∈ ids)) ∧
    (good → ∀ t ∈ dispatchLog orders (CreateExpression NewTaskManager text userID env).1,
      t.Operation = "/" → t.Arg2 ≠ 0) ∧
    (countType TokenType.Operator (Tokenize NewCalculator text).1.tokens ≤ orders.length →
      (∀ x, (dispatchCycle orders
        (CreateExpression NewTaskManager text userID env).1).tasks.get? x = none) ∧
      ∃ r2, (dispatchCycle orders
          (CreateExpression NewTaskManager text userID env).1).expressions.get? (env.UUID 0) =
          some { ID := env.UUID 0, Original := text, Status := "COMPLETED", Result := r2,
                 CreatedAt := env.Now } ∧
        (good → r2 = v)) ∧
    (orders.length < countType TokenType.Operator (Tokenize NewCalculator text).1.tokens →
      (dispatchCycle orders
        (CreateExpression NewTaskManager text userID env).1).expressions.get? (env.UUID 0) =
        some { ID := env.UUID 0, Original := text, Status := "PROCESSING", Result := 0,
               CreatedAt := env.Now }) := by
  obtain ⟨_, _, rpn, hrpn, _⟩ := Calculate_ok NewCalculator text v hv
  obtain ⟨_, hcount, _⟩ := ToRPN_countType _ rpn hrpn
  have hop2 : ∃ t ∈ rpn, t.Typ = TokenType.Operator := by
    have hpos : 0 < countType TokenType.Operator (Tokenize NewCalculator text).1.tokens := by
      obtain ⟨t, ht, hty⟩ := hop
      exact List.countP_pos_iff.mpr ⟨t, ht, by simpa using hty⟩
    rw [← hcount] at hpos
    obtain ⟨t, ht, hty⟩ := List.countP_pos_iff.mp hpos
    exact ⟨t, ht, by simpa using hty⟩
  obtain ⟨ns, last, hF, hlastv, hlen, hdiv, hok, hJ, hreach⟩ :=
    dispatch_init text userID env hinj v hv rpn hrpn hop2 good
      (fun hg t ht hnum => hgood hg t (ToRPN_mem _ rpn hrpn t ht) hnum)
  have hne : ns.map PlanNode.id ≠ [] := by
    intro h
    have h0 : ns.length = 0 := by
      rw [← List.length_map ns PlanNode.id, h]
      rfl
    obtain ⟨t, ht, hty⟩ := hop2
    have hpos : 0 < countType TokenType.Operator rpn :=
      List.countP_pos_iff.mpr ⟨t, ht, by simpa using hty⟩
    omega
  obtain ⟨r1, r2, r3, r4, r5⟩ := dispatch_run hF orders (ns.map PlanNode.id) _ _ _ hJ hreach hne
    (fun order ho n hn =>
      hcover order ho (n.id, n.task env)
        (GoMap.mem_of_get? _ _ _ (hJ.tasksIn n hn (List.mem_map.mpr ⟨n, hn, rfl⟩)).1))
  rw [List.length_map, hlen, hcount] at r1 r4 r5
  refine ⟨hok, r1, ⟨_, hJ.list, by rw [List.length_map, hlen, hcount], r2,
    fun t ht => (r3 t ht).1⟩, ?_, ?_, r5⟩
  · intro hg t ht hdivop
    obtain ⟨_, n, hn, _, hopn, hargs⟩ := r3 t ht
    rw [(hargs hg).2]
    exact hdiv n hn (by rw [← hopn]; exact hdivop)
  · intro h
    obtain ⟨c1, r, c2, c3⟩ := r4 h
    exact ⟨c1, r, c2, fun hg => by rw [c3 hg, hlastv]⟩

/-- C29.  Let `Calculate` accept a text with value `v`, the text holding an operator and
no number that reads as zero, and let the expression be created on a fresh manager with
distinct ids.  Whatever the visiting order of the task map in each round, a dispatch cycle
with at least as many rounds as Operator tokens, with results computed by
`getOperationResult`, hands out every task of the expression exactly once, one task per
Operator token; no task handed out is a division by zero; the task map ends empty and the
expression ends `COMPLETED` with result `v`. -/
theorem dispatchCycle_computes_value (text : String) (userID : Int) (env : Env)
    (hinj : Function.Injective env.UUID) (v : ℚ)
    (hv : (Calculate NewCalculator text).2 = Except.ok v)
    (hop : ∃ t ∈ (Tokenize NewCalculator text).1.tokens, t.Typ = TokenType.Operator)
    (hnz : ∀ t ∈ (Tokenize NewCalculator text).1.tokens,
      t.Typ = TokenType.Number → ParseFloat t.Value ≠ some 0)
    (orders : List (List String))
    (hcover : ∀ order ∈ orders,
      ∀ p ∈ (CreateExpression NewTaskManager text userID env).1.tasks.entries, p.1 ∈ order)
    (hlen : countType TokenType.Operator (Tokenize NewCalculator text).1.tokens ≤
      orders.length) :
    (CreateExpression NewTaskManager text userID env).2 = Except.ok (env.UUID 0) ∧
    (∃ ids, (CreateExpression NewTaskManager text userID env).1.expressionTasks.get?
        (env.UUID 0) = some ids ∧
      ids.length = countType TokenType.Operator (Tokenize NewCalculator text).1.tokens ∧
      ((dispatchLog orders (CreateExpression NewTaskManager text userID env).1).map
        Task.ID).Perm ids) ∧
    (∀ t ∈ dispatchLog orders (CreateExpression NewTaskManager text userID env).1,
      t.Operation = "/" → t.Arg2 ≠ 0) ∧
    (∀ x, (dispatchCycle orders
      (CreateExpression NewTaskManager text userID env).1).tasks.get? x = none) ∧
    (dispatchCycle orders
      (CreateExpression NewTaskManager text userID env).1).expressions.get? (env.UUID 0) =
      some { ID := env.UUID 0, Original := text, Status := "COMPLETED", Result := v,
             CreatedAt := env.Now } := by
  obtain ⟨h1, h2, ⟨ids, h3, h4, h5, h6⟩, h7, h8, _⟩ :=
    dispatch_complete text userID env hinj v hv hop True (fun _ => hnz) orders hcover
  obtain ⟨h9, r2, h10, h11⟩ := h8 hlen
  refine ⟨h1, ⟨ids, h3, h4, ?_⟩, h7 trivial, h9, ?_⟩
  · refine List.Subperm.perm_of_length_le (List.subperm_of_subset h5 ?_) ?_
    · intro x hx
      obtain ⟨t, ht, htx⟩ := List.mem_map.mp hx
      rw [← htx]
      exact h6 t ht
    · rw [List.length_map, h2, h4]
      omega
  · rw [h10, h11 trivial]

/-- C29 on `1+2*3-4/2` with four rounds that visit the task map in four different orders:
the tasks are handed out in the order `4/2`, `2*3`, `1+6`, `7-2`, and the result is 5. -/
theorem dispatchCycle_computes_value_witness :
    (dispatchLog
      [["uuuuu", "uuuu", "uuu", "uu"], ["uuuu", "uuu", "uu", "uuuuu"],
        ["uu", "uuu", "uuuu", "uuuuu"], ["uuu", "uuuuu", "uu", "uuuu"]]
      (CreateExpression NewTaskManager "1+2*3-4/2" 1 testEnv).1).map
      (fun t => (t.ID, t.Arg1, t.Operation, t.Arg2)) =
      [("uuuu", 4, "/", 2), ("uu", 2, "*", 3), ("uuu", 1, "+", 6), ("uuuuu", 7, "-", 2)] ∧
    ((CreateExpression NewTaskManager "1+2*3-4/2" 1 testEnv).2 = Except.ok (testEnv.UUID 0) ∧
    (∃ ids, (CreateExpression NewTaskManager "1+2*3-4/2" 1 testEnv).1.expressionTasks.get?
        (testEnv.UUID 0) = some ids ∧
      ids.length =
        countType TokenType.Operator (Tokenize NewCalculator "1+2*3-4/2").1.tokens ∧
      ((dispatchLog
        [["uuuuu", "uuuu", "uuu", "uu"], ["uuuu", "uuu", "uu", "uuuuu"],
          ["uu", "uuu", "uuuu", "uuuuu"], ["uuu", "uuuuu", "uu", "uuuu"]]
        (CreateExpression NewTaskManager "1+2*3-4/2" 1 testEnv).1).map Task.ID).Perm ids) ∧
    (∀ t ∈ dispatchLog
        [["uuuuu", "uuuu", "uuu", "uu"], ["uuuu", "uuu", "uu", "uuuuu"],
          ["uu", "uuu", "uuuu", "uuuuu"], ["uuu", "uuuuu", "uu", "uuuu"]]
        (CreateExpression NewTaskManager "1+2*3-4/2" 1 testEnv).1,
      t.Operation = "/" → t.Arg2 ≠ 0) ∧
    (∀ x, (dispatchCycle
      [["uuuuu", "uuuu", "uuu", "uu"], ["uuuu", "uuu", "uu", "uuuuu"],
        ["uu", "uuu", "uuuu", "uuuuu"], ["uuu", "uuuuu", "uu", "uuuu"]]
      (CreateExpression NewTaskManager "1+2*3-4/2" 1 testEnv).1).tasks.get? x = none) ∧
    (dispatchCycle
      [["uuuuu", "uuuu", "uuu", "uu"], ["uuuu", "uuu", "uu", "uuuuu"],
        ["uu", "uuu", "uuuu", "uuuuu"], ["uuu", "uuuuu", "uu", "uuuu"]]
      (CreateExpression NewTaskManager "1+2*3-4/2" 1 testEnv).1).expressions.get?
        (testEnv.UUID 0) =
      some { ID := testEnv.UUID 0, Original := "1+2*3-4/2", Status := "COMPLETED",
             Result := 5, CreatedAt := testEnv.Now }) :=
  ⟨by with_unfolding_all decide,
    dispatchCycle_computes_value "1+2*3-4/2" 1 testEnv testEnv_UUID_injective 5
      (by with_unfolding_all decide) (by with_unfolding_all decide)
      (by with_unfolding_all decide) _ (by with_unfolding_all decide)
      (by with_unfolding_all decide)⟩

/-- C25.  For each of the six end-to-end scenarios (`2+3` gives 5, `2+3*4` gives 14,
`(2+3)*4` gives 20, `1+2*3-4/2` gives 5, `2+2+(3/3)` gives 5, `2*((3+2)*2)` gives 20): the
expression is created on a fresh manager with distinct ids, and the dispatch cycle with a
worker that computes `getOperationResult`, run for at least as many rounds as the text has
operators, ends with an empty task map and with the expression `COMPLETED` with the expected
result, whatever the order in which each round visits the task map. -/
theorem dispatchCycle_scenarios (p : String × ℚ)
    (hp : p ∈ [("2+3", (5 : ℚ)), ("2+3*4", 14), ("(2+3)*4", 20), ("1+2*3-4/2", 5),
      ("2+2+(3/3)", 5), ("2*((3+2)*2)", 20)])
    (userID : Int) (env : Env) (hinj : Function.Injective env.UUID)
    (orders : List (List String))
    (hcover : ∀ order ∈ orders,
      ∀ q ∈ (CreateExpression NewTaskManager p.1 userID env).1.tasks.entries, q.1 ∈ order)
    (hlen : countType TokenType.Operator (Tokenize NewCalculator p.1).1.tokens ≤
      orders.length) :
    (CreateExpression NewTaskManager p.1 userID env).2 = Except.ok (env.UUID 0) ∧
    (∀ x, (dispatchCycle orders
      (CreateExpression NewTaskManager p.1 userID env).1).tasks.get? x = none) ∧
    (dispatchCycle orders
      (CreateExpression NewTaskManager p.1 userID env).1).expressions.get? (env.UUID 0) =
      some { ID := env.UUID 0, Original := p.1, Status := "COMPLETED", Result := p.2,
             CreatedAt := env.Now } := by
  have key : (Calculate NewCalculator p.1).2 = Except.ok p.2 ∧
      (∃ t ∈ (Tokenize NewCalculator p.1).1.tokens, t.Typ = TokenType.Operator) ∧
      (∀ t ∈ (Tokenize NewCalculator p.1).1.tokens,
        t.Typ = TokenType.Number → ParseFloat t.Value ≠ some 0) := by
    simp only [List.mem_cons, List.mem_singleton, List.not_mem_nil, or_false] at hp
    rcases hp with h | h | h | h | h | h <;> subst h <;> with_unfolding_all decide
  obtain ⟨hv, hop, hnz⟩ := key
  obtain ⟨h1, _, _, _, h8, _⟩ :=
    dispatch_complete p.1 userID env hinj p.2 hv hop True (fun _ => hnz) orders hcover
  obtain ⟨h9, r2, h10, h11⟩ := h8 hlen
  exact ⟨h1, h9, by rw [h10, h11 trivial]⟩

/-- C25 on `2*((3+2)*2)` with ids `u`, `uu`, ... and three rounds, each visiting the task
map in another order. -/
theorem dispatchCycle_scenarios_witness :
    (CreateExpression NewTaskManager "2*((3+2)*2)" 1 testEnv).2 = Except.ok (testEnv.UUID 0) ∧
    (∀ x, (dispatchCycle [["uuuu", "uuu", "uu"], ["uu", "uuuu", "uuu"], ["uuu", "uu", "uuuu"]]
      (CreateExpression NewTaskManager "2*((3+2)*2)" 1 testEnv).1).tasks.get? x = none) ∧
    (dispatchCycle [["uuuu", "uuu", "uu"], ["uu", "uuuu", "uuu"], ["uuu", "uu", "uuuu"]]
      (CreateExpression NewTaskManager "2*((3+2)*2)" 1 testEnv).1).expressions.get?
        (testEnv.UUID 0) =
      some { ID := testEnv.UUID 0, Original := "2*((3+2)*2)", Status := "COMPLETED",
             Result := 20, CreatedAt := testEnv.Now } :=
  dispatchCycle_scenarios ("2*((3+2)*2)", 20) (by simp) 1 testEnv testEnv_UUID_injective
    [["uuuu", "uuu", "uu"], ["uu", "uuuu", "uuu"], ["uuu", "uu", "uuuu"]]
    (by with_unfolding_all decide) (by with_unfolding_all decide)

/-! ## Ownership and liveness of the task lists -/

/-- What a `CreateExpression` with fresh ids does to a reachable state: nothing, or it
installs under the id `env.UUID 0` a header with status `PROCESSING` and a task list that is
not empty, of new ids, each stored in the task map and owned by the expression, with
dependency ids that come earlier in the list; what is stored under other ids is kept. -/
theorem CreateExpression_shape {tm : TaskManager} {seen : Set String}
    {handed : List String} (hinv : Inv tm seen handed) (text : String) (userID : Int)
    (env : Env) (hinj : Function.Injective env.UUID) (hfresh : ∀ k, env.UUID k ∉ seen) :
    (CreateExpression tm text userID env).1 = tm ∨
    ∃ l hdr, l ≠ [] ∧ (∀ t ∈ l, ∃ j, 1 ≤ j ∧ t = env.UUID j) ∧ hdr.Status = "PROCESSING" ∧
      (CreateExpression tm text userID env).1.expressionTasks =
        tm.expressionTasks.set (env.UUID 0) l ∧
      (CreateExpression tm text userID env).1.expressions =
        tm.expressions.set (env.UUID 0) hdr ∧
      (CreateExpression tm text userID env).1.taskResults = tm.taskResults ∧
      (∀ t ∈ l, ((CreateExpression tm text userID env).1.tasks.get? t).isSome = true ∧
        (CreateExpression tm text userID env).1.taskToExpression.get? t =
          some (env.UUID 0)) ∧
      (∀ x, x ∉ l →
        (CreateExpression tm text userID env).1.tasks.get? x = tm.tasks.get? x ∧
        (CreateExpression tm text userID env).1.taskToExpression.get? x =
          tm.taskToExpression.get? x ∧
        (CreateExpression tm text userID env).1.dependsOnTask.get? x =
          tm.dependsOnTask.get? x) ∧
      (∀ pre t post, l = pre ++ t :: post →
        ∀ ds, (CreateExpression tm text userID env).1.dependsOnTask.get? t = some ds →
        ∀ d ∈ ds, d ∈ pre) := by
  cases hc : (Calculate NewCalculator text).2 with
  | error msg =>
    left
    rw [CreateExpression_of_Calculate_error tm text userID env msg hc]
  | ok v =>
    right
    obtain ⟨rpn, hrpn, _, _, hcase⟩ := CreateExpression_plan tm text userID env v hc
    rcases hcase with ⟨tok, htok, hnum⟩ | ⟨hop, _⟩
    · subst htok
      rw [CreateExpression_literal tm text userID env v tok hc hrpn hnum]
      have h01 : env.UUID 1 ≠ env.UUID 0 := fun h => by
        have := hinj h
        omega
      refine ⟨[env.UUID 1], _, by simp, ?_, rfl, rfl, rfl, rfl, ?_, ?_, ?_⟩
      · intro t ht
        rw [List.mem_singleton] at ht
        exact ⟨1, le_refl _, ht⟩
      · intro t ht
        rw [List.mem_singleton] at ht
        subst ht
        exact ⟨by simp [GoMap.get?_set_self], by simp [GoMap.get?_set_self]⟩
      · intro x hx
        rw [List.mem_singleton] at hx
        exact ⟨GoMap.get?_set_of_ne _ _ _ _ hx, GoMap.get?_set_of_ne _ _ _ _ hx, rfl⟩
      · intro pre t post hsplit ds hds
        have ht : t = env.UUID 1 := by
          have hmem : t ∈ [env.UUID 1] := by
            rw [hsplit]
            simp
          simpa using hmem
        subst ht
        simp only at hds
        rw [dependsOnTask_get?_fresh hinv _ (hfresh 1)] at hds
        simp at hds
    · obtain ⟨ns, st, tm2, hplan, _, hne, _, _, hids, heq, e1, e2, e3, _, hnodes, hframe, _⟩ :=
        CreateExpression_installed hinv text userID env hinj hfresh v hc rpn hrpn hop
      rw [heq]
      refine ⟨ns.map PlanNode.id, _, by simpa using hne, ?_, rfl, e1, e2, e3, ?_, hframe, ?_⟩
      · intro t ht
        obtain ⟨n, hn, hnt⟩ := List.mem_map.mp ht
        obtain ⟨j, hj, hnj⟩ := hids n hn
        exact ⟨j, hj, by rw [← hnt, hnj]⟩
      · intro t ht
        obtain ⟨n, hn, hnt⟩ := List.mem_map.mp ht
        subst hnt
        exact ⟨by rw [(hnodes n hn).1]; rfl, (hnodes n hn).2.1⟩
      · intro pre t post hsplit ds hds d hd
        obtain ⟨npre, nrest, h1, h2, h3⟩ := List.map_eq_append_iff.mp hsplit
        obtain ⟨n, npost, h4, h5, _⟩ := List.map_eq_cons_iff.mp h3
        subst h4
        have hn : n ∈ ns := by
          rw [h1]
          simp
        subst h5
        simp only at hds
        rw [(hnodes n hn).2.2] at hds
        have hdeps : ds = n.deps := by
          unfold PlanNode.entry at hds
          split_ifs at hds
          simpa using hds.symm
        subst hdeps
        rw [← h2]
        exact PlanOK_deps_before ns (planLoop_ok env rpn [] 1 [] ns st hplan (by simp)).1
          npre n npost h1 d hd

/-- The two outcomes of `SubmitTaskResult` on the state: the result is recorded and nothing
else changes, which for a task of an expression with a header and a task list that is not
empty means that some task of the list has no result; or the expression of the task is
finished, its header is set to `COMPLETED` and its tasks are cleaned up. -/
theorem SubmitTaskResult_shape (tm : TaskManager) (result : TaskResult) :
    ((SubmitTaskResult tm result).1 =
        { tm with taskResults := tm.taskResults.set result.ID result.Result } ∧
      ∀ e l, tm.taskToExpression.get? result.ID = some e →
        tm.expressionTasks.get? e = some l → (tm.expressions.get? e).isSome = true →
        l ≠ [] →
        ∃ t ∈ l, (tm.taskResults.set result.ID result.Result).get? t = none) ∨
    (∃ e l x r, tm.taskToExpression.get? result.ID = some e ∧
      tm.expressionTasks.get? e = some l ∧ tm.expressions.get? e = some x ∧
      (SubmitTaskResult tm result).1 =
        cleanup
          { tm with
            taskResults := tm.taskResults.set result.ID result.Result
            expressions := tm.expressions.set e { x with Status := "COMPLETED", Result := r } }
          e l) := by
  have h := SubmitTaskResult_spec tm result
  unfold SubmitOutcome at h
  simp only at h
  rcases h with ⟨h1, _, h2⟩ | ⟨e, l, x, rid, h1, h2, _, h3, _, h4⟩
  · left
    refine ⟨h1, ?_⟩
    intro e l he hl hx hne
    rcases h2 with h2 | ⟨e2, he2, h2⟩
    · rw [h2] at he
      simp at he
    · rw [he2] at he
      have hee : e2 = e := by simpa using he
      subst hee
      rcases h2 with h2 | ⟨l2, hl2, h2⟩
      · rw [h2] at hl
        simp at hl
      · rw [hl2] at hl
        have hll : l2 = l := by simpa using hl
        subst hll
        rcases h2 with h2 | h2 | h2
        · rw [List.all_eq_false] at h2
          obtain ⟨t, ht, hnone⟩ := h2
          refine ⟨t, ht, ?_⟩
          cases hg : (tm.taskResults.set result.ID result.Result).get? t with
          | none => rfl
          | some q =>
            rw [hg] at hnone
            simp at hnone
        · rw [h2] at hx
          simp at hx
        · exact absurd h2 hne
  · right
    refine ⟨e, l, x,
      resultOf { tm with taskResults := tm.taskResults.set result.ID result.Result } rid,
      h1, h2, h3, ?_⟩
    rw [h4]
    rfl

/-- The two outcomes of `GetNextTask` on a reachable state and on the list of the ids
handed out: nothing changes, or a task of the map is taken out of the map and added to the
list, and at most its dependency entry is deleted. -/
theorem GetNextTask_shape {tm : TaskManager} {seen : Set String} {handed : List String}
    (hinv : Inv tm seen handed) (order : List String) :
    ((GetNextTask tm order).1 = tm ∧
      (Call.getNext order).handedAfter tm handed = handed) ∨
    ∃ id, (tm.tasks.get? id).isSome = true ∧
      (Call.getNext order).handedAfter tm handed = handed ++ [id] ∧
      (GetNextTask tm order).1.expressions = tm.expressions ∧
      (GetNextTask tm order).1.taskResults = tm.taskResults ∧
      (GetNextTask tm order).1.taskToExpression = tm.taskToExpression ∧
      (GetNextTask tm order).1.expressionTasks = tm.expressionTasks ∧
      (GetNextTask tm order).1.tasks = tm.tasks.del id ∧
      ∀ x ds, (GetNextTask tm order).1.dependsOnTask.get? x = some ds →
        tm.dependsOnTask.get? x = some ds := by
  rcases GetNextTask_spec tm order with ⟨heq, _⟩ | ⟨id, task0, _, hget, _, hres⟩
  · left
    simp [Call.handedAfter, heq]
  · right
    have hid : task0.ID = id := hinv.taskID id task0 hget
    refine ⟨id, by rw [hget]; rfl, ?_⟩
    rcases hres with ⟨_, heq⟩ | ⟨deps, _, _, heq⟩
    · refine ⟨by simp [Call.handedAfter, heq, hid], ?_⟩
      rw [heq]
      exact ⟨rfl, rfl, rfl, rfl, rfl, fun _ _ h => h⟩
    · refine ⟨by simp [Call.handedAfter, heq, substituteArgs_ID, hid], ?_⟩
      rw [heq]
      refine ⟨rfl, rfl, rfl, rfl, rfl, ?_⟩
      intro x ds h
      simp only [GoMap.get?_del] at h
      split_ifs at h
      exact h

/-! ### Ownership -/

theorem OwnerOf_create {tm : TaskManager} {seen : Set String} {handed : List String}
    (hinv : Inv tm seen handed) (hown : OwnerOf tm) (text : String) (userID : Int)
    (env : Env) (hinj : Function.Injective env.UUID) (hfresh : ∀ k, env.UUID k ∉ seen) :
    OwnerOf (CreateExpression tm text userID env).1 := by
  rcases CreateExpression_shape hinv text userID env hinj hfresh with
    heq | ⟨l0, hdr, _, hids, _, e1, _, _, hnodes, hframe, _⟩
  · rw [heq]
    exact hown
  · intro e l hl t ht
    rw [e1, GoMap.get?_set] at hl
    split_ifs at hl with he
    · have hll : l0 = l := by simpa using hl
      subst hll
      rw [he]
      exact (hnodes t ht).2
    · have hts : t ∈ seen := (hinv.keys.expressionTasks e l hl).2 t ht
      have hnot : t ∉ l0 := by
        intro hmem
        obtain ⟨j, _, hj⟩ := hids t hmem
        rw [hj] at hts
        exact hfresh j hts
      rw [(hframe t hnot).2.1]
      exact hown e l hl t ht

theorem OwnerOf_submit {tm : TaskManager} (hown : OwnerOf tm) (result : TaskResult) :
    OwnerOf (SubmitTaskResult tm result).1 := by
  rcases SubmitTaskResult_shape tm result with ⟨heq, _⟩ | ⟨e2, l2, x, r, _, hl2, _, heq⟩
  · rw [heq]
    exact hown
  · intro e l hl t ht
    rw [heq] at hl ⊢
    rw [cleanup_expressionTasks, GoMap.get?_del] at hl
    split_ifs at hl with he
    have hold : tm.expressionTasks.get? e = some l := hl
    rw [cleanup_taskToExpression_get?]
    have hnot : t ∉ l2 := by
      intro hmem
      have h1 := hown e2 l2 hl2 t hmem
      have h2 := hown e l hold t ht
      rw [h1] at h2
      exact he (by simpa using h2.symm)
    rw [if_neg hnot]
    exact hown e l hold t ht

/-- In a reachable state each task id of a task list is recorded as a task of the
expression of the list. -/
theorem Reachable_ownerOf {tm : TaskManager} {seen : Set String} {handed : List String}
    (h : Reachable tm seen handed) : OwnerOf tm := by
  induction h with
  | init =>
    intro e l hl
    simp [NewTaskManager, GoMap.get?_empty] at hl
  | step c hprev hfresh ih =>
    have hinv := Reachable_inv hprev
    cases c with
    | create text userID env => exact OwnerOf_create hinv ih text userID env hfresh.1 hfresh.2
    | getNext order =>
      rcases GetNextTask_shape hinv order with ⟨heq, _⟩ | ⟨id, _, _, _, _, h3, h4, _, _⟩
      · show OwnerOf (GetNextTask _ order).1
        rw [heq]
        exact ih
      · intro e l hl t ht
        show (GetNextTask _ order).1.taskToExpression.get? t = some e
        rw [h3]
        refine ih e l ?_ t ht
        rw [← h4]
        exact hl
    | submit result => exact OwnerOf_submit ih result

/-! ### Liveness -/

theorem ReachableFresh_reachable {tm : TaskManager} {seen : Set String}
    {handed : List String} (h : ReachableFresh tm seen handed) : Reachable tm seen handed := by
  induction h with
  | init => exact Reachable.init
  | step c _ hfresh _ ih => exact Reachable.step c ih hfresh

theorem LiveInv_init : LiveInv NewTaskManager [] where
  pending := by
    intro e x hx
    simp [NewTaskManager, GoMap.get?_empty] at hx
  inMap := by
    intro e l hl
    simp [NewTaskManager, GoMap.get?_empty] at hl
  depsBefore := by
    intro e l hl
    simp [NewTaskManager, GoMap.get?_empty] at hl

theorem LiveInv_create {tm : TaskManager} {seen : Set String} {handed : List String}
    (hinv : Inv tm seen handed) (hlive : LiveInv tm handed) (text : String) (userID : Int)
    (env : Env) (hinj : Function.Injective env.UUID) (hfresh : ∀ k, env.UUID k ∉ seen)
    (hres : ∀ k, tm.taskResults.get? (env.UUID k) = none) :
    LiveInv (CreateExpression tm text userID env).1 handed := by
  rcases CreateExpression_shape hinv text userID env hinj hfresh with
    heq | ⟨l0, hdr, hne, hids, hst, e1, e2, e3, hnodes, hframe, hdeps⟩
  · rw [heq]
    exact hlive
  · have hnot : ∀ e l, tm.expressionTasks.get? e = some l → ∀ t ∈ l, t ∉ l0 := by
      intro e l hl t ht hmem
      have hts : t ∈ seen := (hinv.keys.expressionTasks e l hl).2 t ht
      obtain ⟨j, _, hj⟩ := hids t hmem
      rw [hj] at hts
      exact hfresh j hts
    refine ⟨?_, ?_, ?_⟩
    · intro e x hx hxs
      rw [e2, GoMap.get?_set] at hx
      rw [e1, e3, GoMap.get?_set]
      split_ifs at hx ⊢ with he
      · obtain ⟨t, ht⟩ := List.exists_mem_of_ne_nil l0 hne
        obtain ⟨j, _, hj⟩ := hids t ht
        exact ⟨l0, rfl, t, ht, by rw [hj]; exact hres j⟩
      · exact hlive.pending e x hx hxs
    · intro e l hl t ht hth
      rw [e1, GoMap.get?_set] at hl
      split_ifs at hl with he
      · have hll : l0 = l := by simpa using hl
        subst hll
        exact (hnodes t ht).1
      · rw [(hframe t (hnot e l hl t ht)).1]
        exact hlive.inMap e l hl t ht hth
    · intro e l hl pre t post hsplit ds hds
      rw [e1, GoMap.get?_set] at hl
      split_ifs at hl with he
      · have hll : l0 = l := by simpa using hl
        subst hll
        exact hdeps pre t post hsplit ds hds
      · have ht : t ∈ l := by
          rw [hsplit]
          simp
        rw [(hframe t (hnot e l hl t ht)).2.2] at hds
        exact hlive.depsBefore e l hl pre t post hsplit ds hds

theorem LiveInv_getNext {tm : TaskManager} {seen : Set String} {handed : List String}
    (hinv : Inv tm seen handed) (hlive : LiveInv tm handed) (order : List String) :
    LiveInv (GetNextTask tm order).1 ((Call.getNext order).handedAfter tm handed) := by
  rcases GetNextTask_shape hinv order with
    ⟨heq, hh⟩ | ⟨id, _, hh, h1, h2, _, h4, h5, h6⟩
  · rw [heq, hh]
    exact hlive
  · rw [hh]
    refine ⟨?_, ?_, ?_⟩
    · intro e x hx hxs
      rw [h1] at hx
      rw [h4, h2]
      exact hlive.pending e x hx hxs
    · intro e l hl t ht hth
      rw [h4] at hl
      rw [List.mem_append, List.mem_singleton] at hth
      rw [h5, GoMap.get?_del_of_ne _ _ _ (fun hc => hth (Or.inr hc))]
      exact hlive.inMap e l hl t ht (fun hc => hth (Or.inl hc))
    · intro e l hl pre t post hsplit ds hds
      rw [h4] at hl
      exact hlive.depsBefore e l hl pre t post hsplit ds (h6 t ds hds)

theorem LiveInv_submit {tm : TaskManager} {handed : List String} (hown : OwnerOf tm)
    (hlive : LiveInv tm handed) (result : TaskResult) :
    LiveInv (SubmitTaskResult tm result).1 handed := by
  have hne : ("COMPLETED" : String) ≠ "PROCESSING" := by decide
  rcases SubmitTaskResult_shape tm result with
    ⟨heq, hsome⟩ | ⟨e2, l2, x2, r, hte, hl2, _, heq⟩
  · rw [heq]
    refine ⟨?_, hlive.inMap, hlive.depsBefore⟩
    intro e x hx hxs
    obtain ⟨l, hl, t, ht, hnone⟩ := hlive.pending e x hx hxs
    refine ⟨l, hl, ?_⟩
    by_cases hte : tm.taskToExpression.get? result.ID = some e
    · exact hsome e l hte hl (by
        have hx2 : tm.expressions.get? e = some x := hx
        rw [hx2]
        rfl) (List.ne_nil_of_mem ht)
    · refine ⟨t, ht, ?_⟩
      have htne : t ≠ result.ID := by
        intro hc
        rw [← hc] at hte
        exact hte (hown e l hl t ht)
      show (tm.taskResults.set result.ID result.Result).get? t = none
      rw [GoMap.get?_set_of_ne _ _ _ _ htne]
      exact hnone
  · have hdisj : ∀ e l, e ≠ e2 → tm.expressionTasks.get? e = some l → ∀ t ∈ l, t ∉ l2 := by
      intro e l he hl t ht hmem
      have h1 := hown e2 l2 hl2 t hmem
      have h2 := hown e l hl t ht
      rw [h1] at h2
      exact he (by simpa using h2.symm)
    rw [heq]
    refine ⟨?_, ?_, ?_⟩
    · intro e x hx hxs
      rw [cleanup_expressions] at hx
      simp only at hx
      rw [GoMap.get?_set] at hx
      split_ifs at hx with he
      · have hxx : x = { x2 with Status := "COMPLETED", Result := r } := by simpa using hx.symm
        rw [hxx] at hxs
        exact absurd hxs hne
      · obtain ⟨l, hl, t, ht, hnone⟩ := hlive.pending e x hx hxs
        refine ⟨l, ?_, t, ht, ?_⟩
        · rw [cleanup_expressionTasks]
          exact (GoMap.get?_del_of_ne _ _ _ he).trans hl
        · rw [cleanup_taskResults_get?, if_neg (hdisj e l he hl t ht)]
          have htne : t ≠ result.ID := by
            intro hc
            have h1 := hown e l hl t ht
            rw [hc, hte] at h1
            exact he (by simpa using h1.symm)
          show (tm.taskResults.set result.ID result.Result).get? t = none
          rw [GoMap.get?_set_of_ne _ _ _ _ htne]
          exact hnone
    · intro e l hl t ht hth
      rw [cleanup_expressionTasks, GoMap.get?_del] at hl
      split_ifs at hl with he
      rw [cleanup_tasks_get?, if_neg (hdisj e l he hl t ht)]
      exact hlive.inMap e l hl t ht hth
    · intro e l hl pre t post hsplit ds hds
      rw [cleanup_expressionTasks, GoMap.get?_del] at hl
      split_ifs at hl with he
      rw [cleanup_dependsOnTask_get?] at hds
      split_ifs at hds
      exact hlive.depsBefore e l hl pre t post hsplit ds hds

/-- The liveness invariant holds in every state reached with fresh ids. -/
theorem ReachableFresh_live {tm : TaskManager} {seen : Set String} {handed : List String}
    (h : ReachableFresh tm seen handed) : LiveInv tm handed := by
  induction h with
  | init => exact LiveInv_init
  | step c hprev hfresh hres ih =>
    have hreach := ReachableFresh_reachable hprev
    have hinv := Reachable_inv hreach
    cases c with
    | create text userID env =>
      exact LiveInv_create hinv ih text userID env hfresh.1 hfresh.2 hres
    | getNext order => exact LiveInv_getNext hinv ih order
    | submit result => exact LiveInv_submit (Reachable_ownerOf hreach) ih result

/-- The first element of a list with a property. -/
theorem exists_first_with {α : Type} (p : α → Prop) (l : List α) (h : ∃ a ∈ l, p a) :
    ∃ pre a post, l = pre ++ a :: post ∧ p a ∧ ∀ b ∈ pre, ¬ p b := by
  induction l with
  | nil =>
    obtain ⟨a, ha, _⟩ := h
    simp at ha
  | cons c l ih =>
    by_cases hc : p c
    · exact ⟨[], c, l, rfl, hc, by simp⟩
    · obtain ⟨a, ha, hpa⟩ := h
      have ha2 : a ∈ l := by
        rcases List.mem_cons.mp ha with ha | ha
        · subst ha
          exact absurd hpa hc
        · exact ha
      obtain ⟨pre, b, post, h1, h2, h3⟩ := ih ⟨a, ha2, hpa⟩
      refine ⟨c :: pre, b, post, by rw [h1]; rfl, h2, ?_⟩
      intro w hw
      rcases List.mem_cons.mp hw with hw | hw
      · subst hw
        exact hc
      · exact h3 w hw

/-- In a state reached with fresh ids, an expression that is `PROCESSING` and whose tasks
handed out all have a result has a task in the task map that is ready: the first task of its
list without a result. -/
theorem ready_task_exists {tm : TaskManager} {seen : Set String} {handed : List String}
    (h : ReachableFresh tm seen handed) (e : String) (x : Expression)
    (hx : tm.expressions.get? e = some x) (hxs : x.Status = "PROCESSING")
    (hh : ∀ t ∈ handed, tm.taskToExpression.get? t = some e →
      (tm.taskResults.get? t).isSome = true) :
    ∃ l t, tm.expressionTasks.get? e = some l ∧ t ∈ l ∧
      tm.taskToExpression.get? t = some e ∧ tm.taskResults.get? t = none ∧
      (tm.tasks.get? t).isSome = true ∧ isReady tm t = true := by
  have hlive := ReachableFresh_live h
  have hown := Reachable_ownerOf (ReachableFresh_reachable h)
  obtain ⟨l, hl, t0, ht0, hnone0⟩ := hlive.pending e x hx hxs
  obtain ⟨pre, t, post, hsplit, hnone, hpre⟩ :=
    exists_first_with (fun t => tm.taskResults.get? t = none) l ⟨t0, ht0, hnone0⟩
  have ht : t ∈ l := by
    rw [hsplit]
    simp
  have howner := hown e l hl t ht
  have hnh : t ∉ handed := by
    intro hc
    have := hh t hc howner
    rw [hnone] at this
    simp at this
  refine ⟨l, t, hl, ht, howner, hnone, hlive.inMap e l hl t ht hnh, ?_⟩
  unfold isReady
  cases hd : tm.dependsOnTask.get? t with
  | none => rfl
  | some ds =>
    simp only [List.all_eq_true]
    intro d hdmem
    have hdpre := hlive.depsBefore e l hl pre t post hsplit ds hd d hdmem
    have := hpre d hdpre
    cases hr : tm.taskResults.get? d with
    | none => exact absurd hr this
    | some q => rfl

theorem testEnv2_UUID_injective : Function.Injective testEnv2.UUID := by
  intro a b hab
  have hlen := congrArg String.length hab
  simpa [testEnv2, String.length] using hlen

theorem testEnv2_UUID_fresh (k : Nat) :
    testEnv2.UUID k ∉ (∅ : Set String) ∪ Set.range testEnv.UUID := by
  rintro (h | ⟨j, hj⟩)
  · exact h
  · have := congrArg String.data hj
    simp [testEnv, testEnv2, List.replicate_succ] at this

/-- The state after two creations, with the ids of `testEnv` and of `testEnv2`, followed by
calls of `GetNextTask` and `SubmitTaskResult`, is reachable. -/
theorem Reachable_replay_two (text1 text2 : String) (userID1 userID2 : Int)
    (rest : List Call) (hrest : ∀ c ∈ rest, c.isCreate = false) :
    Reachable
      (replay (Call.create text1 userID1 testEnv :: Call.create text2 userID2 testEnv2 ::
        rest)).1
      (replay (Call.create text1 userID1 testEnv :: Call.create text2 userID2 testEnv2 ::
        rest)).2.1
      (replay (Call.create text1 userID1 testEnv :: Call.create text2 userID2 testEnv2 ::
        rest)).2.2 := by
  have h1 : Reachable (replay [Call.create text1 userID1 testEnv]).1
      (replay [Call.create text1 userID1 testEnv]).2.1
      (replay [Call.create text1 userID1 testEnv]).2.2 :=
    Reachable.step (Call.create text1 userID1 testEnv) Reachable.init
      ⟨testEnv_UUID_injective, fun _ h => h⟩
  have h2 := Reachable.step (Call.create text2 userID2 testEnv2) h1
    ⟨testEnv2_UUID_injective, testEnv2_UUID_fresh⟩
  exact Reachable_replay_rest rest hrest
    [Call.create text1 userID1 testEnv, Call.create text2 userID2 testEnv2] h2

/-- C26.  In a reachable state let `SubmitTaskResult` complete the expression `e`: its
header is `PROCESSING` before the call and `COMPLETED` after it.  Then `e` has a task list
`l` before the call, whose ids are the ids recorded as tasks of `e`, the task answered among
them; after the call no id of `l` has an entry in `tasks`, `taskResults`, `taskToExpression`
or `dependsOnTask`, and `expressionTasks` has no entry for `e`; the header and the task list
of every other expression are unchanged, and so is the entry of each of the four maps under
every id that is not a task of `e`. -/
theorem SubmitTaskResult_completion_cleanup {tm : TaskManager} {seen : Set String}
    {handed : List String} (h : Reachable tm seen handed) (result : TaskResult) (e : String)
    (x y : Expression) (hx : tm.expressions.get? e = some x) (hxs : x.Status = "PROCESSING")
    (hy : (SubmitTaskResult tm result).1.expressions.get? e = some y)
    (hys : y.Status = "COMPLETED") :
    ∃ l, tm.expressionTasks.get? e = some l ∧ result.ID ∈ l ∧
      (∀ t, tm.taskToExpression.get? t = some e ↔ t ∈ l) ∧
      (∀ t ∈ l,
        (SubmitTaskResult tm result).1.tasks.get? t = none ∧
        (SubmitTaskResult tm result).1.taskResults.get? t = none ∧
        (SubmitTaskResult tm result).1.taskToExpression.get? t = none ∧
        (SubmitTaskResult tm result).1.dependsOnTask.get? t = none) ∧
      (SubmitTaskResult tm result).1.expressionTasks.get? e = none ∧
      (∀ e2, e2 ≠ e →
        (SubmitTaskResult tm result).1.expressions.get? e2 = tm.expressions.get? e2 ∧
        (SubmitTaskResult tm result).1.expressionTasks.get? e2 =
          tm.expressionTasks.get? e2) ∧
      (∀ t, t ∉ l →
        (SubmitTaskResult tm result).1.tasks.get? t = tm.tasks.get? t ∧
        (SubmitTaskResult tm result).1.taskResults.get? t = tm.taskResults.get? t ∧
        (SubmitTaskResult tm result).1.taskToExpression.get? t =
          tm.taskToExpression.get? t ∧
        (SubmitTaskResult tm result).1.dependsOnTask.get? t = tm.dependsOnTask.get? t) := by
  have hinv := Reachable_inv h
  have hown := Reachable_ownerOf h
  have hne : ("PROCESSING" : String) ≠ "COMPLETED" := by decide
  rcases SubmitTaskResult_shape tm result with ⟨heq, _⟩ | ⟨e2, l, x2, r, hte, hl, _, heq⟩
  · rw [heq] at hy
    simp only at hy
    rw [hx] at hy
    have hxy : x = y := by simpa using hy
    rw [← hxy, hxs] at hys
    exact absurd hys hne
  · have hee : e = e2 := by
      by_contra hcon
      rw [heq, cleanup_expressions] at hy
      simp only at hy
      rw [GoMap.get?_set_of_ne _ _ _ _ hcon, hx] at hy
      have hxy : x = y := by simpa using hy
      rw [← hxy, hxs] at hys
      exact absurd hys hne
    subst hee
    have hmem : result.ID ∈ l := by
      obtain ⟨l2, hl2, hin, _⟩ := hinv.owner result.ID e hte
      rw [hl] at hl2
      have hll : l = l2 := by simpa using hl2
      rw [hll]
      exact hin
    refine ⟨l, hl, hmem, ?_, ?_, ?_, ?_, ?_⟩
    · intro t
      constructor
      · intro ht
        obtain ⟨l2, hl2, hin, _⟩ := hinv.owner t e ht
        rw [hl] at hl2
        have hll : l = l2 := by simpa using hl2
        rw [hll]
        exact hin
      · exact hown e l hl t
    · intro t ht
      rw [heq]
      exact ⟨by rw [cleanup_tasks_get?, if_pos ht],
        by rw [cleanup_taskResults_get?, if_pos ht],
        by rw [cleanup_taskToExpression_get?, if_pos ht],
        by rw [cleanup_dependsOnTask_get?, if_pos ht]⟩
    · rw [heq, cleanup_expressionTasks]
      exact GoMap.get?_del_self _ _
    · intro e3 he3
      rw [heq, cleanup_expressions, cleanup_expressionTasks]
      exact ⟨GoMap.get?_set_of_ne _ _ _ _ he3, GoMap.get?_del_of_ne _ _ _ he3⟩
    · intro t ht
      have hne2 : t ≠ result.ID := fun hc => ht (by rw [hc]; exact hmem)
      rw [heq]
      refine ⟨by rw [cleanup_tasks_get?, if_neg ht],
        ?_, by rw [cleanup_taskToExpression_get?, if_neg ht],
        by rw [cleanup_dependsOnTask_get?, if_neg ht]⟩
      rw [cleanup_taskResults_get?, if_neg ht]
      exact GoMap.get?_set_of_ne _ _ _ _ hne2

/-- C26 on the session `twoExpressionCalls`: the answer 5 for the task `uu` completes the
expression `u`; its task is cleaned up and the expression `v` keeps its header, its task
list and its task `vv`. -/
theorem SubmitTaskResult_completion_cleanup_witness :
    ((SubmitTaskResult (replay twoExpressionCalls).1 { ID := "uu", Result := 5 }).1.tasks.entries.map
        Prod.fst = ["vv"] ∧
      (SubmitTaskResult (replay twoExpressionCalls).1
        { ID := "uu", Result := 5 }).1.taskResults.entries = [] ∧
      (SubmitTaskResult (replay twoExpressionCalls).1
        { ID := "uu", Result := 5 }).1.taskToExpression.entries = [("vv", "v")] ∧
      (SubmitTaskResult (replay twoExpressionCalls).1
        { ID := "uu", Result := 5 }).1.expressionTasks.entries = [("v", ["vv"])]) ∧
    ∃ l, (replay twoExpressionCalls).1.expressionTasks.get? "u" = some l ∧ "uu" ∈ l ∧
      (∀ t, (replay twoExpressionCalls).1.taskToExpression.get? t = some "u" ↔ t ∈ l) ∧
      (∀ t ∈ l,
        (SubmitTaskResult (replay twoExpressionCalls).1
          { ID := "uu", Result := 5 }).1.tasks.get? t = none ∧
        (SubmitTaskResult (replay twoExpressionCalls).1
          { ID := "uu", Result := 5 }).1.taskResults.get? t = none ∧
        (SubmitTaskResult (replay twoExpressionCalls).1
          { ID := "uu", Result := 5 }).1.taskToExpression.get? t = none ∧
        (SubmitTaskResult (replay twoExpressionCalls).1
          { ID := "uu", Result := 5 }).1.dependsOnTask.get? t = none) ∧
      (SubmitTaskResult (replay twoExpressionCalls).1
        { ID := "uu", Result := 5 }).1.expressionTasks.get? "u" = none ∧
      (∀ e2, e2 ≠ "u" →
        (SubmitTaskResult (replay twoExpressionCalls).1
          { ID := "uu", Result := 5 }).1.expressions.get? e2 =
          (replay twoExpressionCalls).1.expressions.get? e2 ∧
        (SubmitTaskResult (replay twoExpressionCalls).1
          { ID := "uu", Result := 5 }).1.expressionTasks.get? e2 =
          (replay twoExpressionCalls).1.expressionTasks.get? e2) ∧
      (∀ t, t ∉ l →
        (SubmitTaskResult (replay twoExpressionCalls).1
          { ID := "uu", Result := 5 }).1.tasks.get? t =
          (replay twoExpressionCalls).1.tasks.get? t ∧
        (SubmitTaskResult (replay twoExpressionCalls).1
          { ID := "uu", Result := 5 }).1.taskResults.get? t =
          (replay twoExpressionCalls).1.taskResults.get? t ∧
        (SubmitTaskResult (replay twoExpressionCalls).1
          { ID := "uu", Result := 5 }).1.taskToExpression.get? t =
          (replay twoExpressionCalls).1.taskToExpression.get? t ∧
        (SubmitTaskResult (replay twoExpressionCalls).1
          { ID := "uu", Result := 5 }).1.dependsOnTask.get? t =
          (replay twoExpressionCalls).1.dependsOnTask.get? t) :=
  ⟨by with_unfolding_all decide,
    SubmitTaskResult_completion_cleanup
      (Reachable_replay_two "2+3" "4*5" 1 2 [Call.getNext ["uu", "vv"]]
        (by simp [Call.isCreate]))
      { ID := "uu", Result := 5 } "u"
      { ID := "u", Original := "2+3", Status := "PROCESSING", Result := 0,
        CreatedAt := testEnv.Now }
      { ID := "u", Original := "2+3", Status := "COMPLETED", Result := 5,
        CreatedAt := testEnv.Now }
      (by with_unfolding_all decide) rfl (by with_unfolding_all decide) rfl⟩

/-- One round on a manager that holds a single task without dependency entry, the only task
of its expression: the round hands it out and finishes the expression, and later rounds find
nothing. -/
theorem single_task_rounds (tm0 : TaskManager) (e0 t1 : String) (task1 : Task)
    (hdr : Expression) (htasks : tm0.tasks = GoMap.empty.set t1 task1) (hid : task1.ID = t1)
    (hdeps : tm0.dependsOnTask = GoMap.empty)
    (hown : tm0.taskToExpression.get? t1 = some e0)
    (hlist : tm0.expressionTasks.get? e0 = some [t1])
    (hexpr : tm0.expressions.get? e0 = some hdr)
    (order : List String) (ht1 : t1 ∈ order) (rest : List (List String)) :
    (dispatchLog (order :: rest) tm0).length = 1 ∧
    (∀ x, (dispatchCycle (order :: rest) tm0).tasks.get? x = none) ∧
    ∃ y, (dispatchCycle (order :: rest) tm0).expressions.get? e0 = some y ∧
      y.Status = "COMPLETED" := by
  have hget1 : tm0.tasks.get? t1 = some task1 := by rw [htasks, GoMap.get?_set_self]
  have hdnone : ∀ id, tm0.dependsOnTask.get? id = none := by
    intro id
    rw [hdeps, GoMap.get?_empty]
  have heq : GetNextTask tm0 order = ({ tm0 with tasks := tm0.tasks.del t1 }, task1, true) := by
    rcases GetNextTask_spec tm0 order with ⟨_, hnone⟩ | ⟨id, task0, _, hget, _, hres⟩
    · have := hnone t1 ht1 (by rw [hget1]; rfl)
      simp [isReady, hdnone] at this
    · rw [htasks, GoMap.get?_set] at hget
      split_ifs at hget with hc
      · subst hc
        have htt : task1 = task0 := by simpa using hget
        subst htt
        rcases hres with ⟨_, heq⟩ | ⟨deps, _, hd, _⟩
        · exact heq
        · rw [hdnone] at hd
          simp at hd
      · rw [GoMap.get?_empty] at hget
        simp at hget
  have hfin := SubmitTaskResult_finished { tm0 with tasks := tm0.tasks.del t1 }
    { ID := task1.ID, Result := getOperationResult task1.Operation task1.Arg1 task1.Arg2 }
    e0 [t1] hdr t1 (by rw [hid]; exact hown) hlist
    (by simp [hid, GoMap.get?_set_self]) hexpr rfl
    (by
      intro p hp
      simp [hdeps, GoMap.empty, GoMap.entries] at hp)
  have hstate : (SubmitTaskResult { tm0 with tasks := tm0.tasks.del t1 }
      { ID := task1.ID,
        Result := getOperationResult task1.Operation task1.Arg1 task1.Arg2 }).1 =
      (finishExpression
        { tm0 with
          tasks := tm0.tasks.del t1
          taskResults := tm0.taskResults.set task1.ID
            (getOperationResult task1.Operation task1.Arg1 task1.Arg2) }
        e0 hdr [t1] t1).1 := by rw [hfin]
  have hempty : ∀ x, (SubmitTaskResult { tm0 with tasks := tm0.tasks.del t1 }
      { ID := task1.ID,
        Result := getOperationResult task1.Operation task1.Arg1 task1.Arg2 }).1.tasks.get? x =
      none := by
    intro x
    rw [hstate]
    show (cleanup _ e0 [t1]).tasks.get? x = none
    rw [cleanup_tasks_get?]
    split_ifs with hx
    · rfl
    · have hxne : x ≠ t1 := fun hc => hx (by simp [hc])
      show (tm0.tasks.del t1).get? x = none
      rw [GoMap.get?_del_of_ne _ _ _ hxne, htasks, GoMap.get?_set_of_ne _ _ _ _ hxne,
        GoMap.get?_empty]
  have hdone : ∃ y, (SubmitTaskResult { tm0 with tasks := tm0.tasks.del t1 }
      { ID := task1.ID,
        Result :=
          getOperationResult task1.Operation task1.Arg1 task1.Arg2 }).1.expressions.get? e0 =
      some y ∧ y.Status = "COMPLETED" := by
    have key : ∀ tmx : TaskManager,
        (finishExpression tmx e0 hdr [t1] t1).1.expressions.get? e0 =
          some { hdr with Status := "COMPLETED", Result := resultOf tmx t1 } := by
      intro tmx
      show (cleanup _ e0 [t1]).expressions.get? e0 = _
      rw [cleanup_expressions]
      exact GoMap.get?_set_self _ _ _
    rw [hstate]
    exact ⟨_, key _, rfl⟩
  obtain ⟨c1, c2⟩ := dispatchCycle_no_tasks _ hempty rest
  have hlog : dispatchLog (order :: rest) tm0 =
      task1 :: dispatchLog rest
        (SubmitTaskResult { tm0 with tasks := tm0.tasks.del t1 }
          { ID := task1.ID,
            Result := getOperationResult task1.Operation task1.Arg1 task1.Arg2 }).1 := by
    simp [dispatchLog, heq]
  have hcyc : dispatchCycle (order :: rest) tm0 =
      dispatchCycle rest
        (SubmitTaskResult { tm0 with tasks := tm0.tasks.del t1 }
          { ID := task1.ID,
            Result := getOperationResult task1.Operation task1.Arg1 task1.Arg2 }).1 := by
    simp [dispatchCycle, workerRound, heq]
  rw [hlog, hcyc, c1, c2]
  exact ⟨rfl, hempty, hdone⟩

/-- The dispatch cycle on a fresh manager for a text accepted by `Calculate` that holds no
operator: the expression is `PROCESSING` after the creation, and a cycle of at least one
round hands out one task, the single task of the expression, and ends with an empty task map
and the expression `COMPLETED`. -/
theorem dispatch_literal (text : String) (userID : Int) (env : Env)
    (hinj : Function.Injective env.UUID) (v : ℚ)
    (hv : (Calculate NewCalculator text).2 = Except.ok v)
    (hlit : ∀ t ∈ (Tokenize NewCalculator text).1.tokens, t.Typ ≠ TokenType.Operator)
    (orders : List (List String))
    (hcover : ∀ order ∈ orders,
      ∀ p ∈ (CreateExpression NewTaskManager text userID env).1.tasks.entries, p.1 ∈ order) :
    (CreateExpression NewTaskManager text userID env).2 = Except.ok (env.UUID 0) ∧
    (∃ x, (CreateExpression NewTaskManager text userID env).1.expressions.get? (env.UUID 0) =
        some x ∧ x.Status = "PROCESSING") ∧
    (orders ≠ [] →
      (dispatchLog orders (CreateExpression NewTaskManager text userID env).1).length = 1 ∧
      (∀ x, (dispatchCycle orders
        (CreateExpression NewTaskManager text userID env).1).tasks.get? x = none) ∧
      ∃ y, (dispatchCycle orders
          (CreateExpression NewTaskManager text userID env).1).expressions.get? (env.UUID 0) =
          some y ∧ y.Status = "COMPLETED") := by
  obtain ⟨rpn, hrpn, _, _, hcase⟩ := CreateExpression_plan NewTaskManager text userID env v hv
  rcases hcase with ⟨tok, htok, hnum⟩ | ⟨⟨t, ht, hty⟩, _⟩
  swap
  · exact absurd hty (hlit t (ToRPN_mem _ rpn hrpn t ht))
  subst htok
  have heq := CreateExpression_literal NewTaskManager text userID env v tok hv hrpn hnum
  have h01 : env.UUID 1 ≠ env.UUID 0 := fun h => by
    have := hinj h
    omega
  generalize CreateExpression NewTaskManager text userID env = res at heq hcover ⊢
  subst heq
  simp only at hcover ⊢
  refine ⟨trivial, ⟨_, GoMap.get?_set_self _ _ _, rfl⟩, ?_⟩
  intro hne
  cases orders with
  | nil => exact absurd rfl hne
  | cons order rest =>
    have ht1 : env.UUID 1 ∈ order :=
      hcover order (List.mem_cons_self _ _) (env.UUID 1, _)
        (GoMap.mem_of_get? _ _ _ (GoMap.get?_set_self _ _ _))
    exact single_task_rounds _ (env.UUID 0) (env.UUID 1) _ _ rfl rfl rfl
      (GoMap.get?_set_self _ _ _) (GoMap.get?_set_self _ _ _) (GoMap.get?_set_self _ _ _)
      order ht1 rest

/-- C30 (the claim fails on the code): the text `7` holds no operator, yet its expression is
still `PROCESSING` after the creation and is `COMPLETED` only after a round that fetches and
answers its single task, one round and not zero.  And when a result was submitted under an id
before `CreateExpression` gives that id to a task (session `earlyResultCalls`, which is
reachable), the expression `u` is `PROCESSING`, its only task `uu` was handed out and has a
result, and the task map is empty, so `GetNextTask` finds nothing. -/
theorem dispatchCycle_literal_round_counterexample :
    (countType TokenType.Operator (Tokenize NewCalculator "7").1.tokens = 0 ∧
      (CreateExpression NewTaskManager "7" 1 testEnv).2 = Except.ok "u" ∧
      ((dispatchCycle [] (CreateExpression NewTaskManager "7" 1 testEnv).1).expressions.get?
        "u").map Expression.Status = some "PROCESSING" ∧
      (dispatchLog [["uu"]] (CreateExpression NewTaskManager "7" 1 testEnv).1).length = 1 ∧
      ((dispatchCycle [["uu"]]
        (CreateExpression NewTaskManager "7" 1 testEnv).1).expressions.get? "u").map
        Expression.Status = some "COMPLETED") ∧
    (Reachable (replay earlyResultCalls).1 (replay earlyResultCalls).2.1
        (replay earlyResultCalls).2.2 ∧
      ((replay earlyResultCalls).1.expressions.get? "u").map Expression.Status =
        some "PROCESSING" ∧
      (replay earlyResultCalls).1.expressionTasks.get? "u" = some ["uu"] ∧
      (replay earlyResultCalls).2.2 = ["uu"] ∧
      (replay earlyResultCalls).1.taskResults.get? "uu" = some 9 ∧
      (replay earlyResultCalls).1.tasks.entries = [] ∧
      (GetNextTask (replay earlyResultCalls).1 ["uu"]).2.2 = false) := by
  refine ⟨by with_unfolding_all decide, ?_, by with_unfolding_all decide⟩
  have h1 := Reachable.step (Call.submit { ID := "uu", Result := 9 }) Reachable.init trivial
  have h2 := Reachable.step (Call.create "2+3" 1 testEnv) h1
    ⟨testEnv_UUID_injective, fun _ h => h⟩
  exact Reachable.step (Call.getNext ["uu"]) h2 trivial

/-- C30 as amended.  No dispatch deadlock: in every state reachable from an empty manager
by `CreateExpression`, `GetNextTask` and `SubmitTaskResult`, the ids minted by a creation
being new also among the ids of the results received, an expression that is `PROCESSING` and
whose tasks handed out all have a result has a task in the task map that is ready, and every
`GetNextTask` that visits this task returns a task.  Consequently, on a fresh manager, a
single worker that answers every task it receives completes an expression accepted by
`Calculate` with `n ≥ 1` operators after exactly `n` fetch-and-submit rounds (each round
hands out a task, the expression is `PROCESSING` before the `n`-th answer and `COMPLETED`
with an empty task map after it), and an expression without operator after exactly one
round. -/
theorem dispatch_never_deadlocks :
    (∀ (tm : TaskManager) (seen : Set String) (handed : List String),
      ReachableFresh tm seen handed →
      ∀ (e : String) (x : Expression), tm.expressions.get? e = some x →
        x.Status = "PROCESSING" →
        (∀ t ∈ handed, tm.taskToExpression.get? t = some e →
          (tm.taskResults.get? t).isSome = true) →
        ∃ t, tm.taskToExpression.get? t = some e ∧ (tm.tasks.get? t).isSome = true ∧
          isReady tm t = true ∧
          ∀ order, t ∈ order → (GetNextTask tm order).2.2 = true) ∧
    (∀ (text : String) (userID : Int) (env : Env), Function.Injective env.UUID →
      ∀ v, (Calculate NewCalculator text).2 = Except.ok v →
      ∀ orders : List (List String),
        (∀ order ∈ orders,
          ∀ p ∈ (CreateExpression NewTaskManager text userID env).1.tasks.entries,
            p.1 ∈ order) →
        (CreateExpression NewTaskManager text userID env).2 = Except.ok (env.UUID 0) ∧
        ((∃ t ∈ (Tokenize NewCalculator text).1.tokens, t.Typ = TokenType.Operator) →
          (dispatchLog orders (CreateExpression NewTaskManager text userID env).1).length =
            min orders.length
              (countType TokenType.Operator (Tokenize NewCalculator text).1.tokens) ∧
          (orders.length <
              countType TokenType.Operator (Tokenize NewCalculator text).1.tokens →
            ∃ y, (dispatchCycle orders
                (CreateExpression NewTaskManager text userID env).1).expressions.get?
                (env.UUID 0) = some y ∧ y.Status = "PROCESSING") ∧
          (countType TokenType.Operator (Tokenize NewCalculator text).1.tokens ≤
              orders.length →
            (∀ x, (dispatchCycle orders
              (CreateExpression NewTaskManager text userID env).1).tasks.get? x = none) ∧
            ∃ y, (dispatchCycle orders
                (CreateExpression NewTaskManager text userID env).1).expressions.get?
                (env.UUID 0) = some y ∧ y.Status = "COMPLETED")) ∧
        ((∀ t ∈ (Tokenize NewCalculator text).1.tokens, t.Typ ≠ TokenType.Operator) →
          (∃ y, (dispatchCycle []
              (CreateExpression NewTaskManager text userID env).1).expressions.get?
              (env.UUID 0) = some y ∧ y.Status = "PROCESSING") ∧
          (orders ≠ [] →
            (dispatchLog orders
              (CreateExpression NewTaskManager text userID env).1).length = 1 ∧
            (∀ x, (dispatchCycle orders
              (CreateExpression NewTaskManager text userID env).1).tasks.get? x = none) ∧
            ∃ y, (dispatchCycle orders
                (CreateExpression NewTaskManager text userID env).1).expressions.get?
                (env.UUID 0) = some y ∧ y.Status = "COMPLETED"))) := by
  constructor
  · intro tm seen handed h e x hx hxs hh
    obtain ⟨l, t, _, _, howner, _, hsome, hready⟩ := ready_task_exists h e x hx hxs hh
    exact ⟨t, howner, hsome, hready,
      fun order ht => GetNextTask_found_of_ready tm order t ht hsome hready⟩
  · intro text userID env hinj v hv orders hcover
    refine ⟨?_, ?_, ?_⟩
    · exact (CreateExpression_ok_of_Calculate NewTaskManager text userID env v hv).2.2
    · intro hop
      obtain ⟨_, h2, _, _, h5, h6⟩ :=
        dispatch_complete text userID env hinj v hv hop False (fun hf => hf.elim) orders hcover
      refine ⟨h2, fun hlt => ⟨_, h6 hlt, rfl⟩, fun hle => ?_⟩
      obtain ⟨c1, r2, c2, _⟩ := h5 hle
      exact ⟨c1, _, c2, rfl⟩
    · intro hlit
      obtain ⟨_, h2, h3⟩ := dispatch_literal text userID env hinj v hv hlit orders hcover
      exact ⟨h2, h3⟩

/-- C30 as amended, on the session `halfDoneCalls` (the task `1+6` of `1+2*3` is in the
task map and ready once `2*3` is answered), on `1+2*3` with two rounds and on `7` with one
round. -/
theorem dispatch_never_deadlocks_witness :
    (∃ t, (replay halfDoneCalls).1.taskToExpression.get? t = some "u" ∧
      ((replay halfDoneCalls).1.tasks.get? t).isSome = true ∧
      isReady (replay halfDoneCalls).1 t = true ∧
      ∀ order, t ∈ order → (GetNextTask (replay halfDoneCalls).1 order).2.2 = true) ∧
    ((dispatchLog [["uuu", "uu"], ["uuu", "uu"]]
        (CreateExpression NewTaskManager "1+2*3" 1 testEnv).1).length = 2 ∧
      ∃ y, (dispatchCycle [["uuu", "uu"], ["uuu", "uu"]]
          (CreateExpression NewTaskManager "1+2*3" 1 testEnv).1).expressions.get?
          (testEnv.UUID 0) = some y ∧ y.Status = "COMPLETED") ∧
    ((dispatchLog [["uu"]] (CreateExpression NewTaskManager "7" 1 testEnv).1).length = 1 ∧
      ∃ y, (dispatchCycle [["uu"]]
          (CreateExpression NewTaskManager "7" 1 testEnv).1).expressions.get?
          (testEnv.UUID 0) = some y ∧ y.Status = "COMPLETED") := by
  have hfresh : ReachableFresh (replay halfDoneCalls).1 (replay halfDoneCalls).2.1
      (replay halfDoneCalls).2.2 := by
    have h1 := ReachableFresh.step (Call.create "1+2*3" 1 testEnv) ReachableFresh.init
      ⟨testEnv_UUID_injective, fun _ h => h⟩ (fun _ => rfl)
    have h2 := ReachableFresh.step (Call.getNext ["uu", "uuu"]) h1 trivial trivial
    exact ReachableFresh.step (Call.submit { ID := "uu", Result := 6 }) h2 trivial trivial
  refine ⟨?_, ?_, ?_⟩
  · exact dispatch_never_deadlocks.1 _ _ _ hfresh "u"
      { ID := "u", Original := "1+2*3", Status := "PROCESSING", Result := 0,
        CreatedAt := testEnv.Now }
      (by with_unfolding_all decide) rfl (by with_unfolding_all decide)
  · have h := (dispatch_never_deadlocks.2 "1+2*3" 1 testEnv testEnv_UUID_injective 7
      (by with_unfolding_all decide) [["uuu", "uu"], ["uuu", "uu"]]
      (by with_unfolding_all decide)).2.1 (by with_unfolding_all decide)
    exact ⟨h.1, (h.2.2 (by with_unfolding_all decide)).2⟩
  · have h := ((dispatch_never_deadlocks.2 "7" 1 testEnv testEnv_UUID_injective 7
      (by with_unfolding_all decide) [["uu"]]
      (by with_unfolding_all decide)).2.2 (by with_unfolding_all decide)).2 (by simp)
    exact ⟨h.1, h.2.2⟩

/-! ## The canonical form -/

theorem stringBytes_append (a b : String) :
    stringBytes (a ++ b) = stringBytes a ++ stringBytes b := by
  simp [stringBytes, String.toList, String.data_append]

theorem utf8Bytes_ascii (c : Char) (h : c.toNat < 128) : utf8Bytes c = [c] := by
  simp [utf8Bytes, h]

theorem stringBytes_ascii (s : String) (h : ∀ c ∈ s.toList, c.toNat < 128) :
    stringBytes s = s.toList := by
  unfold stringBytes
  generalize s.toList = l at h
  induction l with
  | nil => rfl
  | cons c rest ih =>
    rw [List.flatMap_cons, utf8Bytes_ascii c (h c (List.mem_cons_self _ _)),
      ih (fun x hx => h x (List.mem_cons_of_mem _ hx))]
    rfl

/-- On a text of ASCII characters the bytes are the characters. -/
theorem removeSpaces_ascii (s : String) (h : ∀ c ∈ s.toList, c.toNat < 128) :
    removeSpaces s = stripSpaces s := by
  unfold removeSpaces stripSpaces
  rw [stringBytes_ascii s h]

theorem isNumberChar_ascii {c : Char} (h : isNumberChar c = true) : c.toNat < 128 := by
  rcases (isNumberChar_iff c).mp h with h | h
  · simp only [IsDigit, Bool.and_eq_true, decide_eq_true_eq] at h
    have h2 : c.toNat ≤ ('9' : Char).toNat := h.2
    have h3 : ('9' : Char).toNat = 57 := by decide
    omega
  · subst h
    decide

theorem stripSpaces_append (a b : String) :
    stripSpaces (a ++ b) = stripSpaces a ++ stripSpaces b := by
  simp [stripSpaces, String.toList, String.data_append]

theorem stripSpaces_joinSpaces (vals : List String) :
    stripSpaces (joinSpaces vals) = vals.flatMap stripSpaces := by
  induction vals with
  | nil => rfl
  | cons s rest ih =>
    cases rest with
    | nil => simp [joinSpaces]
    | cons t rest =>
      rw [joinSpaces, stripSpaces_append, stripSpaces_append, ih]
      simp [stripSpaces]

theorem joinSpaces_ascii (vals : List String)
    (h : ∀ s ∈ vals, ∀ c ∈ s.toList, c.toNat < 128) :
    ∀ c ∈ (joinSpaces vals).toList, c.toNat < 128 := by
  induction vals with
  | nil =>
    intro c hc
    simp [joinSpaces] at hc
  | cons s rest ih =>
    cases rest with
    | nil =>
      intro c hc
      exact h s (List.mem_cons_self _ _) c hc
    | cons t rest =>
      intro c hc
      rw [joinSpaces] at hc
      simp only [String.toList, String.data_append, List.mem_append] at hc
      rcases hc with (hc | hc) | hc
      · exact h s (List.mem_cons_self _ _) c hc
      · have : c = ' ' := by simpa using hc
        subst this
        decide
      · exact ih (fun s2 hs2 => h s2 (List.mem_cons_of_mem _ hs2)) c hc

/-- The shape of an Operator token of the tokenizer: its value is one operator byte. -/
theorem tokenizeLoop_OperatorShape (fuel : Nat) :
    ∀ (cs : List Char) (acc : List Token),
      (∀ t ∈ acc, t.Typ = TokenType.Operator →
        ∃ c, isOperatorChar c = true ∧ t.Value = String.singleton c) →
      ∀ t ∈ (tokenizeLoop fuel cs acc).1, t.Typ = TokenType.Operator →
        ∃ c, isOperatorChar c = true ∧ t.Value = String.singleton c := by
  induction fuel with
  | zero =>
    intro cs acc hacc
    cases cs <;> exact hacc
  | succ n ih =>
    intro cs acc hacc
    cases cs with
    | nil => exact hacc
    | cons c rest =>
      have hother : ∀ tok : Token, tok.Typ ≠ TokenType.Operator →
          ∀ t ∈ acc ++ [tok], t.Typ = TokenType.Operator →
            ∃ c, isOperatorChar c = true ∧ t.Value = String.singleton c := by
        intro tok htok t ht hop
        rcases List.mem_append.mp ht with ht | ht
        · exact hacc t ht hop
        · have : t = tok := by simpa using ht
          subst this
          exact absurd hop htok
      rw [tokenizeLoop]
      split_ifs with h1 h2 h3 h4
      · exact ih rest _ (hother _ (by simp))
      · exact ih rest _ (hother _ (by simp))
      · apply ih
        intro t ht hop
        rcases List.mem_append.mp ht with ht | ht
        · exact hacc t ht hop
        · have : t = ⟨TokenType.Operator, String.singleton c⟩ := by simpa using ht
          subst this
          refine ⟨c, ?_, rfl⟩
          rcases h3 with h | h | h | h <;> subst h <;> decide
      · exact ih _ _ (hother _ (by simp))
      · exact hacc

theorem isOperatorChar_iff (c : Char) :
    isOperatorChar c = true ↔ c = '+' ∨ c = '-' ∨ c = '*' ∨ c = '/' := by
  simp [isOperatorChar, or_assoc]

theorem isNumberChar_of_isOperatorChar {c : Char} (h : isOperatorChar c = true) :
    isNumberChar c = false := by
  rcases (isOperatorChar_iff c).mp h with h | h | h | h <;> subst h <;> decide

theorem getLast?_dropWhile (p : Char → Bool) (l : List Char) (x : Char)
    (h : l.getLast? = some x) (hx : p x = false) : (l.dropWhile p).getLast? = some x := by
  induction l with
  | nil => simp at h
  | cons a rest ih =>
    cases rest with
    | nil =>
      have hax : a = x := by simpa using h
      subst hax
      simp [List.dropWhile, hx]
    | cons b rest =>
      have h2 : (b :: rest).getLast? = some x := by
        rw [List.getLast?_cons_cons] at h
        exact h
      by_cases ha : p a = true
      · rw [List.dropWhile_cons_of_pos ha]
        exact ih h2
      · rw [List.dropWhile_cons_of_neg ha]
        exact h

/-- When the text has no parenthesis and ends with an operator byte, the tokens that the
loop of `Tokenize` appends hold at most as many Number tokens as Operator tokens, and one
less when the text does not start with a digit. -/
theorem tokenizeLoop_ends_with_operator (fuel : Nat) :
    ∀ (cs : List Char) (acc ts : List Token), cs.length ≤ fuel →
      (∀ c ∈ cs, c ≠ '(' ∧ c ≠ ')') →
      (∃ c, cs.getLast? = some c ∧ isOperatorChar c = true) →
      tokenizeLoop fuel cs acc = (ts, none) →
      countType TokenType.Number ts + countType TokenType.Operator acc +
          (if cs.head?.map IsDigit = some true then 0 else 1) ≤
        countType TokenType.Operator ts + countType TokenType.Number acc := by
  induction fuel with
  | zero =>
    intro cs acc ts hlen _ hlast _
    have : cs = [] := List.length_eq_zero.mp (Nat.le_zero.mp hlen)
    subst this
    obtain ⟨c, hc, _⟩ := hlast
    simp at hc
  | succ n ih =>
    intro cs acc ts hlen hnp hlast h
    cases cs with
    | nil =>
      obtain ⟨c, hc, _⟩ := hlast
      simp at hc
    | cons c rest =>
      have hnprest : ∀ x ∈ rest, x ≠ '(' ∧ x ≠ ')' := fun x hx =>
        hnp x (List.mem_cons_of_mem _ hx)
      rw [tokenizeLoop] at h
      split_ifs at h with h1 h2 h3 h4
      · exact absurd h1 (hnp c (List.mem_cons_self _ _)).1
      · exact absurd h2 (hnp c (List.mem_cons_self _ _)).2
      · have hcd : IsDigit c = false := by
          rcases h3 with h | h | h | h <;> subst h <;> decide
        cases rest with
        | nil =>
          cases n <;>
          · simp only [tokenizeLoop, Prod.mk.injEq, and_true] at h
            subst h
            simp [countType_append, countType, hcd]
            omega
        | cons r rest2 =>
          have hlast2 : ∃ x, (r :: rest2).getLast? = some x ∧ isOperatorChar x = true := by
            obtain ⟨x, hx, hxo⟩ := hlast
            rw [List.getLast?_cons_cons] at hx
            exact ⟨x, hx, hxo⟩
          have := ih (r :: rest2) _ ts (by simpa using hlen) hnprest hlast2 h
          simp only [countType_append] at this
          simp only [List.head?_cons, Option.map_some', hcd]
          simp [countType] at this ⊢
          split_ifs at this <;> omega
      · obtain ⟨x, hx, hxo⟩ := hlast
        have hxn := isNumberChar_of_isOperatorChar hxo
        have hrest : rest.getLast? = some x := by
          cases rest with
          | nil =>
            have hcx : c = x := by simpa using hx
            subst hcx
            rw [isNumberChar_of_IsDigit h4] at hxn
            simp at hxn
          | cons r rest2 =>
            rw [List.getLast?_cons_cons] at hx
            exact hx
        have hlast2 := getLast?_dropWhile isNumberChar rest x hrest hxn
        have hhead : (rest.dropWhile isNumberChar).head?.map IsDigit ≠ some true := by
          cases hd : (rest.dropWhile isNumberChar).head? with
          | none => simp
          | some y =>
            have hy := head_dropWhile_not isNumberChar rest y hd
            simp only [Option.map_some', ne_eq, Option.some.injEq]
            intro hyd
            rw [isNumberChar_of_IsDigit hyd] at hy
            simp at hy
        have := ih (rest.dropWhile isNumberChar) _ ts
          (le_trans (List.dropWhile_sublist _).length_le (by simpa using hlen))
          (fun y hy => hnprest y ((List.dropWhile_sublist _).subset hy))
          ⟨x, hlast2, hxo⟩ h
        rw [if_neg hhead] at this
        simp only [countType_append] at this
        simp only [List.head?_cons, Option.map_some', h4, if_true]
        simp [countType] at this ⊢
        omega
      · simp at h

/-- When the loop of `EvaluateRPN` ends on at most one value from a stack that is not
empty, the last token is an operator. -/
theorem evalLoop_last_operator (rpn : List Token) :
    ∀ (stack vs : List ℚ), evalLoop rpn stack = Except.ok vs → vs.length ≤ 1 →
      stack ≠ [] → rpn ≠ [] →
      (∀ t ∈ rpn, t.Typ = TokenType.Number ∨ t.Typ = TokenType.Operator) →
      ∃ t, rpn.getLast? = some t ∧ t.Typ = TokenType.Operator := by
  induction rpn with
  | nil =>
    intro stack vs _ _ _ hne
    exact absurd rfl hne
  | cons tok rest ih =>
    intro stack vs h hvs hstack _ hall
    have hall2 : ∀ t ∈ rest, t.Typ = TokenType.Number ∨ t.Typ = TokenType.Operator :=
      fun t ht => hall t (List.mem_cons_of_mem _ ht)
    have hnext : ∀ stack2 : List ℚ, stack2 ≠ [] → (rest = [] → 2 ≤ stack2.length) →
        evalLoop rest stack2 = Except.ok vs → rest ≠ [] ∧
        ∃ t, rest.getLast? = some t ∧ t.Typ = TokenType.Operator := by
      intro stack2 hs2 hlen h2
      have hrest : rest ≠ [] := by
        intro hnil
        have h3 := hlen hnil
        subst hnil
        simp only [evalLoop, Except.ok.injEq] at h2
        subst h2
        omega
      exact ⟨hrest, ih stack2 vs h2 hvs hs2 hrest hall2⟩
    rcases hall tok (List.mem_cons_self _ _) with hty | hty
    · simp only [evalLoop, hty] at h
      cases hp : ParseFloat tok.Value with
      | none => simp [hp] at h
      | some num =>
        simp only [hp] at h
        obtain ⟨hrest, t, ht, hto⟩ := hnext (num :: stack) (by simp) (fun _ => by
          have := List.length_pos.mpr hstack
          simp only [List.length_cons]
          omega) h
        refine ⟨t, ?_, hto⟩
        obtain ⟨r, rest2, hr⟩ := List.exists_cons_of_ne_nil hrest
        subst hr
        rw [List.getLast?_cons_cons]
        exact ht
    · have hstep : ∃ stack2 : List ℚ, stack2 ≠ [] ∧ evalLoop rest stack2 = Except.ok vs := by
        match stack, h with
        | [], h => simp [evalLoop, hty] at h
        | [_], h => simp [evalLoop, hty] at h
        | b :: a :: stack2, h =>
          simp only [evalLoop, hty] at h
          split_ifs at h
          · exact ⟨_, List.cons_ne_nil _ _, h⟩
          · exact ⟨_, List.cons_ne_nil _ _, h⟩
          · exact ⟨_, List.cons_ne_nil _ _, h⟩
          · exact ⟨_, List.cons_ne_nil _ _, h⟩
          · exact ⟨_, List.cons_ne_nil _ _, h⟩
      obtain ⟨stack2, hs2, h2⟩ := hstep
      by_cases hrest : rest = []
      · subst hrest
        exact ⟨tok, rfl, hty⟩
      · obtain ⟨t, ht, hto⟩ := ih stack2 vs h2 hvs hs2 hrest hall2
        obtain ⟨r, rest2, hr⟩ := List.exists_cons_of_ne_nil hrest
        subst hr
        exact ⟨t, by rw [List.getLast?_cons_cons]; exact ht, hto⟩

/-- The postfix form of a text that `Calculate` accepts ends with an operator as soon as it
holds one. -/
theorem rpn_last_operator (rpn : List Token) (v : ℚ)
    (h : evalLoop rpn [] = Except.ok [v])
    (hall : ∀ t ∈ rpn, t.Typ = TokenType.Number ∨ t.Typ = TokenType.Operator)
    (hop : ∃ t ∈ rpn, t.Typ = TokenType.Operator) :
    ∃ t, rpn.getLast? = some t ∧ t.Typ = TokenType.Operator := by
  cases rpn with
  | nil =>
    obtain ⟨t, ht, _⟩ := hop
    simp at ht
  | cons tok rest =>
    rcases hall tok (List.mem_cons_self _ _) with hty | hty
    · simp only [evalLoop, hty] at h
      cases hp : ParseFloat tok.Value with
      | none => simp [hp] at h
      | some num =>
        simp only [hp] at h
        have hrest : rest ≠ [] := by
          intro hnil
          subst hnil
          obtain ⟨t, ht, hto⟩ := hop
          rw [List.mem_singleton] at ht
          subst ht
          rw [hty] at hto
          simp at hto
        obtain ⟨t, ht, hto⟩ := evalLoop_last_operator rest [num] [v] h (by simp) (by simp)
          hrest (fun t ht => hall t (List.mem_cons_of_mem _ ht))
        obtain ⟨r, rest2, hr⟩ := List.exists_cons_of_ne_nil hrest
        subst hr
        exact ⟨t, by rw [List.getLast?_cons_cons]; exact ht, hto⟩
    · simp [evalLoop, hty] at h

/-- The bytes of the tokens of `Tokenize`: a Number token is a digit followed by digits and
dots, an Operator token is one operator byte. -/
theorem Tokenize_token_chars (c : Calculator) (expr : String) (hne : expr ≠ "") :
    ∀ t ∈ (Tokenize c expr).1.tokens,
      (t.Typ = TokenType.Number →
        ∃ d ds, t.Value = String.mk (d :: ds) ∧ IsDigit d = true ∧
          ∀ x ∈ ds, isNumberChar x = true) ∧
      (t.Typ = TokenType.Operator →
        ∃ o, isOperatorChar o = true ∧ t.Value = String.singleton o) := by
  intro t ht
  simp only [Tokenize, hne, if_false] at ht
  constructor
  · intro hnum
    obtain ⟨d, ds, h1, h2, h3, _⟩ :=
      tokenizeLoop_NumberShape (removeSpaces expr) _ (removeSpaces expr) [] ⟨[], rfl⟩
        (by simp) t ht hnum
    exact ⟨d, ds, h1, h2, h3⟩
  · intro hop
    exact tokenizeLoop_OperatorShape _ (removeSpaces expr) [] (by simp) t ht hop

theorem stripSpaces_subset (s : String) : ∀ x ∈ stripSpaces s, x ∈ s.toList := by
  intro x hx
  exact (List.mem_filter.mp hx).1

/-- The bytes of the canonical form of the postfix tokens of a text that `Calculate` accepts
and that holds an operator, once the spaces are stripped: no parenthesis, and an operator
byte at the end. -/
theorem canonicalForm_chars (text : String) (v : ℚ)
    (hv : (Calculate NewCalculator text).2 = Except.ok v) (rpn : List Token)
    (hrpn : ToRPN (Tokenize NewCalculator text).1 = Except.ok rpn)
    (hop : ∃ t ∈ rpn, t.Typ = TokenType.Operator) :
    removeSpaces (canonicalForm rpn) = stripSpaces (canonicalForm rpn) ∧
    (∀ x ∈ stripSpaces (canonicalForm rpn), x ≠ '(' ∧ x ≠ ')') ∧
    ∃ c, (stripSpaces (canonicalForm rpn)).getLast? = some c ∧ isOperatorChar c = true := by
  obtain ⟨hne, _, rpn2, hrpn2, hev⟩ := Calculate_ok NewCalculator text v hv
  rw [hrpn] at hrpn2
  have hr : rpn = rpn2 := by simpa using hrpn2
  subst hr
  have hall := (ToRPN_countType _ rpn hrpn).2.2
  have hshape : ∀ t ∈ rpn, _ := fun t ht =>
    Tokenize_token_chars NewCalculator text hne t (ToRPN_mem _ rpn hrpn t ht)
  obtain ⟨last, hlast, hlasto⟩ := rpn_last_operator rpn v (EvaluateRPN_ok rpn v hev) hall hop
  have hS : stripSpaces (canonicalForm rpn) =
      (rpn.map Token.Value).flatMap stripSpaces := stripSpaces_joinSpaces _
  refine ⟨?_, ?_, ?_⟩
  · apply removeSpaces_ascii
    apply joinSpaces_ascii
    intro s hs c hc
    obtain ⟨t, ht, hts⟩ := List.mem_map.mp hs
    subst hts
    rcases hall t ht with hty | hty
    · obtain ⟨d, ds, h1, h2, h3⟩ := (hshape t ht).1 hty
      rw [h1] at hc
      rcases List.mem_cons.mp hc with h | h
      · rw [h]
        exact isNumberChar_ascii (isNumberChar_of_IsDigit h2)
      · exact isNumberChar_ascii (h3 c h)
    · obtain ⟨o, h1, h2⟩ := (hshape t ht).2 hty
      rw [h2] at hc
      have hco : c = o := by simpa [String.singleton] using hc
      subst hco
      rcases (isOperatorChar_iff c).mp h1 with h | h | h | h <;> subst h <;> decide
  · intro x hx
    rw [hS, List.mem_flatMap] at hx
    obtain ⟨s, hs, hxs⟩ := hx
    obtain ⟨t, ht, hts⟩ := List.mem_map.mp hs
    subst hts
    have hxv := stripSpaces_subset _ x hxs
    rcases hall t ht with hty | hty
    · obtain ⟨d, ds, h1, h2, h3⟩ := (hshape t ht).1 hty
      rw [h1] at hxv
      have hxn : isNumberChar x = true := by
        rcases List.mem_cons.mp hxv with h | h
        · rw [h]
          exact isNumberChar_of_IsDigit h2
        · exact h3 x h
      constructor <;>
      · intro hx2
        subst hx2
        revert hxn
        decide
    · obtain ⟨o, h1, h2⟩ := (hshape t ht).2 hty
      rw [h2] at hxv
      have hxo : x = o := by simpa [String.singleton] using hxv
      subst hxo
      constructor <;>
      · intro hx2
        subst hx2
        revert h1
        decide
  · obtain ⟨init, hinit⟩ := List.getLast?_eq_some_iff.mp hlast
    obtain ⟨o, h1, h2⟩ := (hshape last (by rw [hinit]; simp)).2 hlasto
    refine ⟨o, ?_, h1⟩
    have ho : o ≠ ' ' := by
      intro hc2
      subst hc2
      revert h1
      decide
    rw [hS, hinit, List.map_append, List.flatMap_append]
    simp [h2, stripSpaces, String.singleton, ho]

/-- `Calculate` rejects the canonical form of the postfix tokens of every text that it
accepts and that holds an operator: the spaces are stripped, the last byte is an operator,
and the tokens hold at most as many numbers as operators. -/
theorem Calculate_canonicalForm_error (text : String) (v : ℚ)
    (hv : (Calculate NewCalculator text).2 = Except.ok v) (rpn : List Token)
    (hrpn : ToRPN (Tokenize NewCalculator text).1 = Except.ok rpn)
    (hop : ∃ t ∈ rpn, t.Typ = TokenType.Operator) :
    ∃ msg, (Calculate NewCalculator (canonicalForm rpn)).2 = Except.error msg := by
  obtain ⟨hbytes, hnp, hEnd⟩ := canonicalForm_chars text v hv rpn hrpn hop
  rw [← hbytes] at hnp hEnd
  cases hc : (Calculate NewCalculator (canonicalForm rpn)).2 with
  | error msg => exact ⟨msg, rfl⟩
  | ok v2 =>
    exfalso
    obtain ⟨hne2, htok2, _⟩ := Calculate_ok NewCalculator _ v2 hc
    have hcount := Calculate_ok_counts NewCalculator _ v2 hc
    rw [Tokenize_of_ne _ _ hne2] at htok2 hcount
    simp only at htok2 hcount
    have hmain := tokenizeLoop_ends_with_operator _ (removeSpaces (canonicalForm rpn)) []
      (tokenizeLoop (removeSpaces (canonicalForm rpn)).length
        (removeSpaces (canonicalForm rpn)) []).1 (le_refl _) hnp hEnd
      (by rw [← htok2])
    simp only [countType_nil] at hmain
    omega

/-- The tokens of the value of a Number token of the tokenizer: the token itself. -/
theorem Tokenize_number_value (d : Char) (ds : List Char) (hd : IsDigit d = true)
    (hds : ∀ x ∈ ds, isNumberChar x = true) :
    Tokenize NewCalculator (String.mk (d :: ds)) =
      ({ tokens := [{ Typ := TokenType.Number, Value := String.mk (d :: ds) }] }, none) := by
  have hne : String.mk (d :: ds) ≠ "" := by
    intro h
    have := congrArg String.data h
    simp at this
  have hsp : ∀ x, isNumberChar x = true → (x != ' ') = true := by
    intro x hx
    by_cases hxs : x = ' '
    · subst hxs
      revert hx
      decide
    · simpa using hxs
  have hascii : ∀ x ∈ (String.mk (d :: ds)).toList, x.toNat < 128 := by
    intro x hx
    rcases List.mem_cons.mp hx with h | h
    · rw [h]
      exact isNumberChar_ascii (isNumberChar_of_IsDigit hd)
    · exact isNumberChar_ascii (hds x h)
  have hrs : removeSpaces (String.mk (d :: ds)) = d :: ds := by
    rw [removeSpaces_ascii _ hascii]
    show List.filter (fun c => c != ' ') (d :: ds) = d :: ds
    rw [List.filter_eq_self]
    intro x hx
    rcases List.mem_cons.mp hx with h | h
    · rw [h]
      exact hsp d (isNumberChar_of_IsDigit hd)
    · exact hsp x (hds x h)
  have h1 : d ≠ '(' := by
    intro h
    subst h
    revert hd
    decide
  have h2 : d ≠ ')' := by
    intro h
    subst h
    revert hd
    decide
  have h3 : ¬ (d = '+' ∨ d = '-' ∨ d = '*' ∨ d = '/') := by
    intro h
    rcases h with h | h | h | h <;> subst h <;> revert hd <;> decide
  have hdrop : ds.dropWhile isNumberChar = [] := List.dropWhile_eq_nil_iff.mpr hds
  have htake : ds.takeWhile isNumberChar = ds := List.takeWhile_eq_self_iff.mpr hds
  rw [Tokenize_of_ne _ _ hne, hrs]
  simp only [List.length_cons, tokenizeLoop, h1, h2, h3, hd, if_false, if_true, hdrop, htake,
    List.nil_append]

/-- The canonical form of a text that `Calculate` accepts and that holds no operator is the
value of its number token, and `Calculate` reads it as the same single token, with the same
value. -/
theorem Calculate_canonicalForm_literal (text : String) (v : ℚ)
    (hv : (Calculate NewCalculator text).2 = Except.ok v) (rpn : List Token)
    (hrpn : ToRPN (Tokenize NewCalculator text).1 = Except.ok rpn)
    (hlit : ∀ t ∈ rpn, t.Typ ≠ TokenType.Operator) :
    ∃ tok, rpn = [tok] ∧ tok.Typ = TokenType.Number ∧ canonicalForm rpn = tok.Value ∧
      (Calculate NewCalculator (canonicalForm rpn)).2 = Except.ok v ∧
      ToRPN (Tokenize NewCalculator (canonicalForm rpn)).1 = Except.ok [tok] := by
  obtain ⟨hne, _, rpn2, hrpn2, hev⟩ := Calculate_ok NewCalculator text v hv
  rw [hrpn] at hrpn2
  have hr : rpn = rpn2 := by simpa using hrpn2
  subst hr
  obtain ⟨rpn3, hrpn3, _, _, hcase⟩ :=
    CreateExpression_plan NewTaskManager text 0 testEnv v hv
  rw [hrpn] at hrpn3
  have hr : rpn = rpn3 := by simpa using hrpn3
  subst hr
  rcases hcase with ⟨tok, htok, hnum⟩ | ⟨⟨t, ht, hty⟩, _⟩
  swap
  · exact absurd hty (hlit t ht)
  subst htok
  obtain ⟨d, ds, h1, h2, h3⟩ :=
    (Tokenize_token_chars NewCalculator text hne tok
      (ToRPN_mem _ [tok] hrpn tok (List.mem_singleton.mpr rfl))).1 hnum
  have htokeq : tok = { Typ := TokenType.Number, Value := String.mk (d :: ds) } := by
    cases tok with
    | mk ty val =>
      simp only at hnum h1
      rw [hnum, h1]
  have hcan : canonicalForm [tok] = tok.Value := rfl
  have htz := Tokenize_number_value d ds h2 h3
  rw [← h1] at htz
  have hrpn2 : ToRPN (Tokenize NewCalculator tok.Value).1 = Except.ok [tok] := by
    have htok2 : ({ Typ := TokenType.Number, Value := tok.Value } : Token) = tok := by
      rw [h1]
      exact htokeq.symm
    rw [htz, htok2]
    simp [ToRPN, toRPNLoop, hnum, drainStack]
  refine ⟨tok, rfl, hnum, hcan, ?_, by rw [hcan]; exact hrpn2⟩
  rw [hcan]
  unfold Calculate
  rw [htz]
  simp only
  rw [htz] at hrpn2
  simp only at hrpn2
  rw [hrpn2]
  exact hev

/-! ### The canonical form read by parser.go -/

theorem countP_singleton_split (s : String) :
    List.countP isOperatorString [s] + List.countP (fun t => !isOperatorString t) [s] = 1 := by
  cases h : isOperatorString s <;> simp [List.countP_cons, h]

theorem isOperatorString_singleton {c : Char} (h : isOperatorChar c = true) :
    isOperatorString (String.singleton c) = true := by
  rcases (isOperatorChar_iff c).mp h with h | h | h | h <;> subst h <;> decide

/-- When the text has no parenthesis and ends with an operator byte, the tokens that the
loop of `tokenize` appends hold an operator and at most as many other tokens as operators,
and one less when the text starts with an operator and no number is being read. -/
theorem tokenizeChars_ends_with_operator (cs : List Char) :
    ∀ (num : List Char) (tokens : List String),
      (∀ c ∈ cs, c ≠ '(' ∧ c ≠ ')') →
      (∃ c, cs.getLast? = some c ∧ isOperatorChar c = true) →
      List.countP (fun t => !isOperatorString t) (tokenizeChars cs num tokens) +
          List.countP isOperatorString tokens +
          (if num = [] ∧ cs.head?.map isOperatorChar = some true then 1 else 0) ≤
        List.countP isOperatorString (tokenizeChars cs num tokens) +
          List.countP (fun t => !isOperatorString t) tokens ∧
      List.countP isOperatorString tokens <
        List.countP isOperatorString (tokenizeChars cs num tokens) := by
  induction cs with
  | nil =>
    intro num tokens _ hlast
    obtain ⟨c, hc, _⟩ := hlast
    simp at hc
  | cons c rest ih =>
    intro num tokens hnp hlast
    have hnprest : ∀ x ∈ rest, x ≠ '(' ∧ x ≠ ')' := fun x hx =>
      hnp x (List.mem_cons_of_mem _ hx)
    have hc1 := (hnp c (List.mem_cons_self _ _)).1
    have hc2 := (hnp c (List.mem_cons_self _ _)).2
    by_cases hop : isOperatorChar c = true
    · have hcond : c = '+' ∨ c = '-' ∨ c = '*' ∨ c = '/' ∨ c = '(' ∨ c = ')' := by
        rcases (isOperatorChar_iff c).mp hop with h | h | h | h
        · exact Or.inl h
        · exact Or.inr (Or.inl h)
        · exact Or.inr (Or.inr (Or.inl h))
        · exact Or.inr (Or.inr (Or.inr (Or.inl h)))
      have hstep : tokenizeChars (c :: rest) num tokens =
          tokenizeChars rest []
            ((if num ≠ [] then tokens ++ [String.mk num] else tokens) ++
              [String.singleton c]) := by
        rw [tokenizeChars, if_pos hcond]
      have hsing := isOperatorString_singleton hop
      rw [hstep]
      have hsplit := countP_singleton_split (String.mk num)
      cases rest with
      | nil =>
        simp only [tokenizeChars, ne_eq, not_true_eq_false, if_false, List.head?_cons,
          Option.map_some', hop, and_true]
        by_cases hnum : num = []
        · simp [hnum, List.countP_append, List.countP_cons, hsing]
          omega
        · simp only [hnum, not_false_eq_true, if_true, if_false, List.countP_append,
            List.countP_cons, List.countP_nil, hsing, Bool.not_true, Bool.false_eq_true]
          simp only [List.countP_cons, List.countP_nil] at hsplit
          omega
      | cons r rest2 =>
        have hlast2 : ∃ x, (r :: rest2).getLast? = some x ∧ isOperatorChar x = true := by
          obtain ⟨x, hx, hxo⟩ := hlast
          rw [List.getLast?_cons_cons] at hx
          exact ⟨x, hx, hxo⟩
        obtain ⟨i1, i2⟩ := ih []
          ((if num ≠ [] then tokens ++ [String.mk num] else tokens) ++ [String.singleton c])
          hnprest hlast2
        simp only [List.head?_cons, Option.map_some', hop, and_true]
        by_cases hnum : num = []
        · simp only [hnum, ne_eq, not_true_eq_false, if_false, if_true, List.countP_append,
            List.countP_cons, List.countP_nil, hsing, Bool.not_true, Bool.false_eq_true]
            at i1 i2 ⊢
          constructor <;> omega
        · simp only [hnum, ne_eq, not_false_eq_true, if_true, if_false, List.countP_append,
            List.countP_cons, List.countP_nil, hsing, Bool.not_true, Bool.false_eq_true]
            at i1 i2 ⊢
          simp only [List.countP_cons, List.countP_nil] at hsplit
          constructor <;> omega
    · have hcond : ¬ (c = '+' ∨ c = '-' ∨ c = '*' ∨ c = '/' ∨ c = '(' ∨ c = ')') := by
        intro h
        rcases h with h | h | h | h | h | h
        · exact hop ((isOperatorChar_iff c).mpr (Or.inl h))
        · exact hop ((isOperatorChar_iff c).mpr (Or.inr (Or.inl h)))
        · exact hop ((isOperatorChar_iff c).mpr (Or.inr (Or.inr (Or.inl h))))
        · exact hop ((isOperatorChar_iff c).mpr (Or.inr (Or.inr (Or.inr h))))
        · exact hc1 h
        · exact hc2 h
      have hstep : tokenizeChars (c :: rest) num tokens =
          tokenizeChars rest (num ++ [c]) tokens := by
        rw [tokenizeChars, if_neg hcond]
      rw [hstep]
      have hlast2 : ∃ x, rest.getLast? = some x ∧ isOperatorChar x = true := by
        obtain ⟨x, hx, hxo⟩ := hlast
        cases rest with
        | nil =>
          have hcx : c = x := by simpa using hx
          subst hcx
          exact absurd hxo hop
        | cons r rest2 =>
          rw [List.getLast?_cons_cons] at hx
          exact ⟨x, hx, hxo⟩
      obtain ⟨i1, i2⟩ := ih (num ++ [c]) tokens hnprest hlast2
      have hne : ¬ (num ++ [c] = [] ∧ rest.head?.map isOperatorChar = some true) := by
        intro h
        simp at h
      rw [if_neg hne] at i1
      have hw : ¬ (num = [] ∧ (c :: rest).head?.map isOperatorChar = some true) := by
        intro h
        simp only [List.head?_cons, Option.map_some', Option.some.injEq] at h
        exact hop h.2
      rw [if_neg hw]
      exact ⟨i1, i2⟩

theorem rpnPopOperators_countP (p : String → Bool) (token : String) (stack : List String) :
    ∀ output : List String,
      List.countP p (rpnPopOperators token stack output).1 +
          List.countP p (rpnPopOperators token stack output).2 =
        List.countP p stack + List.countP p output := by
  induction stack with
  | nil =>
    intro output
    simp [rpnPopOperators]
  | cons top stack ih =>
    intro output
    rw [rpnPopOperators]
    split_ifs
    · rw [ih, List.countP_append]
      simp only [List.countP_cons, List.countP_nil]
      omega
    · rfl

theorem rpnPopToLeftParen_countP (stack : List String) :
    ∀ output : List String,
      List.countP isOperatorString (rpnPopToLeftParen stack output).1 +
          List.countP isOperatorString (rpnPopToLeftParen stack output).2 =
        List.countP isOperatorString stack + List.countP isOperatorString output ∧
      List.countP (fun t => !isOperatorString t) (rpnPopToLeftParen stack output).1 +
          List.countP (fun t => !isOperatorString t) (rpnPopToLeftParen stack output).2 ≤
        List.countP (fun t => !isOperatorString t) stack +
          List.countP (fun t => !isOperatorString t) output := by
  induction stack with
  | nil =>
    intro output
    simp [rpnPopToLeftParen]
  | cons top stack ih =>
    intro output
    rw [rpnPopToLeftParen]
    split_ifs with h
    · obtain ⟨i1, i2⟩ := ih (output ++ [top])
      rw [List.countP_append] at i1 i2
      simp only [List.countP_cons, List.countP_nil] at i1 i2 ⊢
      constructor <;> omega
    · have htop : top = "(" := by
        by_contra hc
        exact h hc
      subst htop
      simp only [List.countP_cons]
      have : isOperatorString "(" = false := by decide
      simp [this]

/-- The output of `infixToRPN` holds the operators of the tokens, of the stack and of the
output so far, and no more other tokens than they hold. -/
theorem infixToRPNLoop_countP (tokens : List String) :
    ∀ (stack output : List String),
      List.countP isOperatorString (infixToRPNLoop tokens stack output) =
        List.countP isOperatorString tokens + List.countP isOperatorString stack +
          List.countP isOperatorString output ∧
      List.countP (fun t => !isOperatorString t) (infixToRPNLoop tokens stack output) ≤
        List.countP (fun t => !isOperatorString t) tokens +
          List.countP (fun t => !isOperatorString t) stack +
          List.countP (fun t => !isOperatorString t) output := by
  induction tokens with
  | nil =>
    intro stack output
    simp only [infixToRPNLoop, List.countP_append, List.countP_nil]
    constructor <;> omega
  | cons token rest ih =>
    intro stack output
    rw [infixToRPNLoop]
    split_ifs with h1 h2 h3
    · obtain ⟨i1, i2⟩ := ih (token :: (rpnPopOperators token stack output).1)
        (rpnPopOperators token stack output).2
      have p1 := rpnPopOperators_countP isOperatorString token stack output
      have p2 := rpnPopOperators_countP (fun t => !isOperatorString t) token stack output
      simp only [List.countP_cons, h1, if_true, Bool.not_true, Bool.false_eq_true,
        if_false] at i1 i2 ⊢
      constructor <;> omega
    · have h1f : isOperatorString token = false := by simpa using h1
      obtain ⟨i1, i2⟩ := ih (token :: stack) output
      simp only [List.countP_cons, h1f, Bool.false_eq_true, if_false, Bool.not_false,
        if_true] at i1 i2 ⊢
      constructor <;> omega
    · have h1f : isOperatorString token = false := by simpa using h1
      obtain ⟨i1, i2⟩ := ih (rpnPopToLeftParen stack output).1
        (rpnPopToLeftParen stack output).2
      obtain ⟨p1, p2⟩ := rpnPopToLeftParen_countP stack output
      simp only [List.countP_cons, h1f, Bool.false_eq_true, if_false, Bool.not_false,
        if_true] at i1 i2 ⊢
      constructor <;> omega
    · have h1f : isOperatorString token = false := by simpa using h1
      obtain ⟨i1, i2⟩ := ih stack (output ++ [token])
      simp only [List.countP_append, List.countP_cons, List.countP_nil, h1f,
        Bool.false_eq_true, if_false, Bool.not_false, if_true] at i1 i2 ⊢
      constructor <;> omega

/-- When the loop of `ParseExpression` succeeds on tokens that hold an operator, the
operands at hand outnumber the operators. -/
theorem parseTasksLoop_ok_counts {F : Type} (A : Arith F) (env : Env) (rpn : List String) :
    ∀ (stack : List String) (k : Nat) (tasks res : List (TypesTask F)),
      parseTasksLoop A env rpn stack k tasks = Except.ok res →
      List.countP isOperatorString rpn = 0 ∨
      List.countP isOperatorString rpn + 1 ≤
        stack.length + List.countP (fun t => !isOperatorString t) rpn := by
  induction rpn with
  | nil =>
    intro stack k tasks res _
    left
    rfl
  | cons token rest ih =>
    intro stack k tasks res h
    by_cases hop : isOperatorString token = true
    · right
      match stack, h with
      | [], h => simp [parseTasksLoop, hop] at h
      | [_], h => simp [parseTasksLoop, hop] at h
      | a2 :: a1 :: st, h =>
        simp only [parseTasksLoop, hop, if_true] at h
        have := ih _ _ _ _ h
        simp only [List.countP_cons, hop, if_true, Bool.not_true, Bool.false_eq_true,
          if_false, List.length_cons] at this ⊢
        omega
    · have hopf : isOperatorString token = false := by simpa using hop
      simp only [parseTasksLoop, hopf, Bool.false_eq_true, if_false] at h
      have := ih _ _ _ _ h
      simp only [List.countP_cons, hopf, Bool.false_eq_true, if_false, Bool.not_false,
        if_true, List.length_cons] at this ⊢
      omega

/-- The only error of `ParseExpression`. -/
theorem parseTasksLoop_error {F : Type} (A : Arith F) (env : Env) (rpn : List String) :
    ∀ (stack : List String) (k : Nat) (tasks : List (TypesTask F)) (msg : String),
      parseTasksLoop A env rpn stack k tasks = Except.error msg → msg = "invalid expression" := by
  induction rpn with
  | nil =>
    intro stack k tasks msg h
    simp [parseTasksLoop] at h
  | cons token rest ih =>
    intro stack k tasks msg h
    by_cases hop : isOperatorString token = true
    · match stack, h with
      | [], h =>
        simp only [parseTasksLoop, hop, if_true, Except.error.injEq] at h
        exact h.symm
      | [_], h =>
        simp only [parseTasksLoop, hop, if_true, Except.error.injEq] at h
        exact h.symm
      | a2 :: a1 :: st, h =>
        simp only [parseTasksLoop, hop, if_true] at h
        exact ih _ _ _ _ h
    · have hopf : isOperatorString token = false := by simpa using hop
      simp only [parseTasksLoop, hopf, Bool.false_eq_true, if_false] at h
      exact ih _ _ _ _ h

/-- The function `ParseExpression` returns the error `invalid expression` on every text
without parenthesis whose last byte, spaces apart, is an operator. -/
theorem ParseExpression_ends_with_operator {F : Type} (A : Arith F) (env : Env)
    (expr : String)
    (hnp : ∀ c ∈ stripSpaces expr, c ≠ '(' ∧ c ≠ ')')
    (hlast : ∃ c, (stripSpaces expr).getLast? = some c ∧ isOperatorChar c = true) :
    ParseExpression A env expr = Except.error "invalid expression" := by
  obtain ⟨t1, t2⟩ := tokenizeChars_ends_with_operator (stripSpaces expr) [] [] hnp hlast
  obtain ⟨r1, r2⟩ := infixToRPNLoop_countP (tokenizeChars (stripSpaces expr) [] []) [] []
  simp only [List.countP_nil, Nat.add_zero] at t1 t2 r1 r2
  cases h : ParseExpression A env expr with
  | error msg =>
    rw [parseTasksLoop_error A env _ [] 0 [] msg h]
  | ok res =>
    exfalso
    have := parseTasksLoop_ok_counts A env _ [] 0 [] res h
    simp only [infixToRPN, tokenize, List.length_nil, Nat.zero_add] at this
    omega

/-- C28 (the claim fails on the code): the postfix tokens of `2+3` joined by spaces give
`2 3 +`; both parsers strip the spaces and read `23+`, the number 23 followed by an
operator: `Calculate` and `CreateExpression` return the error `invalid expression` and
create nothing, and `ParseExpression` returns an error as well, whereas `2+3` itself gives
one task. -/
theorem canonicalForm_reparse_counterexample :
    ToRPN (Tokenize NewCalculator "2+3").1 =
      Except.ok [{ Typ := TokenType.Number, Value := "2" },
        { Typ := TokenType.Number, Value := "3" },
        { Typ := TokenType.Operator, Value := "+" }] ∧
    canonicalForm [{ Typ := TokenType.Number, Value := "2" },
        { Typ := TokenType.Number, Value := "3" },
        { Typ := TokenType.Operator, Value := "+" }] = "2 3 +" ∧
    (Tokenize NewCalculator "2 3 +").1.tokens =
      [{ Typ := TokenType.Number, Value := "23" }, { Typ := TokenType.Operator, Value := "+" }] ∧
    Calc "2 3 +" = Except.error "invalid expression" ∧
    CreateExpression NewTaskManager "2 3 +" 1 testEnv =
      (NewTaskManager, Except.error "invalid expression") ∧
    tokenize "2 3 +" = ["23", "+"] ∧
    ParseExpression ratArith testEnv "2 3 +" = Except.error "invalid expression" ∧
    (CreateExpression NewTaskManager "2+3" 1 testEnv).2 = Except.ok "u" ∧
    ((CreateExpression NewTaskManager "2+3" 1 testEnv).1.tasks.entries.map
      (fun p => (p.2.Arg1, p.2.Operation, p.2.Arg2))) = [(2, "+", 3)] ∧
    (ParseExpression ratArith testEnv "2+3").map
        (fun ts => ts.map (fun t => (t.Arg1, t.Operation, t.Arg2))) =
      Except.ok [(2, "+", 3)] := by
  with_unfolding_all decide

/-- C28 as amended.  Let `Calculate` accept a text with value `v` and let `rpn` be its
postfix tokens.  When `rpn` holds an operator, its canonical form (the token values joined
by single spaces) is rejected on re-parsing: `Calculate` returns an error, `CreateExpression`
returns an error and leaves the manager unchanged, and `ParseExpression` returns the error
`invalid expression`, in any arithmetic of `float64`.  When `rpn` holds no operator it is a
single Number token, the canonical form is the value of that token, `Calculate` reads it as
the same token with the same value, and `CreateExpression` builds from it the same single
task as from the text. -/
theorem canonicalForm_reparse (text : String) (v : ℚ)
    (hv : (Calculate NewCalculator text).2 = Except.ok v) (rpn : List Token)
    (hrpn : ToRPN (Tokenize NewCalculator text).1 = Except.ok rpn) :
    ((∃ t ∈ rpn, t.Typ = TokenType.Operator) →
      (∃ msg, (Calculate NewCalculator (canonicalForm rpn)).2 = Except.error msg) ∧
      (∀ (tm : TaskManager) (userID : Int) (env : Env),
        ∃ msg, CreateExpression tm (canonicalForm rpn) userID env = (tm, Except.error msg)) ∧
      ∀ (F : Type) (A : Arith F) (env : Env), ParseExpression A env (canonicalForm rpn) =
        Except.error "invalid expression") ∧
    ((∀ t ∈ rpn, t.Typ ≠ TokenType.Operator) →
      ∃ tok, rpn = [tok] ∧ tok.Typ = TokenType.Number ∧ canonicalForm rpn = tok.Value ∧
        (Calculate NewCalculator (canonicalForm rpn)).2 = Except.ok v ∧
        ToRPN (Tokenize NewCalculator (canonicalForm rpn)).1 = Except.ok [tok] ∧
        ∀ (tm : TaskManager) (userID : Int) (env : Env),
          (CreateExpression tm (canonicalForm rpn) userID env).2 =
            (CreateExpression tm text userID env).2 ∧
          (CreateExpression tm (canonicalForm rpn) userID env).1.tasks =
            (CreateExpression tm text userID env).1.tasks ∧
          (CreateExpression tm (canonicalForm rpn) userID env).1.taskToExpression =
            (CreateExpression tm text userID env).1.taskToExpression ∧
          (CreateExpression tm (canonicalForm rpn) userID env).1.expressionTasks =
            (CreateExpression tm text userID env).1.expressionTasks ∧
          (CreateExpression tm (canonicalForm rpn) userID env).1.dependsOnTask =
            (CreateExpression tm text userID env).1.dependsOnTask) := by
  constructor
  · intro hop
    obtain ⟨msg, hmsg⟩ := Calculate_canonicalForm_error text v hv rpn hrpn hop
    obtain ⟨_, hnp, hEnd⟩ := canonicalForm_chars text v hv rpn hrpn hop
    refine ⟨⟨msg, hmsg⟩, ?_, ?_⟩
    · intro tm userID env
      exact ⟨_, CreateExpression_of_Calculate_error tm _ userID env msg hmsg⟩
    · intro F A env
      exact ParseExpression_ends_with_operator A env _ hnp hEnd
  · intro hlit
    obtain ⟨tok, h1, h2, h3, h4, h5⟩ := Calculate_canonicalForm_literal text v hv rpn hrpn hlit
    refine ⟨tok, h1, h2, h3, h4, h5, ?_⟩
    intro tm userID env
    subst h1
    rw [CreateExpression_literal tm _ userID env v tok h4 h5 h2,
      CreateExpression_literal tm text userID env v tok hv hrpn h2]
    exact ⟨rfl, rfl, rfl, rfl, rfl⟩

/-- C28 as amended, on `2+3*4`, whose canonical form is `2 3 4 * +`, and on `(7)`, whose
canonical form is `7`. -/
theorem canonicalForm_reparse_witness :
    (canonicalForm [{ Typ := TokenType.Number, Value := "2" },
        { Typ := TokenType.Number, Value := "3" }, { Typ := TokenType.Number, Value := "4" },
        { Typ := TokenType.Operator, Value := "*" },
        { Typ := TokenType.Operator, Value := "+" }] = "2 3 4 * +" ∧
      ∀ (F : Type) (A : Arith F) (env : Env), ParseExpression A env
        (canonicalForm [{ Typ := TokenType.Number, Value := "2" },
          { Typ := TokenType.Number, Value := "3" }, { Typ := TokenType.Number, Value := "4" },
          { Typ := TokenType.Operator, Value := "*" },
          { Typ := TokenType.Operator, Value := "+" }]) =
        Except.error "invalid expression") ∧
    (canonicalForm [{ Typ := TokenType.Number, Value := "7" }] = "7" ∧
      (Calculate NewCalculator (canonicalForm [{ Typ := TokenType.Number, Value := "7" }])).2 =
        Except.ok 7) :=
  ⟨⟨by with_unfolding_all decide,
      ((canonicalForm_reparse "2+3*4" 14 (by with_unfolding_all decide) _
        (by with_unfolding_all decide)).1 (by with_unfolding_all decide)).2.2⟩,
    by with_unfolding_all decide,
    by
      obtain ⟨tok, h1, _, _, h4, _⟩ := (canonicalForm_reparse "(7)" 7
        (by with_unfolding_all decide) [{ Typ := TokenType.Number, Value := "7" }]
        (by with_unfolding_all decide)).2 (by with_unfolding_all decide)
      exact h4⟩

end GoCalc
